import Mathlib

/-!
Black spreadsheet: a shallow embedding.

Strings are lists of characters, C++ `int` values are `Int`, `size_t` values are
`Nat` reduced modulo `2 ^ 64` after every arithmetic operation.
-/

namespace Black

variable {D : Type}

/-- A `std::string` / `std::string_view`. -/
abbrev Str := List Char

/-- Modelled from the spec: `Position::kMaxRows` is declared in `common.h`, which is not
among the sources; section 3 of the specification gives the typical limit 16384. -/
def kMaxRows : Nat := 16384

/-- Modelled from the spec: `Position::kMaxCols` is declared in `common.h`, which is not
among the sources; section 3 of the specification gives the typical limit 16384. -/
def kMaxCols : Nat := 16384

/-- The width of `size_t` arithmetic. -/
def kSizeMod : Nat := 2 ^ 64

/-- Conversion `static_cast<int>(x)` of a `size_t` value. -/
def static_cast_int (x : Nat) : Int :=
  if x % 2 ^ 32 < 2 ^ 31 then ((x % 2 ^ 32 : Nat) : Int) else ((x % 2 ^ 32 : Nat) : Int) - 2 ^ 32

/-- The struct `Position` of `common.h`: two `int` fields. -/
structure Position where
  row : Int
  col : Int
deriving DecidableEq, Repr

/-- Source `Position::operator <` : lexicographic on `(row, col)`. -/
def Position.lt (a b : Position) : Bool :=
  decide (a.row < b.row) || (decide (a.row = b.row) && decide (a.col < b.col))

/-- Source `ValidateBoundaries` of `black_utils.h`. -/
def ValidateBoundaries {T : Type} [LE T] [LT T] [DecidableRel (fun a b : T => a ≤ b)]
    [DecidableRel (fun a b : T => a < b)] (first last val : T) : Bool :=
  decide (first ≤ val) && decide (val < last)

/-- Source `Position::IsValid`. -/
def Position.IsValid (p : Position) : Bool :=
  ValidateBoundaries (0 : Int) (kMaxRows : Int) p.row
    && ValidateBoundaries (0 : Int) (kMaxCols : Int) p.col

/-- Source `kLettersCount = 'Z' - 'A' + 1`. -/
def kLettersCount : Nat := 'Z'.toNat - 'A'.toNat + 1

/-- Source `std::to_string` on an `int`. -/
def to_string (n : Int) : Str :=
  if n < 0 then '-' :: Nat.toDigits 10 n.natAbs else Nat.toDigits 10 n.toNat

/-- The `do ... while (current_col)` loop of `Position::ToString`; the first argument bounds
the number of iterations. C++ `%` and `/` on `int` truncate towards zero. -/
def ToStringLoop : Nat → Int → Bool → Str → Str
  | 0, _, _, result => result
  | fuel + 1, current_col, not_first, result =>
    let current_col := current_col - (if not_first then 1 else 0)
    let result := result ++ [Char.ofNat (current_col.tmod kLettersCount + 'A'.toNat).toNat]
    let current_col := current_col.tdiv kLettersCount
    if current_col ≠ 0 then ToStringLoop fuel current_col true result else result

/-- Source `Position::ToString`. The loop divides a value below `kMaxCols` by 26 on every iteration,
so `col + 1` iterations are never exhausted. -/
def Position.ToString (p : Position) : Str :=
  if !p.IsValid then []
  else (ToStringLoop (p.col.toNat + 1) p.col false []).reverse ++ to_string (p.row + 1)

/-- The letter loop of `Position::FromString` on `size_t col`; `none` is the early
`return {-1, -1}`. The loop only runs over characters in `'A'..'Z'`, for which the `int`
difference `*letter_it - 'A'` is non-negative. -/
def FromStringLetters : Str → Nat → Bool → Option Nat
  | [], col, _ => some col
  | ch :: rest, col, not_first =>
    let col := (col + (if not_first then 1 else 0)) % kSizeMod
    let col := (col * kLettersCount) % kSizeMod
    let col := (col + (ch.toNat - 'A'.toNat)) % kSizeMod
    if !ValidateBoundaries 0 kMaxCols col then none
    else FromStringLetters rest col true

/-- The digit loop of `Position::FromString` on `size_t row`; `row - 1` wraps around. -/
def FromStringDigits : Str → Nat → Option Nat
  | [], row => some row
  | ch :: rest, row =>
    let row := (row * 10) % kSizeMod
    let row := (row + (ch.toNat - '0'.toNat)) % kSizeMod
    if !(ValidateBoundaries 0 kMaxRows row
          || ValidateBoundaries 0 kMaxRows ((row + kSizeMod - 1) % kSizeMod)) then none
    else FromStringDigits rest row

/-- Source `Position::FromString`. `letters` is `[begin, letters_end)`, `afterLetters` is
`[letters_end, end)`, `digits` is `[letters_end, digits_end)`, `afterDigits` is
`[digits_end, end)`. -/
def Position.FromString (str : Str) : Position :=
  let letters := str.takeWhile Char.isUpper
  let afterLetters := str.dropWhile Char.isUpper
  let digits := afterLetters.takeWhile Char.isDigit
  let afterDigits := afterLetters.dropWhile Char.isDigit
  if letters.isEmpty || afterLetters.isEmpty || digits.isEmpty || !afterDigits.isEmpty then
    ⟨-1, -1⟩
  else
    match FromStringLetters letters 0 false with
    | none => ⟨-1, -1⟩
    | some col =>
      match FromStringDigits digits 0 with
      | none => ⟨-1, -1⟩
      | some row => ⟨static_cast_int row - 1, static_cast_int col⟩

/-! ## Formula errors and values (`common.h`, `formula.h`) -/

/-- Source `FormulaError::Category`. -/
inductive FormulaError where
  | Ref
  | Value
  | Div0
deriving DecidableEq, Repr

/-- Source `FormulaError::ToString`. -/
def FormulaError.ToString : FormulaError → Str
  | .Ref => "#REF!".toList
  | .Value => "#VALUE!".toList
  | .Div0 => "#DIV/0!".toList

/-- Source `IFormula::Value = std::variant<double, FormulaError>`; `D` stands for `double`. -/
inductive FValue (D : Type) where
  | number (value : D)
  | error (e : FormulaError)
deriving DecidableEq, Repr

/-- Source `ICell::Value = std::variant<std::string, double, FormulaError>`. -/
inductive CValue (D : Type) where
  | text (s : Str)
  | number (value : D)
  | error (e : FormulaError)
deriving DecidableEq, Repr

/-- The `std::visit` of `Cell::GetValue` that stores a formula result as a cell value. -/
def FValue.toCValue {D : Type} : FValue D → CValue D
  | .number v => .number v
  | .error e => .error e

/-- Source `IFormula::HandlingResult`, ordered by severity. -/
inductive HandlingResult where
  | NothingChanged
  | ReferencesRenamedOnly
  | ReferencesChanged
deriving DecidableEq, Repr

/-- The `double` operations the engine uses. `stod` is `std::stod(text, &pos)`: the value of
the longest numeric prefix and the number of characters consumed, `none` when it throws. -/
structure DoubleOps (D : Type) where
  zero : D
  stod : Str → Option (D × Nat)
  isfinite : D → Bool
  neg : D → D
  add : D → D → D
  sub : D → D → D
  mul : D → D → D
  div : D → D → D

/-- Modelled from the spec: `kEscapeSign` is declared in `common.h`, which is not among the
sources; section 6 names the apostrophe as the canonical escape sign. -/
def kEscapeSign : Char := Char.ofNat 39

/-- Modelled from the spec: `kFormulaSign` is declared in `common.h`, which is not among the
sources; section 6 names `=` as the canonical formula sign. -/
def kFormulaSign : Char := '='

/-! ## Expression tree (`black_formula.h`, `black_formula.cpp`) -/

/-- Source `Node::Type`. -/
inductive NodeType where
  | Number
  | Cell
  | UnaryPlus
  | UnaryMinus
  | Addition
  | Subtraction
  | Multiplication
  | Division
deriving DecidableEq, Repr

/-- The two node types a `UnaryOp` is built with; the listener pairs `UnaryMinus` with
`std::negate` and `UnaryPlus` with the identity. -/
inductive UnaryKind where
  | UnaryPlus
  | UnaryMinus
deriving DecidableEq, Repr

/-- The four node types a `BinaryOp` is built with; the listener pairs each with its
`std::plus`, `std::minus`, `std::multiplies` or `std::divides`. -/
inductive BinaryKind where
  | Addition
  | Subtraction
  | Multiplication
  | Division
deriving DecidableEq, Repr

/-- The classes `Number`, `Cell`, `UnaryOp` and `BinaryOp` of `FormulaAst`. -/
inductive Node (D : Type) where
  | Number (value_ : D) (str_representation_ : Str)
  | Cell (position_ : Position)
  | UnaryOp (kind : UnaryKind) (node_ : Node D)
  | BinaryOp (kind : BinaryKind) (left_ : Node D) (right_ : Node D)
deriving DecidableEq, Repr

def UnaryKind.type : UnaryKind → NodeType
  | .UnaryPlus => .UnaryPlus
  | .UnaryMinus => .UnaryMinus

def BinaryKind.type : BinaryKind → NodeType
  | .Addition => .Addition
  | .Subtraction => .Subtraction
  | .Multiplication => .Multiplication
  | .Division => .Division

/-- The member `Node::type`. -/
def Node.type {D : Type} : Node D → NodeType
  | .Number _ _ => .Number
  | .Cell _ => .Cell
  | .UnaryOp k _ => k.type
  | .BinaryOp k _ _ => k.type

/-- Source `ExprPrinter`. -/
def ExprPrinter (expr : Str) (in_parentheses : Bool) : Str :=
  if in_parentheses then '(' :: (expr ++ [')']) else expr

/-- Source `UnaryOp::GetOpSymbol`: `kOpSymbols[type - UnaryPlus]`. -/
def UnaryKind.GetOpSymbol : UnaryKind → Char
  | .UnaryPlus => '+'
  | .UnaryMinus => '-'

/-- Source `BinaryOp::GetOpSymbol`: `kOpSymbols[type - Addition]`. -/
def BinaryKind.GetOpSymbol : BinaryKind → Char
  | .Addition => '+'
  | .Subtraction => '-'
  | .Multiplication => '*'
  | .Division => '/'

/-- Source `BinaryOp::ChildNodePos`. -/
inductive ChildNodePos where
  | Left
  | Right
deriving DecidableEq, Repr

/-- Source `BinaryOp::AreParenthesesNeeded`. -/
def AreParenthesesNeeded (parent_type child_type : NodeType) (child_pos : ChildNodePos) : Bool :=
  match parent_type with
  | .Subtraction =>
    (child_type == .Addition || child_type == .Subtraction) && child_pos == .Right
  | .Multiplication => child_type == .Addition || child_type == .Subtraction
  | .Division =>
    child_type == .Addition || child_type == .Subtraction ||
      ((child_type == .Multiplication || child_type == .Division) && child_pos == .Right)
  | _ => false

/-- The `GetExpression` overrides of the four node classes. -/
def Node.GetExpression {D : Type} : Node D → Str
  | .Number _ str_representation_ => str_representation_
  | .Cell position_ =>
    if position_.IsValid then position_.ToString else FormulaError.Ref.ToString
  | .UnaryOp k node_ =>
    k.GetOpSymbol ::
      ExprPrinter node_.GetExpression
        (node_.type == .Addition || node_.type == .Subtraction)
  | .BinaryOp k left_ right_ =>
    ExprPrinter left_.GetExpression (AreParenthesesNeeded k.type left_.type .Left)
      ++ k.GetOpSymbol ::
        ExprPrinter right_.GetExpression (AreParenthesesNeeded k.type right_.type .Right)

/-- Inner loop of `std::merge`: the first range is `x :: xs`, `m` merges `xs` with a range. -/
def mergeGo (x : Position) (xs : List Position) (m : List Position → List Position) :
    List Position → List Position
  | [] => x :: xs
  | y :: ys => if y.lt x then y :: mergeGo x xs m ys else x :: m (y :: ys)

/-- Source `std::merge` on two position ranges: an element of the second range is taken first only
when it is less than the head of the first. -/
def merge : List Position → List Position → List Position
  | [], ys => ys
  | x :: xs, ys => mergeGo x xs (merge xs) ys

/-- Source `result.erase(std::unique(...), end)`: one element is kept of every run of equal
consecutive elements. -/
def unique : List Position → List Position
  | [] => []
  | [x] => [x]
  | x :: y :: rest => if x = y then unique (y :: rest) else x :: unique (y :: rest)

/-- The `GetReferencedCells` overrides of the four node classes. -/
def Node.GetReferencedCells {D : Type} : Node D → List Position
  | .Number _ _ => []
  | .Cell position_ => if position_.IsValid then [position_] else []
  | .UnaryOp _ node_ => node_.GetReferencedCells
  | .BinaryOp _ left_ right_ => unique (merge left_.GetReferencedCells right_.GetReferencedCells)

/-- Source `UnaryOpEvaluater` applied with the function the listener stored. -/
def UnaryOpEvaluater {D : Type} (ops : DoubleOps D) (k : UnaryKind) : FValue D → FValue D
  | .number v =>
    match k with
    | .UnaryPlus => .number v
    | .UnaryMinus => .number (ops.neg v)
  | .error e => .error e

/-- The function object the listener stores in a `BinaryOp`. -/
def BinaryKind.func {D : Type} (ops : DoubleOps D) : BinaryKind → D → D → D
  | .Addition => ops.add
  | .Subtraction => ops.sub
  | .Multiplication => ops.mul
  | .Division => ops.div

/-- Source `BinaryOpEvaluater`: overload resolution picks the left error when both sides fail. -/
def BinaryOpEvaluater {D : Type} (ops : DoubleOps D) (k : BinaryKind) :
    FValue D → FValue D → FValue D
  | .error e, _ => .error e
  | .number _, .error e => .error e
  | .number l, .number r =>
    let result := k.func ops l r
    if ops.isfinite result then .number result else .error .Div0

/-- Source `CellEvaluater`. -/
def CellEvaluater {D : Type} (ops : DoubleOps D) : CValue D → FValue D
  | .number v => .number v
  | .error e => .error e
  | .text text =>
    if text.isEmpty then .number ops.zero
    else
      match ops.stod text with
      | some (result, pos) => if pos = text.length then .number result else .error .Value
      | none => .error .Value

/-! ## Formula grammar (section 6 of the specification) and the parse-tree listener -/

/-- Tokens of the formula grammar. -/
inductive Token where
  | ADD
  | SUB
  | MUL
  | DIV
  | LPAREN
  | RPAREN
  | NUMBER (text : Str)
  | CELL (text : Str)
deriving DecidableEq, Repr

/-- White space, which the grammar does not regard as significant. -/
def isSpace (c : Char) : Bool := c == ' ' || c == '\t' || c == '\n' || c == '\r'

/-- Modelled from the spec: the lexer generated from the grammar file is not among the
sources. `NUMBER` is a decimal literal (digits, optionally a point and more digits), `CELL`
is letters followed by digits; every token is the longest possible one. The first argument
bounds the number of tokens and skipped blanks. -/
def lex : Nat → Str → Option (List Token)
  | 0, _ => none
  | _ + 1, [] => some []
  | fuel + 1, c :: cs =>
    if isSpace c then lex fuel cs
    else if c = '+' then (lex fuel cs).map (Token.ADD :: ·)
    else if c = '-' then (lex fuel cs).map (Token.SUB :: ·)
    else if c = '*' then (lex fuel cs).map (Token.MUL :: ·)
    else if c = '/' then (lex fuel cs).map (Token.DIV :: ·)
    else if c = '(' then (lex fuel cs).map (Token.LPAREN :: ·)
    else if c = ')' then (lex fuel cs).map (Token.RPAREN :: ·)
    else if c.isUpper then
      let letters := (c :: cs).takeWhile Char.isUpper
      let rest := (c :: cs).dropWhile Char.isUpper
      let digits := rest.takeWhile Char.isDigit
      if digits.isEmpty then none
      else (lex fuel (rest.dropWhile Char.isDigit)).map (Token.CELL (letters ++ digits) :: ·)
    else if c.isDigit then
      let whole := (c :: cs).takeWhile Char.isDigit
      let rest := (c :: cs).dropWhile Char.isDigit
      match rest with
      | '.' :: rest' =>
        let frac := rest'.takeWhile Char.isDigit
        if frac.isEmpty then (lex fuel rest).map (Token.NUMBER whole :: ·)
        else
          (lex fuel (rest'.dropWhile Char.isDigit)).map
            (Token.NUMBER (whole ++ '.' :: frac) :: ·)
      | _ => (lex fuel rest).map (Token.NUMBER whole :: ·)
    else none

/-- Parse trees of the grammar: the rule contexts the listener is called with. -/
inductive ParseTree where
  | Literal (number : Str)
  | Cell (cell : Str)
  | UnaryOp (op : Token) (operand : ParseTree)
  | BinaryOp (op : Token) (left : ParseTree) (right : ParseTree)
  | Parens (inner : ParseTree)
deriving DecidableEq, Repr

mutual
/-- Modelled from the spec: `expr := expr ('+'|'-') term | term`, left-associative. The
parser generated from the grammar file is not among the sources. -/
def parseExpr : Nat → List Token → Option (ParseTree × List Token)
  | 0, _ => none
  | fuel + 1, ts =>
    match parseTerm fuel ts with
    | none => none
    | some (t, rest) => parseExprRest fuel t rest
/-- The repetition `(('+'|'-') term)*` after a first term. -/
def parseExprRest : Nat → ParseTree → List Token → Option (ParseTree × List Token)
  | 0, _, _ => none
  | fuel + 1, acc, Token.ADD :: ts =>
    match parseTerm fuel ts with
    | none => none
    | some (t, rest) => parseExprRest fuel (.BinaryOp .ADD acc t) rest
  | fuel + 1, acc, Token.SUB :: ts =>
    match parseTerm fuel ts with
    | none => none
    | some (t, rest) => parseExprRest fuel (.BinaryOp .SUB acc t) rest
  | _ + 1, acc, ts => some (acc, ts)
/-- Modelled from the spec: `term := term ('*'|'/') factor | factor`, left-associative. -/
def parseTerm : Nat → List Token → Option (ParseTree × List Token)
  | 0, _ => none
  | fuel + 1, ts =>
    match parseFactor fuel ts with
    | none => none
    | some (t, rest) => parseTermRest fuel t rest
/-- The repetition `(('*'|'/') factor)*` after a first factor. -/
def parseTermRest : Nat → ParseTree → List Token → Option (ParseTree × List Token)
  | 0, _, _ => none
  | fuel + 1, acc, Token.MUL :: ts =>
    match parseFactor fuel ts with
    | none => none
    | some (t, rest) => parseTermRest fuel (.BinaryOp .MUL acc t) rest
  | fuel + 1, acc, Token.DIV :: ts =>
    match parseFactor fuel ts with
    | none => none
    | some (t, rest) => parseTermRest fuel (.BinaryOp .DIV acc t) rest
  | _ + 1, acc, ts => some (acc, ts)
/-- Modelled from the spec: `factor := ('+'|'-') factor | '(' expr ')' | NUMBER | CELL`. -/
def parseFactor : Nat → List Token → Option (ParseTree × List Token)
  | 0, _ => none
  | fuel + 1, Token.ADD :: ts =>
    match parseFactor fuel ts with
    | none => none
    | some (t, rest) => some (.UnaryOp .ADD t, rest)
  | fuel + 1, Token.SUB :: ts =>
    match parseFactor fuel ts with
    | none => none
    | some (t, rest) => some (.UnaryOp .SUB t, rest)
  | fuel + 1, Token.LPAREN :: ts =>
    match parseExpr fuel ts with
    | some (t, Token.RPAREN :: rest) => some (.Parens t, rest)
    | _ => none
  | _ + 1, Token.NUMBER s :: ts => some (.Literal s, ts)
  | _ + 1, Token.CELL s :: ts => some (.Cell s, ts)
  | _ + 1, _ => none
end

/-- Modelled from the spec: `main := expr EOF`. Every call consumes a token or descends one
of three rule levels, so `4 * length + 4` calls are never exhausted. -/
def parseMain (ts : List Token) : Option ParseTree :=
  match parseExpr (4 * ts.length + 4) ts with
  | some (t, []) => some t
  | _ => none

/-- Source `Listener::exitLiteral`; `none` is a thrown exception. -/
def exitLiteral {D : Type} (ops : DoubleOps D) (str : Str) (nodes_ : List (Node D)) :
    Option (List (Node D)) :=
  match ops.stod str with
  | none => none
  | some (value, _) => if !ops.isfinite value then none else some (.Number value str :: nodes_)

/-- Source `Listener::exitCell`. -/
def exitCell {D : Type} (text : Str) (nodes_ : List (Node D)) : Option (List (Node D)) :=
  let pos := Position.FromString text
  if !pos.IsValid then none else some (.Cell pos :: nodes_)

/-- Source `Listener::exitUnaryOp`; popping an empty stack is undefined, modelled as failure. -/
def exitUnaryOp {D : Type} (op : Token) : List (Node D) → Option (List (Node D))
  | node :: nodes_ =>
    some (.UnaryOp (if op = .SUB then .UnaryMinus else .UnaryPlus) node :: nodes_)
  | _ => none

/-- Source `Listener::exitBinaryOp`: the right operand is popped first. -/
def exitBinaryOp {D : Type} (op : Token) : List (Node D) → Option (List (Node D))
  | right :: left :: nodes_ =>
    let type :=
      if op = .MUL then BinaryKind.Multiplication
      else if op = .DIV then BinaryKind.Division
      else if op = .ADD then BinaryKind.Addition
      else BinaryKind.Subtraction
    some (.BinaryOp type left right :: nodes_)
  | _ => none

/-- Source `ParseTreeWalker::walk` with the listener: children first, then the `exit` callback of
the rule; the parenthesis rule has no callback. -/
def walk {D : Type} (ops : DoubleOps D) : ParseTree → List (Node D) → Option (List (Node D))
  | .Literal s, nodes_ => exitLiteral ops s nodes_
  | .Cell s, nodes_ => exitCell s nodes_
  | .UnaryOp op t, nodes_ =>
    match walk ops t nodes_ with
    | none => none
    | some st => exitUnaryOp op st
  | .BinaryOp op l r, nodes_ =>
    match walk ops l nodes_ with
    | none => none
    | some st =>
      match walk ops r st with
      | none => none
      | some st' => exitBinaryOp op st'
  | .Parens t, nodes_ => walk ops t nodes_

/-- Source `Black::ParseFormula` up to the construction of `Formula`: the root node, or `none` when
`FormulaException` is thrown. -/
def ParseFormula {D : Type} (ops : DoubleOps D) (expression : Str) : Option (Node D) :=
  match lex (expression.length + 1) expression with
  | none => none
  | some ts =>
    match parseMain ts with
    | none => none
    | some tree =>
      match walk ops tree [] with
      | some (node :: _) => some node
      | _ => none

/-! ## Formula wrapper and cell (`black_formula.h`, `black_cell.h`) -/

/-- The class `Black::Formula`: the root node and its three memoized results. -/
structure Formula (D : Type) where
  node_ : Node D
  value_cache_ : Option (FValue D)
  expression_cache_ : Option Str
  referenced_cells_cache_ : Option (List Position)
deriving DecidableEq, Repr

/-- Source `Formula::Formula`: the caches start empty. -/
def Formula.create {D : Type} (node : Node D) : Formula D := ⟨node, none, none, none⟩

/-- Source `Formula::GetExpression`: the result and the formula with its cache filled. -/
def Formula.GetExpression {D : Type} (f : Formula D) : Str × Formula D :=
  match f.expression_cache_ with
  | some e => (e, f)
  | none => (f.node_.GetExpression, { f with expression_cache_ := some f.node_.GetExpression })

/-- Source `Formula::GetReferencedCells`: the result and the formula with its cache filled. -/
def Formula.GetReferencedCells {D : Type} (f : Formula D) : List Position × Formula D :=
  match f.referenced_cells_cache_ with
  | some r => (r, f)
  | none =>
    (f.node_.GetReferencedCells,
      { f with referenced_cells_cache_ := some f.node_.GetReferencedCells })

/-- Source `Formula::InvalidateCache`. -/
def Formula.InvalidateCache {D : Type} (f : Formula D) : Formula D :=
  { f with value_cache_ := none, expression_cache_ := none, referenced_cells_cache_ := none }

/-- Source `Cell::Data`: a text or an owned formula. -/
inductive CellData (D : Type) where
  | Text (text : Str)
  | Formula (formula : Formula D)
deriving DecidableEq, Repr

/-- The class `Black::Cell` without its back-pointer to the sheet. -/
structure Cell (D : Type) where
  data_ : CellData D
  incoming_refs_ : List Position
  value_cache_ : Option (CValue D)
deriving DecidableEq, Repr

/-- The cell `Cell(sheet, pos, text, _)` builds when `text` is not parsed as a formula. -/
def Cell.ofText {D : Type} (text : Str) : Cell D := ⟨.Text text, [], none⟩

/-- Source `Cell::GetText`; a formula cell fills the expression cache of its formula. -/
def Cell.GetText {D : Type} (c : Cell D) : Str × Cell D :=
  match c.data_ with
  | .Formula f => ('=' :: f.GetExpression.1, { c with data_ := .Formula f.GetExpression.2 })
  | .Text t => (t, c)

/-- Source `Cell::GetReferencedCells`; a formula cell fills the reference cache of its formula. -/
def Cell.GetReferencedCells {D : Type} (c : Cell D) : List Position × Cell D :=
  match c.data_ with
  | .Formula f => (f.GetReferencedCells.1, { c with data_ := .Formula f.GetReferencedCells.2 })
  | .Text _ => ([], c)

/-- Source `Cell::HasIncomingRefs`. -/
def Cell.HasIncomingRefs {D : Type} (c : Cell D) : Bool := !c.incoming_refs_.isEmpty

/-- Source `Cell::Empty`. -/
def Cell.Empty {D : Type} (c : Cell D) : Bool :=
  match c.data_ with
  | .Text t => t.isEmpty
  | .Formula _ => false

/-- Source `std::lower_bound(begin, end, pos)` as the pair `([begin, it), [it, end))`: on a range
partitioned by `elem < pos`, which the algorithm requires, `it` is the first element that is
not less than `pos`. -/
def lower_bound (l : List Position) (pos : Position) : List Position × List Position :=
  (l.takeWhile (fun x => x.lt pos), l.dropWhile (fun x => x.lt pos))

/-- Source `std::binary_search(begin, end, pos)`: `it != end && !(pos < *it)` for the lower bound. -/
def binary_search (l : List Position) (pos : Position) : Bool :=
  match (lower_bound l pos).2 with
  | [] => false
  | x :: _ => !pos.lt x

/-- The update of `incoming_refs_` in `Cell::AddIncomingRef`. -/
def addIncomingRef (incoming_refs_ : List Position) (pos : Position) : List Position :=
  match lower_bound incoming_refs_ pos with
  | (before, []) => before ++ [pos]
  | (before, x :: after) =>
    if !(pos == x) then before ++ pos :: x :: after else incoming_refs_

/-- Source `Cell::AddIncomingRef`. -/
def Cell.AddIncomingRef {D : Type} (c : Cell D) (pos : Position) : Cell D :=
  { c with incoming_refs_ := addIncomingRef c.incoming_refs_ pos }

/-- The update of `incoming_refs_` in `Cell::RemoveIncomingRef`: the element at the lower
bound is erased, whatever it is. -/
def removeIncomingRef (incoming_refs_ : List Position) (pos : Position) : List Position :=
  match lower_bound incoming_refs_ pos with
  | (_, []) => incoming_refs_
  | (before, _ :: after) => before ++ after

/-- Source `Cell::RemoveIncomingRef`. -/
def Cell.RemoveIncomingRef {D : Type} (c : Cell D) (pos : Position) : Cell D :=
  { c with incoming_refs_ := removeIncomingRef c.incoming_refs_ pos }

/-- Source `Cell::SetIncomingReferences`. -/
def Cell.SetIncomingReferences {D : Type} (c : Cell D) (refs : List Position) : Cell D :=
  { c with incoming_refs_ := refs }

/-! ## Sheet storage (`black_sheet.h`) -/

/-- The member `table_`: a jagged table of owning pointers, `none` being a null pointer. -/
structure Sheet (D : Type) where
  table_ : List (List (Option (Cell D)))
deriving DecidableEq, Repr

/-- The exceptions of `common.h` that the sheet operations throw. -/
inductive Exn where
  | InvalidPosition
  | TableTooBig
  | CircularDependency
  | FormulaException
deriving DecidableEq, Repr

/-- The outcome of an operation on a state `σ`: a normal return, a thrown exception with the
state it leaves behind, or `stuck` when the C++ behaviour is undefined (a null or dangling
pointer is used, an index is out of range, an `assert` fails) or the recursion bound of the
model is exhausted. -/
inductive Res (σ α : Type) where
  | ok (a : α) (s : σ)
  | raise (e : Exn) (s : σ)
  | stuck
deriving DecidableEq, Repr

/-- The environment of the engine: the `double` operations and the formula parser, whose
result is the root node or `none` when `FormulaException` is thrown. -/
structure Env (D : Type) where
  ops : DoubleOps D
  ParseFormula : Str → Option (Node D)

/-- The pointer stored in `table_[pos.row][pos.col]`, null when the index is outside the
table. -/
def Sheet.slot {D : Type} (s : Sheet D) (pos : Position) : Option (Cell D) :=
  ((s.table_[pos.row.toNat]?.getD [])[pos.col.toNat]?).getD none

/-- Assignment to the slot `table_[pos.row][pos.col]`, which is inside the table. -/
def Sheet.setSlot {D : Type} (s : Sheet D) (pos : Position) (v : Option (Cell D)) : Sheet D :=
  ⟨s.table_.set pos.row.toNat ((s.table_[pos.row.toNat]?.getD []).set pos.col.toNat v)⟩

/-- A mutation of the fields of the cell object stored at `pos`. -/
def Sheet.setCell {D : Type} (s : Sheet D) (pos : Position) (c : Cell D) : Sheet D :=
  s.setSlot pos (some c)

/-- Source `std::vector::resize`. -/
def resize {α : Type} (l : List α) (n : Nat) (fill : α) : List α :=
  l.take n ++ List.replicate (n - l.length) fill

/-- Source `Sheet::GetCellRef`: the table after the two `resize` calls; the returned reference is
the slot at `pos`. It is called with valid positions only. -/
def Sheet.GetCellRef {D : Type} (s : Sheet D) (pos : Position) : Sheet D :=
  let table := resize s.table_ (max s.table_.length (pos.row.toNat + 1)) []
  let row := table[pos.row.toNat]?.getD []
  ⟨table.set pos.row.toNat (resize row (max row.length (pos.col.toNat + 1)) none)⟩

/-- Source `Sheet::GetCellImpl`: `none` is the `InvalidPositionException`. -/
def Sheet.GetCellImpl {D : Type} (s : Sheet D) (pos : Position) : Option (Option (Cell D)) :=
  if !pos.IsValid then none else some (s.slot pos)

/-- Source `Sheet::ShrinkRow`. -/
def ShrinkRow {D : Type} (row : List (Option (Cell D))) : List (Option (Cell D)) :=
  row.rdropWhile (fun c => c.isNone)

/-- Source `Sheet::ShrinkTable`. -/
def Sheet.ShrinkTable {D : Type} (s : Sheet D) : Sheet D :=
  ⟨s.table_.rdropWhile (fun row => row.isEmpty)⟩

/-- A loop over a vector whose body may throw. -/
def forEachRes {σ β : Type} (body : σ → β → Res σ Unit) : List β → σ → Res σ Unit
  | [], s => .ok () s
  | x :: xs, s =>
    match body s x with
    | .ok _ s' => forEachRes body xs s'
    | .raise e s' => .raise e s'
    | .stuck => .stuck

/-! ## Circular dependencies (`black_cell.cpp`) -/

/-- The `std::any_of` of `CheckForCircularDependencyImpl` over the referenced cells; `visit`
is the recursive call on the cell stored at a position, `checked` the set of visited
positions. -/
def anyOfRefs {D : Type}
    (visit : Sheet D → Position → List Position → Res (Sheet D × List Position) Bool) :
    List Position → Sheet D → List Position → Res (Sheet D × List Position) Bool
  | [], s, checked => .ok false (s, checked)
  | cell_pos :: rest, s, checked =>
    if cell_pos ∈ checked then anyOfRefs visit rest s checked
    else
      match s.GetCellImpl cell_pos with
      | none => .raise .InvalidPosition (s, checked)
      | some none => anyOfRefs visit rest s checked
      | some (some _) =>
        match visit s cell_pos checked with
        | .ok result (s', checked') =>
          if result then .ok true (s', cell_pos :: checked')
          else anyOfRefs visit rest s' (cell_pos :: checked')
        | .raise e st => .raise e st
        | .stuck => .stuck

/-- Source `Cell::CheckForCircularDependencyImpl` called on the cell stored at `self`; the first
argument bounds the depth of the recursion. -/
def CheckForCircularDependencyImpl {D : Type} :
    Nat → Position → Sheet D → Position → List Position → Res (Sheet D × List Position) Bool
  | 0, _, _, _, _ => .stuck
  | fuel + 1, pos, s, self, checked =>
    match s.slot self with
    | none => .stuck
    | some cell =>
      match cell.data_ with
      | .Text _ => .ok false (s, checked)
      | .Formula _ =>
        let referenced_cells := cell.GetReferencedCells.1
        let s := s.setCell self cell.GetReferencedCells.2
        if binary_search referenced_cells pos then .ok true (s, checked)
        else anyOfRefs (CheckForCircularDependencyImpl fuel pos) referenced_cells s checked

/-- Source `Cell::CheckForCircularDependency` called on the cell under construction, which is not
stored in the sheet yet. -/
def Cell.CheckForCircularDependency {D : Type} (fuel : Nat) (s : Sheet D) (cell : Cell D)
    (pos : Position) (has_incoming_refs : Bool) : Res (Sheet D × Cell D) Bool :=
  if has_incoming_refs then
    match cell.data_ with
    | .Text _ => .ok false (s, cell)
    | .Formula _ =>
      let referenced_cells := cell.GetReferencedCells.1
      let cell := cell.GetReferencedCells.2
      if binary_search referenced_cells pos then .ok true (s, cell)
      else
        match anyOfRefs (CheckForCircularDependencyImpl fuel pos) referenced_cells s [] with
        | .ok result (s', _) => .ok result (s', cell)
        | .raise e (s', _) => .raise e (s', cell)
        | .stuck => .stuck
  else
    .ok (binary_search cell.GetReferencedCells.1 pos) (s, cell.GetReferencedCells.2)

/-- The constructor `Cell::Cell(sheet, pos, text, has_incoming_refs)`. -/
def Cell.create {D : Type} (env : Env D) (fuel : Nat) (s : Sheet D) (pos : Position)
    (text : Str) (has_incoming_refs : Bool) : Res (Sheet D) (Cell D) :=
  if text.isEmpty || text.head? == some kEscapeSign || text.head? != some kFormulaSign then
    .ok (Cell.ofText text) s
  else
    match env.ParseFormula (text.drop 1) with
    | none => .raise .FormulaException s
    | some node =>
      match Cell.CheckForCircularDependency fuel s ⟨.Formula (Formula.create node), [], none⟩
          pos has_incoming_refs with
      | .ok true (s', _) => .raise .CircularDependency s'
      | .ok false (s', cell) => .ok cell s'
      | .raise e (s', _) => .raise e s'
      | .stuck => .stuck

/-! ## Values and cache invalidation (`black_cell.cpp`, `black_formula.cpp`) -/

/-- Source `Cell::InvalidateCache` called on the cell stored at `self`; the first argument bounds
the depth of the recursion. -/
def InvalidateCache {D : Type} : Nat → Sheet D → Position → Res (Sheet D) Unit
  | 0, _, _ => .stuck
  | fuel + 1, s, self =>
    match s.slot self with
    | none => .stuck
    | some cell =>
      if cell.value_cache_.isNone then .ok () s
      else
        let data :=
          match cell.data_ with
          | .Formula f => CellData.Formula f.InvalidateCache
          | .Text t => CellData.Text t
        let s := s.setCell self { cell with data_ := data, value_cache_ := none }
        forEachRes
          (fun s incoming_ref_pos =>
            match s.GetCellImpl incoming_ref_pos with
            | none => .raise .InvalidPosition s
            | some none => .stuck
            | some (some _) => InvalidateCache fuel s incoming_ref_pos)
          cell.incoming_refs_ s

/-- The `Evaluate` overrides of the four node classes; `getValue` is `Cell::GetValue` on
the cell stored at a position. The left operand of a binary node is evaluated first. -/
def Node.Evaluate {D : Type} (ops : DoubleOps D)
    (getValue : Sheet D → Position → Res (Sheet D) (CValue D)) :
    Node D → Sheet D → Res (Sheet D) (FValue D)
  | .Number value_ _, s => .ok (.number value_) s
  | .Cell position_, s =>
    if position_.IsValid then
      match s.slot position_ with
      | some _ =>
        match getValue s position_ with
        | .ok v s' => .ok (CellEvaluater ops v) s'
        | .raise e s' => .raise e s'
        | .stuck => .stuck
      | none => .ok (.number ops.zero) s
    else .ok (.error .Ref) s
  | .UnaryOp k node_, s =>
    match node_.Evaluate ops getValue s with
    | .ok v s' => .ok (UnaryOpEvaluater ops k v) s'
    | .raise e s' => .raise e s'
    | .stuck => .stuck
  | .BinaryOp k left_ right_, s =>
    match left_.Evaluate ops getValue s with
    | .ok l s' =>
      match right_.Evaluate ops getValue s' with
      | .ok r s'' => .ok (BinaryOpEvaluater ops k l r) s''
      | .raise e s'' => .raise e s''
      | .stuck => .stuck
    | .raise e s' => .raise e s'
    | .stuck => .stuck

/-- Source `Cell::GetValue` called on the cell stored at `self`, with `Formula::Evaluate` inlined;
the first argument bounds the depth of the recursion through referenced cells. -/
def GetValueAt {D : Type} (ops : DoubleOps D) : Nat → Sheet D → Position → Res (Sheet D) (CValue D)
  | 0, _, _ => .stuck
  | fuel + 1, s, self =>
    match s.slot self with
    | none => .stuck
    | some cell =>
      match cell.value_cache_ with
      | some v => .ok v s
      | none =>
        match cell.data_ with
        | .Text text =>
          let v := CValue.text
            (text.drop (if !text.isEmpty && text.head? == some kEscapeSign then 1 else 0))
          .ok v (s.setCell self { cell with value_cache_ := some v })
        | .Formula f =>
          match f.value_cache_ with
          | some fv =>
            .ok fv.toCValue (s.setCell self { cell with value_cache_ := some fv.toCValue })
          | none =>
            match f.node_.Evaluate ops (GetValueAt ops fuel) s with
            | .ok fv s' =>
              match s'.slot self with
              | some cell' =>
                let data :=
                  match cell'.data_ with
                  | .Formula f' => CellData.Formula { f' with value_cache_ := some fv }
                  | .Text t => CellData.Text t
                .ok fv.toCValue
                  (s'.setCell self { cell' with data_ := data, value_cache_ := some fv.toCValue })
              | none => .stuck
            | .raise e s' => .raise e s'
            | .stuck => .stuck

/-! ## Sheet operations (`black_sheet.cpp`) -/

/-- One iteration of the loop of `Sheet::DeleteReferencesForCell`; `none` when a row or a
slot is indexed outside the table or the slot holds a null pointer. -/
def DeleteReferenceStep {D : Type} (pos : Position) (s : Sheet D)
    (referenced_cell_pos : Position) : Option (Sheet D) :=
  if referenced_cell_pos.row < 0 ∨ referenced_cell_pos.col < 0 then none
  else
    match s.table_[referenced_cell_pos.row.toNat]? with
    | none => none
    | some row =>
      match row[referenced_cell_pos.col.toNat]? with
      | none => none
      | some none => none
      | some (some cell) =>
        let cell := cell.RemoveIncomingRef pos
        if cell.Empty && !cell.HasIncomingRefs then
          some ⟨s.table_.set referenced_cell_pos.row.toNat
            (ShrinkRow (row.set referenced_cell_pos.col.toNat none))⟩
        else some (s.setCell referenced_cell_pos cell)

/-- Source `Sheet::DeleteReferencesForCell`. -/
def Sheet.DeleteReferencesForCell {D : Type} (s : Sheet D) (pos : Position)
    (refs : List Position) : Option (Sheet D) :=
  (refs.foldlM (DeleteReferenceStep pos) s).map Sheet.ShrinkTable

/-- Source `Cell::Clear` called on the cell stored at `self`. -/
def Clear {D : Type} (fuel : Nat) (s : Sheet D) (self : Position) : Res (Sheet D) Unit :=
  match s.slot self with
  | none => .stuck
  | some cell =>
    if !cell.Empty then
      InvalidateCache fuel (s.setCell self { cell with data_ := .Text [] }) self
    else .ok () s

/-- Source `Sheet::ClearCell`. -/
def Sheet.ClearCell {D : Type} (fuel : Nat) (s : Sheet D) (pos : Position) :
    Res (Sheet D) Unit :=
  match s.GetCellImpl pos with
  | none => .raise .InvalidPosition s
  | some none => .ok () s
  | some (some cell) =>
    let s := s.setCell pos cell.GetReferencedCells.2
    match s.DeleteReferencesForCell pos cell.GetReferencedCells.1 with
    | none => .stuck
    | some s =>
      match s.slot pos with
      | none => .stuck
      | some cell =>
        if cell.HasIncomingRefs then Clear fuel s pos
        else
          let row := ShrinkRow ((s.table_[pos.row.toNat]?.getD []).set pos.col.toNat none)
          .ok () (Sheet.ShrinkTable ⟨s.table_.set pos.row.toNat row⟩)

/-- The body of `if (cell) { ... }` in `Sheet::SetCell`: the old cell is invalidated, its
outgoing references are deleted and its incoming references move to the new cell. -/
def ReplaceOldCell {D : Type} (fuel : Nat) (s : Sheet D) (pos : Position)
    (new_cell : Cell D) : Res (Sheet D) (Cell D) :=
  match InvalidateCache fuel s pos with
  | .ok _ s =>
    match s.slot pos with
    | none => .stuck
    | some cell =>
      let s := s.setCell pos cell.GetReferencedCells.2
      match s.DeleteReferencesForCell pos cell.GetReferencedCells.1 with
      | none => .stuck
      | some s =>
        match s.slot pos with
        | none => .stuck
        | some cell => .ok (new_cell.SetIncomingReferences cell.incoming_refs_) s
  | .raise e s => .raise e s
  | .stuck => .stuck

/-- One iteration of the last loop of `Sheet::SetCell`. -/
def AddReferenceStep {D : Type} (pos : Position) (s : Sheet D)
    (referenced_cell_pos : Position) : Sheet D :=
  let s := s.GetCellRef referenced_cell_pos
  let referenced_cell :=
    match s.slot referenced_cell_pos with
    | some c => c
    | none => Cell.ofText []
  s.setCell referenced_cell_pos (referenced_cell.AddIncomingRef pos)

/-- Source `Sheet::SetCell`. -/
def Sheet.SetCell {D : Type} (env : Env D) (fuel : Nat) (s : Sheet D) (pos : Position)
    (text : Str) : Res (Sheet D) Unit :=
  if !pos.IsValid then .raise .InvalidPosition s
  else
    let s := s.GetCellRef pos
    let old := s.slot pos
    let s :=
      match old with
      | some cell => s.setCell pos cell.GetText.2
      | none => s
    if (match old with
        | some cell => cell.GetText.1 == text
        | none => false) then .ok () s
    else
      let has_incoming_refs :=
        match old with
        | some cell => cell.HasIncomingRefs
        | none => false
      match Cell.create env fuel s pos text has_incoming_refs with
      | .ok new_cell s =>
        match (if old.isSome then ReplaceOldCell fuel s pos new_cell else .ok new_cell s) with
        | .ok new_cell s =>
          let s := s.setSlot pos (some new_cell.GetReferencedCells.2)
          .ok () (new_cell.GetReferencedCells.1.foldl (AddReferenceStep pos) s)
        | .raise e s => .raise e s
        | .stuck => .stuck
      | .raise e s => .raise e s
      | .stuck => .stuck

/-- Source `Sheet::GetCell`. -/
def Sheet.GetCell {D : Type} (s : Sheet D) (pos : Position) : Res (Sheet D) (Option (Cell D)) :=
  match s.GetCellImpl pos with
  | none => .raise .InvalidPosition s
  | some c => .ok c s

/-- The call `sheet.GetCell(pos)->GetValue()`. -/
def Sheet.GetValue {D : Type} (ops : DoubleOps D) (fuel : Nat) (s : Sheet D) (pos : Position) :
    Res (Sheet D) (CValue D) :=
  match s.GetCellImpl pos with
  | none => .raise .InvalidPosition s
  | some none => .stuck
  | some (some _) => GetValueAt ops fuel s pos

/-- The sheet `CreateSheet` returns. -/
def Sheet.empty {D : Type} : Sheet D := ⟨[]⟩

/-- An instance of the `double` operations that the model can be run with: exact integers,
`none` standing for a result that is not finite. Only literals made of digits are read. -/
def exampleOps : DoubleOps (Option Int) where
  zero := some 0
  stod := fun text =>
    let digits := text.takeWhile Char.isDigit
    if digits.isEmpty then none
    else some (some (digits.foldl (fun acc ch => acc * 10 + ((ch.toNat : Int) - 48)) 0),
      digits.length)
  isfinite := fun x => x.isSome
  neg := fun x => x.map (fun a => -a)
  add := fun x y => x.bind (fun a => y.map (fun b => a + b))
  sub := fun x y => x.bind (fun a => y.map (fun b => a - b))
  mul := fun x y => x.bind (fun a => y.map (fun b => a * b))
  div := fun x y => x.bind (fun a => y.bind (fun b => if b = 0 then none else some (a.tdiv b)))

/-- The environment made of `exampleOps` and the parser of the grammar. -/
def exampleEnv : Env (Option Int) := ⟨exampleOps, ParseFormula exampleOps⟩

/-- The sheet after `SetCell(A1, "=B1")` on the empty sheet. -/
def sheetA1 : Sheet (Option Int) :=
  ⟨[[some ⟨.Formula ⟨.Cell ⟨0, 1⟩, none, none, some [⟨0, 1⟩]⟩, [], none⟩,
    some ⟨.Text [], [⟨0, 0⟩], none⟩]]⟩

/-! ## Auxiliary definitions of the verification -/

/-- Specification side: the letters read as a base-26 numeral with no zero digit, the letter
`A` being the digit one (so `A` is 1, `Z` is 26, `AA` is 27). -/
def bijectiveBase26 (letters : Str) : Nat :=
  letters.foldl (fun acc ch => acc * 26 + (ch.toNat - 'A'.toNat + 1)) 0

/-- Specification side: the column index a letter group denotes (`A` is 0, `Z` is 25, `AA` is
26, `AZ` is 51, `BA` is 52). -/
def columnOf (letters : Str) : Nat := bijectiveBase26 letters - 1

/-- Specification side: the number a group of decimal digits denotes. -/
def decimalOf (digits : Str) : Nat :=
  digits.foldl (fun acc ch => acc * 10 + (ch.toNat - '0'.toNat)) 0

/-- Accumulator of the letter loop after its first iteration, without wrap-around. -/
def lettersAcc (col : Nat) (letters : Str) : Nat :=
  letters.foldl (fun acc ch => (acc + 1) * 26 + (ch.toNat - 65)) col

/-- Accumulator of the digit loop, without wrap-around. -/
def digitsAcc (row : Nat) (digits : Str) : Nat :=
  digits.foldl (fun acc ch => acc * 10 + (ch.toNat - 48)) row

/-- Specification side: a cell label in the sense of the specification, upper-case letters denoting a column
below `kMaxCols`, then decimal digits denoting a row number in `1..kMaxRows`. -/
def IsCellLabel (letters digits : Str) : Prop :=
  letters ≠ [] ∧ digits ≠ [] ∧ (∀ c ∈ letters, c.isUpper = true) ∧
    (∀ c ∈ digits, c.isDigit = true) ∧ columnOf letters < kMaxCols ∧
    1 ≤ decimalOf digits ∧ decimalOf digits ≤ kMaxRows

/-- Value of a letter list given least significant letter first. -/
def bijRev (letters : Str) : Nat :=
  letters.foldr (fun ch acc => acc * 26 + (ch.toNat - 'A'.toNat + 1)) 0

/-- The slot at `pos` lies inside the stored table. -/
def Sheet.InBounds (s : Sheet D) (pos : Position) : Prop :=
  pos.col.toNat < (s.table_[pos.row.toNat]?.getD []).length

/-- A list of positions in strictly increasing order. -/
def StrictSorted (l : List Position) : Prop := l.Pairwise (fun a b => a.lt b = true)

/-- A list of positions in non-decreasing order. -/
def WeakSorted (l : List Position) : Prop := l.Pairwise (fun a b => b.lt a = false)

/-- The cell stored at a valid position, as `Sheet::GetCell` sees it. -/
def Sheet.cells (s : Sheet D) : Position → Option (Cell D) :=
  fun p => if p.IsValid then s.slot p else none

/-- What a cell holds, without memoized results. -/
inductive Content (D : Type) where
  | Text (text : Str)
  | Formula (node : Node D)

/-- A vertex of the reference graph: what the cell holds and its incoming references. -/
structure GCell (D : Type) where
  content : Content D
  incoming : List Position

def CellData.content : CellData D → Content D
  | .Text t => .Text t
  | .Formula f => .Formula f.node_

def Cell.g (c : Cell D) : GCell D := ⟨c.data_.content, c.incoming_refs_⟩

/-- The referenced cells of the stored formula, computed afresh. -/
def Content.refs : Content D → List Position
  | .Text _ => []
  | .Formula n => n.GetReferencedCells

def Content.isEmptyText : Content D → Bool
  | .Text t => t.isEmpty
  | .Formula _ => false

def GCell.refs (c : GCell D) : List Position := c.content.refs

def Cell.refs (c : Cell D) : List Position := c.data_.content.refs

abbrev Graph (D : Type) := Position → Option (GCell D)

def Sheet.graph (s : Sheet D) : Graph D := fun p => (s.cells p).map Cell.g

/-- A forward reference: the cell at `p` holds a formula that refers to `q`. -/
def Graph.Edge (g : Graph D) (p q : Position) : Prop := ∃ c, g p = some c ∧ q ∈ c.refs

/-- The graph invariants of section 3 of the specification. -/
structure Graph.Inv (g : Graph D) : Prop where
  sorted : ∀ p c, g p = some c → StrictSorted c.incoming
  forward : ∀ p c q, g p = some c → q ∈ c.refs → ∃ d, g q = some d ∧ p ∈ d.incoming
  backward : ∀ q d p, g q = some d → p ∈ d.incoming → ∃ c, g p = some c ∧ q ∈ c.refs
  acyclic : ∀ p, ¬ Relation.TransGen g.Edge p p

/-- One iteration of `DeleteReferencesForCell` on the graph. -/
def Graph.removeRef (pos : Position) (g : Graph D) (q : Position) : Graph D :=
  match g q with
  | none => g
  | some d =>
    if d.content.isEmptyText = true ∧ removeIncomingRef d.incoming pos = [] then
      Function.update g q none
    else Function.update g q (some ⟨d.content, removeIncomingRef d.incoming pos⟩)

/-- One iteration of the last loop of `SetCell` on the graph. -/
def Graph.addRef (pos : Position) (g : Graph D) (q : Position) : Graph D :=
  Function.update g q
    (some (match g q with
      | some d => ⟨d.content, addIncomingRef d.incoming pos⟩
      | none => ⟨.Text [], addIncomingRef [] pos⟩))

/-- The references of the cell stored at `pos`. -/
def Graph.refsAt (g : Graph D) (pos : Position) : List Position :=
  match g pos with
  | some c => c.refs
  | none => []

def Graph.incomingAt (g : Graph D) (pos : Position) : List Position :=
  match g pos with
  | some c => c.incoming
  | none => []

/-- The effect of a successful `SetCell` on the graph: the old outgoing references are
deleted, the new content is installed with the old incoming references, the new outgoing
references are added. -/
def Graph.replace (g : Graph D) (pos : Position) (content : Content D) : Graph D :=
  let g1 := (g.refsAt pos).foldl (Graph.removeRef pos) g
  let g2 := Function.update g1 pos (some ⟨content, g1.incomingAt pos⟩)
  content.refs.foldl (Graph.addRef pos) g2

/-- The entry of a referenced cell after its reference from `pos` has been deleted. -/
def GCell.afterRemove (pos : Position) (d : GCell D) : Option (GCell D) :=
  if d.content.isEmptyText = true ∧ removeIncomingRef d.incoming pos = [] then none
  else some ⟨d.content, removeIncomingRef d.incoming pos⟩

/-- The entry of a referenced cell after the reference from `pos` has been added. -/
def GCell.afterAdd (pos : Position) (d : Option (GCell D)) : GCell D :=
  match d with
  | some d => ⟨d.content, addIncomingRef d.incoming pos⟩
  | none => ⟨.Text [], addIncomingRef [] pos⟩

/-- The graph after the outgoing references of `pos` have been deleted, pointwise. -/
def Graph.removed (g : Graph D) (pos : Position) (x : Position) : Option (GCell D) :=
  if x ∈ g.refsAt pos then (g x).bind (GCell.afterRemove pos) else g x

/-- The formula without its memoized expression and reference list. -/
def Formula.strip (f : Formula D) : Formula D :=
  { f with expression_cache_ := none, referenced_cells_cache_ := none }

def CellData.strip : CellData D → CellData D
  | .Text t => .Text t
  | .Formula f => .Formula f.strip

/-- The cell without the memoized expression and reference list of its formula. -/
def Cell.strip (c : Cell D) : Cell D := { c with data_ := c.data_.strip }

/-- A memoized expression or reference list, when present, is the one computed afresh. -/
def Formula.Fresh (f : Formula D) : Prop :=
  (∀ e, f.expression_cache_ = some e → e = f.node_.GetExpression) ∧
    (∀ r, f.referenced_cells_cache_ = some r → r = f.node_.GetReferencedCells)

def Cell.Fresh (c : Cell D) : Prop :=
  match c.data_ with
  | .Text _ => True
  | .Formula f => f.Fresh

def Sheet.Fresh (s : Sheet D) : Prop := ∀ p c, s.cells p = some c → c.Fresh

/-- The stored cells without memoized expressions and reference lists. -/
def Sheet.stripped (s : Sheet D) : Position → Option (Cell D) := fun p => (s.cells p).map Cell.strip

/-- Two sheets that differ at most in memoized expressions and reference lists, the second
one holding only up-to-date ones. -/
def Sheet.Sim (s0 s : Sheet D) : Prop := s.stripped = s0.stripped ∧ s.Fresh

/-- What a visit of the stored cell at `q` must deliver: it returns whether `pos` can be
reached from `q` in one or more steps, and leaves the sheet as it was up to memoized
reference lists and the visited set free of positions that reach `pos`. -/
def DfsSpec (s0 : Sheet D) (pos : Position)
    (visit : Sheet D → Position → List Position → Res (Sheet D × List Position) Bool)
    (q : Position) : Prop :=
  ∀ s checked, s0.Sim s → (∀ x ∈ checked, ¬ Relation.ReflTransGen s0.graph.Edge x pos) →
    (s.cells q).isSome = true →
    ∃ b s' checked', visit s q checked = .ok b (s', checked') ∧ s0.Sim s' ∧
      (b = true ↔ Relation.TransGen s0.graph.Edge q pos) ∧
      (b = false → ∀ x ∈ checked', ¬ Relation.ReflTransGen s0.graph.Edge x pos)

/-- The cell after `Cell::InvalidateCache` has cleared its caches. -/
def Cell.invalidate (c : Cell D) : Cell D :=
  { c with
    data_ :=
      match c.data_ with
      | .Formula f => CellData.Formula f.InvalidateCache
      | .Text t => CellData.Text t
    value_cache_ := none }

/-- A slot is as before or holds the same cell with its caches cleared. -/
def Cleared (o o' : Option (Cell D)) : Prop := o' = o ∨ ∃ c, o = some c ∧ o' = some c.invalidate

/-- A cell with a cached value refers only to cells with a cached value or to members of `X`. -/
def Sheet.Chain (s : Sheet D) (X : Position → Prop) : Prop :=
  ∀ x c q, s.cells x = some c → c.value_cache_.isSome = true → q ∈ c.refs →
    X q ∨ ∃ d, s.cells q = some d ∧ d.value_cache_.isSome = true

/-- What `Cell::InvalidateCache` on the stored cell at `self` must deliver. -/
def InvalidateSpec (s0 : Sheet D) (inval : Sheet D → Position → Res (Sheet D) Unit)
    (self : Position) : Prop :=
  ∀ s, s.graph = s0.graph → (s.cells self).isSome = true →
    ∃ s', inval s self = .ok () s' ∧ (∀ x, Cleared (s.cells x) (s'.cells x)) ∧
      (∀ c, s'.cells self = some c → c.value_cache_ = none) ∧
      (∀ X, s.Chain X → s'.Chain X)

/-- The body of the loop of `Cell::InvalidateCache`. -/
def invalidateBody (inval : Sheet D → Position → Res (Sheet D) Unit) (s : Sheet D)
    (incoming_ref_pos : Position) : Res (Sheet D) Unit :=
  match s.GetCellImpl incoming_ref_pos with
  | none => .raise .InvalidPosition s
  | some none => .stuck
  | some (some _) => inval s incoming_ref_pos

/-- What `DeleteReferencesForCell` leaves of a referenced cell. -/
def Cell.afterRemove (pos : Position) (c : Cell D) : Option (Cell D) :=
  if ((c.RemoveIncomingRef pos).Empty && !(c.RemoveIncomingRef pos).HasIncomingRefs) = true then none
  else some (c.RemoveIncomingRef pos)

/-- The referenced cell after the last loop of `SetCell` has passed it. -/
def Cell.afterAdd (pos : Position) (o : Option (Cell D)) : Cell D :=
  (match o with
    | some c => c
    | none => Cell.ofText []).AddIncomingRef pos

/-- The formula cell under construction, before the check. -/
def Cell.ofNode (node : Node D) : Cell D := ⟨.Formula (Formula.create node), [], none⟩

/-- The formula cell under construction, after the check has memoized its references. -/
def Cell.ofNodeChecked (node : Node D) : Cell D :=
  ⟨.Formula ⟨node, none, none, some node.GetReferencedCells⟩, [], none⟩

/-- A slot after caches have been filled or cleared: up to memoized expressions and
reference lists the cell is as before, or as before with its caches cleared. -/
def StripRel (o o' : Option (Cell D)) : Prop :=
  o'.map Cell.strip = o.map Cell.strip ∨ o'.map Cell.strip = o.map (fun c => c.invalidate.strip)

/-- The second sheet results from the first by filling and clearing caches. -/
structure Sheet.Upd (s s' : Sheet D) : Prop where
  rel : ∀ x, StripRel (s.cells x) (s'.cells x)
  fresh : s.Fresh → s'.Fresh
  chain : ∀ X, s.Chain X → s'.Chain X

/-- The cell `SetCell` installs for a content. -/
def Content.toCell (content : Content D) (incoming : List Position) : Cell D :=
  match content with
  | .Text t => ⟨.Text t, incoming, none⟩
  | .Formula node => ⟨.Formula ⟨node, none, none, some node.GetReferencedCells⟩, incoming, none⟩

/-- The stored cells after `SetCell` has installed `newc` at `pos`: `R` are the references
of the old cell, `N` those of the new one, `sI` the sheet before `DeleteReferencesForCell`. -/
def Sheet.installed (sI : Sheet D) (R N : List Position) (pos : Position) (newc : Cell D) :
    Position → Option (Cell D) := fun x =>
  if x = pos then some newc
  else if x ∈ N then
    some (Cell.afterAdd pos
      (if x ∈ R then (sI.cells x).bind (Cell.afterRemove pos) else sI.cells x))
  else if x ∈ R then (sI.cells x).bind (Cell.afterRemove pos) else sI.cells x

/-- The condition under which the constructor stores the text verbatim. -/
def IsTextCell (text : Str) : Bool :=
  text.isEmpty || text.head? == some kEscapeSign || text.head? != some kFormulaSign

/-- What the constructor of a cell makes of a text: the content, or `none` when the parser
throws `FormulaException`. -/
def Env.content (env : Env D) (text : Str) : Option (Content D) :=
  if IsTextCell text then some (.Text text)
  else (env.ParseFormula (text.drop 1)).map Content.Formula

/-- The slot at `pos` already holds a cell whose text is `text`. -/
def Sheet.HoldsText (s : Sheet D) (pos : Position) (text : Str) : Prop :=
  ∃ old, s.cells pos = some old ∧ old.GetText.1 = text

/-- The new references lead back to `pos`. -/
def Graph.Cyclic (g : Graph D) (pos : Position) (refs : List Position) : Prop :=
  ∃ r ∈ refs, Relation.ReflTransGen g.Edge r pos

/-- The outcomes of `SetCell` on a valid position. -/
structure SetCellOutcome (env : Env D) (s : Sheet D) (pos : Position) (text : Str)
    (out : Res (Sheet D) Unit) : Prop where
  same : s.HoldsText pos text → ∃ s1, out = .ok () s1 ∧ s.Sim s1
  parse : ¬ s.HoldsText pos text → env.content text = none →
    ∃ s1, out = .raise .FormulaException s1 ∧ s.Sim s1
  cyclic : ¬ s.HoldsText pos text → ∀ content, env.content text = some content →
    s.graph.Cyclic pos content.refs → ∃ s1, out = .raise .CircularDependency s1 ∧ s.Sim s1
  done : ¬ s.HoldsText pos text → ∀ content, env.content text = some content →
    ¬ s.graph.Cyclic pos content.refs →
    ∃ sI s', out = .ok () s' ∧ s.Upd sI ∧
      ((s.cells pos).isSome = true → ∀ c, sI.cells pos = some c → c.value_cache_ = none) ∧
      s'.cells = sI.installed (s.graph.refsAt pos) content.refs pos
        (content.toCell (s.graph.incomingAt pos))

/-- The remaining steps of `SetCell` once the new cell has been constructed. -/
def finishSetCell (fuel : Nat) (s : Sheet D) (pos : Position) (hasOld : Bool)
    (new_cell : Cell D) : Res (Sheet D) Unit :=
  match (if hasOld then ReplaceOldCell fuel s pos new_cell else .ok new_cell s) with
  | .ok new_cell s =>
    let s := s.setSlot pos (some new_cell.GetReferencedCells.2)
    .ok () (new_cell.GetReferencedCells.1.foldl (AddReferenceStep pos) s)
  | .raise e s => .raise e s
  | .stuck => .stuck

/-- The sheet after `GetCellRef(pos)` and the `GetText` call on the stored cell. -/
def Sheet.preState (s : Sheet D) (pos : Position) : Sheet D :=
  match s.cells pos with
  | some cell => (s.GetCellRef pos).setCell pos cell.GetText.2
  | none => s.GetCellRef pos

/-- The argument `cell && cell->HasIncomingRefs()` of the constructor. -/
def Sheet.hasIncoming (s : Sheet D) (pos : Position) : Bool :=
  match s.cells pos with
  | some cell => cell.HasIncomingRefs
  | none => false

/-- The test `cell && cell->GetText() == text`. -/
def Sheet.sameText (s : Sheet D) (pos : Position) (text : Str) : Bool :=
  match s.cells pos with
  | some cell => cell.GetText.1 == text
  | none => false

/-- The well-formedness of a sheet: memoized expressions and reference lists are up to date
and the reference graph satisfies the graph invariants. -/
structure Sheet.WF (s : Sheet D) : Prop where
  fresh : s.Fresh
  inv : s.graph.Inv

/-- The cell `Cell::Clear` leaves: the text is emptied, the other members are kept. -/
def Cell.emptied (c : Cell D) : Cell D := { c with data_ := .Text [] }

/-- The outcomes of `ClearCell` on a valid position. -/
structure ClearCellOutcome (s : Sheet D) (pos : Position) (out : Res (Sheet D) Unit) : Prop where
  absent : s.cells pos = none → out = .ok () s
  kept : ∀ cell, s.cells pos = some cell → cell.incoming_refs_ ≠ [] →
    ∃ s3 s' : Sheet D, out = .ok () s' ∧
      s3.cells = s.installed (s.graph.refsAt pos) [] pos cell.GetReferencedCells.2.emptied ∧
      (∀ x, Cleared (s3.cells x) (s'.cells x)) ∧
      (cell.Empty = false → ∀ c, s'.cells pos = some c → c.value_cache_ = none) ∧
      (∀ X, s3.Chain X → s'.Chain X)
  removed : ∀ cell, s.cells pos = some cell → cell.incoming_refs_ = [] →
    ∃ s' : Sheet D, out = .ok () s' ∧
      s'.cells = Function.update
        (s.installed (s.graph.refsAt pos) [] pos cell.GetReferencedCells.2.emptied) pos none

/-- The sheets that `SetCell` and `ClearCell` calls produce from the empty sheet, whether a
call returns or throws. -/
inductive Reachable (env : Env D) : Sheet D → Prop where
  | empty : Reachable env Sheet.empty
  | setCell {s s' : Sheet D} (fuel : Nat) (pos : Position) (text : Str) :
    Reachable env s → s.SetCell env fuel pos text = .ok () s' → Reachable env s'
  | setCellRaise {s s' : Sheet D} (fuel : Nat) (pos : Position) (text : Str) (e : Exn) :
    Reachable env s → s.SetCell env fuel pos text = .raise e s' → Reachable env s'
  | clearCell {s s' : Sheet D} (fuel : Nat) (pos : Position) :
    Reachable env s → s.ClearCell fuel pos = .ok () s' → Reachable env s'
  | clearCellRaise {s s' : Sheet D} (fuel : Nat) (pos : Position) (e : Exn) :
    Reachable env s → s.ClearCell fuel pos = .raise e s' → Reachable env s'

/-- A forward reference of the sheet: the cell stored at `p` lists `q` among its referenced
cells. -/
def Sheet.References (s : Sheet D) (p q : Position) : Prop :=
  ∃ c, s.GetCellImpl p = some (some c) ∧ q ∈ c.GetReferencedCells.1

/-- Every referenced cell is stored and lists the referring cell exactly once. -/
def Sheet.ForwardCoherent (s : Sheet D) : Prop :=
  ∀ p c q, s.GetCellImpl p = some (some c) → q ∈ c.GetReferencedCells.1 → q.IsValid = true →
    ∃ d, s.GetCellImpl q = some (some d) ∧ d.incoming_refs_.count p = 1

/-- Every incoming reference is the position of a formula cell that refers to the holder. -/
def Sheet.BackwardCoherent (s : Sheet D) : Prop :=
  ∀ q d p, s.GetCellImpl q = some (some d) → p ∈ d.incoming_refs_ →
    ∃ c f, s.GetCellImpl p = some (some c) ∧ c.data_ = .Formula f ∧ q ∈ c.GetReferencedCells.1

/-- The forward reference graph has no cycle. -/
def Sheet.Acyclic (s : Sheet D) : Prop := ∀ p, ¬ Relation.TransGen s.References p p

/-- The second outcome is the first one unless the first ran out of its bound. -/
def Res.Le {σ α : Type} (r r' : Res σ α) : Prop := r = .stuck ∨ r = r'

/-! ## What a throwing `SetCell` leaves behind -/

/-- The sheet `sheetA1` after the throwing call `SetCell(A1, "=A1")`: the formula at `A1` has
its serialized expression memoized. -/
def sheetA1Memo : Sheet (Option Int) :=
  ⟨[[some ⟨.Formula ⟨.Cell ⟨0, 1⟩, none, some "B1".toList, some [⟨0, 1⟩]⟩, [], none⟩,
    some ⟨.Text [], [⟨0, 0⟩], none⟩]]⟩

/-! ## Evaluation from scratch -/

/-- Specification side: the value of an expression tree, given which positions hold a cell and
the values of those cells. No cache is read. -/
def Node.scratch (ops : DoubleOps D) (stored : Position → Bool)
    (value : Position → Option (CValue D)) : Node D → Option (FValue D)
  | .Number value_ _ => some (.number value_)
  | .Cell position_ =>
    if position_.IsValid then
      if stored position_ then (value position_).map (CellEvaluater ops)
      else some (.number ops.zero)
    else some (.error .Ref)
  | .UnaryOp k node_ => (node_.scratch ops stored value).map (UnaryOpEvaluater ops k)
  | .BinaryOp k left_ right_ =>
    match left_.scratch ops stored value, right_.scratch ops stored value with
    | some l, some r => some (BinaryOpEvaluater ops k l r)
    | _, _ => none

/-- Specification side: the value of the cell stored at `pos` evaluated from scratch, all
caches ignored: a text without its escape sign, or the value of the expression tree over the
from-scratch values of the referenced cells. The first argument bounds the depth of the
references followed; `none` when it is exhausted or no cell is stored. -/
def Sheet.scratch (ops : DoubleOps D) : Nat → Sheet D → Position → Option (CValue D)
  | 0, _, _ => none
  | fuel + 1, s, pos =>
    match s.cells pos with
    | none => none
    | some cell =>
      match cell.data_ with
      | .Text text =>
        some (.text (text.drop (if !text.isEmpty && text.head? == some kEscapeSign then 1 else 0)))
      | .Formula f =>
        (f.node_.scratch ops (fun q => (s.cells q).isSome) (Sheet.scratch ops fuel s)).map
          FValue.toCValue

/-- What a cell holds, at every position. -/
def Sheet.content (s : Sheet D) (p : Position) : Option (Content D) :=
  (s.cells p).map (fun c => c.data_.content)

/-! ## The cached values -/

/-- The cached result of the formula of a cell. -/
def Cell.fcache (c : Cell D) : Option (FValue D) :=
  match c.data_ with
  | .Formula f => f.value_cache_
  | .Text _ => none

/-- The cached values of a sheet are the values computed from scratch: a cached cell value is
the from-scratch value, a formula has a cached result only in a cell with a cached value, and
a cell with a cached value refers only to cells with a cached value. -/
structure Sheet.Valued (ops : DoubleOps D) (s : Sheet D) : Prop where
  value : ∀ p c v, s.cells p = some c → c.value_cache_ = some v → ∃ n, s.scratch ops n p = some v
  formula : ∀ p c, s.cells p = some c → c.value_cache_ = none → c.fcache = none
  chain : s.Chain (fun _ => False)

/-- Two cells that hold the same and have the same cached values. -/
def SameCore (c c' : Cell D) : Prop :=
  c'.data_.content = c.data_.content ∧ c'.value_cache_ = c.value_cache_ ∧ c'.fcache = c.fcache

/-- The cell without its cached values. -/
def Cell.unvalued (c : Cell D) : Cell D :=
  { c with
    data_ :=
      match c.data_ with
      | .Formula f => CellData.Formula { f with value_cache_ := none }
      | .Text t => CellData.Text t
    value_cache_ := none }

/-- The second sheet stores the cells of the first up to cached values. -/
def Sheet.SameHeld (s0 s : Sheet D) : Prop :=
  ∀ x, (s.cells x).map Cell.unvalued = (s0.cells x).map Cell.unvalued

/-- The cached cell values of the first sheet are cached in the second. -/
def Sheet.Grown (s s' : Sheet D) : Prop :=
  ∀ x c, s.cells x = some c → c.value_cache_.isSome = true →
    ∃ c', s'.cells x = some c' ∧ c'.value_cache_ = c.value_cache_

/-- What `Cell::GetValue` on the cell stored at `q` must deliver on any sheet that differs
from `s0` in cached values only and whose cached values are right: it returns the value it
leaves cached at `q`, and the sheet it leaves is such a sheet again, with the cached values of
before. -/
def ValueSpec (ops : DoubleOps D) (s0 : Sheet D)
    (getValue : Sheet D → Position → Res (Sheet D) (CValue D)) (q : Position) : Prop :=
  ∀ s, s0.SameHeld s → s.Valued ops →
    ∃ v s', getValue s q = .ok v s' ∧ s0.SameHeld s' ∧ s'.Valued ops ∧ s.Grown s' ∧
      ∃ d, s'.cells q = some d ∧ d.value_cache_ = some v

/-- The stored cell at `x` after `DeleteReferencesForCell` has run for the references `R`. -/
def Sheet.afterDelete (A : Sheet D) (R : List Position) (pos x : Position) : Option (Cell D) :=
  if x ∈ R then (A.cells x).bind (Cell.afterRemove pos) else A.cells x

/-- The sheets that `SetCell`, `ClearCell` and `GetValue` calls produce from the empty sheet,
whether a call returns or throws. -/
inductive ReachableWithValues (env : Env D) : Sheet D → Prop where
  | empty : ReachableWithValues env Sheet.empty
  | setCell {s s' : Sheet D} (fuel : Nat) (pos : Position) (text : Str) :
    ReachableWithValues env s → s.SetCell env fuel pos text = .ok () s' →
    ReachableWithValues env s'
  | setCellRaise {s s' : Sheet D} (fuel : Nat) (pos : Position) (text : Str) (e : Exn) :
    ReachableWithValues env s → s.SetCell env fuel pos text = .raise e s' →
    ReachableWithValues env s'
  | clearCell {s s' : Sheet D} (fuel : Nat) (pos : Position) :
    ReachableWithValues env s → s.ClearCell fuel pos = .ok () s' → ReachableWithValues env s'
  | clearCellRaise {s s' : Sheet D} (fuel : Nat) (pos : Position) (e : Exn) :
    ReachableWithValues env s → s.ClearCell fuel pos = .raise e s' → ReachableWithValues env s'
  | getValue {s s' : Sheet D} (fuel : Nat) (pos : Position) (v : CValue D) :
    ReachableWithValues env s → s.GetValue env.ops fuel pos = .ok v s' →
    ReachableWithValues env s'
  | getValueRaise {s s' : Sheet D} (fuel : Nat) (pos : Position) (e : Exn) :
    ReachableWithValues env s → s.GetValue env.ops fuel pos = .raise e s' →
    ReachableWithValues env s'

/-- The sheet after `SetCell(A1, "=B2")` on the empty sheet. -/
def sheetB2 : Sheet (Option Int) :=
  ⟨[[some ⟨.Formula ⟨.Cell ⟨1, 1⟩, none, none, some [⟨1, 1⟩]⟩, [], none⟩],
    [none, some ⟨.Text [], [⟨0, 0⟩], none⟩]]⟩

/-- The sheet after `SetCell(B2, "3")` on `sheetB2`. -/
def sheetB2Three : Sheet (Option Int) :=
  ⟨[[some ⟨.Formula ⟨.Cell ⟨1, 1⟩, none, none, some [⟨1, 1⟩]⟩, [], none⟩],
    [none, some ⟨.Text "3".toList, [⟨0, 0⟩], none⟩]]⟩

/-- The sheet after `GetValue(A1)` on `sheetB2Three`: both cells have their value cached. -/
def sheetB2Cached : Sheet (Option Int) :=
  ⟨[[some ⟨.Formula ⟨.Cell ⟨1, 1⟩, some (.number (some 3)), none, some [⟨1, 1⟩]⟩, [],
      some (.number (some 3))⟩],
    [none, some ⟨.Text "3".toList, [⟨0, 0⟩], some (.text "3".toList)⟩]]⟩

/-- The sheet after `SetCell(B2, "7")` on `sheetB2Cached`: the caches are cleared. -/
def sheetB2Seven : Sheet (Option Int) :=
  ⟨[[some ⟨.Formula ⟨.Cell ⟨1, 1⟩, none, none, none⟩, [], none⟩],
    [none, some ⟨.Text "7".toList, [⟨0, 0⟩], none⟩]]⟩

/-! ## The serializer and the parser -/

/-- The character of an operator token. -/
def opChar : Token → Char
  | .ADD => '+'
  | .SUB => '-'
  | .MUL => '*'
  | .DIV => '/'
  | _ => ' '

/-- The text a parse tree derives. -/
def ParseTree.text : ParseTree → Str
  | .Literal s => s
  | .Cell s => s
  | .UnaryOp op t => opChar op :: t.text
  | .BinaryOp op l r => l.text ++ opChar op :: r.text
  | .Parens t => '(' :: (t.text ++ [')'])

/-- The tokens a parse tree derives. -/
def ParseTree.tokens : ParseTree → List Token
  | .Literal s => [.NUMBER s]
  | .Cell s => [.CELL s]
  | .UnaryOp op t => op :: t.tokens
  | .BinaryOp op l r => l.tokens ++ op :: r.tokens
  | .Parens t => .LPAREN :: (t.tokens ++ [.RPAREN])

/-- The text of a `NUMBER` token: digits, optionally a point and more digits. -/
def IsNumberLit (s : Str) : Prop :=
  ∃ whole, whole ≠ [] ∧ (∀ c ∈ whole, c.isDigit = true) ∧
    (s = whole ∨ ∃ frac, frac ≠ [] ∧ (∀ c ∈ frac, c.isDigit = true) ∧ s = whole ++ '.' :: frac)

/-- The text of a `CELL` token: letters followed by digits. -/
def IsCellText (s : Str) : Prop :=
  ∃ ls ds, ls ≠ [] ∧ ds ≠ [] ∧ (∀ c ∈ ls, c.isUpper = true) ∧ (∀ c ∈ ds, c.isDigit = true) ∧
    s = ls ++ ds

/-- A text before which a `NUMBER` or `CELL` token ends: it is empty or starts with an
operator or a parenthesis. -/
def Boundary (rest : Str) : Prop :=
  ∀ c, rest.head? = some c → c = '+' ∨ c = '-' ∨ c = '*' ∨ c = '/' ∨ c = '(' ∨ c = ')'

/-- The three levels of the grammar. -/
inductive Level where
  | factor
  | term
  | expr
deriving DecidableEq, Repr

/-- The parse trees of the grammar, by level: `factor := ('+'|'-') factor | '(' expr ')' |
NUMBER | CELL`, `term := term ('*'|'/') factor | factor`, `expr := expr ('+'|'-') term |
term`. -/
inductive Derives : Level → ParseTree → Prop where
  | lit (s : Str) : IsNumberLit s → Derives .factor (.Literal s)
  | cell (s : Str) : IsCellText s → Derives .factor (.Cell s)
  | plus (t : ParseTree) : Derives .factor t → Derives .factor (.UnaryOp .ADD t)
  | minus (t : ParseTree) : Derives .factor t → Derives .factor (.UnaryOp .SUB t)
  | parens (e : ParseTree) : Derives .expr e → Derives .factor (.Parens e)
  | ofFactor (t : ParseTree) : Derives .factor t → Derives .term t
  | mul (l r : ParseTree) : Derives .term l → Derives .factor r →
    Derives .term (.BinaryOp .MUL l r)
  | div (l r : ParseTree) : Derives .term l → Derives .factor r →
    Derives .term (.BinaryOp .DIV l r)
  | ofTerm (t : ParseTree) : Derives .term t → Derives .expr t
  | add (l r : ParseTree) : Derives .expr l → Derives .term r →
    Derives .expr (.BinaryOp .ADD l r)
  | sub (l r : ParseTree) : Derives .expr l → Derives .term r →
    Derives .expr (.BinaryOp .SUB l r)

/-- The operator tokens. -/
def IsOp (op : Token) : Prop := op = .ADD ∨ op = .SUB ∨ op = .MUL ∨ op = .DIV

/-- A token list on which the repetition of a term stops. -/
def NoMul (ts : List Token) : Prop := (∀ r, ts ≠ Token.MUL :: r) ∧ (∀ r, ts ≠ Token.DIV :: r)

/-- A token list on which the repetition of an expression stops. -/
def NoAdd (ts : List Token) : Prop := (∀ r, ts ≠ Token.ADD :: r) ∧ (∀ r, ts ≠ Token.SUB :: r)

/-- What the parser does on the tokens of a parse tree of the grammar, by level: it reads a
factor; after a term it goes on with the repetition of the term; after an expression it goes
on with the repetition of the expression. -/
def ParseOK : Level → ParseTree → Prop
  | .factor, t => ∀ rest, parseFactor (2 * t.tokens.length) (t.tokens ++ rest) = some (t, rest)
  | .term, t => ∀ rest out m, parseTermRest m t rest = some out →
      parseTerm (m + 2 * t.tokens.length + 1) (t.tokens ++ rest) = some out
  | .expr, t => ∀ rest out m, NoMul rest → parseExprRest m t rest = some out →
      parseExpr (m + 2 * t.tokens.length + 2) (t.tokens ++ rest) = some out

/-- The node type the listener pairs with the operator of a unary rule. -/
def unaryKindOf (op : Token) : UnaryKind := if op = .SUB then .UnaryMinus else .UnaryPlus

/-- The node type the listener pairs with the operator of a binary rule. -/
def binaryKindOf (op : Token) : BinaryKind :=
  if op = .MUL then BinaryKind.Multiplication
  else if op = .DIV then BinaryKind.Division
  else if op = .ADD then BinaryKind.Addition
  else BinaryKind.Subtraction

/-- The expression tree the walk over a parse tree builds; `none` when the listener throws. -/
def ParseTree.node (ops : DoubleOps D) : ParseTree → Option (Node D)
  | .Literal s =>
    match ops.stod s with
    | none => none
    | some (value, _) => if !ops.isfinite value then none else some (.Number value s)
  | .Cell s =>
    if !(Position.FromString s).IsValid then none else some (.Cell (Position.FromString s))
  | .UnaryOp op t => (t.node ops).map (Node.UnaryOp (unaryKindOf op))
  | .BinaryOp op l r =>
    match l.node ops, r.node ops with
    | some a, some b => some (.BinaryOp (binaryKindOf op) a b)
    | _, _ => none
  | .Parens t => t.node ops

/-- The type of the node built for a parse tree. -/
def ParseTree.type : ParseTree → NodeType
  | .Literal _ => .Number
  | .Cell _ => .Cell
  | .UnaryOp op _ => (unaryKindOf op).type
  | .BinaryOp op _ _ => (binaryKindOf op).type
  | .Parens t => t.type

/-- The serialization of the node built for a parse tree. -/
def ParseTree.ser : ParseTree → Str
  | .Literal s => s
  | .Cell s => (Position.FromString s).ToString
  | .UnaryOp op t =>
    (unaryKindOf op).GetOpSymbol ::
      ExprPrinter t.ser (t.type == .Addition || t.type == .Subtraction)
  | .BinaryOp op l r =>
    ExprPrinter l.ser (AreParenthesesNeeded (binaryKindOf op).type l.type .Left)
      ++ (binaryKindOf op).GetOpSymbol ::
        ExprPrinter r.ser (AreParenthesesNeeded (binaryKindOf op).type r.type .Right)
  | .Parens t => t.ser

def ParseTree.isParens : ParseTree → Bool
  | .Parens _ => true
  | _ => false

/-- The types of the sums and differences. -/
def NodeType.isAdditive (t : NodeType) : Bool := t == .Addition || t == .Subtraction

/-- The types of the products and quotients. -/
def NodeType.isMultiplicative (t : NodeType) : Bool := t == .Multiplication || t == .Division

/-- An operand is in parentheses exactly when the serializer puts its node in parentheses. -/
def ArgOK (needed : NodeType → Bool) : ParseTree → Prop
  | .Parens e => needed e.type = true ∧ e.isParens = false
  | c => needed c.type = false

/-- A parse tree with parentheses exactly where the serializer puts them, and with cell
labels as the serializer writes them. -/
def Canon : ParseTree → Prop
  | .Literal _ => True
  | .Cell s => (Position.FromString s).ToString = s
  | .UnaryOp _ t => ArgOK NodeType.isAdditive t ∧ Canon t
  | .BinaryOp op l r =>
    ArgOK (fun ty => AreParenthesesNeeded (binaryKindOf op).type ty .Left) l ∧
      ArgOK (fun ty => AreParenthesesNeeded (binaryKindOf op).type ty .Right) r ∧
      Canon l ∧ Canon r
  | .Parens e => Canon e

/-- The leaves of a parse tree are accepted by the listener. -/
def LeavesOK (ops : DoubleOps D) : ParseTree → Prop
  | .Literal s => ∃ v k, ops.stod s = some (v, k) ∧ ops.isfinite v = true
  | .Cell s => (Position.FromString s).IsValid = true
  | .UnaryOp _ t => LeavesOK ops t
  | .BinaryOp _ l r => LeavesOK ops l ∧ LeavesOK ops r
  | .Parens e => LeavesOK ops e

/-- A unary operator put in front of the text of a term applies to its first factor. -/
def graftU (op : Token) : ParseTree → ParseTree
  | .BinaryOp o l r => .BinaryOp o (graftU op l) r
  | t => .UnaryOp op t

/-- A term put after a multiplicative operator without parentheses continues the product
on the left of the operator. -/
def graftT (acc : ParseTree) (op : Token) : ParseTree → ParseTree
  | .BinaryOp o l r => .BinaryOp o (graftT acc op l) r
  | t => .BinaryOp op acc t

/-- An expression put after an additive operator without parentheses continues the sum on
the left of the operator. -/
def graftE (acc : ParseTree) (op : Token) : ParseTree → ParseTree
  | .BinaryOp .ADD l r => .BinaryOp .ADD (graftE acc op l) r
  | .BinaryOp .SUB l r => .BinaryOp .SUB (graftE acc op l) r
  | t => .BinaryOp op acc t

def UnaryKind.token : UnaryKind → Token
  | .UnaryPlus => .ADD
  | .UnaryMinus => .SUB

def BinaryKind.token : BinaryKind → Token
  | .Addition => .ADD
  | .Subtraction => .SUB
  | .Multiplication => .MUL
  | .Division => .DIV

/-- The parse tree of the serialization of an expression tree. -/
def Node.toTree : Node D → ParseTree
  | .Number _ s => .Literal s
  | .Cell p => .Cell (if p.IsValid then p.ToString else FormulaError.Ref.ToString)
  | .UnaryOp k n =>
    if n.type.isAdditive then .UnaryOp k.token (.Parens n.toTree) else graftU k.token n.toTree
  | .BinaryOp k l r =>
    if AreParenthesesNeeded k.type r.type .Right then
      .BinaryOp k.token
        (if AreParenthesesNeeded k.type l.type .Left then .Parens l.toTree else l.toTree)
        (.Parens r.toTree)
    else if k.type.isAdditive then
      graftE (if AreParenthesesNeeded k.type l.type .Left then .Parens l.toTree else l.toTree)
        k.token r.toTree
    else
      graftT (if AreParenthesesNeeded k.type l.type .Left then .Parens l.toTree else l.toTree)
        k.token r.toTree

/-- An expression tree as the parser builds it: number literals as the lexer reads them and
the listener accepts them, valid cell positions. -/
def Node.WellFormed (ops : DoubleOps D) : Node D → Prop
  | .Number _ s => IsNumberLit s ∧ ∃ v k, ops.stod s = some (v, k) ∧ ops.isfinite v = true
  | .Cell p => p.IsValid = true
  | .UnaryOp _ n => n.WellFormed ops
  | .BinaryOp _ l r => l.WellFormed ops ∧ r.WellFormed ops

/-- What a grafted tree is: a canonical tree of the level, not in parentheses. -/
structure Grafted (lvl : Level) (g : ParseTree) : Prop where
  derives : Derives lvl g
  canon : Canon g
  bare : g.isParens = false

/-- The invariants of the parse tree of a serialization. -/
structure TreeOf (ops : DoubleOps D) (T : Node D) (t : ParseTree) : Prop where
  grafted : Grafted .expr t
  term : T.type.isAdditive = false → Derives .term t
  additive : t.type.isAdditive = T.type.isAdditive
  multiplicative : T.type.isMultiplicative = true → t.type.isMultiplicative = true
  leaves : LeavesOK ops t
  text : t.text = T.GetExpression

/-- Every `NUMBER` token of a token list is a number literal. -/
def NumbersOK (ts : List Token) : Prop := ∀ x, Token.NUMBER x ∈ ts → IsNumberLit x

/-! ## Serialization of operator nodes -/

/-- Specification side: the cases in which the child of a binary node with operator `P` is
wrapped in parentheses, as the specification lists them. -/
def WrapsChild (P : BinaryKind) (child : NodeType) (pos : ChildNodePos) : Prop :=
  (P = .Subtraction ∧ pos = .Right ∧ (child = .Addition ∨ child = .Subtraction)) ∨
  (P = .Multiplication ∧ (child = .Addition ∨ child = .Subtraction)) ∨
  (P = .Division ∧ ((child = .Addition ∨ child = .Subtraction) ∨
    (pos = .Right ∧ (child = .Multiplication ∨ child = .Division))))

instance (P : BinaryKind) (child : NodeType) (pos : ChildNodePos) :
    Decidable (WrapsChild P child pos) := by
  unfold WrapsChild
  infer_instance

/-- Specification side: an expression, wrapped in parentheses when the condition holds. -/
def wrapWhen (c : Prop) [Decidable c] (e : Str) : Str :=
  if c then "(".toList ++ e ++ ")".toList else e

/-- Specification side: the symbol of a binary operator. -/
def BinaryKind.symbol : BinaryKind → Str
  | .Addition => "+".toList
  | .Subtraction => "-".toList
  | .Multiplication => "*".toList
  | .Division => "/".toList

/-- Specification side: the symbol of a unary operator. -/
def UnaryKind.symbol : UnaryKind → Str
  | .UnaryPlus => "+".toList
  | .UnaryMinus => "-".toList

/-- Specification side: the positions of the `CellRef` nodes of an expression tree, valid or
not, from left to right. -/
def Node.cellPositions : Node D → List Position
  | .Number _ _ => []
  | .Cell position_ => [position_]
  | .UnaryOp _ node_ => node_.cellPositions
  | .BinaryOp _ left_ right_ => left_.cellPositions ++ right_.cellPositions

/-! ## Text cells and the escape sign -/

/-- The sheet after `SetCell(A1, t)` on the empty sheet, `t` being the escape sign followed
by `=A1`. -/
def sheetEscaped : Sheet (Option Int) :=
  ⟨[[some ⟨.Text (kEscapeSign :: "=A1".toList), [], none⟩]]⟩

/-! ## Structural edits (`black_formula.cpp`, `black_cell.cpp`, `black_sheet.cpp`) -/

/-- The `int` sum `a + b`; `none` when the sum is not representable, which is undefined
behaviour in the source. -/
def int_add (a b : Int) : Option Int :=
  if -2 ^ 31 ≤ a + b ∧ a + b < 2 ^ 31 then some (a + b) else none

/-- Conversion of an `int` to `size_t`. -/
def to_size_t (x : Int) : Nat := (x % (kSizeMod : Int)).toNat

/-- The member of a position that a handler receives as `int& dim`. -/
inductive Axis where
  | Row
  | Col
deriving DecidableEq, Repr

/-- The member `row` or `col` of a position. -/
def Position.dim (p : Position) : Axis → Int
  | .Row => p.row
  | .Col => p.col

/-- Assignment to the member `row` or `col` of a position. -/
def Position.setDim (p : Position) : Axis → Int → Position
  | .Row, v => ⟨v, p.col⟩
  | .Col, v => ⟨p.row, v⟩

/-- Source `std::max` on `IFormula::HandlingResult`. -/
def HandlingResult.max : HandlingResult → HandlingResult → HandlingResult
  | .ReferencesChanged, _ => .ReferencesChanged
  | _, .ReferencesChanged => .ReferencesChanged
  | .ReferencesRenamedOnly, _ => .ReferencesRenamedOnly
  | _, .ReferencesRenamedOnly => .ReferencesRenamedOnly
  | .NothingChanged, .NothingChanged => .NothingChanged

/-- Source `FormulaAst::Cell::HandleInsertedImpl`: the new position and the result; `none` when
`dim += count` overflows. -/
def HandleInsertedImpl (position_ : Position) (dim : Axis) (before count : Int) :
    Option (Position × HandlingResult) :=
  if position_.IsValid && decide (position_.dim dim ≥ before) then
    (int_add (position_.dim dim) count).map
      (fun v => (position_.setDim dim v, HandlingResult.ReferencesRenamedOnly))
  else some (position_, .NothingChanged)

/-- The `HandleInsertedRows` and `HandleInsertedCols` overrides of the four node classes, the
axis telling which of the two: the node after the call and the result. -/
def Node.HandleInserted (dim : Axis) (before count : Int) :
    Node D → Option (Node D × HandlingResult)
  | .Number value_ str => some (.Number value_ str, .NothingChanged)
  | .Cell position_ =>
    (HandleInsertedImpl position_ dim before count).map (fun r => (.Cell r.1, r.2))
  | .UnaryOp k node_ =>
    (node_.HandleInserted dim before count).map (fun r => (.UnaryOp k r.1, r.2))
  | .BinaryOp k left_ right_ =>
    match left_.HandleInserted dim before count, right_.HandleInserted dim before count with
    | some (l, a), some (r, b) => some (.BinaryOp k l r, a.max b)
    | _, _ => none

/-- Source `Formula::HandleInsertionOrDeletion`. -/
def Formula.HandleInsertionOrDeletion (f : Formula D) (result : HandlingResult) : Formula D :=
  let f :=
    if result = .ReferencesRenamedOnly ∨ result = .ReferencesChanged then
      { f with expression_cache_ := none, referenced_cells_cache_ := none }
    else f
  if result = .ReferencesChanged then { f with value_cache_ := none } else f

/-- Source `Formula::HandleInsertedRows` and `Formula::HandleInsertedCols`. -/
def Formula.HandleInserted (dim : Axis) (f : Formula D) (before count : Int) :
    Option (Formula D) :=
  (f.node_.HandleInserted dim before count).map
    (fun r => Formula.HandleInsertionOrDeletion { f with node_ := r.1 } r.2)

/-- The body of the `for_each` of `Cell::HandleInsertedRows` and `Cell::HandleInsertedCols`:
`pos.dim += count * (pos.dim >= before)`. -/
def shiftIncoming (dim : Axis) (before count : Int) (pos : Position) : Option Position :=
  (int_add (pos.dim dim) (count * (if pos.dim dim ≥ before then 1 else 0))).map
    (pos.setDim dim)

/-- A loop whose body may fail, collecting the results. -/
def mapOption {α β : Type} (f : α → Option β) : List α → Option (List β)
  | [] => some []
  | x :: xs =>
    match f x, mapOption f xs with
    | some y, some ys => some (y :: ys)
    | _, _ => none

/-- Source `Cell::HandleInsertedRows` and `Cell::HandleInsertedCols`. -/
def Cell.HandleInserted (dim : Axis) (before count : Int) (c : Cell D) : Option (Cell D) :=
  match mapOption (shiftIncoming dim before count) c.incoming_refs_ with
  | none => none
  | some incoming =>
    match c.data_ with
    | .Formula f =>
      (f.HandleInserted dim before count).map
        (fun f => ⟨.Formula f, incoming, c.value_cache_⟩)
    | .Text t => some ⟨.Text t, incoming, c.value_cache_⟩

/-- The loop `for (auto& cell : row) if (cell) cell->HandleInserted...(before, count)`. -/
def handleRow (dim : Axis) (before count : Int) (row : List (Option (Cell D))) :
    Option (List (Option (Cell D))) :=
  mapOption
    (fun slot =>
      match slot with
      | none => some none
      | some c => (c.HandleInserted dim before count).map some)
    row

/-- Source `std::rotate(begin + first, begin + middle, end)`: the elements from `middle` on
move in front of the elements of `[first, middle)`. -/
def rotate {α : Type} (l : List α) (first middle : Nat) : List α :=
  l.take first ++ l.drop middle ++ (l.take middle).drop first

/-- Source `Sheet::InsertRows`. The sum `before + count` is computed as `int`, the other sum in
`size_t`, and the total is converted to the `int new_rows`. With a negative `count` the
middle of `std::rotate` lies past the end, which is undefined. -/
def Sheet.InsertRows (s : Sheet D) (before count : Int) : Res (Sheet D) Unit :=
  let insert_in_the_middle : Bool := decide (s.table_.length > to_size_t before)
  match int_add before count with
  | none => .stuck
  | some sum =>
    let new_rows := static_cast_int
      (((s.table_.length + to_size_t count) % kSizeMod * (if insert_in_the_middle then 1 else 0)
        + to_size_t (sum * (if insert_in_the_middle then 0 else 1))) % kSizeMod)
    if new_rows > (kMaxRows : Int) then .raise .TableTooBig s
    else if insert_in_the_middle && count != 0 then
      if count < 0 then .stuck
      else
        match mapOption (handleRow .Row before count) s.table_ with
        | none => .stuck
        | some table =>
          let table := resize table ((table.length + to_size_t count) % kSizeMod) []
          .ok () ⟨rotate table before.toNat (table.length - count.toNat)⟩
    else .ok () s

/-- The body of the loop over the rows in `Sheet::InsertCols`; `none` when a handler overflows
or `std::rotate` is called with a middle past the end (negative `count`). -/
def insertColsRow (before count : Int) (row : List (Option (Cell D))) :
    Option (List (Option (Cell D))) :=
  match handleRow .Col before count row with
  | none => none
  | some row =>
    if row.length > to_size_t before then
      if count < 0 then none
      else
        let row := resize row ((row.length + to_size_t count) % kSizeMod) none
        some (rotate row before.toNat (row.length - count.toNat))
    else some row

/-- Source `Sheet::InsertCols`. All sums are computed as `int`. -/
def Sheet.InsertCols (s : Sheet D) (before count : Int) : Res (Sheet D) Unit :=
  let max_cols : Int := static_cast_int ((s.table_.map List.length).foldl Nat.max 0)
  let insert_in_the_middle : Bool := decide (max_cols > before)
  match int_add max_cols count, int_add before count with
  | some sum_mid, some sum =>
    let new_cols := sum_mid * (if insert_in_the_middle then 1 else 0)
      + sum * (if insert_in_the_middle then 0 else 1)
    if new_cols > (kMaxCols : Int) then .raise .TableTooBig s
    else if insert_in_the_middle && count != 0 then
      match mapOption (insertColsRow before count) s.table_ with
      | none => .stuck
      | some table => .ok () ⟨table⟩
    else .ok () s
  | _, _ => .stuck

/-- The formula cell of `sheetA1` after its reference has been moved down by 2147483647. -/
def cellA1Moved : Cell (Option Int) :=
  ⟨.Formula ⟨.Cell ⟨2147483647, 1⟩, none, none, none⟩, [], none⟩

/-- The referenced cell of `sheetA1` after its incoming reference has been moved down. -/
def cellB1Moved : Cell (Option Int) := ⟨.Text [], [⟨2147483647, 0⟩], none⟩

/-- The sheet `InsertRows(0, 2147483647)` makes of `sheetA1`: 2147483647 empty rows above the
one stored row. -/
def sheetA1Moved : Sheet (Option Int) :=
  ⟨List.replicate 2147483647 [] ++ [[some cellA1Moved, some cellB1Moved]]⟩

/-! ## Insertions that pass the size test -/

/-- Specification side: where a position lies after `count` rows (or columns) have been
inserted before `before`. -/
def Position.shifted (dim : Axis) (before count : Int) (p : Position) : Position :=
  if p.dim dim ≥ before then p.setDim dim (p.dim dim + count) else p

/-- Specification side: the expression tree with every valid reference shifted. -/
def Node.shifted (dim : Axis) (before count : Int) : Node D → Node D
  | .Number value_ str => .Number value_ str
  | .Cell position_ =>
    .Cell (if position_.IsValid then position_.shifted dim before count else position_)
  | .UnaryOp k node_ => .UnaryOp k (node_.shifted dim before count)
  | .BinaryOp k left_ right_ =>
    .BinaryOp k (left_.shifted dim before count) (right_.shifted dim before count)

/-- Specification side: what a cell holds, with every valid reference shifted. -/
def Content.shifted (dim : Axis) (before count : Int) : Content D → Content D
  | .Text t => .Text t
  | .Formula n => .Formula (n.shifted dim before count)

/-- The cells of the second sheet are the cells of the first, moved and with their
references renamed as an insertion does. -/
structure Sheet.Shifted (dim : Axis) (before count : Int) (s s' : Sheet D) : Prop where
  moved : ∀ p c, s.cells p = some c →
    ∃ c', s'.cells (p.shifted dim before count) = some c' ∧
      c'.incoming_refs_ = c.incoming_refs_.map (Position.shifted dim before count) ∧
      c'.data_.content = c.data_.content.shifted dim before count ∧
      c'.value_cache_ = c.value_cache_ ∧ c'.Fresh
  only : ∀ q c', s'.cells q = some c' →
    ∃ p, q = p.shifted dim before count ∧ (s.cells p).isSome = true

/-- The pointer at row `r` and column `c` of a table, null outside the table. -/
def slotOf (T : List (List (Option (Cell D)))) (r c : Nat) : Option (Cell D) :=
  ((T[r]?.getD [])[c]?).getD none

/-! ## Deletions and the printable size (`black_formula.cpp`, `black_cell.cpp`, `black_sheet.cpp`) -/

/-- The `int` difference `a - b`; `none` when it is not representable, which is undefined
behaviour in the source. -/
def int_sub (a b : Int) : Option Int :=
  if -2 ^ 31 ≤ a - b ∧ a - b < 2 ^ 31 then some (a - b) else none

/-- Source `FormulaAst::Cell::HandleDeletedImpl`: the new position and the result; `none` when
`first + count` or `dim -= count` overflows. -/
def HandleDeletedImpl (position_ : Position) (dim : Axis) (first count : Int) :
    Option (Position × HandlingResult) :=
  if position_.IsValid && decide (position_.dim dim ≥ first) then
    match int_add first count with
    | none => none
    | some last =>
      if position_.dim dim < last then some (⟨-1, -1⟩, .ReferencesChanged)
      else
        (int_sub (position_.dim dim) count).map
          (fun v => (position_.setDim dim v, HandlingResult.ReferencesRenamedOnly))
  else some (position_, .NothingChanged)

/-- The `HandleDeletedRows` and `HandleDeletedCols` overrides of the four node classes, the
axis telling which of the two: the node after the call and the result. -/
def Node.HandleDeleted (dim : Axis) (first count : Int) :
    Node D → Option (Node D × HandlingResult)
  | .Number value_ str => some (.Number value_ str, .NothingChanged)
  | .Cell position_ =>
    (HandleDeletedImpl position_ dim first count).map (fun r => (.Cell r.1, r.2))
  | .UnaryOp k node_ =>
    (node_.HandleDeleted dim first count).map (fun r => (.UnaryOp k r.1, r.2))
  | .BinaryOp k left_ right_ =>
    match left_.HandleDeleted dim first count, right_.HandleDeleted dim first count with
    | some (l, a), some (r, b) => some (.BinaryOp k l r, a.max b)
    | _, _ => none

/-- Source `Formula::HandleDeletedRows` and `Formula::HandleDeletedCols`: the formula after the
call and the result. -/
def Formula.HandleDeleted (dim : Axis) (f : Formula D) (first count : Int) :
    Option (Formula D × HandlingResult) :=
  (f.node_.HandleDeleted dim first count).map
    (fun r => (Formula.HandleInsertionOrDeletion { f with node_ := r.1 } r.2, r.2))

/-- The `erase(remove_if(...))` of `Cell::HandleDeletedRows` and `Cell::HandleDeletedCols`: the
entries `pos` with `ValidateBoundaries(first, first + count, pos.dim)` are removed, the others
are kept as they are. The sum is computed for every entry; `none` when it overflows. -/
def deleteIncoming (dim : Axis) (first count : Int) (incoming_refs_ : List Position) :
    Option (List Position) :=
  match incoming_refs_ with
  | [] => some []
  | _ :: _ =>
    (int_add first count).map
      (fun last => incoming_refs_.filter (fun pos => !ValidateBoundaries first last (pos.dim dim)))

/-- Source `Cell::HandleDeletedRows` and `Cell::HandleDeletedCols` called on the cell stored in
the slot `self` of the table. -/
def HandleDeletedAt (dim : Axis) (fuel : Nat) (first count : Int) (s : Sheet D)
    (self : Position) : Res (Sheet D) Unit :=
  match s.slot self with
  | none => .stuck
  | some cell =>
    match deleteIncoming dim first count cell.incoming_refs_ with
    | none => .stuck
    | some incoming =>
      match cell.data_ with
      | .Text t => .ok () (s.setCell self ⟨.Text t, incoming, cell.value_cache_⟩)
      | .Formula f =>
        match f.HandleDeleted dim first count with
        | none => .stuck
        | some (f, result) =>
          let s := s.setCell self ⟨.Formula f, incoming, cell.value_cache_⟩
          if result = .ReferencesChanged then InvalidateCache fuel s self else .ok () s

/-- The body of the loop over the cells of a row in `Sheet::DeleteRows` and
`Sheet::DeleteCols`. -/
def deletedCell (dim : Axis) (fuel : Nat) (first count : Int) (row : Nat) (s : Sheet D)
    (col : Nat) : Res (Sheet D) Unit :=
  match s.slot ⟨row, col⟩ with
  | none => .ok () s
  | some _ =>
    match HandleDeletedAt dim fuel first count s ⟨row, col⟩ with
    | .ok _ s =>
      match s.slot ⟨row, col⟩ with
      | none => .stuck
      | some cell =>
        if cell.Empty && !cell.HasIncomingRefs then .ok () (s.setSlot ⟨row, col⟩ none)
        else .ok () s
    | .raise e s => .raise e s
    | .stuck => .stuck

/-- The body of the loop over the rows in `Sheet::DeleteRows` and `Sheet::DeleteCols`: the cells
of the row are handled, then the row is shrunk. -/
def deletedRow (dim : Axis) (fuel : Nat) (first count : Int) (s : Sheet D) (row : Nat) :
    Res (Sheet D) Unit :=
  match forEachRes (deletedCell dim fuel first count row)
      (List.range (s.table_[row]?.getD []).length) s with
  | .ok _ s => .ok () ⟨s.table_.set row (ShrinkRow (s.table_[row]?.getD []))⟩
  | .raise e s => .raise e s
  | .stuck => .stuck

/-- The loop over the rows and the final `ShrinkTable` of `Sheet::DeleteRows` and
`Sheet::DeleteCols`. -/
def deletedTable (dim : Axis) (fuel : Nat) (first count : Int) (s : Sheet D) :
    Res (Sheet D) Unit :=
  match forEachRes (deletedRow dim fuel first count) (List.range s.table_.length) s with
  | .ok _ s => .ok () s.ShrinkTable
  | .raise e s => .raise e s
  | .stuck => .stuck

/-- Source `Sheet::DeleteRows`. -/
def Sheet.DeleteRows (fuel : Nat) (s : Sheet D) (first count : Int) : Res (Sheet D) Unit :=
  let erase_in_the_middle : Bool := decide (s.table_.length > to_size_t first)
  if erase_in_the_middle && count != 0 then
    let n := min (s.table_.length - to_size_t first) (to_size_t count)
    deletedTable .Row fuel first count
      ⟨s.table_.take first.toNat ++ s.table_.drop (first.toNat + n)⟩
  else .ok () s

/-- The first loop of `Sheet::DeleteCols` on one row: the slots from
`min(row.size(), first)` on, at most `count` of them, are erased. -/
def eraseCols (first count : Int) (row : List (Option (Cell D))) : List (Option (Cell D)) :=
  let b := min row.length (to_size_t first)
  row.take b ++ row.drop (b + min (row.length - b) (to_size_t count))

/-- Source `Sheet::DeleteCols`. The flag `erase_in_the_middle` is assigned in every iteration
of the first loop, so after the loop it tells whether the last row reached the column
`first`. -/
def Sheet.DeleteCols (fuel : Nat) (s : Sheet D) (first count : Int) : Res (Sheet D) Unit :=
  if count = 0 then .ok () s
  else
    let erase_in_the_middle : Bool :=
      match s.table_.getLast? with
      | some row => decide (min row.length (to_size_t first) ≠ row.length)
      | none => false
    let s : Sheet D := ⟨s.table_.map (eraseCols first count)⟩
    if erase_in_the_middle then deletedTable .Col fuel first count s else .ok () s

/-- Modelled from the spec: the struct `Size` is declared in `common.h`, which is not among
the sources; it holds the two `int` members `rows` and `cols`. -/
structure Size where
  rows : Int
  cols : Int
deriving DecidableEq, Repr

/-- The statement `if (cell && !cell->Empty()) { size.rows = rows; size.cols = max(size.cols,
cols); }` of `Sheet::GetPrintableSize`. -/
def printableCell (rows cols : Int) (size : Size) (cell : Option (Cell D)) : Size :=
  match cell with
  | some c => if !c.Empty then ⟨rows, max size.cols cols⟩ else size
  | none => size

/-- The inner loop of `Sheet::GetPrintableSize` over the slots of a row: the state is the
counter `cols` and `size`; `none` when `++cols` overflows. -/
def printableRow (rows : Int) : List (Option (Cell D)) → Int × Size → Option (Int × Size)
  | [], st => some st
  | cell :: rest, (cols, size) =>
    match int_add cols 1 with
    | none => none
    | some cols => printableRow rows rest (cols, printableCell rows cols size cell)

/-- The outer loop of `Sheet::GetPrintableSize` over the rows: the state is the counter `rows`
and `size`; `none` when `++rows` overflows. -/
def printableRows : List (List (Option (Cell D))) → Int × Size → Option Size
  | [], (_, size) => some size
  | row :: rest, (rows, size) =>
    match int_add rows 1 with
    | none => none
    | some rows =>
      match printableRow rows row (0, size) with
      | none => none
      | some (_, size) => printableRows rest (rows, size)

/-- Source `Sheet::GetPrintableSize`. -/
def Sheet.GetPrintableSize (s : Sheet D) : Option Size :=
  printableRows s.table_ (0, ⟨0, 0⟩)

/-! ## The handlers of the expression tree -/

/-- Specification side: the tree has a valid reference whose row (or column) is at least
`before`. -/
def Node.refersFrom (dim : Axis) (before : Int) (T : Node D) : Bool :=
  T.cellPositions.any (fun p => p.IsValid && decide (p.dim dim ≥ before))

/-- Specification side: the result of the insertion handlers as the specification gives it. -/
def Node.insertedResult (dim : Axis) (before : Int) (T : Node D) : HandlingResult :=
  if T.refersFrom dim before then .ReferencesRenamedOnly else .NothingChanged

/-- Specification side: where a position lies after the rows (or columns) `[first, first + count)`
have been deleted; a position inside the range becomes the sentinel. -/
def Position.deleted (dim : Axis) (first count : Int) (p : Position) : Position :=
  if p.dim dim < first then p
  else if p.dim dim < first + count then ⟨-1, -1⟩
  else p.setDim dim (p.dim dim - count)

/-- Specification side: the expression tree with every valid reference moved or invalidated by a
deletion. -/
def Node.deleted (dim : Axis) (first count : Int) : Node D → Node D
  | .Number value_ str => .Number value_ str
  | .Cell position_ =>
    .Cell (if position_.IsValid then position_.deleted dim first count else position_)
  | .UnaryOp k node_ => .UnaryOp k (node_.deleted dim first count)
  | .BinaryOp k left_ right_ =>
    .BinaryOp k (left_.deleted dim first count) (right_.deleted dim first count)

/-- Specification side: the tree has a valid reference whose row (or column) is in
`[first, first + count)`. -/
def Node.refersInto (dim : Axis) (first count : Int) (T : Node D) : Bool :=
  T.cellPositions.any
    (fun p => p.IsValid && decide (first ≤ p.dim dim) && decide (p.dim dim < first + count))

/-- Specification side: the severity of a deletion, from whether a reference was invalidated and
whether one was renumbered. -/
def severity (invalidated renumbered : Bool) : HandlingResult :=
  if invalidated then .ReferencesChanged
  else if renumbered then .ReferencesRenamedOnly
  else .NothingChanged

/-- Specification side: the result of the deletion handlers as the specification gives it. -/
def Node.deletedResult (dim : Axis) (first count : Int) (T : Node D) : HandlingResult :=
  severity (T.refersInto dim first count) (T.refersFrom dim (first + count))

/-- The cell `x` with incoming references from `A1`, `A2` and `A6`, alone in a sheet. -/
def sheetIncoming : Sheet (Option Int) :=
  ⟨[[some ⟨.Text "x".toList, [⟨0, 0⟩, ⟨1, 0⟩, ⟨5, 0⟩], none⟩]]⟩

/-! ## The printable size -/

/-- The slot holds a cell that is not empty. -/
def occupied (slot : Option (Cell D)) : Bool :=
  match slot with
  | some c => !c.Empty
  | none => false

/-- Specification side: the number of slots of a row up to its last occupied one. -/
def extent : List (Option (Cell D)) → Nat
  | [] => 0
  | x :: xs => if extent xs = 0 then (if occupied x then 1 else 0) else extent xs + 1

/-- Specification side: the number of rows of a table up to the last one with an occupied slot. -/
def rowExtent : List (List (Option (Cell D))) → Nat
  | [] => 0
  | row :: rest =>
    if rowExtent rest = 0 then (if extent row = 0 then 0 else 1) else rowExtent rest + 1

/-- Specification side: the largest extent of a row of the table. -/
def colExtent : List (List (Option (Cell D))) → Nat
  | [] => 0
  | row :: rest => max (extent row) (colExtent rest)

/-! ## Deleted rows -/

/-- The sheet after `SetCell(A1, "=B2")` and `SetCell(C3, "=A1")` on the empty sheet. -/
def sheetChain0 : Sheet (Option Int) :=
  ⟨[[some ⟨.Formula ⟨.Cell ⟨1, 1⟩, none, none, some [⟨1, 1⟩]⟩, [⟨2, 2⟩], none⟩],
    [none, some ⟨.Text [], [⟨0, 0⟩], none⟩],
    [none, none, some ⟨.Formula ⟨.Cell ⟨0, 0⟩, none, none, some [⟨0, 0⟩]⟩, [], none⟩]]⟩

/-- The sheet after `GetValue(C3)` on `sheetChain0`: the three cells have their value cached. -/
def sheetChain : Sheet (Option Int) :=
  ⟨[[some ⟨.Formula ⟨.Cell ⟨1, 1⟩, some (.number (some 0)), none, some [⟨1, 1⟩]⟩, [⟨2, 2⟩],
      some (.number (some 0))⟩],
    [none, some ⟨.Text [], [⟨0, 0⟩], some (.text [])⟩],
    [none, none, some ⟨.Formula ⟨.Cell ⟨0, 0⟩, some (.number (some 0)), none, some [⟨0, 0⟩]⟩,
      [], some (.number (some 0))⟩]]⟩

/-- The sheet after `DeleteRows(1, 1)` on the sheet after `SetCell(A1, "=B2")`. -/
def sheetB2Deleted : Sheet (Option Int) :=
  ⟨[[some ⟨.Formula ⟨.Cell ⟨-1, -1⟩, none, none, none⟩, [], none⟩]]⟩

/-- The sheet after `SetCell(A1, "1")`, `SetCell(C1, "3")` and `SetCell(A2, "2")` on the empty
sheet. -/
def sheetGap : Sheet (Option Int) :=
  ⟨[[some ⟨.Text "1".toList, [], none⟩, none, some ⟨.Text "3".toList, [], none⟩],
    [some ⟨.Text "2".toList, [], none⟩]]⟩

/-- The sheet after `SetCell(A1, "=C1")` and `SetCell(A2, "x")` on the empty sheet. -/
def sheetShort : Sheet (Option Int) :=
  ⟨[[some ⟨.Formula ⟨.Cell ⟨0, 2⟩, none, none, some [⟨0, 2⟩]⟩, [], none⟩, none,
      some ⟨.Text [], [⟨0, 0⟩], none⟩],
    [some ⟨.Text "x".toList, [], none⟩]]⟩

/-- The stored table has no row whose last slot is null, and its last row is not empty. -/
def Sheet.Shrunk (s : Sheet D) : Bool :=
  s.table_.all (fun row => match row.getLast? with
    | some none => false
    | _ => true)
  && (match s.table_.getLast? with
    | some [] => false
    | _ => true)

/-! ## Sequences of calls on a formula -/

/-- A call on a `Formula` that reads or may clear its memoized expression and referenced
cells. -/
inductive FormulaCall where
  | GetExpression
  | GetReferencedCells
  | HandleInserted (dim : Axis) (before count : Int)
  | HandleDeleted (dim : Axis) (first count : Int)
  | InvalidateCache
deriving DecidableEq, Repr

/-- What a call on a `Formula` returns. -/
inductive CallResult where
  | expression (e : Str)
  | cells (r : List Position)
  | handled (r : HandlingResult)
  | done
deriving DecidableEq, Repr

/-- One call on a formula, by the source methods `Formula::GetExpression`,
`Formula::GetReferencedCells`, `Formula::HandleInsertedRows/Cols`,
`Formula::HandleDeletedRows/Cols` and `Formula::InvalidateCache`: the formula after the
call and what the call returns; `none` when the arithmetic of a handler overflows. -/
def Formula.call (f : Formula D) : FormulaCall → Option (Formula D × CallResult)
  | .GetExpression => some (f.GetExpression.2, .expression f.GetExpression.1)
  | .GetReferencedCells => some (f.GetReferencedCells.2, .cells f.GetReferencedCells.1)
  | .HandleInserted dim before count =>
    (f.node_.HandleInserted dim before count).map
      (fun r => (Formula.HandleInsertionOrDeletion { f with node_ := r.1 } r.2, .handled r.2))
  | .HandleDeleted dim first count =>
    (Formula.HandleDeleted dim f first count).map (fun r => (r.1, .handled r.2))
  | .InvalidateCache => some (f.InvalidateCache, .done)

/-- A sequence of calls on a formula: the formula after the last call and what each call
has returned. -/
def Formula.calls : Formula D → List FormulaCall → Option (Formula D × List CallResult)
  | f, [] => some (f, [])
  | f, c :: cs =>
    match f.call c with
    | none => none
    | some (f', r) => (Formula.calls f' cs).map (fun q => (q.1, r :: q.2))

/-- The same call on a bare tree, nothing being memoized: `GetExpression` and
`GetReferencedCells` compute their result from the tree. -/
def Node.callFresh (n : Node D) : FormulaCall → Option (Node D × CallResult)
  | .GetExpression => some (n, .expression n.GetExpression)
  | .GetReferencedCells => some (n, .cells n.GetReferencedCells)
  | .HandleInserted dim before count =>
    (n.HandleInserted dim before count).map (fun r => (r.1, .handled r.2))
  | .HandleDeleted dim first count =>
    (n.HandleDeleted dim first count).map (fun r => (r.1, .handled r.2))
  | .InvalidateCache => some (n, .done)

/-- A sequence of calls on a bare tree. -/
def Node.callsFresh : Node D → List FormulaCall → Option (Node D × List CallResult)
  | n, [] => some (n, [])
  | n, c :: cs =>
    match n.callFresh c with
    | none => none
    | some (n', r) => (Node.callsFresh n' cs).map (fun q => (q.1, r :: q.2))

/-- The arguments of a handler call are not negative and its sums stay in the range of
`int`. -/
def FormulaCall.Fits : FormulaCall → Prop
  | .HandleInserted _ before count => 0 ≤ before ∧ 0 ≤ count ∧ count + 16384 ≤ 2 ^ 31
  | .HandleDeleted _ first count => 0 ≤ first ∧ 0 ≤ count ∧ first + count < 2 ^ 31
  | _ => True

/-- The formula `B2+A4` just constructed, then `GetExpression`, `HandleDeletedRows(1, 1)`,
`GetExpression`, `GetReferencedCells`, `HandleInsertedCols(0, 2)`, `GetExpression`. -/
def exampleCalls : List FormulaCall :=
  [.GetExpression, .HandleDeleted .Row 1 1, .GetExpression, .GetReferencedCells,
    .HandleInserted .Col 0 2, .GetExpression]

/-- Every slot of the second table holds what the same slot of the first table holds, up to
the memoized expression and the memoized reference list of a formula. -/
def Sheet.SameSlots (s s' : Sheet D) : Prop :=
  ∀ r c : Nat, (slotOf s'.table_ r c).map Cell.strip = (slotOf s.table_ r c).map Cell.strip

/-- The state a search through the sheet returns or throws with has the slots of the sheet
`s`. -/
def Res.KeepsSlots {α β : Type} (s : Sheet D) : Res (Sheet D × α) β → Prop
  | .ok _ st => s.SameSlots st.1
  | .raise _ st => s.SameSlots st.1
  | .stuck => True

/-! ## Theorems -/

theorem isUpper_toNat {c : Char} (h : c.isUpper = true) : 65 ≤ c.toNat ∧ c.toNat ≤ 90 := by
  simp only [Char.isUpper, Bool.and_eq_true, decide_eq_true_eq] at h
  have h1 := h.1
  have h2 := h.2
  simp only [Char.toNat]
  exact ⟨h1, h2⟩

theorem isDigit_toNat {c : Char} (h : c.isDigit = true) : 48 ≤ c.toNat ∧ c.toNat ≤ 57 := by
  simp only [Char.isDigit, Bool.and_eq_true, decide_eq_true_eq] at h
  have h1 := h.1
  have h2 := h.2
  simp only [Char.toNat]
  exact ⟨h1, h2⟩

theorem isDigit_not_isUpper {c : Char} (h : c.isDigit = true) : c.isUpper = false := by
  have := isDigit_toNat h
  cases hu : c.isUpper with
  | false => rfl
  | true => have := isUpper_toNat hu; omega

theorem kSizeMod_eq : kSizeMod = 18446744073709551616 := by norm_num [kSizeMod]

theorem kMaxRows_eq : kMaxRows = 16384 := rfl

theorem kMaxCols_eq : kMaxCols = 16384 := rfl

theorem kLettersCount_eq : kLettersCount = 26 := by decide

theorem toNat_A : 'A'.toNat = 65 := by decide

theorem toNat_0 : '0'.toNat = 48 := by decide

theorem Char.toNat_lt (ch : Char) : ch.toNat < 1114112 := by
  have h := ch.valid
  simp only [Char.toNat]
  rcases h with h | h
  · have : ch.val.toNat < 55296 := h
    omega
  · exact h.2

theorem ValidateBoundaries_nat (last val : Nat) :
    ValidateBoundaries 0 last val = decide (val < last) := by
  simp [ValidateBoundaries]

theorem lettersAcc_ge (letters : Str) : ∀ col, col ≤ lettersAcc col letters := by
  induction letters with
  | nil => intro col; simp [lettersAcc]
  | cons ch rest ih =>
    intro col
    have := ih ((col + 1) * 26 + (ch.toNat - 65))
    simp only [lettersAcc, List.foldl_cons] at this ⊢
    omega

theorem FromStringLetters_true (letters : Str) :
    ∀ col, col < kMaxCols →
      FromStringLetters letters col true =
        if lettersAcc col letters < kMaxCols then some (lettersAcc col letters) else none := by
  induction letters with
  | nil => intro col h; simp [FromStringLetters, lettersAcc, h]
  | cons ch rest ih =>
    intro col h
    rw [kMaxCols_eq] at h
    have hch : ch.toNat < 1114112 := Char.toNat_lt ch
    simp only [FromStringLetters, kSizeMod_eq, kLettersCount_eq, toNat_A, if_true,
      ValidateBoundaries_nat]
    have e1 : (col + 1) % 18446744073709551616 = col + 1 := Nat.mod_eq_of_lt (by omega)
    have e2 : ((col + 1) * 26) % 18446744073709551616 = (col + 1) * 26 :=
      Nat.mod_eq_of_lt (by omega)
    have e3 : ((col + 1) * 26 + (ch.toNat - 65)) % 18446744073709551616
        = (col + 1) * 26 + (ch.toNat - 65) := Nat.mod_eq_of_lt (by omega)
    rw [e1, e2, e3]
    by_cases hlt : (col + 1) * 26 + (ch.toNat - 65) < kMaxCols
    · simp only [hlt, decide_True, Bool.not_true, Bool.false_eq_true, if_false]
      rw [ih _ hlt]
      simp [lettersAcc]
    · have := lettersAcc_ge rest ((col + 1) * 26 + (ch.toNat - 65))
      have h2 : ¬ lettersAcc col (ch :: rest) < kMaxCols := by
        simp only [lettersAcc, List.foldl_cons] at this ⊢
        omega
      simp [hlt, h2]

theorem digitsAcc_ge (digits : Str) : ∀ row, row ≤ digitsAcc row digits := by
  induction digits with
  | nil => intro row; simp [digitsAcc]
  | cons ch rest ih =>
    intro row
    have := ih (row * 10 + (ch.toNat - 48))
    simp only [digitsAcc, List.foldl_cons] at this ⊢
    omega

theorem FromStringDigits_eq (digits : Str) :
    ∀ row, row ≤ kMaxRows →
      FromStringDigits digits row =
        if digitsAcc row digits ≤ kMaxRows then some (digitsAcc row digits) else none := by
  induction digits with
  | nil => intro row h; simp [FromStringDigits, digitsAcc, h]
  | cons ch rest ih =>
    intro row h
    rw [kMaxRows_eq] at h
    have hch : ch.toNat < 1114112 := Char.toNat_lt ch
    simp only [FromStringDigits, kSizeMod_eq, toNat_0, ValidateBoundaries_nat]
    have e2 : (row * 10) % 18446744073709551616 = row * 10 := Nat.mod_eq_of_lt (by omega)
    have e3 : (row * 10 + (ch.toNat - 48)) % 18446744073709551616
        = row * 10 + (ch.toNat - 48) := Nat.mod_eq_of_lt (by omega)
    rw [e2, e3]
    by_cases hle : row * 10 + (ch.toNat - 48) ≤ kMaxRows
    · have hc : (decide (row * 10 + (ch.toNat - 48) < kMaxRows)
          || decide ((row * 10 + (ch.toNat - 48) + 18446744073709551616 - 1)
              % 18446744073709551616 < kMaxRows)) = true := by
        rw [kMaxRows_eq] at hle ⊢
        simp only [Bool.or_eq_true, decide_eq_true_eq]
        omega
      simp only [hc, Bool.not_true, Bool.false_eq_true, if_false]
      rw [ih _ hle]
      simp [digitsAcc]
    · have hc : (decide (row * 10 + (ch.toNat - 48) < kMaxRows)
          || decide ((row * 10 + (ch.toNat - 48) + 18446744073709551616 - 1)
              % 18446744073709551616 < kMaxRows)) = false := by
        rw [kMaxRows_eq] at hle ⊢
        simp only [Bool.or_eq_false_iff, decide_eq_false_iff_not]
        omega
      have := digitsAcc_ge rest (row * 10 + (ch.toNat - 48))
      have h2 : ¬ digitsAcc row (ch :: rest) ≤ kMaxRows := by
        simp only [digitsAcc, List.foldl_cons] at this ⊢
        omega
      simp only [hc, Bool.not_false, if_true, h2, if_false]

theorem decimalOf_eq (digits : Str) : decimalOf digits = digitsAcc 0 digits := by
  simp [decimalOf, digitsAcc, toNat_0]

theorem FromStringLetters_false (ch : Char) (rest : Str) (hu : ch.isUpper = true) :
    FromStringLetters (ch :: rest) 0 false =
      if lettersAcc (ch.toNat - 65) rest < kMaxCols then some (lettersAcc (ch.toNat - 65) rest)
      else none := by
  have hb := isUpper_toNat hu
  have hlt : ch.toNat - 65 < kMaxCols := by rw [kMaxCols_eq]; omega
  have e3 : (ch.toNat - 65) % 18446744073709551616 = ch.toNat - 65 :=
    Nat.mod_eq_of_lt (by omega)
  simp only [FromStringLetters, kSizeMod_eq, kLettersCount_eq, toNat_A, ValidateBoundaries_nat,
    Bool.false_eq_true, if_false, Nat.zero_add, Nat.zero_mod, Nat.zero_mul, e3, hlt, decide_True,
    Bool.not_true]
  exact FromStringLetters_true rest _ hlt

theorem bijective_foldl (rest : Str) :
    ∀ a b, b = a + 1 →
      rest.foldl (fun acc ch => acc * 26 + (ch.toNat - 'A'.toNat + 1)) b
        = lettersAcc a rest + 1 := by
  induction rest with
  | nil => intro a b h; simp [lettersAcc, h]
  | cons ch rest ih =>
    intro a b h
    simp only [List.foldl_cons, lettersAcc]
    have := ih ((a + 1) * 26 + (ch.toNat - 65)) (b * 26 + (ch.toNat - 'A'.toNat + 1))
      (by rw [toNat_A, h]; omega)
    simpa [lettersAcc] using this

theorem columnOf_cons (ch : Char) (rest : Str) :
    columnOf (ch :: rest) = lettersAcc (ch.toNat - 65) rest := by
  have := bijective_foldl rest (ch.toNat - 65) (0 * 26 + (ch.toNat - 'A'.toNat + 1))
    (by rw [toNat_A]; omega)
  simp only [columnOf, bijectiveBase26, List.foldl_cons]
  omega

theorem static_cast_int_small (x : Nat) (h : x ≤ 16384) : static_cast_int x = x := by
  have e : x % 2 ^ 32 = x := Nat.mod_eq_of_lt (by omega)
  simp only [static_cast_int, e]
  rw [if_pos (by omega)]

theorem takeWhile_append_of {α : Type} (p : α → Bool) (xs ys : List α)
    (hx : ∀ x ∈ xs, p x = true) (hy : ∀ y, ys.head? = some y → p y = false) :
    (xs ++ ys).takeWhile p = xs ∧ (xs ++ ys).dropWhile p = ys := by
  induction xs with
  | nil =>
    cases ys with
    | nil => simp
    | cons y ys =>
      have := hy y rfl
      simp [List.takeWhile, List.dropWhile, this]
  | cons x xs ih =>
    have hx0 := hx x (List.mem_cons_self _ _)
    have := ih (fun z hz => hx z (List.mem_cons_of_mem _ hz))
    simp [List.takeWhile, List.dropWhile, hx0, this]

theorem takeWhile_all {α : Type} (p : α → Bool) (xs : List α) :
    ∀ x ∈ xs.takeWhile p, p x = true := by
  intro x hx
  exact (List.mem_takeWhile_imp hx)

theorem dropWhile_head {α : Type} (p : α → Bool) (xs : List α) :
    ∀ y, (xs.dropWhile p).head? = some y → p y = false := by
  induction xs with
  | nil => simp
  | cons x xs ih =>
    intro y
    by_cases hx : p x = true
    · simp only [List.dropWhile, hx]; exact ih y
    · simp only [Bool.not_eq_true] at hx
      simp only [List.dropWhile, hx, List.head?_cons, Option.some.injEq]
      intro h; rw [← h]; exact hx

theorem FromString_append (ls ds : Str) (hl : ls ≠ []) (hd : ds ≠ [])
    (hu : ∀ c ∈ ls, c.isUpper = true) (hg : ∀ c ∈ ds, c.isDigit = true) :
    Position.FromString (ls ++ ds) =
      if columnOf ls < kMaxCols ∧ decimalOf ds ≤ kMaxRows then
        ⟨(decimalOf ds : Int) - 1, (columnOf ls : Int)⟩
      else ⟨-1, -1⟩ := by
  have h1 := takeWhile_append_of Char.isUpper ls ds hu (by
    intro y hy
    cases ds with
    | nil => simp at hy
    | cons d ds =>
      simp only [List.head?_cons, Option.some.injEq] at hy
      subst hy
      exact isDigit_not_isUpper (hg _ (List.mem_cons_self _ _)))
  have h2 := takeWhile_append_of Char.isDigit ds [] hg (by simp)
  simp only [List.append_nil] at h2
  obtain ⟨ch, rest, rfl⟩ := List.exists_cons_of_ne_nil hl
  obtain ⟨dh, dt, rfl⟩ := List.exists_cons_of_ne_nil hd
  have hL := FromStringLetters_false ch rest (hu _ (List.mem_cons_self _ _))
  have hD := FromStringDigits_eq (dh :: dt) 0 (Nat.zero_le _)
  rw [← decimalOf_eq] at hD
  rw [← columnOf_cons] at hL
  simp only [Position.FromString, h1.1, h1.2, h2.1, h2.2, hL, hD]
  by_cases hc : columnOf (ch :: rest) < kMaxCols
  · by_cases hr : decimalOf (dh :: dt) ≤ kMaxRows
    · have e1 := static_cast_int_small (columnOf (ch :: rest))
        (by rw [kMaxCols_eq] at hc; exact hc.le)
      have e2 := static_cast_int_small (decimalOf (dh :: dt))
        (by rw [kMaxRows_eq] at hr; exact hr)
      simp [hc, hr, e1, e2]
    · simp [hc, hr]
  · simp [hc]

theorem FromString_shape (s : Str) :
    Position.FromString s = ⟨-1, -1⟩ ∨
      ∃ ls ds, s = ls ++ ds ∧ ls ≠ [] ∧ ds ≠ [] ∧ (∀ c ∈ ls, c.isUpper = true) ∧
        (∀ c ∈ ds, c.isDigit = true) := by
  by_cases hc : ((s.takeWhile Char.isUpper).isEmpty || (s.dropWhile Char.isUpper).isEmpty
      || ((s.dropWhile Char.isUpper).takeWhile Char.isDigit).isEmpty
      || !((s.dropWhile Char.isUpper).dropWhile Char.isDigit).isEmpty) = true
  · left
    simp only [Position.FromString, hc, if_true]
  · right
    simp only [Bool.or_eq_true, not_or, Bool.not_eq_true, List.isEmpty_eq_false,
      Bool.not_eq_false', List.isEmpty_iff, Bool.not_eq_true', Bool.not_eq_false] at hc
    refine ⟨s.takeWhile Char.isUpper, (s.dropWhile Char.isUpper).takeWhile Char.isDigit,
      ?_, ?_, ?_, takeWhile_all _ _, takeWhile_all _ _⟩
    · have e1 := List.takeWhile_append_dropWhile Char.isUpper s
      have e2 := List.takeWhile_append_dropWhile Char.isDigit (s.dropWhile Char.isUpper)
      rw [not_not.mp hc.2, List.append_nil] at e2
      rw [e2, e1]
    · exact hc.1.1.1
    · exact hc.1.2

theorem IsValid_iff (p : Position) :
    p.IsValid = true ↔ 0 ≤ p.row ∧ p.row < kMaxRows ∧ 0 ≤ p.col ∧ p.col < kMaxCols := by
  simp [Position.IsValid, ValidateBoundaries, and_assoc]

theorem sentinel_not_valid : (⟨-1, -1⟩ : Position).IsValid = false := by decide

/-- C10: for every string `s`, `Position::FromString(s)` is a valid position exactly when `s`
is one or more upper-case ASCII letters followed by one or more decimal digits, the letters
denoting (base 26 with no zero digit) a column below `kMaxCols` and the digits a row number
`n` with `1 <= n <= kMaxRows`; the result is then row `n - 1` and that column. Row number 0
and row numbers above `kMaxRows` are not labels, hence give an invalid position. -/
theorem FromString_valid_iff_label (s : Str) :
    ((Position.FromString s).IsValid = true ↔ ∃ ls ds, s = ls ++ ds ∧ IsCellLabel ls ds) ∧
    (∀ ls ds, s = ls ++ ds → IsCellLabel ls ds →
      Position.FromString s = ⟨(decimalOf ds : Int) - 1, (columnOf ls : Int)⟩) := by
  have key : ∀ ls ds, s = ls ++ ds → IsCellLabel ls ds →
      Position.FromString s = ⟨(decimalOf ds : Int) - 1, (columnOf ls : Int)⟩ := by
    intro ls ds hs hlab
    obtain ⟨hl, hd, hu, hg, hc, _, hr⟩ := hlab
    rw [hs, FromString_append ls ds hl hd hu hg, if_pos ⟨hc, hr⟩]
  refine ⟨⟨?_, ?_⟩, key⟩
  · intro hv
    rcases FromString_shape s with h | ⟨ls, ds, hs, hl, hd, hu, hg⟩
    · rw [h, sentinel_not_valid] at hv
      exact absurd hv (by decide)
    · refine ⟨ls, ds, hs, hl, hd, hu, hg, ?_⟩
      rw [hs, FromString_append ls ds hl hd hu hg] at hv
      by_cases hc : columnOf ls < kMaxCols ∧ decimalOf ds ≤ kMaxRows
      · rw [if_pos hc, IsValid_iff] at hv
        simp only at hv
        refine ⟨hc.1, ?_, hc.2⟩
        omega
      · rw [if_neg hc, sentinel_not_valid] at hv
        exact absurd hv (by decide)
  · rintro ⟨ls, ds, hs, hlab⟩
    rw [key ls ds hs hlab, IsValid_iff]
    obtain ⟨_, _, _, _, hc, h1, hr⟩ := hlab
    simp only
    omega

/-- C9: on the text `A0` the function `Position::FromString` returns row -1 and column 0, a
position that is not valid and is not the sentinel of row -1 and column -1 which every
rejecting path of the function returns. -/
theorem FromString_A0 :
    Position.FromString "A0".toList = ⟨-1, 0⟩ ∧
      (Position.FromString "A0".toList).IsValid = false ∧
      Position.FromString "A0".toList ≠ ⟨-1, -1⟩ := by decide

theorem bijectiveBase26_reverse (L : Str) : bijectiveBase26 L.reverse = bijRev L := by
  simp [bijectiveBase26, bijRev, List.foldl_reverse]

theorem letterChar (k : Nat) (h : k < 26) :
    (Char.ofNat (k + 65)).toNat = k + 65 ∧ (Char.ofNat (k + 65)).isUpper = true := by
  revert k
  decide

theorem digitChar_spec (d : Nat) (h : d < 10) :
    (Nat.digitChar d).toNat = d + 48 ∧ (Nat.digitChar d).isDigit = true := by
  revert d
  decide

theorem ToStringLoop_spec : ∀ (fuel n : Nat), n < fuel → ∀ (cur : Int) (nf : Bool) (res : Str),
    cur - (if nf then 1 else 0) = (n : Int) →
    ∃ L, ToStringLoop fuel cur nf res = res ++ L ∧ L ≠ [] ∧ (∀ c ∈ L, c.isUpper = true) ∧
      bijRev L = n + 1 := by
  intro fuel
  induction fuel with
  | zero => intro n h; omega
  | succ fuel ih =>
    intro n hn cur nf res hcur
    have hmod : (n : Int).tmod (kLettersCount : Int) = ((n % 26 : Nat) : Int) := by
      rw [kLettersCount_eq, Int.tmod_eq_emod (by omega) (by omega)]
      omega
    have hdiv : (n : Int).tdiv (kLettersCount : Int) = ((n / 26 : Nat) : Int) := by
      rw [kLettersCount_eq, Int.tdiv_eq_ediv (by omega) (by omega)]
      omega
    have hch : (((n % 26 : Nat) : Int) + (('A'.toNat : Nat) : Int)).toNat = n % 26 + 65 := by
      rw [toNat_A]; omega
    have hk := letterChar (n % 26) (Nat.mod_lt _ (by omega))
    simp only [ToStringLoop, hcur, hmod, hdiv, hch]
    by_cases hz : n / 26 = 0
    · have : ((n / 26 : Nat) : Int) = 0 := by omega
      simp only [this, ne_eq, not_true_eq_false, if_false]
      refine ⟨[Char.ofNat (n % 26 + 65)], rfl, by simp, ?_, ?_⟩
      · intro c hc
        simp only [List.mem_singleton] at hc
        rw [hc]; exact hk.2
      · simp only [bijRev, List.foldr_cons, List.foldr_nil, hk.1, toNat_A]
        omega
    · have hne : ((n / 26 : Nat) : Int) ≠ 0 := by omega
      simp only [ne_eq, hne, not_false_eq_true, if_true]
      obtain ⟨L, hL, _, hLu, hLv⟩ := ih (n / 26 - 1) (by omega) ((n / 26 : Nat) : Int) true
        (res ++ [Char.ofNat (n % 26 + 65)]) (by simp only [if_true]; omega)
      refine ⟨Char.ofNat (n % 26 + 65) :: L, ?_, by simp, ?_, ?_⟩
      · rw [hL]; simp
      · intro c hc
        rcases List.mem_cons.mp hc with h | h
        · rw [h]; exact hk.2
        · exact hLu c h
      · simp only [bijRev, List.foldr_cons, hk.1, toNat_A] at hLv ⊢
        omega

theorem digitsAcc_append (r : Nat) (L : Str) (d : Char) :
    digitsAcc r (L ++ [d]) = digitsAcc r L * 10 + (d.toNat - 48) := by
  simp [digitsAcc, List.foldl_append]

theorem toDigitsCore_spec : ∀ (fuel n : Nat), n < fuel → ∀ ds : Str,
    ∃ L, Nat.toDigitsCore 10 fuel n ds = L ++ ds ∧ L ≠ [] ∧ (∀ c ∈ L, c.isDigit = true) ∧
      digitsAcc 0 L = n := by
  intro fuel
  induction fuel with
  | zero => intro n h; omega
  | succ fuel ih =>
    intro n hn ds
    have hk := digitChar_spec (n % 10) (Nat.mod_lt _ (by omega))
    simp only [Nat.toDigitsCore]
    by_cases hz : n / 10 = 0
    · simp only [hz, if_true]
      refine ⟨[Nat.digitChar (n % 10)], rfl, by simp, ?_, ?_⟩
      · intro c hc
        simp only [List.mem_singleton] at hc
        rw [hc]; exact hk.2
      · simp only [digitsAcc, List.foldl_cons, List.foldl_nil, hk.1]
        omega
    · simp only [hz, if_false]
      obtain ⟨L, hL, _, hLu, hLv⟩ := ih (n / 10) (by omega) (Nat.digitChar (n % 10) :: ds)
      refine ⟨L ++ [Nat.digitChar (n % 10)], ?_, by simp, ?_, ?_⟩
      · rw [hL]; simp
      · intro c hc
        rcases List.mem_append.mp hc with h | h
        · exact hLu c h
        · simp only [List.mem_singleton] at h
          rw [h]; exact hk.2
      · rw [digitsAcc_append, hLv, hk.1]
        omega

/-- C8: for every valid position `p`, `Position::FromString(p.ToString())` is `p`. -/
theorem FromString_ToString (p : Position) (h : p.IsValid = true) :
    Position.FromString p.ToString = p := by
  obtain ⟨r, c⟩ := p
  have hv := (IsValid_iff _).mp h
  simp only at hv
  obtain ⟨L, hL, hLne, hLu, hLv⟩ := ToStringLoop_spec (c.toNat + 1) c.toNat (by omega) c false []
    (by simp only [Bool.false_eq_true, if_false]; omega)
  obtain ⟨Dg, hD, hDne, hDu, hDv⟩ := toDigitsCore_spec ((r + 1).toNat + 1) (r + 1).toNat
    (by omega) []
  have hts : to_string (r + 1) = Dg := by
    simp only [to_string, Nat.toDigits]
    rw [if_neg (by omega), hD, List.append_nil]
  simp only [List.nil_append] at hL
  have hs : Position.ToString ⟨r, c⟩ = L.reverse ++ Dg := by
    simp only [Position.ToString, h, Bool.not_true, Bool.false_eq_true, if_false, hL, hts]
  have hcol : columnOf L.reverse = c.toNat := by
    simp only [columnOf, bijectiveBase26_reverse, hLv]
    omega
  have hdec : decimalOf Dg = (r + 1).toNat := by rw [decimalOf_eq, hDv]
  rw [hs, FromString_append L.reverse Dg (by simpa using hLne) hDne
    (by intro x hx; exact hLu x (List.mem_reverse.mp hx)) hDu, hcol, hdec]
  rw [kMaxRows_eq, kMaxCols_eq] at hv ⊢
  rw [if_pos (by omega)]
  congr 1 <;> omega

theorem FromString_ToString_witness :
    (⟨26, 27⟩ : Position).IsValid = true ∧
      Position.FromString (Position.ToString ⟨26, 27⟩) = ⟨26, 27⟩ :=
  ⟨by decide, FromString_ToString ⟨26, 27⟩ (by decide)⟩

theorem Position.ext_toNat {p q : Position} (hp : 0 ≤ p.row ∧ 0 ≤ p.col)
    (hq : 0 ≤ q.row ∧ 0 ≤ q.col) (hr : p.row.toNat = q.row.toNat)
    (hc : p.col.toNat = q.col.toNat) : p = q := by
  obtain ⟨pr, pc⟩ := p
  obtain ⟨qr, qc⟩ := q
  simp only at hp hq hr hc
  congr 1 <;> omega

theorem IsValid_nonneg {p : Position} (h : p.IsValid = true) : 0 ≤ p.row ∧ 0 ≤ p.col := by
  simp only [Position.IsValid, ValidateBoundaries, Bool.and_eq_true, decide_eq_true_eq] at h
  exact ⟨h.1.1, h.2.1⟩

theorem Sheet.inBounds_row {s : Sheet D} {pos : Position} (h : s.InBounds pos) :
    pos.row.toNat < s.table_.length := by
  unfold Sheet.InBounds at h
  by_contra hlt
  rw [List.getElem?_eq_none (by omega)] at h
  simp at h

theorem Sheet.slot_some_inBounds {s : Sheet D} {pos : Position} {c : Cell D}
    (h : s.slot pos = some c) : s.InBounds pos := by
  unfold Sheet.slot at h
  unfold Sheet.InBounds
  by_contra hlt
  rw [List.getElem?_eq_none (by omega)] at h
  simp at h

theorem Sheet.slot_setSlot (s : Sheet D) (p q : Position) (v : Option (Cell D))
    (hp : p.IsValid = true) (hq : q.IsValid = true) (hin : s.InBounds p) :
    (s.setSlot p v).slot q = if q = p then v else s.slot q := by
  have hrow := Sheet.inBounds_row hin
  unfold Sheet.InBounds at hin
  unfold Sheet.slot Sheet.setSlot
  simp only [List.getElem?_set]
  by_cases hr : p.row.toNat = q.row.toNat
  · rw [if_pos hr, if_pos hrow]
    simp only [Option.getD_some, List.getElem?_set]
    by_cases hc : p.col.toNat = q.col.toNat
    · have : q = p := Position.ext_toNat (IsValid_nonneg hq) (IsValid_nonneg hp) hr.symm hc.symm
      rw [if_pos hc, if_pos hin, if_pos this]
      simp
    · have : q ≠ p := by intro h; rw [h] at hc; exact hc rfl
      rw [if_neg hc, if_neg this, hr]
  · have : q ≠ p := by intro h; rw [h] at hr; exact hr rfl
    rw [if_neg hr, if_neg this]

theorem Sheet.inBounds_setSlot (s : Sheet D) (p q : Position) (v : Option (Cell D)) :
    (s.setSlot p v).InBounds q ↔ s.InBounds q := by
  unfold Sheet.InBounds Sheet.setSlot
  simp only [List.getElem?_set]
  by_cases hr : p.row.toNat = q.row.toNat
  · rw [if_pos hr]
    by_cases hlt : p.row.toNat < s.table_.length
    · rw [if_pos hlt, hr]; simp
    · rw [if_neg hlt]
      rw [← hr, List.getElem?_eq_none (by omega)]
  · rw [if_neg hr]

theorem resize_getElem? {α : Type} (l : List α) (n : Nat) (fill : α) (i : Nat)
    (hn : l.length ≤ n) :
    (resize l n fill)[i]? = if i < l.length then l[i]? else if i < n then some fill else none := by
  unfold resize
  rw [List.take_of_length_le hn]
  by_cases hi : i < l.length
  · rw [if_pos hi, List.getElem?_append_left hi]
  · rw [if_neg hi, List.getElem?_append_right (by omega)]
    by_cases hi2 : i < n
    · rw [if_pos hi2, List.getElem?_replicate, if_pos (by omega)]
    · rw [if_neg hi2, List.getElem?_replicate, if_neg (by omega)]

theorem resize_length {α : Type} (l : List α) (n : Nat) (fill : α) (hn : l.length ≤ n) :
    (resize l n fill).length = n := by
  unfold resize
  rw [List.take_of_length_le hn]
  simp; omega

theorem Sheet.slot_GetCellRef (s : Sheet D) (p q : Position) :
    (s.GetCellRef p).slot q = s.slot q := by
  unfold Sheet.slot Sheet.GetCellRef
  simp only [List.getElem?_set]
  have hlen := resize_length s.table_ (max s.table_.length (p.row.toNat + 1)) []
    (le_max_left _ _)
  have hget := fun i => resize_getElem? s.table_ (max s.table_.length (p.row.toNat + 1)) [] i
    (le_max_left _ _)
  have hrowp : ((resize s.table_ (max s.table_.length (p.row.toNat + 1)) [])[p.row.toNat]?).getD []
      = (s.table_[p.row.toNat]?).getD [] := by
    rw [hget]
    by_cases h : p.row.toNat < s.table_.length
    · rw [if_pos h]
    · rw [if_neg h, if_pos (by omega), List.getElem?_eq_none (by omega)]; rfl
  by_cases hr : p.row.toNat = q.row.toNat
  · rw [if_pos hr, hlen, if_pos (by omega), hrowp]
    simp only [Option.getD_some]
    rw [resize_getElem? _ _ _ _ (le_max_left _ _), hr]
    by_cases hc : q.col.toNat < ((s.table_[q.row.toNat]?).getD []).length
    · rw [if_pos hc]
    · have hnone : ((s.table_[q.row.toNat]?).getD [])[q.col.toNat]? = none :=
        List.getElem?_eq_none (by omega)
      rw [if_neg hc, hnone]
      split <;> rfl
  · rw [if_neg hr, hget]
    by_cases h : q.row.toNat < s.table_.length
    · rw [if_pos h]
    · have hnone : s.table_[q.row.toNat]? = none := List.getElem?_eq_none (by omega)
      rw [if_neg h, hnone]
      split <;> simp

theorem Sheet.inBounds_GetCellRef_self (s : Sheet D) (p : Position) :
    (s.GetCellRef p).InBounds p := by
  unfold Sheet.InBounds Sheet.GetCellRef
  have hlen := resize_length s.table_ (max s.table_.length (p.row.toNat + 1)) []
    (le_max_left _ _)
  simp only [List.getElem?_set, if_true, hlen]
  rw [if_pos (by omega)]
  simp only [Option.getD_some]
  rw [resize_length _ _ _ (le_max_left _ _)]
  omega

/-! ### The order on positions and sorted reference lists -/

theorem Position.lt_iff (a b : Position) :
    a.lt b = true ↔ a.row < b.row ∨ (a.row = b.row ∧ a.col < b.col) := by
  simp [Position.lt]

theorem Position.lt_irrefl (a : Position) : a.lt a = false := by
  cases h : a.lt a with
  | false => rfl
  | true => rw [Position.lt_iff] at h; omega

theorem Position.lt_trans {a b c : Position} (h1 : a.lt b = true) (h2 : b.lt c = true) :
    a.lt c = true := by
  rw [Position.lt_iff] at *
  omega

theorem Position.lt_asymm {a b : Position} (h1 : a.lt b = true) : b.lt a = false := by
  cases h : b.lt a with
  | false => rfl
  | true => rw [Position.lt_iff] at *; omega

theorem Position.eq_of_not_lt {a b : Position} (h1 : a.lt b = false) (h2 : b.lt a = false) :
    a = b := by
  have h1' : ¬ (a.lt b = true) := by simp [h1]
  have h2' : ¬ (b.lt a = true) := by simp [h2]
  rw [Position.lt_iff] at h1' h2'
  obtain ⟨ar, ac⟩ := a
  obtain ⟨br, bc⟩ := b
  simp only at h1' h2'
  congr 1 <;> omega

theorem StrictSorted.nodup {l : List Position} (h : StrictSorted l) : l.Nodup := by
  refine List.Pairwise.imp ?_ h
  intro a b hab heq
  rw [heq, Position.lt_irrefl] at hab
  exact absurd hab (by decide)

theorem lower_bound_append (l : List Position) (pos : Position) :
    (lower_bound l pos).1 ++ (lower_bound l pos).2 = l := by
  simp [lower_bound, List.takeWhile_append_dropWhile]

theorem dropWhile_lt_of_sorted (l : List Position) (pos : Position) (hs : StrictSorted l)
    (hm : pos ∈ l) : ∃ after, l.dropWhile (fun x => x.lt pos) = pos :: after ∧
      l.takeWhile (fun x => x.lt pos) ++ after = l.erase pos := by
  induction l with
  | nil => simp at hm
  | cons x xs ih =>
    have hs' := List.pairwise_cons.mp hs
    by_cases hx : x = pos
    · subst hx
      refine ⟨xs, ?_, ?_⟩
      · simp [List.dropWhile, Position.lt_irrefl]
      · simp [List.takeWhile, Position.lt_irrefl]
    · have hmem : pos ∈ xs := by
        rcases List.mem_cons.mp hm with h | h
        · exact absurd h.symm hx
        · exact h
      have hlt : x.lt pos = true := hs'.1 pos hmem
      obtain ⟨after, h1, h2⟩ := ih hs'.2 hmem
      refine ⟨after, ?_, ?_⟩
      · simp [List.dropWhile, hlt, h1]
      · simp only [List.takeWhile, hlt, List.cons_append, h2]
        rw [List.erase_cons_tail (by simpa using hx)]

theorem dropWhile_lt_of_not_mem (l : List Position) (pos : Position) (hs : StrictSorted l)
    (hm : pos ∉ l) :
    (∀ y ∈ l.takeWhile (fun x => x.lt pos), y.lt pos = true) ∧
    (∀ y ∈ l.dropWhile (fun x => x.lt pos), pos.lt y = true) := by
  refine ⟨fun y hy => @List.mem_takeWhile_imp _ (fun x : Position => x.lt pos) _ _ hy, ?_⟩
  induction l with
  | nil => simp
  | cons x xs ih =>
    have hs' := List.pairwise_cons.mp hs
    have hne : pos ≠ x := fun h => hm (h ▸ List.mem_cons_self _ _)
    have hm' : pos ∉ xs := fun h => hm (List.mem_cons_of_mem _ h)
    cases hlt : x.lt pos with
    | true =>
      simp only [List.dropWhile, hlt]
      exact ih hs'.2 hm'
    | false =>
      simp only [List.dropWhile, hlt]
      have hpx : pos.lt x = true := by
        cases h : pos.lt x with
        | true => rfl
        | false => exact absurd (Position.eq_of_not_lt h hlt) hne
      intro y hy
      rcases List.mem_cons.mp hy with h | h
      · rw [h]; exact hpx
      · exact Position.lt_trans hpx (hs'.1 y h)

theorem binary_search_iff (l : List Position) (pos : Position) (hs : StrictSorted l) :
    binary_search l pos = true ↔ pos ∈ l := by
  constructor
  · intro h
    unfold binary_search lower_bound at h
    simp only at h
    cases hd : l.dropWhile (fun x => x.lt pos) with
    | nil => rw [hd] at h; simp at h
    | cons x rest =>
      rw [hd] at h
      simp only [Bool.not_eq_true'] at h
      have hx : x ∈ l.dropWhile (fun x => x.lt pos) := by rw [hd]; exact List.mem_cons_self _ _
      have hnot : x.lt pos = false := by
        have := List.head_dropWhile_not (fun x => x.lt pos) l (by rw [hd]; simp)
        simpa [hd] using this
      have : pos = x := Position.eq_of_not_lt h hnot
      rw [this]
      exact (List.dropWhile_sublist _).subset hx
  · intro hm
    obtain ⟨after, h1, _⟩ := dropWhile_lt_of_sorted l pos hs hm
    unfold binary_search lower_bound
    simp only [h1, Position.lt_irrefl, Bool.not_false]

theorem removeIncomingRef_of_mem (l : List Position) (pos : Position) (hs : StrictSorted l)
    (hm : pos ∈ l) : removeIncomingRef l pos = l.erase pos := by
  obtain ⟨after, h1, h2⟩ := dropWhile_lt_of_sorted l pos hs hm
  unfold removeIncomingRef lower_bound
  simp only [h1, h2]

theorem StrictSorted.erase {l : List Position} (hs : StrictSorted l) (pos : Position) :
    StrictSorted (l.erase pos) :=
  List.Pairwise.sublist (List.erase_sublist pos l) hs

theorem StrictSorted.mem_erase {l : List Position} (hs : StrictSorted l) (pos x : Position) :
    x ∈ l.erase pos ↔ x ∈ l ∧ x ≠ pos := by
  rw [hs.nodup.mem_erase_iff]
  tauto

theorem addIncomingRef_of_mem (l : List Position) (pos : Position) (hs : StrictSorted l)
    (hm : pos ∈ l) : addIncomingRef l pos = l := by
  obtain ⟨after, h1, _⟩ := dropWhile_lt_of_sorted l pos hs hm
  unfold addIncomingRef lower_bound
  simp only [h1, beq_self_eq_true, Bool.not_true, Bool.false_eq_true, if_false]

theorem addIncomingRef_of_not_mem (l : List Position) (pos : Position) (hs : StrictSorted l)
    (hm : pos ∉ l) :
    StrictSorted (addIncomingRef l pos) ∧ ∀ x, x ∈ addIncomingRef l pos ↔ x = pos ∨ x ∈ l := by
  obtain ⟨hb, ha⟩ := dropWhile_lt_of_not_mem l pos hs hm
  have happ := List.takeWhile_append_dropWhile (fun x => x.lt pos) l
  have hres : addIncomingRef l pos =
      l.takeWhile (fun x => x.lt pos) ++ pos :: l.dropWhile (fun x => x.lt pos) := by
    unfold addIncomingRef lower_bound
    cases hd : l.dropWhile (fun x => x.lt pos) with
    | nil => rfl
    | cons x rest =>
      have hx : x ∈ l := by
        rw [← happ, hd]; simp
      have hne : (pos == x) = false := by
        simp only [beq_eq_false_iff_ne, ne_eq]
        intro h; exact hm (h ▸ hx)
      simp [hne]
  rw [hres]
  have hsl : StrictSorted (l.takeWhile (fun x => x.lt pos) ++ l.dropWhile (fun x => x.lt pos)) := by
    rw [happ]; exact hs
  have hsl' := List.pairwise_append.mp hsl
  constructor
  · unfold StrictSorted
    rw [List.pairwise_append]
    refine ⟨hsl'.1, ?_, ?_⟩
    · rw [List.pairwise_cons]
      exact ⟨ha, hsl'.2.1⟩
    · intro a ha' b hb'
      rcases List.mem_cons.mp hb' with h | h
      · rw [h]; exact hb a ha'
      · exact hsl'.2.2 a ha' b h
  · intro x
    rw [List.mem_append, List.mem_cons]
    conv_rhs => rw [← happ, List.mem_append]
    tauto

/-! ### Referenced cells of a node are valid and strictly sorted -/

theorem Position.le_trans {a b c : Position} (h1 : b.lt a = false) (h2 : c.lt b = false) :
    c.lt a = false := by
  have h1' : ¬ (b.lt a = true) := by simp [h1]
  have h2' : ¬ (c.lt b = true) := by simp [h2]
  cases h : c.lt a with
  | false => rfl
  | true =>
    rw [Position.lt_iff] at h1' h2' h
    omega

theorem Position.le_of_lt {a b : Position} (h : a.lt b = true) : b.lt a = false :=
  Position.lt_asymm h

theorem StrictSorted.weak {l : List Position} (h : StrictSorted l) : WeakSorted l :=
  List.Pairwise.imp (fun hab => Position.le_of_lt hab) h

theorem mem_mergeGo (x : Position) (xs : List Position) (m : List Position → List Position)
    (hm : ∀ ys z, z ∈ m ys ↔ z ∈ xs ∨ z ∈ ys) (ys : List Position) (z : Position) :
    z ∈ mergeGo x xs m ys ↔ z ∈ x :: xs ∨ z ∈ ys := by
  induction ys with
  | nil => simp [mergeGo]
  | cons y ys ih =>
    simp only [mergeGo]
    split
    · simp only [List.mem_cons, ih]
      tauto
    · simp only [List.mem_cons, hm]
      tauto

theorem mem_merge (xs ys : List Position) (z : Position) :
    z ∈ merge xs ys ↔ z ∈ xs ∨ z ∈ ys := by
  induction xs generalizing ys z with
  | nil => simp [merge]
  | cons x xs ih =>
    simp only [merge]
    exact mem_mergeGo x xs (merge xs) (fun ys z => ih ys z) ys z

theorem weakSorted_merge (xs ys : List Position) (hx : WeakSorted xs) (hy : WeakSorted ys) :
    WeakSorted (merge xs ys) := by
  induction xs generalizing ys with
  | nil => simpa [merge] using hy
  | cons x xs ih =>
    simp only [merge]
    have hx' := List.pairwise_cons.mp hx
    induction ys with
    | nil => simpa [mergeGo] using hx
    | cons y ys ihy =>
      have hy' := List.pairwise_cons.mp hy
      simp only [mergeGo]
      by_cases hlt : y.lt x = true
      · rw [if_pos hlt]
        refine List.pairwise_cons.mpr ⟨?_, ihy hy'.2⟩
        intro z hz
        rw [mem_mergeGo x xs (merge xs) (fun ys z => mem_merge xs ys z)] at hz
        rcases hz with hz | hz
        · rcases List.mem_cons.mp hz with h | h
          · rw [h]; exact Position.le_of_lt hlt
          · exact Position.le_trans (Position.le_of_lt hlt) (hx'.1 z h)
        · exact hy'.1 z hz
      · rw [if_neg hlt]
        simp only [Bool.not_eq_true] at hlt
        refine List.pairwise_cons.mpr ⟨?_, ih (y :: ys) hx'.2 hy⟩
        intro z hz
        rw [mem_merge] at hz
        rcases hz with hz | hz
        · exact hx'.1 z hz
        · rcases List.mem_cons.mp hz with h | h
          · rw [h]; exact hlt
          · exact Position.le_trans hlt (hy'.1 z h)

theorem mem_unique (l : List Position) (z : Position) : z ∈ unique l ↔ z ∈ l := by
  induction l with
  | nil => simp [unique]
  | cons x l ih =>
    cases l with
    | nil => simp [unique]
    | cons y rest =>
      by_cases heq : x = y
      · subst heq
        simp only [unique, if_true, ih]
        simp
      · simp only [unique, heq, if_false, List.mem_cons, ih]

theorem strictSorted_unique (l : List Position) (h : WeakSorted l) : StrictSorted (unique l) := by
  induction l with
  | nil => simp [unique, StrictSorted]
  | cons x l ih =>
    cases l with
    | nil => simp [unique, StrictSorted]
    | cons y rest =>
      have h' := List.pairwise_cons.mp h
      have h'' := List.pairwise_cons.mp h'.2
      by_cases heq : x = y
      · simp only [unique, heq, if_true]
        exact ih h'.2
      · simp only [unique, heq, if_false]
        refine List.pairwise_cons.mpr ⟨?_, ih h'.2⟩
        intro z hz
        rw [mem_unique] at hz
        have hxy : x.lt y = true := by
          cases hlt : x.lt y with
          | true => rfl
          | false =>
            exact absurd (Position.eq_of_not_lt hlt (h'.1 y (List.mem_cons_self _ _))) heq
        rcases List.mem_cons.mp hz with hz | hz
        · rw [hz]; exact hxy
        · have hyz := h''.1 z hz
          cases hlt : x.lt z with
          | true => rfl
          | false =>
            exfalso
            have e := Position.le_trans hyz hlt
            rw [hxy] at e
            exact absurd e (by decide)

theorem Node.strictSorted_refs (n : Node D) : StrictSorted n.GetReferencedCells := by
  induction n with
  | Number v s => simp [Node.GetReferencedCells, StrictSorted]
  | Cell p =>
    simp only [Node.GetReferencedCells]
    split <;> simp [StrictSorted]
  | UnaryOp k n ih => simpa [Node.GetReferencedCells] using ih
  | BinaryOp k l r ihl ihr =>
    simp only [Node.GetReferencedCells]
    exact strictSorted_unique _ (weakSorted_merge _ _ ihl.weak ihr.weak)

theorem Node.valid_refs (n : Node D) : ∀ q ∈ n.GetReferencedCells, q.IsValid = true := by
  induction n with
  | Number v s => simp [Node.GetReferencedCells]
  | Cell p =>
    simp only [Node.GetReferencedCells]
    split
    · intro q hq
      simp only [List.mem_singleton] at hq
      rw [hq]; assumption
    · simp
  | UnaryOp k n ih => simpa [Node.GetReferencedCells] using ih
  | BinaryOp k l r ihl ihr =>
    intro q hq
    simp only [Node.GetReferencedCells, mem_unique, mem_merge] at hq
    rcases hq with h | h
    · exact ihl q h
    · exact ihr q h

theorem Sheet.cells_valid {s : Sheet D} {p : Position} {c : Cell D} (h : s.cells p = some c) :
    p.IsValid = true := by
  unfold Sheet.cells at h
  by_contra hv
  rw [if_neg hv] at h
  exact absurd h (by simp)

theorem Sheet.cells_eq_slot {s : Sheet D} {p : Position} (h : p.IsValid = true) :
    s.cells p = s.slot p := by
  unfold Sheet.cells
  rw [if_pos h]

theorem Sheet.cells_setSlot (s : Sheet D) (p : Position) (v : Option (Cell D))
    (hp : p.IsValid = true) (hin : s.InBounds p) :
    (s.setSlot p v).cells = Function.update s.cells p v := by
  funext q
  unfold Sheet.cells
  by_cases hq : q.IsValid = true
  · rw [if_pos hq, Sheet.slot_setSlot s p q v hp hq hin]
    by_cases h : q = p
    · subst h; simp [hq]
    · rw [if_neg h, Function.update_noteq h, if_pos hq]
  · rw [if_neg hq]
    have : q ≠ p := fun h => hq (h ▸ hp)
    rw [Function.update_noteq this, if_neg hq]

theorem Sheet.cells_setCell (s : Sheet D) (p : Position) (c c' : Cell D)
    (h : s.cells p = some c) : (s.setCell p c').cells = Function.update s.cells p (some c') := by
  have hp := Sheet.cells_valid h
  rw [Sheet.cells_eq_slot hp] at h
  exact Sheet.cells_setSlot s p (some c') hp (Sheet.slot_some_inBounds h)

theorem Sheet.cells_GetCellRef (s : Sheet D) (p : Position) : (s.GetCellRef p).cells = s.cells := by
  funext q
  unfold Sheet.cells
  rw [Sheet.slot_GetCellRef]

theorem rdropWhile_getD {α : Type} (p : α → Bool) (d : α) (hd : ∀ x, p x = true → x = d)
    (l : List α) (i : Nat) : ((l.rdropWhile p)[i]?).getD d = (l[i]?).getD d := by
  induction l using List.reverseRecOn with
  | nil => simp
  | append_singleton l a ih =>
    rw [List.rdropWhile_concat]
    by_cases ha : p a = true
    · rw [if_pos ha, ih]
      have had := hd a ha
      by_cases hi : i < l.length
      · rw [List.getElem?_append_left hi]
      · rw [List.getElem?_append_right (by omega), List.getElem?_eq_none (by omega)]
        by_cases hi2 : i - l.length = 0
        · rw [hi2]; simp [had]
        · have : ([a] : List α)[i - l.length]? = none :=
            List.getElem?_eq_none (by simp; omega)
          rw [this]
    · rw [if_neg ha]

theorem slot_set_ShrinkRow (t : List (List (Option (Cell D)))) (r : Nat)
    (row : List (Option (Cell D))) (q : Position) :
    (Sheet.mk (t.set r (ShrinkRow row))).slot q = (Sheet.mk (t.set r row)).slot q := by
  unfold Sheet.slot
  simp only [List.getElem?_set]
  by_cases hr : r = q.row.toNat
  · simp only [if_pos hr]
    by_cases hlt : r < t.length
    · simp only [if_pos hlt, Option.getD_some]
      exact rdropWhile_getD (fun c : Option (Cell D) => c.isNone) none
        (by intro x hx; cases x <;> simp_all) row _
    · simp only [if_neg hlt]
  · simp only [if_neg hr]

theorem Sheet.slot_ShrinkTable (s : Sheet D) (q : Position) : s.ShrinkTable.slot q = s.slot q := by
  unfold Sheet.slot Sheet.ShrinkTable
  rw [rdropWhile_getD (fun row : List (Option (Cell D)) => row.isEmpty) []
    (by intro x hx; simpa using hx) s.table_ q.row.toNat]

theorem Sheet.cells_ShrinkTable (s : Sheet D) : s.ShrinkTable.cells = s.cells := by
  funext q
  unfold Sheet.cells
  rw [Sheet.slot_ShrinkTable]

theorem cells_set_ShrinkRow (s : Sheet D) (p : Position) (hp : p.IsValid = true)
    (hin : s.InBounds p) :
    (Sheet.mk (s.table_.set p.row.toNat
        (ShrinkRow ((s.table_[p.row.toNat]?.getD []).set p.col.toNat none)))).cells
      = Function.update s.cells p none := by
  rw [← Sheet.cells_setSlot s p none hp hin]
  funext q
  unfold Sheet.cells
  rw [slot_set_ShrinkRow]
  rfl

theorem Content.refs_sorted (c : Content D) : StrictSorted c.refs := by
  cases c with
  | Text t => simp [Content.refs, StrictSorted]
  | Formula n => exact Node.strictSorted_refs n

theorem Content.refs_valid (c : Content D) : ∀ q ∈ c.refs, q.IsValid = true := by
  cases c with
  | Text t => simp [Content.refs]
  | Formula n => exact Node.valid_refs n

theorem Content.refs_of_isEmptyText {c : Content D} (h : c.isEmptyText = true) : c.refs = [] := by
  cases c with
  | Text t => rfl
  | Formula n => simp [Content.isEmptyText] at h

/-! #### Pointwise description of the two loops -/

theorem Graph.removeRef_other (pos : Position) (g : Graph D) (q x : Position) (h : x ≠ q) :
    Graph.removeRef pos g q x = g x := by
  unfold Graph.removeRef
  cases hq : g q with
  | none => rfl
  | some d =>
    simp only
    split <;> rw [Function.update_noteq h]

theorem Graph.removeRefs_not_mem (pos : Position) (R : List Position) :
    ∀ (g : Graph D) (x : Position), x ∉ R → R.foldl (Graph.removeRef pos) g x = g x := by
  induction R with
  | nil => intro g x _; rfl
  | cons q R ih =>
    intro g x hx
    simp only [List.foldl_cons]
    rw [ih _ x (fun h => hx (List.mem_cons_of_mem _ h)),
      Graph.removeRef_other pos g q x (fun h => hx (h ▸ List.mem_cons_self _ _))]

theorem Graph.removeRef_self (pos : Position) (g : Graph D) (q : Position) :
    Graph.removeRef pos g q q = (g q).bind (GCell.afterRemove pos) := by
  unfold Graph.removeRef GCell.afterRemove
  cases h : g q with
  | none => simp [h]
  | some d =>
    simp only [Option.bind_some]
    by_cases hc : d.content.isEmptyText = true ∧ removeIncomingRef d.incoming pos = []
    · rw [if_pos hc, Function.update_same]
      show none = if _ then none else _
      rw [if_pos hc]
    · rw [if_neg hc, Function.update_same]
      show _ = if _ then none else _
      rw [if_neg hc]

theorem Graph.removeRefs_mem (pos : Position) (R : List Position) (hR : R.Nodup) :
    ∀ (g : Graph D) (x : Position), x ∈ R →
      R.foldl (Graph.removeRef pos) g x = (g x).bind (GCell.afterRemove pos) := by
  induction R with
  | nil => intro g x hx; simp at hx
  | cons q R ih =>
    intro g x hx
    have hnd := List.nodup_cons.mp hR
    simp only [List.foldl_cons]
    by_cases hxq : x = q
    · subst hxq
      rw [Graph.removeRefs_not_mem pos R _ x hnd.1, Graph.removeRef_self]
    · have hxR : x ∈ R := by
        rcases List.mem_cons.mp hx with h | h
        · exact absurd h hxq
        · exact h
      rw [ih hnd.2 _ x hxR, Graph.removeRef_other pos g q x hxq]

theorem Graph.addRef_other (pos : Position) (g : Graph D) (q x : Position) (h : x ≠ q) :
    Graph.addRef pos g q x = g x := by
  unfold Graph.addRef
  rw [Function.update_noteq h]

theorem Graph.addRefs_not_mem (pos : Position) (N : List Position) :
    ∀ (g : Graph D) (x : Position), x ∉ N → N.foldl (Graph.addRef pos) g x = g x := by
  induction N with
  | nil => intro g x _; rfl
  | cons q N ih =>
    intro g x hx
    simp only [List.foldl_cons]
    rw [ih _ x (fun h => hx (List.mem_cons_of_mem _ h)),
      Graph.addRef_other pos g q x (fun h => hx (h ▸ List.mem_cons_self _ _))]

theorem Graph.addRefs_mem (pos : Position) (N : List Position) (hN : N.Nodup) :
    ∀ (g : Graph D) (x : Position), x ∈ N →
      N.foldl (Graph.addRef pos) g x = some (GCell.afterAdd pos (g x)) := by
  induction N with
  | nil => intro g x hx; simp at hx
  | cons q N ih =>
    intro g x hx
    have hnd := List.nodup_cons.mp hN
    simp only [List.foldl_cons]
    by_cases hxq : x = q
    · subst hxq
      rw [Graph.addRefs_not_mem pos N _ x hnd.1]
      unfold Graph.addRef GCell.afterAdd
      rw [Function.update_same]
    · have hxN : x ∈ N := by
        rcases List.mem_cons.mp hx with h | h
        · exact absurd h hxq
        · exact h
      rw [ih hnd.2 _ x hxN, Graph.addRef_other pos g q x hxq]

theorem Graph.Inv.not_self_ref {g : Graph D} (h : g.Inv) (pos : Position) :
    pos ∉ g.refsAt pos := by
  intro hm
  unfold Graph.refsAt at hm
  cases hg : g pos with
  | none => rw [hg] at hm; simp at hm
  | some c =>
    rw [hg] at hm
    exact h.acyclic pos (Relation.TransGen.single ⟨c, hg, hm⟩)

theorem Graph.refsAt_nodup (g : Graph D) (pos : Position) : (g.refsAt pos).Nodup := by
  unfold Graph.refsAt
  cases g pos with
  | none => simp
  | some c => exact (Content.refs_sorted c.content).nodup

theorem Graph.Inv.incomingAt_sorted {g : Graph D} (h : g.Inv) (pos : Position) :
    StrictSorted (g.incomingAt pos) := by
  unfold Graph.incomingAt
  cases hg : g pos with
  | none => simp [StrictSorted]
  | some c => exact h.sorted pos c hg

theorem Graph.removeRefs_eq (g : Graph D) (pos : Position) :
    (g.refsAt pos).foldl (Graph.removeRef pos) g = g.removed pos := by
  funext x
  unfold Graph.removed
  by_cases hx : x ∈ g.refsAt pos
  · rw [if_pos hx, Graph.removeRefs_mem pos _ (g.refsAt_nodup pos) g x hx]
  · rw [if_neg hx, Graph.removeRefs_not_mem pos _ g x hx]

theorem Graph.replace_apply (g : Graph D) (hg : g.Inv) (pos : Position) (content : Content D)
    (hN : pos ∉ content.refs) (x : Position) :
    g.replace pos content x =
      if x = pos then some ⟨content, g.incomingAt pos⟩
      else if x ∈ content.refs then some (GCell.afterAdd pos (g.removed pos x))
      else g.removed pos x := by
  have hpos : g.removed pos pos = g pos := by
    unfold Graph.removed
    rw [if_neg (hg.not_self_ref pos)]
  have hinc : Graph.incomingAt (g.removed pos) pos = g.incomingAt pos := by
    unfold Graph.incomingAt
    rw [hpos]
  unfold Graph.replace
  simp only [Graph.removeRefs_eq, hinc]
  by_cases hx : x = pos
  · rw [if_pos hx, hx, Graph.addRefs_not_mem pos _ _ pos hN, Function.update_same]
  · rw [if_neg hx]
    by_cases hxN : x ∈ content.refs
    · rw [if_pos hxN, Graph.addRefs_mem pos _ (Content.refs_sorted content).nodup _ x hxN,
        Function.update_noteq hx]
    · rw [if_neg hxN, Graph.addRefs_not_mem pos _ _ x hxN, Function.update_noteq hx]

/-- What the deletion loop leaves of a stored cell `d` at `x`. -/
theorem Graph.removed_some (g : Graph D) (hg : g.Inv) (pos x : Position) (d' : GCell D)
    (h : g.removed pos x = some d') :
    ∃ d, g x = some d ∧ d'.content = d.content ∧ StrictSorted d'.incoming ∧
      (∀ y, y ∈ d'.incoming ↔ y ∈ d.incoming ∧ y ≠ pos) := by
  unfold Graph.removed at h
  by_cases hx : x ∈ g.refsAt pos
  · rw [if_pos hx] at h
    cases hgx : g x with
    | none => rw [hgx] at h; simp at h
    | some d =>
      rw [hgx, Option.some_bind] at h
      have hpd : pos ∈ d.incoming := by
        unfold Graph.refsAt at hx
        cases hgp : g pos with
        | none => rw [hgp] at hx; simp at hx
        | some c =>
          rw [hgp] at hx
          obtain ⟨d2, h1, h2⟩ := hg.forward pos c x hgp hx
          rw [hgx] at h1
          cases h1
          exact h2
      have hs := hg.sorted x d hgx
      have hrem := removeIncomingRef_of_mem d.incoming pos hs hpd
      unfold GCell.afterRemove at h
      split at h
      · exact absurd h (by simp)
      · cases h
        refine ⟨d, rfl, rfl, ?_, ?_⟩
        · simp only [hrem]; exact hs.erase pos
        · intro y; simp only [hrem]; exact hs.mem_erase pos y
  · rw [if_neg hx] at h
    refine ⟨d', h, rfl, hg.sorted x d' h, ?_⟩
    intro y
    constructor
    · intro hy
      refine ⟨hy, ?_⟩
      intro hyp
      subst hyp
      obtain ⟨c, hc1, hc2⟩ := hg.backward x d' y h hy
      apply hx
      unfold Graph.refsAt
      rw [hc1]; exact hc2
    · intro hy; exact hy.1

theorem Graph.removed_keeps (g : Graph D) (hg : g.Inv) (pos x : Position) (d : GCell D)
    (hgx : g x = some d) (hk : d.content.isEmptyText = false ∨ ∃ y ∈ d.incoming, y ≠ pos) :
    ∃ d', g.removed pos x = some d' := by
  unfold Graph.removed
  by_cases hx : x ∈ g.refsAt pos
  · rw [if_pos hx, hgx, Option.some_bind]
    unfold GCell.afterRemove
    by_cases hc : d.content.isEmptyText = true ∧ removeIncomingRef d.incoming pos = []
    · exfalso
      rcases hk with hk | ⟨y, hy, hyp⟩
      · rw [hc.1] at hk; exact absurd hk (by decide)
      · have hpd : pos ∈ d.incoming := by
          unfold Graph.refsAt at hx
          cases hgp : g pos with
          | none => rw [hgp] at hx; simp at hx
          | some c =>
            rw [hgp] at hx
            obtain ⟨d2, h1, h2⟩ := hg.forward pos c x hgp hx
            rw [hgx] at h1
            cases h1
            exact h2
        have hs := hg.sorted x d hgx
        have hrem := removeIncomingRef_of_mem d.incoming pos hs hpd
        have : y ∈ d.incoming.erase pos := (hs.mem_erase pos y).mpr ⟨hy, hyp⟩
        rw [← hrem, hc.2] at this
        simp at this
    · rw [if_neg hc]; exact ⟨_, rfl⟩
  · rw [if_neg hx]; exact ⟨d, hgx⟩

theorem GCell.afterAdd_spec (pos : Position) (o : Option (GCell D))
    (ho : ∀ d1, o = some d1 → StrictSorted d1.incoming ∧ pos ∉ d1.incoming) :
    StrictSorted (GCell.afterAdd pos o).incoming ∧
      (∀ y, y ∈ (GCell.afterAdd pos o).incoming ↔ y = pos ∨ ∃ d1, o = some d1 ∧ y ∈ d1.incoming) ∧
      (GCell.afterAdd pos o).content.refs = (o.map (fun d1 => d1.content.refs)).getD [] := by
  cases o with
  | none =>
    have := addIncomingRef_of_not_mem [] pos (by simp [StrictSorted]) (by simp)
    refine ⟨this.1, ?_, rfl⟩
    intro y
    rw [show (GCell.afterAdd pos (none : Option (GCell D))).incoming = addIncomingRef [] pos from rfl,
      this.2 y]
    simp
  | some d1 =>
    obtain ⟨hs, hn⟩ := ho d1 rfl
    have := addIncomingRef_of_not_mem d1.incoming pos hs hn
    refine ⟨this.1, ?_, rfl⟩
    intro y
    rw [show (GCell.afterAdd pos (some d1)).incoming = addIncomingRef d1.incoming pos from rfl,
      this.2 y]
    simp

theorem Graph.removed_none_refs (g : Graph D) (hg : g.Inv) (pos x : Position)
    (h : g.removed pos x = none) : g.refsAt x = [] := by
  unfold Graph.refsAt
  cases hgx : g x with
  | none => rfl
  | some d =>
    simp only
    cases he : d.content.isEmptyText with
    | true => exact Content.refs_of_isEmptyText he
    | false =>
      obtain ⟨d', hd'⟩ := g.removed_keeps hg pos x d hgx (Or.inl he)
      rw [h] at hd'
      exact absurd hd' (by simp)

theorem Graph.refsAt_of_some {g : Graph D} {x : Position} {d : GCell D} (h : g x = some d) :
    g.refsAt x = d.refs := by
  unfold Graph.refsAt
  rw [h]

theorem Graph.incomingAt_of_some {g : Graph D} {x : Position} {d : GCell D} (h : g x = some d) :
    g.incomingAt x = d.incoming := by
  unfold Graph.incomingAt
  rw [h]

theorem Graph.replace_pos (g : Graph D) (hg : g.Inv) (pos : Position) (content : Content D)
    (hN : pos ∉ content.refs) : g.replace pos content pos = some ⟨content, g.incomingAt pos⟩ := by
  rw [g.replace_apply hg pos content hN, if_pos rfl]

theorem Graph.replace_other (g : Graph D) (hg : g.Inv) (pos : Position) (content : Content D)
    (hN : pos ∉ content.refs) (x : Position) (hx : x ≠ pos) (d' : GCell D)
    (h : g.replace pos content x = some d') :
    d'.refs = g.refsAt x ∧ StrictSorted d'.incoming ∧
      ∀ y, y ∈ d'.incoming → (y ≠ pos ∧ y ∈ g.incomingAt x) ∨ (y = pos ∧ x ∈ content.refs) := by
  rw [g.replace_apply hg pos content hN, if_neg hx] at h
  by_cases hxN : x ∈ content.refs
  · rw [if_pos hxN] at h
    cases h
    have hspec := GCell.afterAdd_spec pos (g.removed pos x) (by
      intro d1 hd1
      obtain ⟨d, _, _, hs, hm⟩ := g.removed_some hg pos x d1 hd1
      exact ⟨hs, fun hp => ((hm pos).mp hp).2 rfl⟩)
    refine ⟨?_, hspec.1, ?_⟩
    · show (GCell.afterAdd pos (g.removed pos x)).content.refs = _
      rw [hspec.2.2]
      cases hr : g.removed pos x with
      | none => exact (g.removed_none_refs hg pos x hr).symm
      | some d1 =>
        obtain ⟨d, hd, hc, _, _⟩ := g.removed_some hg pos x d1 hr
        simp only [Option.map_some', Option.getD_some, hc, Graph.refsAt_of_some hd]
        rfl
    · intro y hy
      rcases (hspec.2.1 y).mp hy with h | ⟨d1, hd1, hy1⟩
      · exact Or.inr ⟨h, hxN⟩
      · obtain ⟨d, hd, _, _, hm⟩ := g.removed_some hg pos x d1 hd1
        left
        rw [Graph.incomingAt_of_some hd]
        exact ⟨((hm y).mp hy1).2, ((hm y).mp hy1).1⟩
  · rw [if_neg hxN] at h
    obtain ⟨d, hd, hc, hs, hm⟩ := g.removed_some hg pos x d' h
    refine ⟨?_, hs, ?_⟩
    · rw [Graph.refsAt_of_some hd]
      show d'.content.refs = d.content.refs
      rw [hc]
    · intro y hy
      left
      rw [Graph.incomingAt_of_some hd]
      exact ⟨((hm y).mp hy).2, ((hm y).mp hy).1⟩

theorem Graph.replace_keeps_incoming (g : Graph D) (hg : g.Inv) (pos : Position) (content : Content D)
    (hN : pos ∉ content.refs) (x : Position) (hx : x ≠ pos) (d : GCell D)
    (hgx : g x = some d) (y : Position) (hy : y ∈ d.incoming) (hyp : y ≠ pos) :
    ∃ d', g.replace pos content x = some d' ∧ y ∈ d'.incoming := by
  obtain ⟨d1, hd1⟩ := g.removed_keeps hg pos x d hgx (Or.inr ⟨y, hy, hyp⟩)
  obtain ⟨d0, hd0, _, hs, hm⟩ := g.removed_some hg pos x d1 hd1
  rw [hgx] at hd0
  cases hd0
  have hy1 : y ∈ d1.incoming := (hm y).mpr ⟨hy, hyp⟩
  rw [g.replace_apply hg pos content hN, if_neg hx]
  by_cases hxN : x ∈ content.refs
  · rw [if_pos hxN]
    refine ⟨_, rfl, ?_⟩
    have hspec := GCell.afterAdd_spec pos (g.removed pos x) (by
      intro d2 hd2
      obtain ⟨d, _, _, hs, hm⟩ := g.removed_some hg pos x d2 hd2
      exact ⟨hs, fun hp => ((hm pos).mp hp).2 rfl⟩)
    exact (hspec.2.1 y).mpr (Or.inr ⟨d1, hd1, hy1⟩)
  · rw [if_neg hxN]
    exact ⟨d1, hd1, hy1⟩

theorem Graph.replace_keeps_refs (g : Graph D) (hg : g.Inv) (pos : Position) (content : Content D)
    (hN : pos ∉ content.refs) (x : Position) (hx : x ≠ pos) (d : GCell D)
    (hgx : g x = some d) (hr : d.refs ≠ []) :
    ∃ d', g.replace pos content x = some d' ∧ d'.refs = d.refs := by
  have he : d.content.isEmptyText = false := by
    cases h : d.content.isEmptyText with
    | false => rfl
    | true => exact absurd (Content.refs_of_isEmptyText h) hr
  obtain ⟨d1, hd1⟩ := g.removed_keeps hg pos x d hgx (Or.inl he)
  have hex : ∃ d', g.replace pos content x = some d' := by
    rw [g.replace_apply hg pos content hN, if_neg hx]
    by_cases hxN : x ∈ content.refs
    · rw [if_pos hxN]; exact ⟨_, rfl⟩
    · rw [if_neg hxN]; exact ⟨d1, hd1⟩
  obtain ⟨d', hd'⟩ := hex
  refine ⟨d', hd', ?_⟩
  rw [(g.replace_other hg pos content hN x hx d' hd').1, Graph.refsAt_of_some hgx]

theorem Graph.replace_adds (g : Graph D) (hg : g.Inv) (pos : Position) (content : Content D)
    (hN : pos ∉ content.refs) (x : Position) (hxN : x ∈ content.refs) :
    ∃ d', g.replace pos content x = some d' ∧ pos ∈ d'.incoming := by
  have hx : x ≠ pos := fun h => hN (h ▸ hxN)
  rw [g.replace_apply hg pos content hN, if_neg hx, if_pos hxN]
  refine ⟨_, rfl, ?_⟩
  have hspec := GCell.afterAdd_spec pos (g.removed pos x) (by
    intro d2 hd2
    obtain ⟨d, _, _, hs, hm⟩ := g.removed_some hg pos x d2 hd2
    exact ⟨hs, fun hp => ((hm pos).mp hp).2 rfl⟩)
  exact (hspec.2.1 pos).mpr (Or.inl rfl)

theorem Graph.replace_edge (g : Graph D) (hg : g.Inv) (pos : Position) (content : Content D)
    (hN : pos ∉ content.refs) (x y : Position) (h : (g.replace pos content).Edge x y) :
    (x = pos ∧ y ∈ content.refs) ∨ (x ≠ pos ∧ g.Edge x y) := by
  obtain ⟨c, hc, hy⟩ := h
  by_cases hx : x = pos
  · left
    subst hx
    rw [g.replace_pos hg x content hN] at hc
    cases hc
    exact ⟨rfl, hy⟩
  · right
    refine ⟨hx, ?_⟩
    have := (g.replace_other hg pos content hN x hx c hc).1
    rw [this] at hy
    unfold Graph.refsAt at hy
    cases hgx : g x with
    | none => rw [hgx] at hy; simp at hy
    | some d => rw [hgx] at hy; exact ⟨d, hgx, hy⟩

/-! #### Acyclicity after the outgoing references of one vertex are replaced -/

theorem reach_of_reach_replaced {α : Type} (E E' : α → α → Prop) (pos : α)
    (hE : ∀ x y, E' x y → x ≠ pos → E x y) (r : α)
    (h : Relation.ReflTransGen E' r pos) : Relation.ReflTransGen E r pos := by
  induction h using Relation.ReflTransGen.head_induction_on with
  | refl => exact Relation.ReflTransGen.refl
  | @head a b hab _ ih =>
    by_cases ha : a = pos
    · rw [ha]
    · exact Relation.ReflTransGen.head (hE a b hab ha) ih

theorem transGen_replaced {α : Type} (E E' : α → α → Prop) (pos : α)
    (hE : ∀ x y, E' x y → x ≠ pos → E x y) (x y : α) (h : Relation.TransGen E' x y) :
    Relation.TransGen E x y ∨ (Relation.ReflTransGen E' x pos ∧ Relation.TransGen E' pos y) := by
  induction h using Relation.TransGen.head_induction_on with
  | @base a hab =>
    by_cases ha : a = pos
    · right; rw [ha] at hab ⊢; exact ⟨Relation.ReflTransGen.refl, Relation.TransGen.single hab⟩
    · left; exact Relation.TransGen.single (hE a y hab ha)
  | @ih a b hab hbc ih =>
    by_cases ha : a = pos
    · right
      rw [ha] at hab ⊢
      exact ⟨Relation.ReflTransGen.refl, Relation.TransGen.head hab hbc⟩
    · rcases ih with h | ⟨h1, h2⟩
      · left; exact Relation.TransGen.head (hE a b hab ha) h
      · right; exact ⟨Relation.ReflTransGen.head hab h1, h2⟩

theorem acyclic_replaced {α : Type} (E E' : α → α → Prop) (pos : α)
    (hE : ∀ x y, E' x y → x ≠ pos → E x y) (hacyc : ∀ x, ¬ Relation.TransGen E x x)
    (hnew : ∀ r, E' pos r → ¬ Relation.ReflTransGen E r pos) (x : α) :
    ¬ Relation.TransGen E' x x := by
  have hpos : ¬ Relation.TransGen E' pos pos := by
    intro h
    obtain ⟨r, hr, hrp⟩ := Relation.TransGen.head'_iff.mp h
    exact hnew r hr (reach_of_reach_replaced E E' pos hE r hrp)
  intro h
  rcases transGen_replaced E E' pos hE x x h with h | ⟨h1, h2⟩
  · exact hacyc x h
  · exact hpos (Relation.TransGen.trans_left h2 h1)

/-- The invariants survive a `SetCell` whose new references do not lead back to `pos`. -/
theorem Graph.Inv.replace {g : Graph D} (hg : g.Inv) (pos : Position) (content : Content D)
    (hnew : ∀ r ∈ content.refs, ¬ Relation.ReflTransGen g.Edge r pos) :
    (g.replace pos content).Inv := by
  have hN : pos ∉ content.refs := fun h => hnew pos h Relation.ReflTransGen.refl
  refine ⟨?_, ?_, ?_, ?_⟩
  · intro p c hc
    by_cases hp : p = pos
    · subst hp
      rw [g.replace_pos hg p content hN] at hc
      cases hc
      exact hg.incomingAt_sorted p
    · exact (g.replace_other hg pos content hN p hp c hc).2.1
  · intro p c q hc hq
    by_cases hp : p = pos
    · subst hp
      rw [g.replace_pos hg p content hN] at hc
      cases hc
      exact g.replace_adds hg p content hN q hq
    · rw [(g.replace_other hg pos content hN p hp c hc).1] at hq
      unfold Graph.refsAt at hq
      cases hgp : g p with
      | none => rw [hgp] at hq; simp at hq
      | some c0 =>
        rw [hgp] at hq
        obtain ⟨d, hd, hpd⟩ := hg.forward p c0 q hgp hq
        by_cases hqp : q = pos
        · subst hqp
          refine ⟨_, g.replace_pos hg q content hN, ?_⟩
          simp only [Graph.incomingAt_of_some hd]
          exact hpd
        · exact g.replace_keeps_incoming hg pos content hN q hqp d hd p hpd hp
  · intro q d p hd hp
    have key : ∀ c, g p = some c → q ∈ c.refs → p ≠ pos →
        ∃ c', g.replace pos content p = some c' ∧ q ∈ c'.refs := by
      intro c hc hqc hpp
      obtain ⟨c', hc', hr⟩ := g.replace_keeps_refs hg pos content hN p hpp c hc
        (List.ne_nil_of_mem hqc)
      exact ⟨c', hc', hr ▸ hqc⟩
    by_cases hq : q = pos
    · subst hq
      rw [g.replace_pos hg q content hN] at hd
      cases hd
      simp only at hp
      unfold Graph.incomingAt at hp
      cases hgq : g q with
      | none => rw [hgq] at hp; simp at hp
      | some d0 =>
        rw [hgq] at hp
        obtain ⟨c, hc, hqc⟩ := hg.backward q d0 p hgq hp
        have hpq : p ≠ q := by
          intro h
          subst h
          exact hg.acyclic p (Relation.TransGen.single ⟨c, hc, hqc⟩)
        exact key c hc hqc hpq
    · rcases (g.replace_other hg pos content hN q hq d hd).2.2 p hp with ⟨hpp, hpin⟩ | ⟨hpp, hqN⟩
      · unfold Graph.incomingAt at hpin
        cases hgq : g q with
        | none => rw [hgq] at hpin; simp at hpin
        | some d0 =>
          rw [hgq] at hpin
          obtain ⟨c, hc, hqc⟩ := hg.backward q d0 p hgq hpin
          exact key c hc hqc hpp
      · subst hpp
        exact ⟨_, g.replace_pos hg p content hN, hqN⟩
  · intro x
    apply acyclic_replaced g.Edge (g.replace pos content).Edge pos
    · intro a b hab ha
      rcases g.replace_edge hg pos content hN a b hab with h | h
      · exact absurd h.1 ha
      · exact h.2
    · exact hg.acyclic
    · intro r hr
      rcases g.replace_edge hg pos content hN pos r hr with h | h
      · exact hnew r h.2
      · exact absurd rfl h.1

/-- The invariants survive the removal of a cell without references in either direction. -/
theorem Graph.Inv.delete {g : Graph D} (hg : g.Inv) (pos : Position) (d : GCell D)
    (hd : g pos = some d) (hin : d.incoming = []) (hout : d.refs = []) :
    Graph.Inv (Function.update g pos none) := by
  have hsome : ∀ p c, Function.update g pos none p = some c → p ≠ pos ∧ g p = some c := by
    intro p c hc
    by_cases hp : p = pos
    · rw [hp, Function.update_same] at hc
      exact absurd hc (by simp)
    · rw [Function.update_noteq hp] at hc
      exact ⟨hp, hc⟩
  have hedge : ∀ x y, Graph.Edge (Function.update g pos none) x y → g.Edge x y := by
    rintro x y ⟨c, hc, hy⟩
    exact ⟨c, (hsome x c hc).2, hy⟩
  refine ⟨?_, ?_, ?_, ?_⟩
  · intro p c hc
    exact hg.sorted p c (hsome p c hc).2
  · intro p c q hc hq
    obtain ⟨d', hd', hp⟩ := hg.forward p c q (hsome p c hc).2 hq
    have hqp : q ≠ pos := by
      intro h
      rw [h, hd] at hd'
      cases hd'
      rw [hin] at hp
      simp at hp
    exact ⟨d', by rw [Function.update_noteq hqp]; exact hd', hp⟩
  · intro q d' p hd' hp
    obtain ⟨c, hc, hq⟩ := hg.backward q d' p (hsome q d' hd').2 hp
    have hpp : p ≠ pos := by
      intro h
      rw [h, hd] at hc
      cases hc
      unfold GCell.refs at hq
      unfold GCell.refs at hout
      rw [hout] at hq
      simp at hq
    exact ⟨c, by rw [Function.update_noteq hpp]; exact hc, hq⟩
  · intro x h
    exact hg.acyclic x (Relation.TransGen.mono hedge h)

theorem Graph.Inv.inv_empty : Graph.Inv (fun _ => none : Graph D) := by
  refine ⟨?_, ?_, ?_, ?_⟩
  · intro p c h; simp at h
  · intro p c q h; simp at h
  · intro q d p h; simp at h
  · intro x h
    obtain ⟨b, ⟨c, hc, _⟩, _⟩ := Relation.TransGen.head'_iff.mp h
    simp at hc

theorem Cell.g_strip (c : Cell D) : c.strip.g = c.g := by
  obtain ⟨d, i, v⟩ := c
  cases d <;> rfl

theorem Cell.g_eq_of_strip {c c' : Cell D} (h : c.strip = c'.strip) : c.g = c'.g := by
  rw [← Cell.g_strip c, ← Cell.g_strip c', h]

theorem Sheet.graph_eq_of_stripped {s s' : Sheet D} (h : s.stripped = s'.stripped) :
    s.graph = s'.graph := by
  funext p
  have hp := congrFun h p
  unfold Sheet.stripped at hp
  unfold Sheet.graph
  cases h1 : s.cells p with
  | none =>
    rw [h1] at hp
    cases h2 : s'.cells p with
    | none => rfl
    | some c' => rw [h2] at hp; simp at hp
  | some c =>
    rw [h1] at hp
    cases h2 : s'.cells p with
    | none => rw [h2] at hp; simp at hp
    | some c' =>
      rw [h2] at hp
      simp only [Option.map_some', Option.some.injEq] at hp ⊢
      exact Cell.g_eq_of_strip hp

theorem Cell.GetReferencedCells_fresh (c : Cell D) (h : c.Fresh) :
    c.GetReferencedCells.1 = c.refs ∧ c.GetReferencedCells.2.strip = c.strip ∧
      c.GetReferencedCells.2.Fresh := by
  obtain ⟨d, i, v⟩ := c
  cases d with
  | Text t => exact ⟨rfl, rfl, h⟩
  | Formula f =>
    obtain ⟨n, fv, fe, fr⟩ := f
    cases fr with
    | none =>
      refine ⟨rfl, rfl, ?_⟩
      exact ⟨h.1, by intro r hr; cases hr; rfl⟩
    | some r =>
      refine ⟨?_, rfl, h⟩
      exact h.2 r rfl

theorem Cell.GetText_fresh (c : Cell D) (h : c.Fresh) :
    c.GetText.2.strip = c.strip ∧ c.GetText.2.Fresh ∧
      c.GetText.1 = (match c.data_ with
        | .Text t => t
        | .Formula f => '=' :: f.node_.GetExpression) := by
  obtain ⟨d, i, v⟩ := c
  cases d with
  | Text t => exact ⟨rfl, h, rfl⟩
  | Formula f =>
    obtain ⟨n, fv, fe, fr⟩ := f
    cases fe with
    | none =>
      refine ⟨rfl, ?_, rfl⟩
      exact ⟨by intro e he; cases he; rfl, h.2⟩
    | some e =>
      refine ⟨rfl, h, ?_⟩
      have := h.1 e rfl
      simp only [Cell.GetText, Formula.GetExpression, this]

theorem Sheet.stripped_setCell (s : Sheet D) (p : Position) (c c' : Cell D)
    (h : s.cells p = some c) (hs : c'.strip = c.strip) :
    (s.setCell p c').stripped = s.stripped := by
  funext q
  unfold Sheet.stripped
  rw [Sheet.cells_setCell s p c c' h]
  by_cases hq : q = p
  · rw [hq, Function.update_same, h]
    simp [hs]
  · rw [Function.update_noteq hq]

theorem Sheet.fresh_setCell (s : Sheet D) (p : Position) (c c' : Cell D)
    (h : s.cells p = some c) (hf : s.Fresh) (hc : c'.Fresh) : (s.setCell p c').Fresh := by
  intro q d hd
  rw [Sheet.cells_setCell s p c c' h] at hd
  by_cases hq : q = p
  · rw [hq, Function.update_same] at hd
    cases hd
    exact hc
  · rw [Function.update_noteq hq] at hd
    exact hf q d hd

theorem Sheet.Sim.sim_graph {s0 s : Sheet D} (h : s0.Sim s) : s.graph = s0.graph :=
  Sheet.graph_eq_of_stripped h.1

theorem Sheet.Sim.cells_isSome {s0 s : Sheet D} (h : s0.Sim s) (p : Position) :
    (s.cells p).isSome = (s0.cells p).isSome := by
  have := congrFun h.1 p
  unfold Sheet.stripped at this
  cases h1 : s.cells p <;> cases h2 : s0.cells p <;> simp_all

theorem Sheet.graph_refs {s : Sheet D} {p : Position} {c : Cell D} (h : s.cells p = some c) :
    s.graph.refsAt p = c.refs := by
  unfold Graph.refsAt Sheet.graph
  rw [h]
  rfl

theorem Sheet.graph_none {s : Sheet D} {p : Position} (h : s.cells p = none) :
    s.graph p = none := by
  unfold Sheet.graph
  rw [h]
  rfl

theorem Sheet.Sim.setCell_refs {s0 s : Sheet D} (h : s0.Sim s) (p : Position) (c : Cell D)
    (hc : s.cells p = some c) : s0.Sim (s.setCell p c.GetReferencedCells.2) := by
  have hf := c.GetReferencedCells_fresh (h.2 p c hc)
  exact ⟨by rw [Sheet.stripped_setCell s p c _ hc hf.2.1]; exact h.1,
    Sheet.fresh_setCell s p c _ hc h.2 hf.2.2⟩

theorem anyOfRefs_spec (s0 : Sheet D) (pos : Position)
    (visit : Sheet D → Position → List Position → Res (Sheet D × List Position) Bool)
    (L : List Position) (hvalid : ∀ q ∈ L, q.IsValid = true) (hpos : pos ∉ L)
    (hvisit : ∀ q ∈ L, DfsSpec s0 pos visit q) :
    ∀ s checked, s0.Sim s → (∀ x ∈ checked, ¬ Relation.ReflTransGen s0.graph.Edge x pos) →
      ∃ b s' checked', anyOfRefs visit L s checked = .ok b (s', checked') ∧ s0.Sim s' ∧
        (b = true ↔ ∃ q ∈ L, Relation.TransGen s0.graph.Edge q pos) ∧
        (b = false → ∀ x ∈ checked', ¬ Relation.ReflTransGen s0.graph.Edge x pos) := by
  induction L with
  | nil =>
    intro s checked hsim hP
    exact ⟨false, s, checked, rfl, hsim, by simp, fun _ => hP⟩
  | cons q L ih =>
    intro s checked hsim hP
    have hqv := hvalid q (List.mem_cons_self _ _)
    have hqpos : q ≠ pos := fun h => hpos (h ▸ List.mem_cons_self _ _)
    have ih' := ih (fun x hx => hvalid x (List.mem_cons_of_mem _ hx))
      (fun h => hpos (List.mem_cons_of_mem _ h))
      (fun x hx => hvisit x (List.mem_cons_of_mem _ hx))
    -- a position that does not reach `pos` in one or more steps can be skipped
    have skip : ¬ Relation.TransGen s0.graph.Edge q pos → ∀ s1 checked1, s0.Sim s1 →
        (∀ x ∈ checked1, ¬ Relation.ReflTransGen s0.graph.Edge x pos) →
        ∃ b s' checked', anyOfRefs visit L s1 checked1 = .ok b (s', checked') ∧ s0.Sim s' ∧
          (b = true ↔ ∃ x ∈ q :: L, Relation.TransGen s0.graph.Edge x pos) ∧
          (b = false → ∀ x ∈ checked', ¬ Relation.ReflTransGen s0.graph.Edge x pos) := by
      intro hq s1 checked1 hsim1 hP1
      obtain ⟨b, s', checked', h1, h2, h3, h4⟩ := ih' s1 checked1 hsim1 hP1
      refine ⟨b, s', checked', h1, h2, ?_, h4⟩
      rw [h3]
      constructor
      · rintro ⟨x, hx, hr⟩; exact ⟨x, List.mem_cons_of_mem _ hx, hr⟩
      · rintro ⟨x, hx, hr⟩
        rcases List.mem_cons.mp hx with h | h
        · rw [h] at hr; exact absurd hr hq
        · exact ⟨x, h, hr⟩
    simp only [anyOfRefs]
    by_cases hc : q ∈ checked
    · rw [if_pos hc]
      exact skip (fun h => hP q hc h.to_reflTransGen) s checked hsim hP
    · rw [if_neg hc]
      simp only [Sheet.GetCellImpl, hqv, Bool.not_true, Bool.false_eq_true, if_false]
      cases hslot : s.slot q with
      | none =>
        simp only
        refine skip ?_ s checked hsim hP
        intro h
        obtain ⟨b, ⟨c, hc1, _⟩, _⟩ := Relation.TransGen.head'_iff.mp h
        rw [← hsim.sim_graph, Sheet.graph_none (by rw [Sheet.cells_eq_slot hqv]; exact hslot)] at hc1
        exact absurd hc1 (by simp)
      | some c =>
        simp only
        obtain ⟨b, s', checked', h1, h2, h3, h4⟩ := hvisit q (List.mem_cons_self _ _) s checked
          hsim hP (by rw [Sheet.cells_eq_slot hqv, hslot]; rfl)
        rw [h1]
        cases b with
        | true =>
          simp only [if_true]
          refine ⟨true, s', q :: checked', rfl, h2, ?_, by simp⟩
          simp only [true_iff]
          exact ⟨q, List.mem_cons_self _ _, h3.mp rfl⟩
        | false =>
          simp only [Bool.false_eq_true, if_false]
          have hq : ¬ Relation.TransGen s0.graph.Edge q pos := fun h => by
            have := h3.mpr h
            exact absurd this (by decide)
          refine skip hq s' (q :: checked') h2 ?_
          intro x hx
          rcases List.mem_cons.mp hx with h | h
          · rw [h]
            intro hr
            rcases Relation.reflTransGen_iff_eq_or_transGen.mp hr with h' | h'
            · exact hqpos h'.symm
            · exact hq h'
          · exact h4 rfl x h

theorem CheckImpl_step (s0 : Sheet D) (pos : Position) (fuel : Nat) (self : Position)
    (hrec : ∀ q ∈ s0.graph.refsAt self,
      DfsSpec s0 pos (CheckForCircularDependencyImpl fuel pos) q) :
    DfsSpec s0 pos (CheckForCircularDependencyImpl (fuel + 1) pos) self := by
  intro s checked hsim hP hsome
  cases hcell : s.cells self with
  | none => rw [hcell] at hsome; exact absurd hsome (by simp)
  | some cell =>
    have hv := Sheet.cells_valid hcell
    have hslot : s.slot self = some cell := by rw [← Sheet.cells_eq_slot hv]; exact hcell
    have hrefs : s0.graph.refsAt self = cell.refs := by
      rw [← hsim.sim_graph]; exact Sheet.graph_refs hcell
    have hedge : ∀ y, s0.graph.Edge self y ↔ y ∈ cell.refs := by
      intro y
      rw [← hrefs]
      unfold Graph.Edge Graph.refsAt
      cases hg : s0.graph self with
      | none => simp
      | some c => simp [GCell.refs]
    simp only [CheckForCircularDependencyImpl, hslot]
    cases hdata : cell.data_ with
    | Text t =>
      simp only
      refine ⟨false, s, checked, rfl, hsim, ?_, fun _ => hP⟩
      simp only [Bool.false_eq_true, false_iff]
      intro h
      obtain ⟨b, hb, _⟩ := Relation.TransGen.head'_iff.mp h
      rw [hedge] at hb
      simp [Cell.refs, hdata, CellData.content, Content.refs] at hb
    | Formula f =>
      simp only
      have hfresh := cell.GetReferencedCells_fresh (hsim.2 self cell hcell)
      have hsim' := hsim.setCell_refs self cell hcell
      rw [hfresh.1]
      have hsorted : StrictSorted cell.refs := Content.refs_sorted _
      by_cases hb : binary_search cell.refs pos = true
      · rw [if_pos hb]
        refine ⟨true, _, checked, rfl, hsim', ?_, by simp⟩
        simp only [true_iff]
        exact Relation.TransGen.single ((hedge pos).mpr ((binary_search_iff _ _ hsorted).mp hb))
      · rw [if_neg hb]
        have hnot : pos ∉ cell.refs := fun h => hb ((binary_search_iff _ _ hsorted).mpr h)
        obtain ⟨b, s', checked', h1, h2, h3, h4⟩ := anyOfRefs_spec s0 pos
          (CheckForCircularDependencyImpl fuel pos) cell.refs (Content.refs_valid _) hnot
          (by rw [← hrefs]; exact hrec) _ checked hsim' hP
        refine ⟨b, s', checked', h1, h2, ?_, h4⟩
        rw [h3]
        constructor
        · rintro ⟨q, hq, hr⟩
          exact Relation.TransGen.head ((hedge q).mpr hq) hr
        · intro h
          obtain ⟨q, hq, hr⟩ := Relation.TransGen.head'_iff.mp h
          rw [hedge] at hq
          refine ⟨q, hq, ?_⟩
          rcases Relation.reflTransGen_iff_eq_or_transGen.mp hr with h' | h'
          · exact absurd (h' ▸ hq) hnot
          · exact h'

theorem exists_fuel_forall_mem {α : Type} (P : Nat → α → Prop) (L : List α)
    (h : ∀ x ∈ L, ∃ N, ∀ fuel, N ≤ fuel → P fuel x) :
    ∃ N, ∀ fuel, N ≤ fuel → ∀ x ∈ L, P fuel x := by
  induction L with
  | nil => exact ⟨0, fun _ _ x hx => absurd hx (by simp)⟩
  | cons a L ih =>
    obtain ⟨N1, h1⟩ := h a (List.mem_cons_self _ _)
    obtain ⟨N2, h2⟩ := ih (fun x hx => h x (List.mem_cons_of_mem _ hx))
    refine ⟨max N1 N2, fun fuel hf x hx => ?_⟩
    rcases List.mem_cons.mp hx with hx | hx
    · rw [hx]; exact h1 fuel (le_trans (le_max_left _ _) hf)
    · exact h2 fuel (le_trans (le_max_right _ _) hf) x hx

theorem CheckImpl_spec (s0 : Sheet D) (pos : Position)
    (hwf : WellFounded (fun q p => s0.graph.Edge p q)) (self : Position) :
    ∃ N, ∀ fuel, N ≤ fuel →
      DfsSpec s0 pos (CheckForCircularDependencyImpl fuel pos) self := by
  induction self using hwf.induction with
  | _ self ih =>
    have hall : ∀ q ∈ s0.graph.refsAt self, ∃ N, ∀ fuel, N ≤ fuel →
        DfsSpec s0 pos (CheckForCircularDependencyImpl fuel pos) q := by
      intro q hq
      apply ih
      unfold Graph.refsAt at hq
      cases hg : s0.graph self with
      | none => rw [hg] at hq; simp at hq
      | some c => rw [hg] at hq; exact ⟨c, hg, hq⟩
    obtain ⟨N, hN⟩ := exists_fuel_forall_mem
      (fun fuel q => DfsSpec s0 pos (CheckForCircularDependencyImpl fuel pos) q) _ hall
    refine ⟨N + 1, fun fuel hf => ?_⟩
    obtain ⟨k, rfl⟩ : ∃ k, fuel = k + 1 := ⟨fuel - 1, by omega⟩
    exact CheckImpl_step s0 pos k self (hN k (by omega))

/-! ### Well-foundedness of the reference graph of a sheet -/

theorem finite_valid : Finite {p : Position // p.IsValid = true} := by
  let f : {p : Position // p.IsValid = true} → Fin kMaxRows × Fin kMaxCols := fun p =>
    (⟨p.1.row.toNat, by
        have := (IsValid_iff p.1).mp p.2
        omega⟩,
      ⟨p.1.col.toNat, by
        have := (IsValid_iff p.1).mp p.2
        omega⟩)
  apply Finite.of_injective f
  intro a b hab
  have h1 := congrArg (fun x => x.1.val) hab
  have h2 := congrArg (fun x => x.2.val) hab
  simp only [f] at h1 h2
  exact Subtype.ext (Position.ext_toNat (IsValid_nonneg a.2) (IsValid_nonneg b.2) h1 h2)

theorem wellFounded_of_acyclic (E : Position → Position → Prop)
    (hl : ∀ p q, E p q → p.IsValid = true)
    (hac : ∀ p, ¬ Relation.TransGen E p p) : WellFounded E := by
  haveI := finite_valid
  let R : {p : Position // p.IsValid = true} → {p : Position // p.IsValid = true} → Prop :=
    fun a b => Relation.TransGen E a.1 b.1
  haveI : IsTrans _ R := ⟨fun a b c hab hbc => Relation.TransGen.trans hab hbc⟩
  haveI : IsIrrefl _ R := ⟨fun a h => hac a.1 h⟩
  have hwf : WellFounded R := Finite.wellFounded_of_trans_of_irrefl R
  have hacc : ∀ a : {p : Position // p.IsValid = true}, Acc E a.1 := by
    intro a
    induction a using hwf.induction with
    | _ a ih =>
      refine Acc.intro _ (fun q hq => ?_)
      exact ih ⟨q, hl q a.1 hq⟩ (Relation.TransGen.single hq)
  refine ⟨fun p => Acc.intro _ (fun q hq => ?_)⟩
  exact hacc ⟨q, hl q p hq⟩

theorem Sheet.graph_valid {s : Sheet D} {p : Position} {c : GCell D} (h : s.graph p = some c) :
    p.IsValid = true := by
  unfold Sheet.graph at h
  cases hc : s.cells p with
  | none => rw [hc] at h; simp at h
  | some d => exact Sheet.cells_valid hc

theorem Sheet.edge_valid {s : Sheet D} {p q : Position} (h : s.graph.Edge p q) :
    p.IsValid = true ∧ q.IsValid = true := by
  obtain ⟨c, hc, hq⟩ := h
  exact ⟨Sheet.graph_valid hc, Content.refs_valid _ q hq⟩

/-- References of an acyclic sheet can be followed only finitely often. -/
theorem Sheet.wf_refs (s : Sheet D) (hac : ∀ p, ¬ Relation.TransGen s.graph.Edge p p) :
    WellFounded (fun q p => s.graph.Edge p q) := by
  apply wellFounded_of_acyclic
  · intro p q h; exact (Sheet.edge_valid h).2
  · intro p h
    apply hac p
    have : ∀ a b, Relation.TransGen (fun q p => s.graph.Edge p q) a b →
        Relation.TransGen s.graph.Edge b a := by
      intro a b hab
      induction hab with
      | single h => exact Relation.TransGen.single h
      | tail _ h ih => exact Relation.TransGen.head h ih
    exact this p p h

/-- Dependents of an acyclic sheet can be followed only finitely often. -/
theorem Sheet.wf_dependents (s : Sheet D) (hac : ∀ p, ¬ Relation.TransGen s.graph.Edge p p) :
    WellFounded s.graph.Edge := by
  apply wellFounded_of_acyclic
  · intro p q h; exact (Sheet.edge_valid h).1
  · exact hac

theorem Cell.invalidate_invalidate (c : Cell D) : c.invalidate.invalidate = c.invalidate := by
  obtain ⟨d, i, v⟩ := c
  cases d <;> rfl

theorem Cell.invalidate_g (c : Cell D) : c.invalidate.g = c.g := by
  obtain ⟨d, i, v⟩ := c
  cases d <;> rfl

theorem Cell.invalidate_refs (c : Cell D) : c.invalidate.refs = c.refs := by
  obtain ⟨d, i, v⟩ := c
  cases d <;> rfl

theorem Cell.invalidate_fresh (c : Cell D) : c.invalidate.Fresh := by
  obtain ⟨d, i, v⟩ := c
  cases d with
  | Text t => trivial
  | Formula f => exact ⟨fun e he => (by cases he), fun r hr => (by cases hr)⟩

theorem Cleared.cleared_refl (o : Option (Cell D)) : Cleared o o := Or.inl rfl

theorem Cleared.cleared_trans {a b c : Option (Cell D)} (h1 : Cleared a b) (h2 : Cleared b c) :
    Cleared a c := by
  rcases h1 with h1 | ⟨x, hx, h1⟩
  · rw [h1] at h2; exact h2
  · rcases h2 with h2 | ⟨y, hy, h2⟩
    · rw [h2, h1]; exact Or.inr ⟨x, hx, rfl⟩
    · rw [h1] at hy
      cases hy
      rw [h2, Cell.invalidate_invalidate]
      exact Or.inr ⟨x, hx, rfl⟩

theorem Cleared.g_eq {o o' : Option (Cell D)} (h : Cleared o o') : o'.map Cell.g = o.map Cell.g := by
  rcases h with h | ⟨c, hc, h⟩
  · rw [h]
  · rw [h, hc]; simp [Cell.invalidate_g]

theorem Cleared.isSome {o o' : Option (Cell D)} (h : Cleared o o') : o'.isSome = o.isSome := by
  rcases h with h | ⟨c, hc, h⟩
  · rw [h]
  · rw [h, hc]; rfl

theorem Cleared.uncached {o o' : Option (Cell D)} (h : Cleared o o')
    (hu : ∀ c, o = some c → c.value_cache_ = none) : ∀ c, o' = some c → c.value_cache_ = none := by
  rcases h with h | ⟨c, hc, h⟩
  · rw [h]; exact hu
  · intro c' hc'
    rw [h] at hc'
    cases hc'
    rfl

theorem Cleared.cached {o o' : Option (Cell D)} (h : Cleared o o') (c' : Cell D)
    (hc' : o' = some c') (hv : c'.value_cache_.isSome = true) : o = some c' := by
  rcases h with h | ⟨c, hc, h⟩
  · rw [← h]; exact hc'
  · rw [h] at hc'
    cases hc'
    simp [Cell.invalidate] at hv

theorem graph_eq_of_cleared {s s' : Sheet D} (h : ∀ x, Cleared (s.cells x) (s'.cells x)) :
    s'.graph = s.graph := by
  funext x
  exact (h x).g_eq

theorem fresh_of_cleared {s s' : Sheet D} (h : ∀ x, Cleared (s.cells x) (s'.cells x))
    (hf : s.Fresh) : s'.Fresh := by
  intro p c hc
  rcases h p with h | ⟨c0, hc0, h⟩
  · rw [h] at hc; exact hf p c hc
  · rw [h] at hc
    cases hc
    exact Cell.invalidate_fresh c0

theorem Sheet.Chain.cleared {s s' : Sheet D} {X : Position → Prop} (hc : s.Chain X)
    (h : ∀ x, Cleared (s.cells x) (s'.cells x)) (Y : Position → Prop)
    (hY : ∀ q, (∀ d, s'.cells q = some d → d.value_cache_ = none) → X q ∨ Y q ∨
      ∀ d, s.cells q = some d → d.value_cache_ = none) :
    s'.Chain (fun q => X q ∨ Y q) := by
  intro x c q hx hv hq
  have hx0 := (h x).cached c hx hv
  rcases hc x c q hx0 hv hq with h1 | ⟨d, hd, hdv⟩
  · exact Or.inl (Or.inl h1)
  · rcases h q with h2 | ⟨d0, hd0, h2⟩
    · right; exact ⟨d, by rw [h2]; exact hd, hdv⟩
    · rcases hY q (by intro d' hd'; rw [h2] at hd'; cases hd'; rfl) with h3 | h3 | h3
      · exact Or.inl (Or.inl h3)
      · exact Or.inl (Or.inr h3)
      · rw [h3 d hd] at hdv
        exact absurd hdv (by simp)

theorem Sheet.graph_of_cells {s : Sheet D} {x : Position} {c : Cell D} (h : s.cells x = some c) :
    s.graph x = some c.g := by
  unfold Sheet.graph
  rw [h]
  rfl

theorem Sheet.cells_of_graph {s : Sheet D} {x : Position} {d : GCell D} (h : s.graph x = some d) :
    ∃ c, s.cells x = some c ∧ c.g = d := by
  unfold Sheet.graph at h
  cases hc : s.cells x with
  | none => rw [hc] at h; simp at h
  | some c =>
    rw [hc] at h
    simp only [Option.map_some', Option.some.injEq] at h
    exact ⟨c, rfl, h⟩

theorem Sheet.cells_isSome_of_graph_eq {s s0 : Sheet D} (h : s.graph = s0.graph) (x : Position) :
    (s.cells x).isSome = (s0.cells x).isSome := by
  have := congrFun h x
  unfold Sheet.graph at this
  cases h1 : s.cells x <;> cases h2 : s0.cells x <;> simp_all

theorem invalidate_loop_spec (s0 : Sheet D)
    (inval : Sheet D → Position → Res (Sheet D) Unit) (L : List Position)
    (hstored : ∀ q ∈ L, (s0.cells q).isSome = true)
    (hrec : ∀ q ∈ L, InvalidateSpec s0 inval q) :
    ∀ s, s.graph = s0.graph →
      ∃ s', forEachRes (invalidateBody inval) L s = .ok () s' ∧
        (∀ x, Cleared (s.cells x) (s'.cells x)) ∧
        (∀ q ∈ L, ∀ c, s'.cells q = some c → c.value_cache_ = none) ∧
        (∀ X, s.Chain X → s'.Chain X) := by
  induction L with
  | nil =>
    intro s _
    exact ⟨s, rfl, fun x => Cleared.cleared_refl _, by simp, fun X h => h⟩
  | cons q L ih =>
    intro s hg
    have hq := hstored q (List.mem_cons_self _ _)
    have hqs : (s.cells q).isSome = true := by
      rw [Sheet.cells_isSome_of_graph_eq hg]; exact hq
    obtain ⟨c, hc⟩ := Option.isSome_iff_exists.mp hqs
    have hv := Sheet.cells_valid hc
    have hslot : s.slot q = some c := by rw [← Sheet.cells_eq_slot hv]; exact hc
    obtain ⟨s1, h1, h2, h3, h4⟩ := hrec q (List.mem_cons_self _ _) s hg hqs
    have hg1 : s1.graph = s0.graph := by rw [graph_eq_of_cleared h2]; exact hg
    obtain ⟨s2, k1, k2, k3, k4⟩ := ih (fun x hx => hstored x (List.mem_cons_of_mem _ hx))
      (fun x hx => hrec x (List.mem_cons_of_mem _ hx)) s1 hg1
    refine ⟨s2, ?_, fun x => (h2 x).cleared_trans (k2 x), ?_, fun X hX => k4 X (h4 X hX)⟩
    · simp only [forEachRes, invalidateBody, Sheet.GetCellImpl, hv, Bool.not_true,
        Bool.false_eq_true, if_false, hslot, h1]
      exact k1
    · intro x hx
      rcases List.mem_cons.mp hx with h | h
      · rw [h]; exact (k2 q).uncached h3
      · exact k3 x h

theorem InvalidateCache_step (s0 : Sheet D) (hinv : s0.graph.Inv) (fuel : Nat)
    (self : Position)
    (hrec : ∀ q ∈ s0.graph.incomingAt self, InvalidateSpec s0 (InvalidateCache fuel) q) :
    InvalidateSpec s0 (InvalidateCache (fuel + 1)) self := by
  intro s hg hsome
  obtain ⟨cell, hcell⟩ := Option.isSome_iff_exists.mp hsome
  have hv := Sheet.cells_valid hcell
  have hslot : s.slot self = some cell := by rw [← Sheet.cells_eq_slot hv]; exact hcell
  have hinc : s0.graph.incomingAt self = cell.incoming_refs_ := by
    rw [← hg, Graph.incomingAt_of_some (Sheet.graph_of_cells hcell)]
    rfl
  simp only [InvalidateCache, hslot]
  by_cases hnone : cell.value_cache_.isNone = true
  · rw [if_pos hnone]
    refine ⟨s, rfl, fun x => Cleared.cleared_refl _, ?_, fun X h => h⟩
    intro c hc
    rw [hcell] at hc
    cases hc
    exact Option.isNone_iff_eq_none.mp hnone
  · rw [if_neg hnone]
    have hcells1 : (s.setCell self cell.invalidate).cells
        = Function.update s.cells self (some cell.invalidate) :=
      Sheet.cells_setCell s self cell _ hcell
    have hcl1 : ∀ x, Cleared (s.cells x) ((s.setCell self cell.invalidate).cells x) := by
      intro x
      rw [hcells1]
      by_cases hx : x = self
      · rw [hx, Function.update_same]
        exact Or.inr ⟨cell, hcell, rfl⟩
      · rw [Function.update_noteq hx]
        exact Cleared.cleared_refl _
    have hg1 : (s.setCell self cell.invalidate).graph = s0.graph := by
      rw [graph_eq_of_cleared hcl1]; exact hg
    have hstored : ∀ q ∈ cell.incoming_refs_, (s0.cells q).isSome = true := by
      intro q hq
      have hgs : s0.graph self = some cell.g := by rw [← hg]; exact Sheet.graph_of_cells hcell
      obtain ⟨c, hc, _⟩ := hinv.backward self cell.g q hgs hq
      obtain ⟨c', hc', _⟩ := Sheet.cells_of_graph hc
      rw [hc']; rfl
    obtain ⟨s', h1, h2, h3, h4⟩ := invalidate_loop_spec s0 (InvalidateCache fuel)
      cell.incoming_refs_ hstored (by rw [← hinc]; exact hrec) _ hg1
    have hcl : ∀ x, Cleared (s.cells x) (s'.cells x) := fun x => (hcl1 x).cleared_trans (h2 x)
    have hunc : ∀ c, s'.cells self = some c → c.value_cache_ = none := by
      apply (h2 self).uncached
      intro c hc
      rw [hcells1, Function.update_same] at hc
      cases hc
      rfl
    refine ⟨s', h1, hcl, hunc, ?_⟩
    intro X hX
    have hch1 : (s.setCell self cell.invalidate).Chain (fun q => X q ∨ q = self) := by
      apply hX.cleared hcl1
      intro q hq
      by_cases hqs : q = self
      · exact Or.inr (Or.inl hqs)
      · right; right
        intro d hd
        apply hq d
        rw [hcells1, Function.update_noteq hqs]
        exact hd
    have hch' := h4 _ hch1
    intro x c q hx hcv hqc
    rcases hch' x c q hx hcv hqc with (h | h) | h
    · exact Or.inl h
    · exfalso
      subst h
      have hgx : s0.graph x = some c.g := by
        rw [← hg, ← graph_eq_of_cleared hcl]; exact Sheet.graph_of_cells hx
      obtain ⟨d, hd, hxd⟩ := hinv.forward x c.g q hgx hqc
      have : d.incoming = cell.incoming_refs_ := by
        rw [← hinc, Graph.incomingAt_of_some hd]
      rw [this] at hxd
      rw [h3 x hxd c hx] at hcv
      exact absurd hcv (by simp)
    · exact Or.inr h

theorem InvalidateCache_spec (s0 : Sheet D) (hinv : s0.graph.Inv) (self : Position) :
    ∃ N, ∀ fuel, N ≤ fuel → InvalidateSpec s0 (InvalidateCache fuel) self := by
  have hwf := s0.wf_dependents hinv.acyclic
  induction self using hwf.induction with
  | _ self ih =>
    have hall : ∀ q ∈ s0.graph.incomingAt self, ∃ N, ∀ fuel, N ≤ fuel →
        InvalidateSpec s0 (InvalidateCache fuel) q := by
      intro q hq
      apply ih
      unfold Graph.incomingAt at hq
      cases hgs : s0.graph self with
      | none => rw [hgs] at hq; simp at hq
      | some d =>
        rw [hgs] at hq
        exact hinv.backward self d q hgs hq
    obtain ⟨N, hN⟩ := exists_fuel_forall_mem
      (fun fuel q => InvalidateSpec s0 (InvalidateCache fuel) q) _ hall
    refine ⟨N + 1, fun fuel hf => ?_⟩
    obtain ⟨k, rfl⟩ : ∃ k, fuel = k + 1 := ⟨fuel - 1, by omega⟩
    exact InvalidateCache_step s0 hinv k self (hN k (by omega))

theorem slot_some_rows {s : Sheet D} {t : Position} {cell : Cell D} (h : s.slot t = some cell) :
    ∃ row, s.table_[t.row.toNat]? = some row ∧ row[t.col.toNat]? = some (some cell) := by
  unfold Sheet.slot at h
  cases hr : s.table_[t.row.toNat]? with
  | none => rw [hr] at h; simp at h
  | some row =>
    rw [hr] at h
    simp only [Option.getD_some] at h
    cases hc : row[t.col.toNat]? with
    | none => rw [hc] at h; simp at h
    | some v =>
      rw [hc] at h
      simp only [Option.getD_some] at h
      exact ⟨row, rfl, by rw [hc, h]⟩

theorem DeleteReferenceStep_spec (pos : Position) (s : Sheet D) (t : Position) (cell : Cell D)
    (h : s.cells t = some cell) :
    ∃ s', DeleteReferenceStep pos s t = some s' ∧
      s'.cells = Function.update s.cells t (cell.afterRemove pos) := by
  have hv := Sheet.cells_valid h
  have hslot : s.slot t = some cell := by rw [← Sheet.cells_eq_slot hv]; exact h
  obtain ⟨row, hrow, hcol⟩ := slot_some_rows hslot
  have hnn := IsValid_nonneg hv
  have hneg : ¬ (t.row < 0 ∨ t.col < 0) := by omega
  simp only [DeleteReferenceStep, hneg, if_false, hrow, hcol]
  unfold Cell.afterRemove
  by_cases hc : ((cell.RemoveIncomingRef pos).Empty
      && !(cell.RemoveIncomingRef pos).HasIncomingRefs) = true
  · rw [if_pos hc, if_pos hc]
    refine ⟨_, rfl, ?_⟩
    have := cells_set_ShrinkRow s t hv (Sheet.slot_some_inBounds hslot)
    rw [hrow] at this
    exact this
  · rw [if_neg hc, if_neg hc]
    exact ⟨_, rfl, Sheet.cells_setCell s t cell _ h⟩

theorem foldlM_DeleteReferenceStep (pos : Position) (refs : List Position) (hnd : refs.Nodup) :
    ∀ s : Sheet D, (∀ t ∈ refs, (s.cells t).isSome = true) →
      ∃ s', refs.foldlM (DeleteReferenceStep pos) s = some s' ∧
        ∀ x, s'.cells x =
          if x ∈ refs then (s.cells x).bind (Cell.afterRemove pos) else s.cells x := by
  induction refs with
  | nil =>
    intro s _
    exact ⟨s, rfl, fun x => by simp⟩
  | cons t refs ih =>
    intro s hs
    have hnd' := List.nodup_cons.mp hnd
    obtain ⟨cell, hcell⟩ := Option.isSome_iff_exists.mp (hs t (List.mem_cons_self _ _))
    obtain ⟨s1, h1, h2⟩ := DeleteReferenceStep_spec pos s t cell hcell
    have hs1 : ∀ t' ∈ refs, (s1.cells t').isSome = true := by
      intro t' ht'
      have hne : t' ≠ t := fun h => hnd'.1 (h ▸ ht')
      rw [h2, Function.update_noteq hne]
      exact hs t' (List.mem_cons_of_mem _ ht')
    obtain ⟨s', k1, k2⟩ := ih hnd'.2 s1 hs1
    refine ⟨s', ?_, ?_⟩
    · simp only [List.foldlM, h1]
      exact k1
    · intro x
      rw [k2 x, h2]
      by_cases hx : x = t
      · subst hx
        rw [if_neg hnd'.1, if_pos (List.mem_cons_self _ _), Function.update_same, hcell]
        rfl
      · rw [Function.update_noteq hx]
        by_cases hxr : x ∈ refs
        · rw [if_pos hxr, if_pos (List.mem_cons_of_mem _ hxr)]
        · rw [if_neg hxr, if_neg (by
            intro h
            rcases List.mem_cons.mp h with h | h
            · exact hx h
            · exact hxr h)]

theorem Sheet.DeleteReferencesForCell_spec (s : Sheet D) (pos : Position)
    (refs : List Position) (hnd : refs.Nodup) (hs : ∀ t ∈ refs, (s.cells t).isSome = true) :
    ∃ s', s.DeleteReferencesForCell pos refs = some s' ∧
      ∀ x, s'.cells x =
        if x ∈ refs then (s.cells x).bind (Cell.afterRemove pos) else s.cells x := by
  obtain ⟨s1, h1, h2⟩ := foldlM_DeleteReferenceStep pos refs hnd s hs
  refine ⟨s1.ShrinkTable, ?_, ?_⟩
  · simp only [Sheet.DeleteReferencesForCell, h1, Option.map_some']
  · intro x
    rw [Sheet.cells_ShrinkTable]
    exact h2 x

theorem Cell.afterRemove_g (pos : Position) (c : Cell D) :
    (c.afterRemove pos).map Cell.g = GCell.afterRemove pos c.g := by
  unfold Cell.afterRemove GCell.afterRemove
  have h1 : (c.RemoveIncomingRef pos).Empty = c.g.content.isEmptyText := by
    obtain ⟨d, i, v⟩ := c
    cases d <;> rfl
  have h2 : (c.RemoveIncomingRef pos).HasIncomingRefs
      = !(removeIncomingRef c.g.incoming pos).isEmpty := rfl
  have h3 : (c.RemoveIncomingRef pos).g = ⟨c.g.content, removeIncomingRef c.g.incoming pos⟩ := by
    obtain ⟨d, i, v⟩ := c
    cases d <;> rfl
  rw [h1, h2]
  by_cases hc : c.g.content.isEmptyText = true ∧ removeIncomingRef c.g.incoming pos = []
  · rw [if_pos hc, if_pos (by simp [hc.1, hc.2])]
    rfl
  · rw [if_neg hc, if_neg (by
      intro h
      apply hc
      simp only [Bool.not_not, Bool.and_eq_true, List.isEmpty_iff] at h
      exact h)]
    simp [h3]

theorem graph_after_delete (s s' : Sheet D) (pos : Position)
    (h : ∀ x, s'.cells x =
      if x ∈ s.graph.refsAt pos then (s.cells x).bind (Cell.afterRemove pos) else s.cells x) :
    s'.graph = s.graph.removed pos := by
  funext x
  unfold Graph.removed Sheet.graph
  rw [h x]
  by_cases hx : x ∈ Graph.refsAt (fun p => (s.cells p).map Cell.g) pos
  · have hx' : x ∈ s.graph.refsAt pos := hx
    rw [if_pos hx', if_pos hx]
    cases hc : s.cells x with
    | none => rfl
    | some c => simp [Cell.afterRemove_g]
  · have hx' : x ∉ s.graph.refsAt pos := hx
    rw [if_neg hx', if_neg hx]

theorem AddReferenceStep_cells (pos : Position) (s : Sheet D) (q : Position)
    (hq : q.IsValid = true) :
    (AddReferenceStep pos s q).cells
      = Function.update s.cells q (some (Cell.afterAdd pos (s.cells q))) := by
  unfold AddReferenceStep
  simp only
  have h1 := Sheet.cells_GetCellRef s q
  have h2 : (s.GetCellRef q).slot q = s.cells q := by
    rw [Sheet.slot_GetCellRef, Sheet.cells_eq_slot hq]
  rw [h2]
  unfold Sheet.setCell
  rw [Sheet.cells_setSlot _ q _ hq (Sheet.inBounds_GetCellRef_self s q), h1]
  rfl

theorem foldl_AddReferenceStep (pos : Position) (N : List Position) (hnd : N.Nodup)
    (hv : ∀ q ∈ N, q.IsValid = true) :
    ∀ (s : Sheet D) (x : Position),
      (N.foldl (AddReferenceStep pos) s).cells x =
        if x ∈ N then some (Cell.afterAdd pos (s.cells x)) else s.cells x := by
  induction N with
  | nil => intro s x; simp
  | cons q N ih =>
    intro s x
    have hnd' := List.nodup_cons.mp hnd
    simp only [List.foldl_cons]
    rw [ih hnd'.2 (fun y hy => hv y (List.mem_cons_of_mem _ hy)),
      AddReferenceStep_cells pos s q (hv q (List.mem_cons_self _ _))]
    by_cases hx : x = q
    · subst hx
      rw [if_neg hnd'.1, if_pos (List.mem_cons_self _ _), Function.update_same]
    · rw [Function.update_noteq hx]
      by_cases hxN : x ∈ N
      · rw [if_pos hxN, if_pos (List.mem_cons_of_mem _ hxN)]
      · rw [if_neg hxN, if_neg (by
          intro h
          rcases List.mem_cons.mp h with h | h
          · exact hx h
          · exact hxN h)]

theorem Cell.afterAdd_g (pos : Position) (o : Option (Cell D)) :
    (Cell.afterAdd pos o).g = GCell.afterAdd pos (o.map Cell.g) := by
  cases o with
  | none => rfl
  | some c =>
    obtain ⟨d, i, v⟩ := c
    cases d <;> rfl

theorem Cell.ofNodeChecked_fresh (node : Node D) : (Cell.ofNodeChecked node).Fresh :=
  ⟨fun e he => (by cases he), fun r hr => (by cases hr; rfl)⟩

theorem reach_iff_mem_of_no_incoming (g : Graph D) (hg : g.Inv) (pos : Position)
    (hin : g.incomingAt pos = []) (N : List Position) :
    (∃ r ∈ N, Relation.ReflTransGen g.Edge r pos) ↔ pos ∈ N := by
  constructor
  · rintro ⟨r, hr, hreach⟩
    rcases Relation.reflTransGen_iff_eq_or_transGen.mp hreach with h | h
    · rw [h]; exact hr
    · exfalso
      obtain ⟨x, _, ⟨c, hc, hpc⟩⟩ := Relation.TransGen.tail'_iff.mp h
      obtain ⟨d, hd, hx⟩ := hg.forward x c pos hc hpc
      rw [Graph.incomingAt_of_some hd] at hin
      rw [hin] at hx
      simp at hx
  · intro h
    exact ⟨pos, h, Relation.ReflTransGen.refl⟩

theorem CheckForCircularDependency_spec (s : Sheet D) (hfresh : s.Fresh) (hinv : s.graph.Inv)
    (pos : Position) (node : Node D) (has_incoming_refs : Bool)
    (hhas : has_incoming_refs = false → s.graph.incomingAt pos = []) :
    ∃ N, ∀ fuel, N ≤ fuel →
      ∃ b s', Cell.CheckForCircularDependency fuel s (Cell.ofNode node) pos has_incoming_refs
          = .ok b (s', Cell.ofNodeChecked node) ∧ s.Sim s' ∧
        (has_incoming_refs = false → s' = s) ∧
        (b = true ↔ ∃ r ∈ node.GetReferencedCells, Relation.ReflTransGen s.graph.Edge r pos) := by
  have hsorted := Node.strictSorted_refs node
  have hsim : s.Sim s := ⟨rfl, hfresh⟩
  cases has_incoming_refs with
  | false =>
    refine ⟨0, fun fuel _ => ⟨binary_search node.GetReferencedCells pos, s, rfl, hsim,
      fun _ => rfl, ?_⟩⟩
    rw [binary_search_iff _ _ hsorted,
      reach_iff_mem_of_no_incoming s.graph hinv pos (hhas rfl)]
  | true =>
    have hwf := s.wf_refs hinv.acyclic
    obtain ⟨N, hN⟩ := exists_fuel_forall_mem
      (fun fuel q => DfsSpec s pos (CheckForCircularDependencyImpl fuel pos) q)
      node.GetReferencedCells (fun q _ => CheckImpl_spec s pos hwf q)
    refine ⟨N, fun fuel hf => ?_⟩
    simp only [Cell.CheckForCircularDependency, if_true, Cell.ofNode]
    show ∃ b s', (if binary_search node.GetReferencedCells pos = true then _ else _) = _ ∧ _
    by_cases hb : binary_search node.GetReferencedCells pos = true
    · rw [if_pos hb]
      refine ⟨true, s, rfl, hsim, fun h => (by cases h), ?_⟩
      simp only [true_iff]
      exact ⟨pos, (binary_search_iff _ _ hsorted).mp hb, Relation.ReflTransGen.refl⟩
    · rw [if_neg hb]
      have hnot : pos ∉ node.GetReferencedCells :=
        fun h => hb ((binary_search_iff _ _ hsorted).mpr h)
      obtain ⟨b, s', checked', h1, h2, h3, _⟩ := anyOfRefs_spec s pos
        (CheckForCircularDependencyImpl fuel pos) node.GetReferencedCells (Node.valid_refs node)
        hnot (hN fuel hf) s [] hsim (by simp)
      refine ⟨b, s', ?_, h2, fun h => (by cases h), ?_⟩
      · simp only [Cell.GetReferencedCells, Formula.GetReferencedCells, Formula.create] at h1 ⊢
        rw [h1]
        rfl
      · rw [h3]
        constructor
        · rintro ⟨q, hq, hr⟩; exact ⟨q, hq, hr.to_reflTransGen⟩
        · rintro ⟨q, hq, hr⟩
          refine ⟨q, hq, ?_⟩
          rcases Relation.reflTransGen_iff_eq_or_transGen.mp hr with h | h
          · exact absurd (h ▸ hq) hnot
          · exact h

theorem Cell.strip_invalidate (c : Cell D) : c.invalidate.strip = c.strip.invalidate := by
  obtain ⟨d, i, v⟩ := c
  cases d <;> rfl

theorem Cell.invalidate_strip_eq {c c' : Cell D} (h : c.strip = c'.strip) :
    c.invalidate.strip = c'.invalidate.strip := by
  rw [Cell.strip_invalidate, Cell.strip_invalidate, h]

theorem StripRel.strip_refl (o : Option (Cell D)) : StripRel o o := Or.inl rfl

theorem StripRel.strip_trans {a b c : Option (Cell D)} (h1 : StripRel a b) (h2 : StripRel b c) :
    StripRel a c := by
  cases a with
  | none =>
    have hb : b = none := by
      rcases h1 with h | h <;> simpa using h
    subst hb
    exact h2
  | some x =>
    cases b with
    | none => rcases h1 with h | h <;> simp at h
    | some y =>
      cases c with
      | none => rcases h2 with h | h <;> simp at h
      | some z =>
        unfold StripRel at *
        simp only [Option.map_some', Option.some.injEq] at *
        rcases h1 with h1 | h1 <;> rcases h2 with h2 | h2
        · left; rw [h2, h1]
        · right; rw [h2]; exact Cell.invalidate_strip_eq h1
        · right; rw [h2, h1]
        · right
          rw [h2, Cell.strip_invalidate, h1, ← Cell.strip_invalidate, Cell.invalidate_invalidate]

theorem StripRel.strip_g {o o' : Option (Cell D)} (h : StripRel o o') :
    o'.map Cell.g = o.map Cell.g := by
  cases o with
  | none =>
    have : o' = none := by rcases h with h | h <;> simpa using h
    rw [this]
  | some x =>
    cases o' with
    | none => rcases h with h | h <;> simp at h
    | some y =>
      unfold StripRel at h
      simp only [Option.map_some', Option.some.injEq] at *
      rcases h with h | h
      · exact Cell.g_eq_of_strip h
      · rw [← Cell.g_strip y, h, Cell.g_strip, Cell.invalidate_g]

theorem Sheet.Upd.upd_graph {s s' : Sheet D} (h : s.Upd s') : s'.graph = s.graph := by
  funext x
  exact (h.rel x).strip_g

theorem Sheet.Upd.upd_refl (s : Sheet D) : s.Upd s :=
  ⟨fun _ => StripRel.strip_refl _, fun h => h, fun _ h => h⟩

theorem Sheet.Upd.upd_trans {a b c : Sheet D} (h1 : a.Upd b) (h2 : b.Upd c) : a.Upd c :=
  ⟨fun x => (h1.rel x).strip_trans (h2.rel x), fun h => h2.fresh (h1.fresh h),
    fun X h => h2.chain X (h1.chain X h)⟩

theorem Cell.strip_value_cache (c : Cell D) : c.strip.value_cache_ = c.value_cache_ := rfl

theorem Cell.strip_refs (c : Cell D) : c.strip.refs = c.refs := by
  obtain ⟨d, i, v⟩ := c
  cases d <;> rfl

theorem Sheet.Chain.of_stripped {s s' : Sheet D} (h : s'.stripped = s.stripped)
    (X : Position → Prop) (hc : s.Chain X) : s'.Chain X := by
  have key : ∀ x c', s'.cells x = some c' → ∃ c, s.cells x = some c ∧ c.strip = c'.strip := by
    intro x c' hx
    have := congrFun h x
    unfold Sheet.stripped at this
    rw [hx] at this
    cases hs : s.cells x with
    | none => rw [hs] at this; simp at this
    | some c =>
      rw [hs] at this
      simp only [Option.map_some', Option.some.injEq] at this
      exact ⟨c, rfl, this.symm⟩
  have key' : ∀ x c, s.cells x = some c → ∃ c', s'.cells x = some c' ∧ c.strip = c'.strip := by
    intro x c hx
    have := congrFun h x
    unfold Sheet.stripped at this
    rw [hx] at this
    cases hs : s'.cells x with
    | none => rw [hs] at this; simp at this
    | some c' =>
      rw [hs] at this
      simp only [Option.map_some', Option.some.injEq] at this
      exact ⟨c', rfl, this.symm⟩
  intro x c' q hx hv hq
  obtain ⟨c, hc1, hc2⟩ := key x c' hx
  have hv' : c.value_cache_.isSome = true := by
    rw [← Cell.strip_value_cache c, hc2, Cell.strip_value_cache]; exact hv
  have hq' : q ∈ c.refs := by
    rw [← Cell.strip_refs c, hc2, Cell.strip_refs]; exact hq
  rcases hc x c q hc1 hv' hq' with h1 | ⟨d, hd, hdv⟩
  · exact Or.inl h1
  · obtain ⟨d', hd'1, hd'2⟩ := key' q d hd
    refine Or.inr ⟨d', hd'1, ?_⟩
    rw [← Cell.strip_value_cache d', ← hd'2, Cell.strip_value_cache]; exact hdv

theorem Sheet.Sim.upd {s s' : Sheet D} (h : s.Sim s') : s.Upd s' := by
  refine ⟨fun x => Or.inl ?_, fun _ => h.2, fun X hc => hc.of_stripped h.1 X⟩
  exact congrFun h.1 x

theorem upd_of_cleared {s s' : Sheet D} (h : ∀ x, Cleared (s.cells x) (s'.cells x))
    (hc : ∀ X, s.Chain X → s'.Chain X) : s.Upd s' := by
  refine ⟨fun x => ?_, fresh_of_cleared h, hc⟩
  rcases h x with h | ⟨c, hc, h⟩
  · left; rw [h]
  · right; rw [h, hc]; rfl

theorem sim_of_cells_eq {s s' : Sheet D} (h : s'.cells = s.cells) (hf : s.Fresh) : s.Sim s' := by
  refine ⟨?_, ?_⟩
  · unfold Sheet.stripped; rw [h]
  · intro p c hc; rw [h] at hc; exact hf p c hc

/-! ### Replacing the old cell in `SetCell` -/

theorem ReplaceOldCell_spec (s0 : Sheet D) (hinv : s0.graph.Inv) (pos : Position) :
    ∃ N, ∀ fuel, N ≤ fuel → ∀ (s3 : Sheet D) (new_cell : Cell D),
      s3.graph = s0.graph → s3.Fresh → (s3.cells pos).isSome = true →
      ∃ s4 s5, ReplaceOldCell fuel s3 pos new_cell
          = .ok (new_cell.SetIncomingReferences (s0.graph.incomingAt pos)) s5 ∧
        s3.Upd s4 ∧ (∀ c, s4.cells pos = some c → c.value_cache_ = none) ∧
        (∀ x, s5.cells x =
          if x ∈ s0.graph.refsAt pos then (s4.cells x).bind (Cell.afterRemove pos)
          else s4.cells x) ∧
        s5.InBounds pos := by
  obtain ⟨N, hN⟩ := InvalidateCache_spec s0 hinv pos
  refine ⟨N, fun fuel hf s3 new_cell hg hfresh hsome => ?_⟩
  obtain ⟨sI, h1, h2, h3, h4⟩ := hN fuel hf s3 hg hsome
  have hgI : sI.graph = s0.graph := by rw [graph_eq_of_cleared h2]; exact hg
  have hfI : sI.Fresh := fresh_of_cleared h2 hfresh
  have hsomeI : (sI.cells pos).isSome = true := by rw [(h2 pos).isSome]; exact hsome
  obtain ⟨cellI, hcellI⟩ := Option.isSome_iff_exists.mp hsomeI
  have hv := Sheet.cells_valid hcellI
  have hslotI : sI.slot pos = some cellI := by rw [← Sheet.cells_eq_slot hv]; exact hcellI
  have hfr := cellI.GetReferencedCells_fresh (hfI pos cellI hcellI)
  have hsimI : sI.Sim sI := ⟨rfl, hfI⟩
  have hsim4 := hsimI.setCell_refs pos cellI hcellI
  have hcells4 : (sI.setCell pos cellI.GetReferencedCells.2).cells
      = Function.update sI.cells pos (some cellI.GetReferencedCells.2) :=
    Sheet.cells_setCell sI pos cellI _ hcellI
  have hg4 : (sI.setCell pos cellI.GetReferencedCells.2).graph = s0.graph := by
    rw [hsim4.sim_graph]; exact hgI
  have hrefs : cellI.GetReferencedCells.1 = s0.graph.refsAt pos := by
    rw [hfr.1, ← hgI, Sheet.graph_refs hcellI]
  have hstored : ∀ t ∈ s0.graph.refsAt pos,
      ((sI.setCell pos cellI.GetReferencedCells.2).cells t).isSome = true := by
    intro t ht
    rw [Sheet.cells_isSome_of_graph_eq hg4]
    unfold Graph.refsAt at ht
    cases hgp : s0.graph pos with
    | none => rw [hgp] at ht; simp at ht
    | some c =>
      rw [hgp] at ht
      obtain ⟨d, hd, _⟩ := hinv.forward pos c t hgp ht
      obtain ⟨c', hc', _⟩ := Sheet.cells_of_graph hd
      rw [hc']; rfl
  obtain ⟨s5, k1, k2⟩ := Sheet.DeleteReferencesForCell_spec
    (sI.setCell pos cellI.GetReferencedCells.2) pos (s0.graph.refsAt pos)
    (s0.graph.refsAt_nodup pos) hstored
  have hpos5 : s5.cells pos = some cellI.GetReferencedCells.2 := by
    rw [k2 pos, if_neg (hinv.not_self_ref pos), hcells4, Function.update_same]
  have hslot5 : s5.slot pos = some cellI.GetReferencedCells.2 := by
    rw [← Sheet.cells_eq_slot hv]; exact hpos5
  have hinc : cellI.GetReferencedCells.2.incoming_refs_ = s0.graph.incomingAt pos := by
    have : cellI.GetReferencedCells.2.g = cellI.g := Cell.g_eq_of_strip hfr.2.1
    rw [← hgI, Graph.incomingAt_of_some (Sheet.graph_of_cells hcellI), ← this]
    rfl
  refine ⟨sI.setCell pos cellI.GetReferencedCells.2, s5, ?_, ?_, ?_, k2,
    Sheet.slot_some_inBounds hslot5⟩
  · simp only [ReplaceOldCell, h1, hslotI, hrefs, k1, hslot5, hinc]
  · exact (upd_of_cleared h2 h4).upd_trans hsim4.upd
  · intro c hc
    rw [hcells4, Function.update_same] at hc
    cases hc
    have : cellI.GetReferencedCells.2.strip.value_cache_ = cellI.strip.value_cache_ := by
      rw [hfr.2.1]
    exact this.trans (h3 cellI hcellI)

theorem install_spec (s5 sI : Sheet D) (R : List Position) (pos : Position)
    (hpos : pos.IsValid = true) (content : Content D) (incoming : List Position)
    (hN : pos ∉ content.refs) (hin : s5.InBounds pos)
    (h5 : ∀ x, x ≠ pos → s5.cells x =
      if x ∈ R then (sI.cells x).bind (Cell.afterRemove pos) else sI.cells x) :
    (content.refs.foldl (AddReferenceStep pos)
        (s5.setSlot pos (some (content.toCell incoming)))).cells
      = sI.installed R content.refs pos (content.toCell incoming) := by
  funext x
  rw [foldl_AddReferenceStep pos _ (Content.refs_sorted content).nodup (Content.refs_valid content),
    Sheet.cells_setSlot s5 pos _ hpos hin]
  unfold Sheet.installed
  by_cases hx : x = pos
  · rw [hx, if_neg hN, Function.update_same, if_pos rfl]
  · rw [if_neg hx, Function.update_noteq hx, h5 x hx]

theorem Content.toCell_refs (content : Content D) (incoming : List Position) :
    (content.toCell incoming).GetReferencedCells = (content.refs, content.toCell incoming) := by
  cases content <;> rfl

theorem Content.toCell_fresh (content : Content D) (incoming : List Position) :
    (content.toCell incoming).Fresh := by
  cases content with
  | Text t => trivial
  | Formula n => exact ⟨fun e he => (by cases he), fun r hr => (by cases hr; rfl)⟩

theorem Content.toCell_g (content : Content D) (incoming : List Position) :
    (content.toCell incoming).g = ⟨content, incoming⟩ := by
  cases content <;> rfl

theorem Cell.create_text (env : Env D) (fuel : Nat) (s : Sheet D) (pos : Position) (text : Str)
    (b : Bool) (h : IsTextCell text = true) :
    Cell.create env fuel s pos text b = .ok (Cell.ofText text) s := by
  unfold Cell.create
  unfold IsTextCell at h
  rw [if_pos h]

theorem Cell.create_parse_none (env : Env D) (fuel : Nat) (s : Sheet D) (pos : Position)
    (text : Str) (b : Bool) (h : IsTextCell text = false)
    (hp : env.ParseFormula (text.drop 1) = none) :
    Cell.create env fuel s pos text b = .raise .FormulaException s := by
  unfold Cell.create
  unfold IsTextCell at h
  rw [if_neg (by rw [h]; decide), hp]

theorem Cell.create_node (env : Env D) (fuel : Nat) (s : Sheet D) (pos : Position)
    (text : Str) (b : Bool) (node : Node D) (h : IsTextCell text = false)
    (hp : env.ParseFormula (text.drop 1) = some node) (r : Bool) (s' : Sheet D)
    (hc : Cell.CheckForCircularDependency fuel s (Cell.ofNode node) pos b
      = .ok r (s', Cell.ofNodeChecked node)) :
    Cell.create env fuel s pos text b =
      if r = true then .raise .CircularDependency s' else .ok (Cell.ofNodeChecked node) s' := by
  unfold Cell.create
  unfold IsTextCell at h
  rw [if_neg (by rw [h]; decide), hp]
  simp only
  unfold Cell.ofNode at hc
  rw [hc]
  cases r <;> rfl

theorem finishSetCell_spec (s0 : Sheet D) (hinv : s0.graph.Inv) (pos : Position)
    (hpos : pos.IsValid = true) :
    ∃ N, ∀ fuel, N ≤ fuel → ∀ (s3 : Sheet D) (content : Content D),
      s0.Upd s3 → s0.Fresh → pos ∉ content.refs →
      ((s0.cells pos).isSome = false → s3.InBounds pos) →
      ∃ sI s', finishSetCell fuel s3 pos (s0.cells pos).isSome (content.toCell [])
          = .ok () s' ∧ s0.Upd sI ∧
        ((s0.cells pos).isSome = true → ∀ c, sI.cells pos = some c → c.value_cache_ = none) ∧
        s'.cells = sI.installed (s0.graph.refsAt pos) content.refs pos
          (content.toCell (s0.graph.incomingAt pos)) := by
  obtain ⟨N, hN⟩ := ReplaceOldCell_spec s0 hinv pos
  refine ⟨N, fun fuel hf s3 content hupd hfresh hnot hin => ?_⟩
  have hset : ∀ inc, (content.toCell []).SetIncomingReferences inc = content.toCell inc := by
    intro inc; cases content <;> rfl
  cases hold : (s0.cells pos).isSome with
  | true =>
    have hsome3 : (s3.cells pos).isSome = true := by
      rw [Sheet.cells_isSome_of_graph_eq hupd.upd_graph]; exact hold
    obtain ⟨s4, s5, h1, h2, h3, h4, h5⟩ := hN fuel hf s3 (content.toCell []) hupd.upd_graph
      (hupd.fresh hfresh) hsome3
    refine ⟨s4, content.refs.foldl (AddReferenceStep pos)
      (s5.setSlot pos (some (content.toCell (s0.graph.incomingAt pos)))), ?_, hupd.upd_trans h2,
      fun _ => h3, ?_⟩
    · simp only [finishSetCell, if_true, h1, hset, Content.toCell_refs]
    · exact install_spec s5 s4 _ pos hpos content _ hnot h5 (fun x _ => h4 x)
  | false =>
    have hnone : s0.graph pos = none := by
      apply Sheet.graph_none
      cases h : s0.cells pos with
      | none => rfl
      | some c => rw [h] at hold; simp at hold
    have hR : s0.graph.refsAt pos = [] := by unfold Graph.refsAt; rw [hnone]
    have hI : s0.graph.incomingAt pos = [] := by unfold Graph.incomingAt; rw [hnone]
    refine ⟨s3, content.refs.foldl (AddReferenceStep pos)
      (s3.setSlot pos (some (content.toCell []))), ?_, hupd, fun h => (by cases h), ?_⟩
    · simp only [finishSetCell, Bool.false_eq_true, if_false, Content.toCell_refs]
    · rw [hR, hI]
      exact install_spec s3 s3 [] pos hpos content [] hnot (hin hold) (fun x _ => by simp)

theorem Sheet.SetCell_unfold (env : Env D) (fuel : Nat) (s : Sheet D) (pos : Position)
    (text : Str) (hpos : pos.IsValid = true) :
    s.SetCell env fuel pos text =
      if s.sameText pos text = true then .ok () (s.preState pos)
      else
        match Cell.create env fuel (s.preState pos) pos text (s.hasIncoming pos) with
        | .ok new_cell s3 => finishSetCell fuel s3 pos (s.cells pos).isSome new_cell
        | .raise e s3 => .raise e s3
        | .stuck => .stuck := by
  have hslot : (s.GetCellRef pos).slot pos = s.cells pos := by
    rw [Sheet.slot_GetCellRef, Sheet.cells_eq_slot hpos]
  unfold Sheet.SetCell Sheet.sameText Sheet.preState Sheet.hasIncoming finishSetCell
  simp only [hpos, Bool.not_true, Bool.false_eq_true, if_false, hslot]

theorem Sheet.preState_sim (s : Sheet D) (hfresh : s.Fresh) (pos : Position) :
    s.Sim (s.preState pos) ∧ (s.cells pos = none → (s.preState pos).InBounds pos) := by
  have h1 := Sheet.cells_GetCellRef s pos
  have hsim1 : s.Sim (s.GetCellRef pos) := sim_of_cells_eq h1 hfresh
  unfold Sheet.preState
  cases hc : s.cells pos with
  | none => exact ⟨hsim1, fun _ => Sheet.inBounds_GetCellRef_self s pos⟩
  | some cell =>
    refine ⟨?_, fun h => (by cases h)⟩
    have hc1 : (s.GetCellRef pos).cells pos = some cell := by rw [h1]; exact hc
    have hf := cell.GetText_fresh (hfresh pos cell hc)
    refine ⟨?_, ?_⟩
    · rw [Sheet.stripped_setCell _ pos cell _ hc1 hf.1]; exact hsim1.1
    · exact Sheet.fresh_setCell _ pos cell _ hc1 hsim1.2 hf.2.1

theorem Sheet.sameText_iff (s : Sheet D) (pos : Position) (text : Str) :
    s.sameText pos text = true ↔ s.HoldsText pos text := by
  unfold Sheet.sameText Sheet.HoldsText
  cases hc : s.cells pos with
  | none => simp
  | some cell => simp

theorem Sheet.hasIncoming_false (s : Sheet D) (pos : Position) (h : s.hasIncoming pos = false) :
    s.graph.incomingAt pos = [] := by
  unfold Sheet.hasIncoming at h
  unfold Graph.incomingAt Sheet.graph
  cases hc : s.cells pos with
  | none => rfl
  | some cell =>
    rw [hc] at h
    simp only [Cell.HasIncomingRefs, Bool.not_eq_false', List.isEmpty_iff] at h
    simpa [Cell.g] using h

theorem Sheet.SetCell_spec (env : Env D) (s : Sheet D) (hfresh : s.Fresh) (hinv : s.graph.Inv)
    (pos : Position) (hpos : pos.IsValid = true) (text : Str) :
    ∃ N, ∀ fuel, N ≤ fuel → SetCellOutcome env s pos text (s.SetCell env fuel pos text) := by
  obtain ⟨hsim2, hin2⟩ := s.preState_sim hfresh pos
  have hg2 : (s.preState pos).graph = s.graph := hsim2.sim_graph
  have hsameT : ∀ h : s.HoldsText pos text, ∀ fuel,
      ∃ s1, s.SetCell env fuel pos text = .ok () s1 ∧ s.Sim s1 := by
    intro h fuel
    rw [Sheet.SetCell_unfold env fuel s pos text hpos, if_pos ((s.sameText_iff pos text).mpr h)]
    exact ⟨_, rfl, hsim2⟩
  have hnsame : ¬ s.HoldsText pos text → ¬ (s.sameText pos text = true) :=
    fun h h' => h ((s.sameText_iff pos text).mp h')
  obtain ⟨N1, hN1⟩ := finishSetCell_spec s hinv pos hpos
  have hinb : ∀ s3, s3 = s.preState pos → (s.cells pos).isSome = false → s3.InBounds pos := by
    intro s3 h3 hn
    rw [h3]
    apply hin2
    cases h : s.cells pos with
    | none => rfl
    | some c => rw [h] at hn; simp at hn
  by_cases htxt : IsTextCell text = true
  · -- a text cell
    have hcontent : env.content text = some (.Text text) := by
      unfold Env.content; rw [if_pos htxt]
    refine ⟨N1, fun fuel hf => ⟨fun h => hsameT h fuel, ?_, ?_, ?_⟩⟩
    · intro _ hn; rw [hcontent] at hn; exact absurd hn (by simp)
    · intro _ content hc hcyc
      rw [hcontent] at hc
      cases hc
      obtain ⟨r, hr, _⟩ := hcyc
      simp [Content.refs] at hr
    · intro hns content hc _
      rw [hcontent] at hc
      cases hc
      rw [Sheet.SetCell_unfold env fuel s pos text hpos, if_neg (hnsame hns),
        Cell.create_text env fuel _ pos text _ htxt]
      exact hN1 fuel hf (s.preState pos) (.Text text) hsim2.upd hfresh (by simp [Content.refs])
        (hinb _ rfl)
  · simp only [Bool.not_eq_true] at htxt
    cases hparse : env.ParseFormula (text.drop 1) with
    | none =>
      have hcontent : env.content text = none := by
        unfold Env.content; rw [if_neg (by rw [htxt]; decide), hparse]; rfl
      refine ⟨0, fun fuel _ => ⟨fun h => hsameT h fuel, ?_, ?_, ?_⟩⟩
      · intro hns _
        rw [Sheet.SetCell_unfold env fuel s pos text hpos, if_neg (hnsame hns),
          Cell.create_parse_none env fuel _ pos text _ htxt hparse]
        exact ⟨_, rfl, hsim2⟩
      · intro _ content hc; rw [hcontent] at hc; exact absurd hc (by simp)
      · intro _ content hc; rw [hcontent] at hc; exact absurd hc (by simp)
    | some node =>
      have hcontent : env.content text = some (.Formula node) := by
        unfold Env.content; rw [if_neg (by rw [htxt]; decide), hparse]; rfl
      obtain ⟨N2, hN2⟩ := CheckForCircularDependency_spec (s.preState pos) hsim2.2
        (by rw [hg2]; exact hinv) pos node (s.hasIncoming pos)
        (by intro h; rw [hg2]; exact s.hasIncoming_false pos h)
      refine ⟨max N1 N2, fun fuel hf => ?_⟩
      obtain ⟨b, s3, hchk, hsim3, hs3, hb⟩ := hN2 fuel (le_trans (le_max_right _ _) hf)
      rw [hg2] at hb
      have hcreate := Cell.create_node env fuel (s.preState pos) pos text (s.hasIncoming pos)
        node htxt hparse b s3 hchk
      have hsim : s.Sim s3 := ⟨hsim3.1.trans hsim2.1, hsim3.2⟩
      refine ⟨fun h => hsameT h fuel, ?_, ?_, ?_⟩
      · intro _ hn; rw [hcontent] at hn; exact absurd hn (by simp)
      · intro hns content hc hcyc
        rw [hcontent] at hc
        cases hc
        have hbt : b = true := hb.mpr hcyc
        rw [Sheet.SetCell_unfold env fuel s pos text hpos, if_neg (hnsame hns), hcreate,
          if_pos hbt]
        exact ⟨s3, rfl, hsim⟩
      · intro hns content hc hcyc
        rw [hcontent] at hc
        cases hc
        have hbf : ¬ b = true := fun h => hcyc (hb.mp h)
        rw [Sheet.SetCell_unfold env fuel s pos text hpos, if_neg (hnsame hns), hcreate,
          if_neg hbf]
        have hnot : pos ∉ (Content.Formula node).refs :=
          fun h => hcyc ⟨pos, h, Relation.ReflTransGen.refl⟩
        have hin3 : (s.cells pos).isSome = false → s3.InBounds pos := by
          intro hn
          have hfalse : s.hasIncoming pos = false := by
            unfold Sheet.hasIncoming
            cases h : s.cells pos with
            | none => rfl
            | some c => rw [h] at hn; simp at hn
          exact hinb s3 (hs3 hfalse) hn
        exact hN1 fuel (le_trans (le_max_left _ _) hf) s3 (.Formula node) hsim.upd hfresh hnot
          hin3

/-! ### The graph and the caches after the cells have been installed -/

theorem installed_graph (s sI : Sheet D) (hg : sI.graph = s.graph) (hinv : s.graph.Inv)
    (pos : Position) (content : Content D) (hN : pos ∉ content.refs) (s' : Sheet D)
    (newc : Cell D) (hnewc : newc.g = ⟨content, s.graph.incomingAt pos⟩)
    (h : s'.cells = sI.installed (s.graph.refsAt pos) content.refs pos newc) :
    s'.graph = s.graph.replace pos content := by
  funext x
  rw [Graph.replace_apply s.graph hinv pos content hN x]
  have hgx : (sI.cells x).map Cell.g = s.graph x := congrFun hg x
  have hrem : ((if x ∈ s.graph.refsAt pos then (sI.cells x).bind (Cell.afterRemove pos)
      else sI.cells x).map Cell.g) = s.graph.removed pos x := by
    unfold Graph.removed
    by_cases hx : x ∈ s.graph.refsAt pos
    · rw [if_pos hx, if_pos hx, ← hgx]
      cases hc : sI.cells x with
      | none => rfl
      | some c => simp [Cell.afterRemove_g]
    · rw [if_neg hx, if_neg hx, ← hgx]
  show (s'.cells x).map Cell.g = _
  rw [h]
  unfold Sheet.installed
  by_cases hx : x = pos
  · rw [if_pos hx, if_pos hx]
    simp [hnewc]
  · rw [if_neg hx, if_neg hx]
    by_cases hxN : x ∈ content.refs
    · rw [if_pos hxN, if_pos hxN]
      simp only [Option.map_some', Cell.afterAdd_g, hrem]
    · rw [if_neg hxN, if_neg hxN]
      exact hrem

theorem Cell.afterRemove_fresh (pos : Position) (c c' : Cell D) (h : c.afterRemove pos = some c')
    (hf : c.Fresh) : c'.Fresh := by
  unfold Cell.afterRemove at h
  split at h
  · exact absurd h (by simp)
  · cases h
    exact hf

theorem Cell.afterAdd_fresh (pos : Position) (o : Option (Cell D))
    (hf : ∀ c, o = some c → c.Fresh) : (Cell.afterAdd pos o).Fresh := by
  cases o with
  | none => trivial
  | some c => exact hf c rfl

theorem installed_fresh (sI : Sheet D) (hf : sI.Fresh) (R N : List Position) (pos : Position)
    (newc : Cell D) (hn : newc.Fresh) (s' : Sheet D)
    (h : s'.cells = sI.installed R N pos newc) : s'.Fresh := by
  intro x c hc
  rw [h] at hc
  unfold Sheet.installed at hc
  have hrem : ∀ c, (if x ∈ R then (sI.cells x).bind (Cell.afterRemove pos) else sI.cells x)
      = some c → c.Fresh := by
    intro c hc
    by_cases hx : x ∈ R
    · rw [if_pos hx] at hc
      cases hs : sI.cells x with
      | none => rw [hs] at hc; simp at hc
      | some c0 =>
        rw [hs, Option.some_bind] at hc
        exact Cell.afterRemove_fresh pos c0 c hc (hf x c0 hs)
    · rw [if_neg hx] at hc
      exact hf x c hc
  by_cases hx : x = pos
  · rw [if_pos hx] at hc
    cases hc
    exact hn
  · rw [if_neg hx] at hc
    by_cases hxN : x ∈ N
    · rw [if_pos hxN] at hc
      cases hc
      exact Cell.afterAdd_fresh pos _ hrem
    · rw [if_neg hxN] at hc
      exact hrem c hc

theorem Sheet.WF.of_sim {s s' : Sheet D} (h : s.WF) (hs : s.Sim s') : s'.WF :=
  ⟨hs.2, by rw [hs.sim_graph]; exact h.inv⟩

theorem Sheet.WF.wf_empty : (Sheet.empty : Sheet D).WF := by
  refine ⟨?_, ?_⟩
  · intro p c hc
    unfold Sheet.cells Sheet.slot Sheet.empty at hc
    split at hc <;> simp at hc
  · have : (Sheet.empty : Sheet D).graph = fun _ => none := by
      funext p
      unfold Sheet.graph Sheet.cells Sheet.slot Sheet.empty
      split <;> simp
    rw [this]
    exact Graph.Inv.inv_empty

/-- Every outcome of `SetCell` leaves a well-formed sheet well-formed. -/
theorem SetCellOutcome.setCell_wf {env : Env D} {s : Sheet D} {pos : Position} {text : Str}
    {out : Res (Sheet D) Unit} (h : SetCellOutcome env s pos text out) (hwf : s.WF) :
    out ≠ .stuck ∧ (∀ a s', out = .ok a s' → s'.WF) ∧ (∀ e s', out = .raise e s' → s'.WF) := by
  have hsimcase : ∀ s1 (o : Res (Sheet D) Unit), (o = .ok () s1 ∨ ∃ e, o = .raise e s1) →
      s.Sim s1 → o ≠ .stuck ∧ (∀ a s', o = .ok a s' → s'.WF) ∧
        (∀ e s', o = .raise e s' → s'.WF) := by
    intro s1 o ho hsim
    rcases ho with ho | ⟨e, ho⟩
    · rw [ho]
      refine ⟨by simp, ?_, by simp⟩
      intro a s' h'
      cases h'
      exact hwf.of_sim hsim
    · rw [ho]
      refine ⟨by simp, by simp, ?_⟩
      intro e' s' h'
      cases h'
      exact hwf.of_sim hsim
  by_cases hs : s.HoldsText pos text
  · obtain ⟨s1, h1, h2⟩ := h.same hs
    exact hsimcase s1 out (Or.inl h1) h2
  · cases hc : env.content text with
    | none =>
      obtain ⟨s1, h1, h2⟩ := h.parse hs hc
      exact hsimcase s1 out (Or.inr ⟨_, h1⟩) h2
    | some content =>
      by_cases hcyc : s.graph.Cyclic pos content.refs
      · obtain ⟨s1, h1, h2⟩ := h.cyclic hs content hc hcyc
        exact hsimcase s1 out (Or.inr ⟨_, h1⟩) h2
      · obtain ⟨sI, s', h1, h2, _, h4⟩ := h.done hs content hc hcyc
        rw [h1]
        refine ⟨by simp, ?_, by simp⟩
        intro a s'' h'
        cases h'
        have hnot : pos ∉ content.refs := fun h => hcyc ⟨pos, h, Relation.ReflTransGen.refl⟩
        refine ⟨installed_fresh sI (h2.fresh hwf.fresh) _ _ pos _ (Content.toCell_fresh _ _)
          s' h4, ?_⟩
        rw [installed_graph s sI h2.upd_graph hwf.inv pos content hnot s' _
          (Content.toCell_g _ _) h4]
        exact hwf.inv.replace pos content (fun r hr hreach => hcyc ⟨r, hr, hreach⟩)

theorem Cell.emptied_g (c : Cell D) : c.emptied.g = ⟨.Text [], c.incoming_refs_⟩ := rfl

theorem Cell.emptied_of_empty (c : Cell D) (h : c.Empty = true) : c.emptied = c := by
  obtain ⟨d, i, v⟩ := c
  cases d with
  | Text t =>
    simp only [Cell.Empty, List.isEmpty_iff] at h
    subst h
    rfl
  | Formula f => simp [Cell.Empty] at h

theorem Sheet.ClearCell_spec (s : Sheet D) (hwf : s.WF) (pos : Position)
    (hpos : pos.IsValid = true) :
    ∃ N, ∀ fuel, N ≤ fuel → ClearCellOutcome s pos (s.ClearCell fuel pos) := by
  cases hcell : s.cells pos with
  | none =>
    refine ⟨0, fun fuel _ => ⟨fun _ => ?_, fun c h => (by rw [hcell] at h; cases h),
      fun c h => (by rw [hcell] at h; cases h)⟩⟩
    have hslot : s.slot pos = none := by rw [← Sheet.cells_eq_slot hpos]; exact hcell
    simp only [Sheet.ClearCell, Sheet.GetCellImpl, hpos, Bool.not_true, Bool.false_eq_true,
      if_false, hslot]
  | some cell =>
    have hslot : s.slot pos = some cell := by rw [← Sheet.cells_eq_slot hpos]; exact hcell
    have hfr := cell.GetReferencedCells_fresh (hwf.fresh pos cell hcell)
    have hsim : s.Sim s := ⟨rfl, hwf.fresh⟩
    have hsim1 := hsim.setCell_refs pos cell hcell
    have hcells1 : (s.setCell pos cell.GetReferencedCells.2).cells
        = Function.update s.cells pos (some cell.GetReferencedCells.2) :=
      Sheet.cells_setCell s pos cell _ hcell
    have hrefs : cell.GetReferencedCells.1 = s.graph.refsAt pos := by
      rw [hfr.1, Sheet.graph_refs hcell]
    have hnself := hwf.inv.not_self_ref pos
    have hstored : ∀ t ∈ s.graph.refsAt pos,
        ((s.setCell pos cell.GetReferencedCells.2).cells t).isSome = true := by
      intro t ht
      rw [Sheet.cells_isSome_of_graph_eq hsim1.sim_graph]
      unfold Graph.refsAt at ht
      cases hgp : s.graph pos with
      | none => rw [hgp] at ht; simp at ht
      | some c =>
        rw [hgp] at ht
        obtain ⟨d, hd, _⟩ := hwf.inv.forward pos c t hgp ht
        obtain ⟨c', hc', _⟩ := Sheet.cells_of_graph hd
        rw [hc']; rfl
    obtain ⟨s2, k1, k2⟩ := Sheet.DeleteReferencesForCell_spec
      (s.setCell pos cell.GetReferencedCells.2) pos (s.graph.refsAt pos)
      (s.graph.refsAt_nodup pos) hstored
    have hcells2 : s2.cells
        = s.installed (s.graph.refsAt pos) [] pos cell.GetReferencedCells.2 := by
      funext x
      rw [k2 x, hcells1]
      unfold Sheet.installed
      by_cases hx : x = pos
      · rw [if_pos hx, hx, if_neg hnself, Function.update_same]
      · rw [if_neg hx, Function.update_noteq hx]
        simp
    have hpos2 : s2.cells pos = some cell.GetReferencedCells.2 := by
      rw [hcells2]; unfold Sheet.installed; rw [if_pos rfl]
    have hslot2 : s2.slot pos = some cell.GetReferencedCells.2 := by
      rw [← Sheet.cells_eq_slot hpos]; exact hpos2
    have hinc2 : cell.GetReferencedCells.2.incoming_refs_ = cell.incoming_refs_ := by
      have : cell.GetReferencedCells.2.strip.incoming_refs_ = cell.strip.incoming_refs_ := by
        rw [hfr.2.1]
      exact this
    have hempty2 : cell.GetReferencedCells.2.Empty = cell.Empty := by
      obtain ⟨d, i, v⟩ := cell
      cases d <;> rfl
    have hcells3 : (s2.setCell pos cell.GetReferencedCells.2.emptied).cells
        = s.installed (s.graph.refsAt pos) [] pos cell.GetReferencedCells.2.emptied := by
      rw [Sheet.cells_setCell s2 pos _ _ hpos2, hcells2]
      funext x
      unfold Sheet.installed
      by_cases hx : x = pos
      · rw [if_pos hx, hx, Function.update_same]
      · rw [if_neg hx, Function.update_noteq hx, if_neg hx]
    have hg3 : ∀ s3 : Sheet D,
        s3.cells = s.installed (s.graph.refsAt pos) [] pos cell.GetReferencedCells.2.emptied →
        s3.graph = s.graph.replace pos (.Text []) := by
      intro s3 h3
      apply installed_graph s s rfl hwf.inv pos (.Text []) (by simp [Content.refs]) s3 _ _ h3
      rw [Cell.emptied_g, hinc2, Graph.incomingAt_of_some (Sheet.graph_of_cells hcell)]
      rfl
    have hinv3 : (s.graph.replace pos (Content.Text [])).Inv :=
      hwf.inv.replace pos (.Text []) (by intro r hr; simp [Content.refs] at hr)
    obtain ⟨N, hN⟩ := InvalidateCache_spec (s2.setCell pos cell.GetReferencedCells.2.emptied)
      (by rw [hg3 _ hcells3]; exact hinv3) pos
    refine ⟨N, fun fuel hf => ⟨fun h => (by rw [hcell] at h; cases h), ?_, ?_⟩⟩
    · intro cell' hc' hne
      rw [hcell] at hc'
      cases hc'
      have hhas : cell.GetReferencedCells.2.HasIncomingRefs = true := by
        unfold Cell.HasIncomingRefs
        rw [hinc2]
        simpa [List.isEmpty_iff] using hne
      simp only [Sheet.ClearCell, Sheet.GetCellImpl, hpos, Bool.not_true, Bool.false_eq_true,
        if_false, hslot, hrefs, k1, hslot2, hhas, if_true, Clear]
      cases he : cell.Empty with
      | true =>
        rw [hempty2, he]
        simp only [Bool.not_true, Bool.false_eq_true, if_false]
        refine ⟨s2, s2, rfl, ?_, fun x => Cleared.cleared_refl _, fun h => (by cases h), fun X h => h⟩
        rw [Cell.emptied_of_empty _ (by rw [hempty2]; exact he)]
        exact hcells2
      | false =>
        rw [hempty2, he]
        simp only [Bool.not_false, if_true]
        obtain ⟨s', h1, h2, h3, h4⟩ := hN fuel hf (s2.setCell pos cell.GetReferencedCells.2.emptied)
          rfl (by rw [hcells3]; unfold Sheet.installed; rw [if_pos rfl]; rfl)
        exact ⟨_, s', h1, hcells3, h2, fun _ => h3, h4⟩
    · intro cell' hc' hnil
      rw [hcell] at hc'
      cases hc'
      have hhas : cell.GetReferencedCells.2.HasIncomingRefs = false := by
        unfold Cell.HasIncomingRefs
        rw [hinc2, hnil]
        rfl
      simp only [Sheet.ClearCell, Sheet.GetCellImpl, hpos, Bool.not_true, Bool.false_eq_true,
        if_false, hslot, hrefs, k1, hslot2, hhas]
      refine ⟨_, rfl, ?_⟩
      rw [Sheet.cells_ShrinkTable, cells_set_ShrinkRow s2 pos hpos (Sheet.slot_some_inBounds hslot2),
        hcells2]
      funext x
      unfold Sheet.installed
      by_cases hx : x = pos
      · rw [hx, Function.update_same, Function.update_same]
      · rw [Function.update_noteq hx, Function.update_noteq hx, if_neg hx, if_neg hx]

theorem Cell.emptied_fresh (c : Cell D) : c.emptied.Fresh := trivial

/-- Every outcome of `ClearCell` leaves a well-formed sheet well-formed. -/
theorem ClearCellOutcome.clearCell_wf {s : Sheet D} {pos : Position} {out : Res (Sheet D) Unit}
    (h : ClearCellOutcome s pos out) (hwf : s.WF) :
    ∃ s', out = .ok () s' ∧ s'.WF := by
  cases hcell : s.cells pos with
  | none => exact ⟨s, h.absent hcell, hwf⟩
  | some cell =>
    have hinc : s.graph.incomingAt pos = cell.incoming_refs_ := by
      rw [Graph.incomingAt_of_some (Sheet.graph_of_cells hcell)]; rfl
    have hfr := cell.GetReferencedCells_fresh (hwf.fresh pos cell hcell)
    have hinc2 : cell.GetReferencedCells.2.incoming_refs_ = cell.incoming_refs_ := by
      have : cell.GetReferencedCells.2.strip.incoming_refs_ = cell.strip.incoming_refs_ := by
        rw [hfr.2.1]
      exact this
    have hg : cell.GetReferencedCells.2.emptied.g = ⟨.Text [], s.graph.incomingAt pos⟩ := by
      rw [Cell.emptied_g, hinc2, hinc]
    have hnot : pos ∉ (Content.Text [] : Content D).refs := by simp [Content.refs]
    have hinv3 : (s.graph.replace pos (Content.Text [])).Inv :=
      hwf.inv.replace pos (.Text []) (by intro r hr; simp [Content.refs] at hr)
    by_cases hne : cell.incoming_refs_ = []
    · obtain ⟨s', h1, h2⟩ := h.removed cell hcell hne
      refine ⟨s', h1, ?_, ?_⟩
      · intro x c hc
        rw [h2] at hc
        by_cases hx : x = pos
        · rw [hx, Function.update_same] at hc
          exact absurd hc (by simp)
        · rw [Function.update_noteq hx] at hc
          have : (s.installed (s.graph.refsAt pos) [] pos cell.GetReferencedCells.2.emptied) x
              = some c := hc
          -- the cells of a sheet with these cells are fresh
          unfold Sheet.installed at this
          rw [if_neg hx] at this
          simp only [List.not_mem_nil, if_false] at this
          by_cases hxR : x ∈ s.graph.refsAt pos
          · rw [if_pos hxR] at this
            cases hs : s.cells x with
            | none => rw [hs] at this; simp at this
            | some c0 =>
              rw [hs, Option.some_bind] at this
              exact Cell.afterRemove_fresh pos c0 c this (hwf.fresh x c0 hs)
          · rw [if_neg hxR] at this
            exact hwf.fresh x c this
      · have hgraph : s'.graph = Function.update (s.graph.replace pos (.Text [])) pos none := by
          funext x
          have hrep := Graph.replace_apply s.graph hwf.inv pos (.Text []) hnot x
          by_cases hx : x = pos
          · rw [hx, Function.update_same]
            show (s'.cells pos).map Cell.g = none
            rw [h2, Function.update_same]
            rfl
          · rw [Function.update_noteq hx, hrep, if_neg hx]
            show (s'.cells x).map Cell.g = _
            rw [h2, Function.update_noteq hx]
            unfold Sheet.installed
            rw [if_neg hx]
            simp only [Content.refs, List.not_mem_nil, if_false]
            unfold Graph.removed
            by_cases hxR : x ∈ s.graph.refsAt pos
            · rw [if_pos hxR, if_pos hxR]
              show _ = ((s.cells x).map Cell.g).bind _
              cases hc : s.cells x with
              | none => rfl
              | some c => simp [Cell.afterRemove_g]
            · rw [if_neg hxR, if_neg hxR]
              rfl
        rw [hgraph]
        refine hinv3.delete pos ⟨.Text [], s.graph.incomingAt pos⟩
          (Graph.replace_pos s.graph hwf.inv pos _ hnot) ?_ rfl
        show s.graph.incomingAt pos = []
        rw [hinc]; exact hne
    · obtain ⟨s3, s', h1, h2, h3, _, _⟩ := h.kept cell hcell hne
      refine ⟨s', h1, ?_, ?_⟩
      · apply fresh_of_cleared h3
        exact installed_fresh s hwf.fresh _ _ pos _ (Cell.emptied_fresh _) s3 h2
      · rw [graph_eq_of_cleared h3,
          installed_graph s s rfl hwf.inv pos (.Text []) hnot s3 _ hg h2]
        exact hinv3

theorem Sheet.GetCellImpl_iff (s : Sheet D) (p : Position) (c : Cell D) :
    s.GetCellImpl p = some (some c) ↔ s.cells p = some c := by
  unfold Sheet.GetCellImpl Sheet.cells
  by_cases hp : p.IsValid = true
  · simp [hp]
  · simp [hp]

theorem Sheet.WF.references_iff {s : Sheet D} (hwf : s.WF) (p q : Position) :
    s.References p q ↔ s.graph.Edge p q := by
  unfold Sheet.References Graph.Edge
  constructor
  · rintro ⟨c, hc, hq⟩
    rw [Sheet.GetCellImpl_iff] at hc
    rw [(c.GetReferencedCells_fresh (hwf.fresh p c hc)).1] at hq
    exact ⟨c.g, Sheet.graph_of_cells hc, hq⟩
  · rintro ⟨d, hd, hq⟩
    obtain ⟨c, hc, hcd⟩ := Sheet.cells_of_graph hd
    refine ⟨c, (Sheet.GetCellImpl_iff s p c).mpr hc, ?_⟩
    rw [(c.GetReferencedCells_fresh (hwf.fresh p c hc)).1]
    rw [← hcd] at hq
    exact hq

theorem Sheet.WF.references_eq {s : Sheet D} (hwf : s.WF) : s.References = s.graph.Edge := by
  funext p q
  exact propext (hwf.references_iff p q)

theorem Sheet.WF.forwardCoherent {s : Sheet D} (hwf : s.WF) : s.ForwardCoherent := by
  intro p c q hc hq _
  rw [Sheet.GetCellImpl_iff] at hc
  rw [(c.GetReferencedCells_fresh (hwf.fresh p c hc)).1] at hq
  obtain ⟨d, hd, hp⟩ := hwf.inv.forward p c.g q (Sheet.graph_of_cells hc) hq
  obtain ⟨c', hc', hcd⟩ := Sheet.cells_of_graph hd
  refine ⟨c', (Sheet.GetCellImpl_iff s q c').mpr hc', ?_⟩
  have hs := hwf.inv.sorted q d hd
  rw [← hcd] at hp hs
  exact List.count_eq_one_of_mem hs.nodup hp

theorem Sheet.WF.backwardCoherent {s : Sheet D} (hwf : s.WF) : s.BackwardCoherent := by
  intro q d p hd hp
  rw [Sheet.GetCellImpl_iff] at hd
  obtain ⟨c, hc, hq⟩ := hwf.inv.backward q d.g p (Sheet.graph_of_cells hd) hp
  obtain ⟨c', hc', hcd⟩ := Sheet.cells_of_graph hc
  rw [← hcd] at hq
  have hfr := (c'.GetReferencedCells_fresh (hwf.fresh p c' hc')).1
  obtain ⟨dt, i, v⟩ := c'
  cases dt with
  | Text t => simp [GCell.refs, Cell.g, CellData.content, Content.refs] at hq
  | Formula f =>
    refine ⟨_, f, (Sheet.GetCellImpl_iff s p _).mpr hc', rfl, ?_⟩
    rw [hfr]
    exact hq

theorem Sheet.WF.acyclic {s : Sheet D} (hwf : s.WF) : s.Acyclic := by
  intro p
  rw [hwf.references_eq]
  exact hwf.inv.acyclic p

theorem Sheet.SetCell_invalid (env : Env D) (fuel : Nat) (s : Sheet D) (pos : Position)
    (text : Str) (h : pos.IsValid = false) :
    s.SetCell env fuel pos text = .raise .InvalidPosition s := by
  unfold Sheet.SetCell
  simp [h]

theorem Sheet.ClearCell_invalid (fuel : Nat) (s : Sheet D) (pos : Position)
    (h : pos.IsValid = false) : s.ClearCell fuel pos = .raise .InvalidPosition s := by
  unfold Sheet.ClearCell Sheet.GetCellImpl
  simp [h]

/-- On a well-formed sheet `SetCell` returns or throws, and leaves a well-formed sheet. -/
theorem Sheet.WF.setCell {s : Sheet D} (hwf : s.WF) (env : Env D) (pos : Position) (text : Str) :
    ∃ N, ∀ fuel, N ≤ fuel → s.SetCell env fuel pos text ≠ .stuck ∧
      (∀ a s', s.SetCell env fuel pos text = .ok a s' → s'.WF) ∧
      (∀ e s', s.SetCell env fuel pos text = .raise e s' → s'.WF) := by
  cases hpos : pos.IsValid with
  | false =>
    refine ⟨0, fun fuel _ => ?_⟩
    rw [Sheet.SetCell_invalid env fuel s pos text hpos]
    refine ⟨by simp, by simp, ?_⟩
    intro e s' h
    cases h
    exact hwf
  | true =>
    obtain ⟨N, hN⟩ := Sheet.SetCell_spec env s hwf.fresh hwf.inv pos hpos text
    exact ⟨N, fun fuel hf => (hN fuel hf).setCell_wf hwf⟩

/-- On a well-formed sheet `ClearCell` returns or throws, and leaves a well-formed sheet. -/
theorem Sheet.WF.clearCell {s : Sheet D} (hwf : s.WF) (pos : Position) :
    ∃ N, ∀ fuel, N ≤ fuel → s.ClearCell fuel pos ≠ .stuck ∧
      (∀ a s', s.ClearCell fuel pos = .ok a s' → s'.WF) ∧
      (∀ e s', s.ClearCell fuel pos = .raise e s' → s'.WF) := by
  cases hpos : pos.IsValid with
  | false =>
    refine ⟨0, fun fuel _ => ?_⟩
    rw [Sheet.ClearCell_invalid fuel s pos hpos]
    refine ⟨by simp, by simp, ?_⟩
    intro e s' h
    cases h
    exact hwf
  | true =>
    obtain ⟨N, hN⟩ := Sheet.ClearCell_spec s hwf pos hpos
    refine ⟨N, fun fuel hf => ?_⟩
    obtain ⟨s', h1, h2⟩ := (hN fuel hf).clearCell_wf hwf
    rw [h1]
    refine ⟨by simp, ?_, by simp⟩
    intro a s'' h
    cases h
    exact h2

theorem Res.Le.res_refl {σ α : Type} (r : Res σ α) : Res.Le r r := Or.inr rfl

theorem Res.Le.stuck {σ α : Type} (r : Res σ α) : Res.Le (.stuck : Res σ α) r := Or.inl rfl

theorem Res.Le.eq_of_ne {σ α : Type} {r r' : Res σ α} (h : Res.Le r r') (hne : r ≠ .stuck) :
    r' = r := by
  rcases h with h | h
  · exact absurd h hne
  · exact h.symm

theorem anyOfRefs_mono
    (visit visit' : Sheet D → Position → List Position → Res (Sheet D × List Position) Bool)
    (h : ∀ s q c, Res.Le (visit s q c) (visit' s q c)) (L : List Position) :
    ∀ s c, Res.Le (anyOfRefs visit L s c) (anyOfRefs visit' L s c) := by
  induction L with
  | nil => intro s c; exact Res.Le.res_refl _
  | cons q L ih =>
    intro s c
    simp only [anyOfRefs]
    split
    · exact ih s c
    · split
      · exact Res.Le.res_refl _
      · exact ih s c
      · rcases h s q c with hv | hv
        · rw [hv]; exact Res.Le.stuck _
        · rw [← hv]
          split
          · split
            · exact Res.Le.res_refl _
            · exact ih _ _
          · exact Res.Le.res_refl _
          · exact Res.Le.res_refl _

theorem CheckImpl_mono_succ (pos : Position) (fuel : Nat) :
    ∀ (s : Sheet D) self checked,
      Res.Le (CheckForCircularDependencyImpl fuel pos s self checked)
        (CheckForCircularDependencyImpl (fuel + 1) pos s self checked) := by
  induction fuel with
  | zero => intro s self checked; exact Res.Le.stuck _
  | succ k ih =>
    intro s self checked
    rw [CheckForCircularDependencyImpl, CheckForCircularDependencyImpl]
    split
    · exact Res.Le.res_refl _
    · split
      · exact Res.Le.res_refl _
      · simp only
        split
        · exact Res.Le.res_refl _
        · exact anyOfRefs_mono _ _ ih _ _ _

theorem mono_of_succ {α : Type} (f : Nat → α) (le : α → α → Prop) (hrefl : ∀ a, le a a)
    (htrans : ∀ a b c, le a b → le b c → le a c) (h : ∀ k, le (f k) (f (k + 1)))
    (k k' : Nat) (hk : k ≤ k') : le (f k) (f k') := by
  induction hk with
  | refl => exact hrefl _
  | step _ ih => exact htrans _ _ _ ih (h _)

theorem Res.Le.res_trans {σ α : Type} {a b c : Res σ α} (h1 : Res.Le a b) (h2 : Res.Le b c) :
    Res.Le a c := by
  rcases h1 with h1 | h1
  · exact Or.inl h1
  · rw [h1]; exact h2

theorem CheckImpl_mono (pos : Position) (k k' : Nat) (hk : k ≤ k') (s : Sheet D)
    (self : Position) (checked : List Position) :
    Res.Le (CheckForCircularDependencyImpl k pos s self checked)
      (CheckForCircularDependencyImpl k' pos s self checked) :=
  mono_of_succ (fun k => CheckForCircularDependencyImpl k pos s self checked) Res.Le
    Res.Le.res_refl (fun _ _ _ => Res.Le.res_trans) (fun k => CheckImpl_mono_succ pos k s self checked)
    k k' hk

theorem forEachRes_mono {σ β : Type} (body body' : σ → β → Res σ Unit)
    (h : ∀ s x, Res.Le (body s x) (body' s x)) (L : List β) :
    ∀ s, Res.Le (forEachRes body L s) (forEachRes body' L s) := by
  induction L with
  | nil => intro s; exact Res.Le.res_refl _
  | cons x L ih =>
    intro s
    simp only [forEachRes]
    rcases h s x with hv | hv
    · rw [hv]; exact Res.Le.stuck _
    · rw [← hv]
      split
      · exact ih _
      · exact Res.Le.res_refl _
      · exact Res.Le.res_refl _

theorem InvalidateCache_mono_succ (fuel : Nat) :
    ∀ (s : Sheet D) self,
      Res.Le (InvalidateCache fuel s self) (InvalidateCache (fuel + 1) s self) := by
  induction fuel with
  | zero => intro s self; exact Res.Le.stuck _
  | succ k ih =>
    intro s self
    rw [InvalidateCache, InvalidateCache]
    split
    · exact Res.Le.res_refl _
    · split
      · exact Res.Le.res_refl _
      · apply forEachRes_mono
        intro s x
        split
        · exact Res.Le.res_refl _
        · exact Res.Le.res_refl _
        · exact ih s x

theorem InvalidateCache_mono (k k' : Nat) (hk : k ≤ k') (s : Sheet D) (self : Position) :
    Res.Le (InvalidateCache k s self) (InvalidateCache k' s self) :=
  mono_of_succ (fun k => InvalidateCache k s self) Res.Le
    Res.Le.res_refl (fun _ _ _ => Res.Le.res_trans) (fun k => InvalidateCache_mono_succ k s self)
    k k' hk

theorem CheckForCircularDependency_mono (k k' : Nat) (hk : k ≤ k') (s : Sheet D)
    (cell : Cell D) (pos : Position) (b : Bool) :
    Res.Le (Cell.CheckForCircularDependency k s cell pos b)
      (Cell.CheckForCircularDependency k' s cell pos b) := by
  unfold Cell.CheckForCircularDependency
  split
  · split
    · exact Res.Le.res_refl _
    · simp only
      split
      · exact Res.Le.res_refl _
      · rcases anyOfRefs_mono _ _ (fun s q c => CheckImpl_mono pos k k' hk s q c)
          cell.GetReferencedCells.1 s [] with h | h
        · rw [h]; exact Res.Le.stuck _
        · rw [← h]; exact Res.Le.res_refl _
  · exact Res.Le.res_refl _

theorem Cell.create_mono (env : Env D) (k k' : Nat) (hk : k ≤ k') (s : Sheet D)
    (pos : Position) (text : Str) (b : Bool) :
    Res.Le (Cell.create env k s pos text b) (Cell.create env k' s pos text b) := by
  unfold Cell.create
  split
  · exact Res.Le.res_refl _
  · split
    · exact Res.Le.res_refl _
    · rcases CheckForCircularDependency_mono k k' hk s _ pos b with h | h
      · rw [h]; exact Res.Le.stuck _
      · rw [← h]; exact Res.Le.res_refl _

theorem ReplaceOldCell_mono (k k' : Nat) (hk : k ≤ k') (s : Sheet D) (pos : Position)
    (new_cell : Cell D) :
    Res.Le (ReplaceOldCell k s pos new_cell) (ReplaceOldCell k' s pos new_cell) := by
  unfold ReplaceOldCell
  rcases InvalidateCache_mono k k' hk s pos with h | h
  · rw [h]; exact Res.Le.stuck _
  · rw [← h]; exact Res.Le.res_refl _

theorem finishSetCell_mono (k k' : Nat) (hk : k ≤ k') (s : Sheet D) (pos : Position)
    (b : Bool) (new_cell : Cell D) :
    Res.Le (finishSetCell k s pos b new_cell) (finishSetCell k' s pos b new_cell) := by
  unfold finishSetCell
  cases b with
  | false => exact Res.Le.res_refl _
  | true =>
    simp only [if_true]
    rcases ReplaceOldCell_mono k k' hk s pos new_cell with h | h
    · rw [h]; exact Res.Le.stuck _
    · rw [← h]; exact Res.Le.res_refl _

theorem Sheet.SetCell_mono (env : Env D) (k k' : Nat) (hk : k ≤ k') (s : Sheet D)
    (pos : Position) (text : Str) :
    Res.Le (s.SetCell env k pos text) (s.SetCell env k' pos text) := by
  cases hpos : pos.IsValid with
  | false =>
    rw [Sheet.SetCell_invalid env k s pos text hpos, Sheet.SetCell_invalid env k' s pos text hpos]
    exact Res.Le.res_refl _
  | true =>
    rw [Sheet.SetCell_unfold env k s pos text hpos, Sheet.SetCell_unfold env k' s pos text hpos]
    split
    · exact Res.Le.res_refl _
    · rcases Cell.create_mono env k k' hk (s.preState pos) pos text (s.hasIncoming pos) with h | h
      · rw [h]; exact Res.Le.stuck _
      · rw [← h]
        split
        · exact finishSetCell_mono k k' hk _ pos _ _
        · exact Res.Le.res_refl _
        · exact Res.Le.res_refl _

theorem Clear_mono (k k' : Nat) (hk : k ≤ k') (s : Sheet D) (pos : Position) :
    Res.Le (Clear k s pos) (Clear k' s pos) := by
  unfold Clear
  split
  · exact Res.Le.res_refl _
  · split
    · exact InvalidateCache_mono k k' hk _ pos
    · exact Res.Le.res_refl _

theorem Sheet.ClearCell_mono (k k' : Nat) (hk : k ≤ k') (s : Sheet D) (pos : Position) :
    Res.Le (s.ClearCell k pos) (s.ClearCell k' pos) := by
  unfold Sheet.ClearCell
  split
  · exact Res.Le.res_refl _
  · exact Res.Le.res_refl _
  · simp only
    split
    · exact Res.Le.res_refl _
    · split
      · exact Res.Le.res_refl _
      · split
        · exact Clear_mono k k' hk _ pos
        · exact Res.Le.res_refl _

/-- Whatever bound a `SetCell` call on a well-formed sheet returned or threw with, the sheet
it leaves is well-formed. -/
theorem Sheet.WF.setCell_any {s : Sheet D} (hwf : s.WF) (env : Env D) (fuel : Nat)
    (pos : Position) (text : Str) (s' : Sheet D)
    (h : (∃ a, s.SetCell env fuel pos text = .ok a s') ∨
      ∃ e, s.SetCell env fuel pos text = .raise e s') : s'.WF := by
  obtain ⟨N, hN⟩ := hwf.setCell env pos text
  have hmono := Sheet.SetCell_mono env fuel (max fuel N) (le_max_left _ _) s pos text
  obtain ⟨_, h2, h3⟩ := hN (max fuel N) (le_max_right _ _)
  rcases h with ⟨a, h⟩ | ⟨e, h⟩
  · exact h2 a s' (by rw [hmono.eq_of_ne (by rw [h]; simp), h])
  · exact h3 e s' (by rw [hmono.eq_of_ne (by rw [h]; simp), h])

theorem Sheet.WF.clearCell_any {s : Sheet D} (hwf : s.WF) (fuel : Nat)
    (pos : Position) (s' : Sheet D)
    (h : (∃ a, s.ClearCell fuel pos = .ok a s') ∨ ∃ e, s.ClearCell fuel pos = .raise e s') :
    s'.WF := by
  obtain ⟨N, hN⟩ := hwf.clearCell pos
  have hmono := Sheet.ClearCell_mono fuel (max fuel N) (le_max_left _ _) s pos
  obtain ⟨_, h2, h3⟩ := hN (max fuel N) (le_max_right _ _)
  rcases h with ⟨a, h⟩ | ⟨e, h⟩
  · exact h2 a s' (by rw [hmono.eq_of_ne (by rw [h]; simp), h])
  · exact h3 e s' (by rw [hmono.eq_of_ne (by rw [h]; simp), h])

theorem Reachable.reachable_wf {env : Env D} {s : Sheet D} (h : Reachable env s) : s.WF := by
  induction h with
  | empty => exact Sheet.WF.wf_empty
  | setCell fuel pos text _ hs ih => exact ih.setCell_any env fuel pos text _ (Or.inl ⟨_, hs⟩)
  | setCellRaise fuel pos text e _ hs ih =>
    exact ih.setCell_any env fuel pos text _ (Or.inr ⟨_, hs⟩)
  | clearCell fuel pos _ hs ih => exact ih.clearCell_any fuel pos _ (Or.inl ⟨_, hs⟩)
  | clearCellRaise fuel pos e _ hs ih => exact ih.clearCell_any fuel pos _ (Or.inr ⟨_, hs⟩)

/-! ## The claims on the graph invariants -/

set_option maxRecDepth 100000 in
theorem sheetA1_setCell :
    Sheet.empty.SetCell exampleEnv 4 ⟨0, 0⟩ "=B1".toList = .ok () sheetA1 := by decide

theorem sheetA1_reachable : Reachable exampleEnv sheetA1 :=
  Reachable.setCell 4 ⟨0, 0⟩ "=B1".toList Reachable.empty sheetA1_setCell

/-- C4: in every sheet reachable from the empty sheet by `SetCell` and `ClearCell` calls,
including calls that throw, every referenced cell is stored and lists the referring cell
exactly once, every incoming reference is the position of a formula cell that refers to the
holder, and further `SetCell` and `ClearCell` calls return or throw. -/
theorem reachable_coherent (env : Env D) (s : Sheet D) (h : Reachable env s) :
    s.ForwardCoherent ∧ s.BackwardCoherent ∧
      ∀ pos text, ∃ N, ∀ fuel, N ≤ fuel →
        s.SetCell env fuel pos text ≠ .stuck ∧ s.ClearCell fuel pos ≠ .stuck := by
  have hwf := h.reachable_wf
  refine ⟨hwf.forwardCoherent, hwf.backwardCoherent, fun pos text => ?_⟩
  obtain ⟨N1, h1⟩ := hwf.setCell env pos text
  obtain ⟨N2, h2⟩ := hwf.clearCell pos
  exact ⟨max N1 N2, fun fuel hf =>
    ⟨(h1 fuel (le_trans (le_max_left _ _) hf)).1, (h2 fuel (le_trans (le_max_right _ _) hf)).1⟩⟩

theorem reachable_coherent_witness :
    sheetA1.ForwardCoherent ∧ sheetA1.BackwardCoherent ∧
      ∀ pos text, ∃ N, ∀ fuel, N ≤ fuel →
        sheetA1.SetCell exampleEnv fuel pos text ≠ .stuck ∧ sheetA1.ClearCell fuel pos ≠ .stuck :=
  reachable_coherent exampleEnv sheetA1 sheetA1_reachable

/-- C5: in every sheet reachable from the empty sheet by `SetCell` and `ClearCell` calls the
graph of forward references has no cycle. -/
theorem reachable_acyclic (env : Env D) (s : Sheet D) (h : Reachable env s) : s.Acyclic :=
  h.reachable_wf.acyclic

theorem reachable_acyclic_witness : sheetA1.Acyclic :=
  reachable_acyclic exampleEnv sheetA1 sheetA1_reachable

theorem IsTextCell_formula (f : Str) : IsTextCell (kFormulaSign :: f) = false := by
  unfold IsTextCell
  simp [kFormulaSign, kEscapeSign]

/-- C1: on a well-formed sheet (up-to-date memoized reference lists, sorted incoming
references, forward and backward coherence, no cycle), for a valid position `pos` and a
formula text `=f` where `f` parses to `node`, `SetCell` returns or throws, and it throws
`CircularDependency` if and only if `pos` can be reached from a referenced cell of `node`
in zero or more forward references of the stored cells. The cell already stored at `pos` is
taken to be one the constructor builds: a text cell does not hold a formula text, and when
it is a formula that serializes to `f`, parsing `f` gives its referenced cells. -/
theorem SetCell_circular_iff (env : Env D) (s : Sheet D) (hwf : s.WF) (pos : Position)
    (hpos : pos.IsValid = true) (f : Str) (node : Node D)
    (hparse : env.ParseFormula f = some node)
    (htext : ∀ c t, s.GetCellImpl pos = some (some c) → c.data_ = .Text t → IsTextCell t = true)
    (hstable : ∀ c fo, s.GetCellImpl pos = some (some c) → c.data_ = .Formula fo →
      fo.node_.GetExpression = f → node.GetReferencedCells = fo.node_.GetReferencedCells) :
    ∃ N, ∀ fuel, N ≤ fuel →
      s.SetCell env fuel pos (kFormulaSign :: f) ≠ .stuck ∧
      ((∃ s', s.SetCell env fuel pos (kFormulaSign :: f) = .raise .CircularDependency s') ↔
        ∃ r ∈ node.GetReferencedCells, Relation.ReflTransGen s.References r pos) := by
  obtain ⟨N, hN⟩ := Sheet.SetCell_spec env s hwf.fresh hwf.inv pos hpos (kFormulaSign :: f)
  refine ⟨N, fun fuel hf => ⟨((hN fuel hf).setCell_wf hwf).1, ?_⟩⟩
  have hout := hN fuel hf
  rw [hwf.references_eq]
  have hcontent : env.content (kFormulaSign :: f) = some (.Formula node) := by
    unfold Env.content
    rw [if_neg (by rw [IsTextCell_formula]; decide)]
    simp [hparse]
  by_cases hs : s.HoldsText pos (kFormulaSign :: f)
  · obtain ⟨s1, h1, _⟩ := hout.same hs
    rw [h1]
    constructor
    · rintro ⟨s', h'⟩; cases h'
    · rintro ⟨r, hr, hreach⟩
      exfalso
      obtain ⟨old, hold, htxt⟩ := hs
      have hget := (Sheet.GetCellImpl_iff s pos old).mpr hold
      have hfr := old.GetText_fresh (hwf.fresh pos old hold)
      rw [hfr.2.2] at htxt
      cases hd : old.data_ with
      | Text t =>
        rw [hd] at htxt
        simp only at htxt
        have := htext old t hget hd
        rw [htxt, IsTextCell_formula] at this
        exact absurd this (by decide)
      | Formula fo =>
        rw [hd] at htxt
        simp only [List.cons.injEq] at htxt
        have hrefs := hstable old fo hget hd htxt.2
        rw [hrefs] at hr
        have hedge : s.graph.Edge pos r :=
          ⟨old.g, Sheet.graph_of_cells hold, by simpa [GCell.refs, Cell.g, hd, CellData.content,
            Content.refs] using hr⟩
        exact hwf.inv.acyclic pos (Relation.TransGen.head' hedge hreach)
  · by_cases hcyc : s.graph.Cyclic pos (Content.Formula node : Content D).refs
    · obtain ⟨s1, h1, _⟩ := hout.cyclic hs _ hcontent hcyc
      rw [h1]
      exact ⟨fun _ => hcyc, fun _ => ⟨s1, rfl⟩⟩
    · obtain ⟨sI, s', h1, _⟩ := hout.done hs _ hcontent hcyc
      rw [h1]
      constructor
      · rintro ⟨s'', h'⟩; cases h'
      · intro h; exact absurd h hcyc

theorem SetCell_circular_iff_witness :
    ∃ N, ∀ fuel, N ≤ fuel →
      sheetA1.SetCell exampleEnv fuel ⟨0, 1⟩ (kFormulaSign :: "A1".toList) ≠ .stuck ∧
      ((∃ s', sheetA1.SetCell exampleEnv fuel ⟨0, 1⟩ (kFormulaSign :: "A1".toList)
          = .raise .CircularDependency s') ↔
        ∃ r ∈ (Node.Cell ⟨0, 0⟩ : Node (Option Int)).GetReferencedCells,
          Relation.ReflTransGen sheetA1.References r ⟨0, 1⟩) :=
  SetCell_circular_iff exampleEnv sheetA1 sheetA1_reachable.reachable_wf ⟨0, 1⟩ (by decide)
    "A1".toList (.Cell ⟨0, 0⟩) (by decide)
    (by
      intro c t hc ht
      have h : sheetA1.GetCellImpl ⟨0, 1⟩ = some (some ⟨.Text [], [⟨0, 0⟩], none⟩) := by decide
      rw [h] at hc
      cases hc
      cases ht
      decide)
    (by
      intro c fo hc hfo
      have h : sheetA1.GetCellImpl ⟨0, 1⟩ = some (some ⟨.Text [], [⟨0, 0⟩], none⟩) := by decide
      rw [h] at hc
      cases hc
      cases hfo)

/-! ## Calls that throw -/

/-- The table after a throwing `SetCell` need not be the table before it: on the empty sheet
the call `SetCell(B2, "=B2")` throws `CircularDependency` and leaves a table of two rows, the
second of length two, where the table before the call had no row, since `GetCellRef` has
resized the table before the constructor of the cell threw. -/
theorem SetCell_raise_resizes :
    (Sheet.empty : Sheet (Option Int)).table_ = [] ∧
      (Sheet.empty : Sheet (Option Int)).SetCell exampleEnv 4 ⟨1, 1⟩ "=B2".toList
        = .raise .CircularDependency ⟨[[], [none, none]]⟩ := by
  decide

set_option maxRecDepth 100000 in
theorem sheetA1_setCell_B1 :
    sheetA1.SetCell exampleEnv 4 ⟨0, 1⟩ "=A1".toList = .raise .CircularDependency sheetA1 := by
  decide

theorem sheetA1_getCell_B1 :
    sheetA1.GetCell ⟨0, 1⟩ = .ok (some ⟨.Text [], [⟨0, 0⟩], none⟩) sheetA1 := by
  decide

/-- C3, as stated: it is not the case that, from the empty sheet, `SetCell(A1, "=B1")`
returns, `SetCell(B1, "=A1")` then throws `CircularDependency`, and `GetCell(B1)` then
returns null. -/
theorem setCell_cycle_getCell_null_false :
    ¬ ∃ s1 s2 : Sheet (Option Int),
        Sheet.empty.SetCell exampleEnv 4 ⟨0, 0⟩ "=B1".toList = .ok () s1 ∧
        s1.SetCell exampleEnv 4 ⟨0, 1⟩ "=A1".toList = .raise .CircularDependency s2 ∧
        s2.GetCell ⟨0, 1⟩ = .ok none s2 := by
  rintro ⟨s1, s2, h1, h2, h3⟩
  rw [sheetA1_setCell] at h1
  cases h1
  rw [sheetA1_setCell_B1] at h2
  cases h2
  rw [sheetA1_getCell_B1] at h3
  cases h3

/-- C3, amended: from the empty sheet, `SetCell(A1, "=B1")` returns, `SetCell(B1, "=A1")`
then throws `CircularDependency` and leaves the sheet as it was, and `GetCell(B1)` then
returns the empty cell that the first call stored at `B1`, with empty text and `A1` as its
only incoming reference. -/
theorem setCell_cycle_getCell_placeholder :
    ∃ s1 : Sheet (Option Int),
      Sheet.empty.SetCell exampleEnv 4 ⟨0, 0⟩ "=B1".toList = .ok () s1 ∧
      s1.SetCell exampleEnv 4 ⟨0, 1⟩ "=A1".toList = .raise .CircularDependency s1 ∧
      s1.GetCell ⟨0, 1⟩ = .ok (some ⟨.Text [], [⟨0, 0⟩], none⟩) s1 ∧
      (Cell.GetText (⟨.Text [], [⟨0, 0⟩], none⟩ : Cell (Option Int))).1 = [] :=
  ⟨sheetA1, sheetA1_setCell, sheetA1_setCell_B1, sheetA1_getCell_B1, by decide⟩

set_option maxRecDepth 100000 in
theorem sheetA1_setCell_A1 :
    sheetA1.SetCell exampleEnv 4 ⟨0, 0⟩ "=A1".toList = .raise .CircularDependency sheetA1Memo := by
  decide

/-- C2, as stated: it is not the case that every throwing `SetCell` leaves the sheet
identical, caches included. On the sheet holding `=B1` at `A1`, the call `SetCell(A1, "=A1")`
throws `CircularDependency` and leaves the serialized expression of the formula at `A1`
memoized, which it was not before. -/
theorem SetCell_raise_identical_false :
    ¬ ∀ (e : Exn) (s' : Sheet (Option Int)),
        sheetA1.SetCell exampleEnv 4 ⟨0, 0⟩ "=A1".toList = .raise e s' → s' = sheetA1 := by
  intro h
  exact absurd (h _ _ sheetA1_setCell_A1) (by decide)

theorem Node.scratch_congr (ops : DoubleOps D) (n : Node D) (stored stored' : Position → Bool)
    (value value' : Position → Option (CValue D))
    (h : ∀ q ∈ n.GetReferencedCells, stored q = stored' q ∧ value q = value' q) :
    n.scratch ops stored value = n.scratch ops stored' value' := by
  induction n with
  | Number v s => rfl
  | Cell p =>
    simp only [Node.scratch]
    by_cases hp : p.IsValid = true
    · have := h p (by simp [Node.GetReferencedCells, hp])
      rw [if_pos hp, if_pos hp, this.1, this.2]
    · rw [if_neg hp, if_neg hp]
  | UnaryOp k n ih =>
    simp only [Node.scratch]
    rw [ih (fun q hq => h q (by simpa [Node.GetReferencedCells] using hq))]
  | BinaryOp k l r ihl ihr =>
    simp only [Node.scratch]
    rw [ihl (fun q hq => h q (by
        simp only [Node.GetReferencedCells, mem_unique, mem_merge]; exact Or.inl hq)),
      ihr (fun q hq => h q (by
        simp only [Node.GetReferencedCells, mem_unique, mem_merge]; exact Or.inr hq))]

theorem Node.scratch_mono_value (ops : DoubleOps D) (n : Node D) (stored : Position → Bool)
    (value value' : Position → Option (CValue D))
    (h : ∀ q v, value q = some v → value' q = some v) (fv : FValue D)
    (hn : n.scratch ops stored value = some fv) : n.scratch ops stored value' = some fv := by
  induction n generalizing fv with
  | Number v s => exact hn
  | Cell p =>
    simp only [Node.scratch] at hn ⊢
    by_cases hp : p.IsValid = true
    · rw [if_pos hp] at hn ⊢
      by_cases hs : stored p = true
      · rw [if_pos hs] at hn ⊢
        cases hv : value p with
        | none => rw [hv] at hn; simp at hn
        | some v => rw [hv] at hn; rw [h p v hv]; exact hn
      · rw [if_neg hs] at hn ⊢; exact hn
    · rw [if_neg hp] at hn ⊢; exact hn
  | UnaryOp k n ih =>
    simp only [Node.scratch] at hn ⊢
    cases hv : n.scratch ops stored value with
    | none => rw [hv] at hn; simp at hn
    | some v => rw [hv] at hn; rw [ih v hv]; exact hn
  | BinaryOp k l r ihl ihr =>
    simp only [Node.scratch] at hn ⊢
    cases hl : l.scratch ops stored value with
    | none => rw [hl] at hn; simp at hn
    | some a =>
      cases hr : r.scratch ops stored value with
      | none => rw [hl, hr] at hn; simp at hn
      | some b => rw [hl, hr] at hn; rw [ihl a hl, ihr b hr]; exact hn

theorem Sheet.scratch_succ (ops : DoubleOps D) (n : Nat) (s : Sheet D) (p : Position)
    (v : CValue D) (h : s.scratch ops n p = some v) : s.scratch ops (n + 1) p = some v := by
  induction n generalizing p v with
  | zero => simp [Sheet.scratch] at h
  | succ n ih =>
    rw [Sheet.scratch] at h ⊢
    cases hc : s.cells p with
    | none => rw [hc] at h; simp at h
    | some cell =>
      rw [hc] at h
      simp only at h ⊢
      cases hd : cell.data_ with
      | Text t => rw [hd] at h; exact h
      | Formula f =>
        rw [hd] at h
        simp only [Option.map_eq_some'] at h ⊢
        obtain ⟨fv, hfv, hv⟩ := h
        exact ⟨fv, Node.scratch_mono_value ops _ _ _ _ (fun q w hw => ih q w hw) fv hfv, hv⟩

theorem Sheet.scratch_mono (ops : DoubleOps D) (s : Sheet D) (p : Position) (v : CValue D)
    (n m : Nat) (hnm : n ≤ m) (h : s.scratch ops n p = some v) : s.scratch ops m p = some v := by
  induction hnm with
  | refl => exact h
  | step _ ih => exact Sheet.scratch_succ ops _ s p v ih

theorem Sheet.scratch_unique (ops : DoubleOps D) (s : Sheet D) (p : Position) (v w : CValue D)
    (n m : Nat) (h : s.scratch ops n p = some v) (h' : s.scratch ops m p = some w) : v = w := by
  have h1 := Sheet.scratch_mono ops s p v n (max n m) (le_max_left _ _) h
  have h2 := Sheet.scratch_mono ops s p w m (max n m) (le_max_right _ _) h'
  rw [h1] at h2
  exact Option.some.inj h2

theorem Sheet.content_isSome (s : Sheet D) (p : Position) :
    (s.content p).isSome = (s.cells p).isSome := by
  unfold Sheet.content
  cases s.cells p <;> rfl

theorem Sheet.edge_of_cell {s : Sheet D} {p q : Position} {c : Cell D} {n : Node D}
    (hc : s.cells p = some c) (hd : c.data_.content = .Formula n)
    (hq : q ∈ n.GetReferencedCells) : s.graph.Edge p q :=
  ⟨c.g, Sheet.graph_of_cells hc, by simpa [GCell.refs, Cell.g, hd, Content.refs] using hq⟩

/-- The from-scratch value at `p` depends only on what the cells reachable from `p` hold. -/
theorem Sheet.scratch_frame (ops : DoubleOps D) (s s' : Sheet D) (n : Nat) (p : Position)
    (h : ∀ x, Relation.ReflTransGen s.graph.Edge p x → s'.content x = s.content x) :
    s'.scratch ops n p = s.scratch ops n p := by
  induction n generalizing p with
  | zero => rfl
  | succ n ih =>
    have hp := h p Relation.ReflTransGen.refl
    unfold Sheet.content at hp
    rw [Sheet.scratch, Sheet.scratch]
    cases hc : s.cells p with
    | none =>
      rw [hc] at hp
      cases hc' : s'.cells p with
      | none => rfl
      | some c' => rw [hc'] at hp; simp at hp
    | some c =>
      rw [hc] at hp
      cases hc' : s'.cells p with
      | none => rw [hc'] at hp; simp at hp
      | some c' =>
        rw [hc'] at hp
        simp only [Option.map_some', Option.some.injEq] at hp
        simp only
        cases hd : c.data_ with
        | Text t =>
          cases hd' : c'.data_ with
          | Text t' =>
            rw [hd, hd'] at hp
            simp only [CellData.content, Content.Text.injEq] at hp
            rw [hp]
          | Formula f' => rw [hd, hd'] at hp; simp [CellData.content] at hp
        | Formula f =>
          cases hd' : c'.data_ with
          | Text t' => rw [hd, hd'] at hp; simp [CellData.content] at hp
          | Formula f' =>
            rw [hd, hd'] at hp
            simp only [CellData.content, Content.Formula.injEq] at hp
            simp only
            rw [hp]
            congr 1
            apply Node.scratch_congr
            intro q hq
            have hedge : s.graph.Edge p q :=
              Sheet.edge_of_cell hc (by rw [hd]; rfl) hq
            constructor
            · have := h q (Relation.ReflTransGen.single hedge)
              have h2 := congrArg Option.isSome this
              rw [Sheet.content_isSome, Sheet.content_isSome] at h2
              exact h2
            · exact ih q (fun x hx => h x (Relation.ReflTransGen.head hedge hx))

theorem Sheet.scratch_of_content (ops : DoubleOps D) (s s' : Sheet D)
    (h : s'.content = s.content) (n : Nat) (p : Position) :
    s'.scratch ops n p = s.scratch ops n p :=
  Sheet.scratch_frame ops s s' n p (fun x _ => congrFun h x)

theorem SameCore.rfl_core (c : Cell D) : SameCore c c := ⟨rfl, rfl, rfl⟩

theorem SameCore.refs {c c' : Cell D} (h : SameCore c c') : c'.refs = c.refs := by
  unfold Cell.refs
  rw [h.1]

theorem SameCore.of_strip {c c' : Cell D} (h : c'.strip = c.strip) : SameCore c c' := by
  obtain ⟨d, i, v⟩ := c
  obtain ⟨d', i', v'⟩ := c'
  simp only [Cell.strip, Cell.mk.injEq] at h
  obtain ⟨hd, hi, hv⟩ := h
  refine ⟨?_, hv, ?_⟩
  · cases d <;> cases d' <;> simp_all [CellData.strip, CellData.content, Formula.strip]
  · cases d <;> cases d' <;> simp_all [CellData.strip, Cell.fcache, Formula.strip]

/-- Values are kept by a step after which the cells with a cached value are cells that had
that cached value and held the same before. -/
theorem Sheet.Valued.transfer {ops : DoubleOps D} {s s' : Sheet D} (hV : s.Valued ops)
    (hchain : s'.Chain (fun _ => False))
    (hformula : ∀ p c, s'.cells p = some c → c.value_cache_ = none → c.fcache = none)
    (hK : ∀ x c', s'.cells x = some c' → c'.value_cache_.isSome = true →
      ∃ c, s.cells x = some c ∧ SameCore c c') : s'.Valued ops := by
  refine ⟨?_, hformula, hchain⟩
  intro p c' v hc' hv
  obtain ⟨c, hc, hcore⟩ := hK p c' hc' (by rw [hv]; rfl)
  obtain ⟨n, hn⟩ := hV.value p c v hc (by rw [← hcore.2.1]; exact hv)
  refine ⟨n, ?_⟩
  rw [← hn]
  symm
  apply Sheet.scratch_frame ops s' s n p
  intro x hx
  -- every cell reachable in `s'` from a cell with a cached value has a cached value
  have hcached : ∃ d', s'.cells x = some d' ∧ d'.value_cache_.isSome = true := by
    induction hx with
    | refl => exact ⟨c', hc', by rw [hv]; rfl⟩
    | tail _ hedge ih =>
      obtain ⟨d', hd', hdv⟩ := ih
      obtain ⟨g, hg, hq⟩ := hedge
      obtain ⟨d2, hd2, hg2⟩ := Sheet.cells_of_graph hg
      rw [hd'] at hd2
      cases hd2
      rcases hchain _ d' _ hd' hdv (by rw [← hg2] at hq; exact hq) with hf | h
      · exact absurd hf id
      · exact h
  obtain ⟨d', hd', hdv⟩ := hcached
  obtain ⟨d, hd, hcore2⟩ := hK x d' hd' hdv
  unfold Sheet.content
  rw [hd, hd']
  simp only [Option.map_some', Option.some.injEq]
  exact hcore2.1.symm

theorem Cell.unvalued_content {c c' : Cell D} (h : c'.unvalued = c.unvalued) :
    c'.data_.content = c.data_.content ∧ c'.incoming_refs_ = c.incoming_refs_ := by
  obtain ⟨d, i, v⟩ := c
  obtain ⟨d', i', v'⟩ := c'
  simp only [Cell.unvalued, Cell.mk.injEq] at h
  obtain ⟨hd, hi, _⟩ := h
  refine ⟨?_, hi⟩
  cases d <;> cases d' <;> simp_all [CellData.content]

theorem Cell.unvalued_fresh {c c' : Cell D} (h : c'.unvalued = c.unvalued) (hf : c.Fresh) :
    c'.Fresh := by
  obtain ⟨d, i, v⟩ := c
  obtain ⟨d', i', v'⟩ := c'
  simp only [Cell.unvalued, Cell.mk.injEq] at h
  obtain ⟨hd, _, _⟩ := h
  cases d with
  | Text t => cases d' <;> simp_all [Cell.Fresh]
  | Formula f =>
    cases d' with
    | Text t => simp at hd
    | Formula f' =>
      obtain ⟨n, a, b, c⟩ := f
      obtain ⟨n', a', b', c'⟩ := f'
      simp only [CellData.Formula.injEq, Formula.mk.injEq] at hd
      obtain ⟨h1, -, h3, h4⟩ := hd
      subst h1 h3 h4
      exact hf

theorem Sheet.SameHeld.same_refl (s : Sheet D) : s.SameHeld s := fun _ => rfl

theorem Sheet.SameHeld.cell {s0 s : Sheet D} (h : s0.SameHeld s) {x : Position} {c0 : Cell D}
    (hc : s0.cells x = some c0) : ∃ c, s.cells x = some c ∧ c.unvalued = c0.unvalued := by
  have := h x
  rw [hc] at this
  cases hs : s.cells x with
  | none => rw [hs] at this; simp at this
  | some c =>
    rw [hs] at this
    exact ⟨c, rfl, by simpa using this⟩

theorem Sheet.SameHeld.cell_back {s0 s : Sheet D} (h : s0.SameHeld s) {x : Position} {c : Cell D}
    (hc : s.cells x = some c) : ∃ c0, s0.cells x = some c0 ∧ c.unvalued = c0.unvalued := by
  have := h x
  rw [hc] at this
  cases hs : s0.cells x with
  | none => rw [hs] at this; simp at this
  | some c0 =>
    rw [hs] at this
    exact ⟨c0, rfl, by simpa using this⟩

theorem Sheet.SameHeld.same_isSome {s0 s : Sheet D} (h : s0.SameHeld s) (x : Position) :
    (s.cells x).isSome = (s0.cells x).isSome := by
  have := congrArg Option.isSome (h x)
  simpa using this

theorem Sheet.SameHeld.content {s0 s : Sheet D} (h : s0.SameHeld s) : s.content = s0.content := by
  funext x
  unfold Sheet.content
  cases hc : s0.cells x with
  | none =>
    have := h.same_isSome x
    rw [hc] at this
    cases hs : s.cells x with
    | none => rfl
    | some c => rw [hs] at this; simp at this
  | some c0 =>
    obtain ⟨c, hs, hu⟩ := h.cell hc
    rw [hs]
    simp only [Option.map_some', Option.some.injEq]
    exact (Cell.unvalued_content hu).1

theorem Sheet.SameHeld.graph {s0 s : Sheet D} (h : s0.SameHeld s) : s.graph = s0.graph := by
  funext x
  unfold Sheet.graph
  cases hc : s0.cells x with
  | none =>
    have := h.same_isSome x
    rw [hc] at this
    cases hs : s.cells x with
    | none => rfl
    | some c => rw [hs] at this; simp at this
  | some c0 =>
    obtain ⟨c, hs, hu⟩ := h.cell hc
    rw [hs]
    simp only [Option.map_some', Option.some.injEq, Cell.g]
    rw [(Cell.unvalued_content hu).1, (Cell.unvalued_content hu).2]

theorem Sheet.SameHeld.wf {s0 s : Sheet D} (h : s0.SameHeld s) (hwf : s0.WF) : s.WF := by
  refine ⟨?_, by rw [h.graph]; exact hwf.inv⟩
  intro p c hc
  obtain ⟨c0, hc0, hu⟩ := h.cell_back hc
  exact Cell.unvalued_fresh hu (hwf.fresh p c0 hc0)

theorem Sheet.SameHeld.scratch {s0 s : Sheet D} (h : s0.SameHeld s) (ops : DoubleOps D) (n : Nat)
    (p : Position) : s.scratch ops n p = s0.scratch ops n p :=
  Sheet.scratch_of_content ops s0 s h.content n p

theorem Sheet.Grown.grown_refl (s : Sheet D) : s.Grown s := fun _ c hc _ => ⟨c, hc, rfl⟩

theorem Sheet.Grown.grown_trans {a b c : Sheet D} (h1 : a.Grown b) (h2 : b.Grown c) :
    a.Grown c := by
  intro x ca hca hv
  obtain ⟨cb, hcb, hvb⟩ := h1 x ca hca hv
  obtain ⟨cc, hcc, hvc⟩ := h2 x cb hcb (by rw [hvb]; exact hv)
  exact ⟨cc, hcc, by rw [hvc, hvb]⟩

/-- What `Evaluate` on a node delivers when `GetValue` on the referenced cells does. -/
theorem Node.Evaluate_spec (ops : DoubleOps D) (s0 : Sheet D)
    (getValue : Sheet D → Position → Res (Sheet D) (CValue D)) (n : Node D)
    (hspec : ∀ q ∈ n.GetReferencedCells, (s0.cells q).isSome = true →
      ValueSpec ops s0 getValue q) :
    ∀ s, s0.SameHeld s → s.Valued ops →
      ∃ fv s', n.Evaluate ops getValue s = .ok fv s' ∧ s0.SameHeld s' ∧ s'.Valued ops ∧
        s.Grown s' ∧
        (∀ q ∈ n.GetReferencedCells, (s0.cells q).isSome = true →
          ∃ d, s'.cells q = some d ∧ d.value_cache_.isSome = true) ∧
        ∃ m, n.scratch ops (fun q => (s0.cells q).isSome) (s0.scratch ops m) = some fv := by
  induction n with
  | Number v str =>
    intro s hs hv
    exact ⟨.number v, s, rfl, hs, hv, Sheet.Grown.grown_refl s,
      fun q hq => absurd hq (by simp [Node.GetReferencedCells]), 0, rfl⟩
  | Cell p =>
    intro s hs hv
    by_cases hp : p.IsValid = true
    · simp only [Node.Evaluate, hp, if_true, Node.scratch]
      rw [← Sheet.cells_eq_slot hp]
      cases hc : s.cells p with
      | none =>
        have h0 : (s0.cells p).isSome = false := by rw [← hs.same_isSome p, hc]; rfl
        refine ⟨.number ops.zero, s, rfl, hs, hv, Sheet.Grown.grown_refl s, ?_, 0, ?_⟩
        · intro q hq hq0
          simp only [Node.GetReferencedCells, hp, if_true, List.mem_singleton] at hq
          rw [hq, h0] at hq0
          exact absurd hq0 (by simp)
        · simp [h0]
      | some c =>
        have h0 : (s0.cells p).isSome = true := by rw [← hs.same_isSome p, hc]; rfl
        obtain ⟨v, s', hg, hs', hv', hgr, d, hd, hdv⟩ :=
          hspec p (by simp [Node.GetReferencedCells, hp]) h0 s hs hv
        simp only [hg]
        refine ⟨CellEvaluater ops v, s', rfl, hs', hv', hgr, ?_, ?_⟩
        · intro q hq _
          simp only [Node.GetReferencedCells, hp, if_true, List.mem_singleton] at hq
          rw [hq]
          exact ⟨d, hd, by rw [hdv]; rfl⟩
        · obtain ⟨m, hm⟩ := hv'.value p d v hd hdv
          rw [hs'.scratch] at hm
          exact ⟨m, by simp [h0, hm]⟩
    · refine ⟨.error .Ref, s, by simp [Node.Evaluate, hp], hs, hv, Sheet.Grown.grown_refl s,
        ?_, 0, by simp [Node.scratch, hp]⟩
      intro q hq
      simp [Node.GetReferencedCells, hp] at hq
  | UnaryOp k n ih =>
    intro s hs hv
    obtain ⟨fv, s', he, hs', hv', hgr, hc, m, hm⟩ :=
      ih (fun q hq => hspec q (by simpa [Node.GetReferencedCells] using hq)) s hs hv
    refine ⟨UnaryOpEvaluater ops k fv, s', by simp [Node.Evaluate, he], hs', hv', hgr, ?_, m,
      by simp [Node.scratch, hm]⟩
    intro q hq
    exact hc q (by simpa [Node.GetReferencedCells] using hq)
  | BinaryOp k l r ihl ihr =>
    intro s hs hv
    have hml : ∀ q, q ∈ l.GetReferencedCells → q ∈ (Node.BinaryOp k l r).GetReferencedCells := by
      intro q hq
      simp only [Node.GetReferencedCells, mem_unique, mem_merge]; exact Or.inl hq
    have hmr : ∀ q, q ∈ r.GetReferencedCells → q ∈ (Node.BinaryOp k l r).GetReferencedCells := by
      intro q hq
      simp only [Node.GetReferencedCells, mem_unique, mem_merge]; exact Or.inr hq
    obtain ⟨a, s1, he1, hs1, hv1, hgr1, hc1, m1, hm1⟩ :=
      ihl (fun q hq => hspec q (hml q hq)) s hs hv
    obtain ⟨b, s2, he2, hs2, hv2, hgr2, hc2, m2, hm2⟩ :=
      ihr (fun q hq => hspec q (hmr q hq)) s1 hs1 hv1
    refine ⟨BinaryOpEvaluater ops k a b, s2, by simp [Node.Evaluate, he1, he2], hs2, hv2,
      hgr1.grown_trans hgr2, ?_, max m1 m2, ?_⟩
    · intro q hq hq0
      simp only [Node.GetReferencedCells, mem_unique, mem_merge] at hq
      rcases hq with hq | hq
      · obtain ⟨d, hd, hdv⟩ := hc1 q hq hq0
        obtain ⟨d', hd', hdv'⟩ := hgr2 q d hd hdv
        exact ⟨d', hd', by rw [hdv']; exact hdv⟩
      · exact hc2 q hq hq0
    · simp only [Node.scratch]
      rw [Node.scratch_mono_value ops l _ _ _
          (fun q v h => Sheet.scratch_mono ops s0 q v m1 _ (le_max_left _ _) h) a hm1,
        Node.scratch_mono_value ops r _ _ _
          (fun q v h => Sheet.scratch_mono ops s0 q v m2 _ (le_max_right _ _) h) b hm2]

theorem Cell.refs_of_unvalued {c c' : Cell D} (h : c'.unvalued = c.unvalued) :
    c'.refs = c.refs := by
  unfold Cell.refs
  rw [(Cell.unvalued_content h).1]

/-- Storing a right value in the cache of the cell at `q`. -/
theorem store_value (ops : DoubleOps D) {s0 s1 : Sheet D} (hs : s0.SameHeld s1)
    (hv : s1.Valued ops) (newc : Cell D) {q : Position} {cell : Cell D} {v : CValue D}
    (hc : s1.cells q = some cell) (hu : newc.unvalued = cell.unvalued)
    (hval : newc.value_cache_ = some v) (hscr : ∃ m, s0.scratch ops m q = some v)
    (hrefs : ∀ r ∈ newc.refs, r ≠ q ∧ ∃ d, s1.cells r = some d ∧ d.value_cache_.isSome = true) :
    s0.SameHeld (s1.setCell q newc) ∧ (s1.setCell q newc).Valued ops ∧
      (s1.setCell q newc).cells = Function.update s1.cells q (some newc) := by
  have hcells := Sheet.cells_setCell s1 q cell newc hc
  have hsame : s0.SameHeld (s1.setCell q newc) := by
    intro x
    rw [hcells]
    by_cases hx : x = q
    · subst hx
      rw [Function.update_same, ← hs x, hc]
      simp only [Option.map_some', hu]
    · rw [Function.update_noteq hx]
      exact hs x
  refine ⟨hsame, ⟨?_, ?_, ?_⟩, hcells⟩
  · intro p c w hp hw
    rw [hcells] at hp
    by_cases hx : p = q
    · subst hx
      rw [Function.update_same] at hp
      cases hp
      rw [hval] at hw
      cases hw
      obtain ⟨m, hm⟩ := hscr
      exact ⟨m, by rw [hsame.scratch]; exact hm⟩
    · rw [Function.update_noteq hx] at hp
      obtain ⟨m, hm⟩ := hv.value p c w hp hw
      exact ⟨m, by rw [hsame.scratch, ← hs.scratch]; exact hm⟩
  · intro p c hp hw
    rw [hcells] at hp
    by_cases hx : p = q
    · subst hx
      rw [Function.update_same] at hp
      cases hp
      rw [hval] at hw
      cases hw
    · rw [Function.update_noteq hx] at hp
      exact hv.formula p c hp hw
  · intro x c r hx hcv hr
    right
    rw [hcells] at hx ⊢
    by_cases hxq : x = q
    · subst hxq
      rw [Function.update_same] at hx
      cases hx
      obtain ⟨hne, d, hd, hdv⟩ := hrefs r hr
      exact ⟨d, by rw [Function.update_noteq hne]; exact hd, hdv⟩
    · rw [Function.update_noteq hxq] at hx
      rcases hv.chain x c r hx hcv hr with hf | ⟨d, hd, hdv⟩
      · exact absurd hf id
      · by_cases hrq : r = q
        · subst hrq
          exact ⟨newc, by rw [Function.update_same], by rw [hval]; rfl⟩
        · exact ⟨d, by rw [Function.update_noteq hrq]; exact hd, hdv⟩

theorem Sheet.Grown.of_update {s : Sheet D} {s' : Sheet D} {q : Position} {cell newc : Cell D}
    (hcells : s'.cells = Function.update s.cells q (some newc)) (hc : s.cells q = some cell)
    (h : cell.value_cache_ = none ∨ newc.value_cache_ = cell.value_cache_) : s.Grown s' := by
  intro x c hx hv
  rw [hcells]
  by_cases hxq : x = q
  · subst hxq
    rw [hc] at hx
    cases hx
    rcases h with h | h
    · rw [h] at hv; cases hv
    · exact ⟨newc, by rw [Function.update_same], h⟩
  · exact ⟨c, by rw [Function.update_noteq hxq]; exact hx, rfl⟩

theorem Cell.content_formula {c : Cell D} {n : Node D} (h : c.data_.content = .Formula n) :
    ∃ f, c.data_ = .Formula f ∧ f.node_ = n := by
  cases hd : c.data_ with
  | Text t => rw [hd] at h; simp [CellData.content] at h
  | Formula f =>
    rw [hd] at h
    simp only [CellData.content, Content.Formula.injEq] at h
    exact ⟨f, rfl, h⟩

theorem Cell.content_text {c : Cell D} {t : Str} (h : c.data_.content = .Text t) :
    c.data_ = .Text t := by
  cases hd : c.data_ with
  | Text t' =>
    rw [hd] at h
    simp only [CellData.content, Content.Text.injEq] at h
    rw [h]
  | Formula f => rw [hd] at h; simp [CellData.content] at h

/-- One level of `Cell::GetValue`: it delivers at `q` when the level below delivers at the
cells that the cell at `q` refers to. -/
theorem GetValueAt_step (ops : DoubleOps D) (s0 : Sheet D) (hwf : s0.WF) (k : Nat)
    (q : Position) (c0 : Cell D) (hq : s0.cells q = some c0)
    (hrec : ∀ r ∈ c0.refs, ValueSpec ops s0 (GetValueAt ops k) r) :
    ValueSpec ops s0 (GetValueAt ops (k + 1)) q := by
  intro s hs hv
  obtain ⟨cell, hcell, hu⟩ := hs.cell hq
  have hqv := Sheet.cells_valid hq
  have hslot : s.slot q = some cell := by rw [← Sheet.cells_eq_slot hqv]; exact hcell
  rw [GetValueAt]
  simp only [hslot]
  cases hvc : cell.value_cache_ with
  | some v => exact ⟨v, s, rfl, hs, hv, Sheet.Grown.grown_refl s, cell, hcell, hvc⟩
  | none =>
    simp only
    cases hd : cell.data_ with
    | Text text =>
      simp only
      have hc0 : c0.data_ = .Text text := by
        apply Cell.content_text
        rw [← (Cell.unvalued_content hu).1, hd]; rfl
      obtain ⟨h1, h2, h3⟩ := store_value ops hs hv
        ⟨.Text text, cell.incoming_refs_, some (CValue.text
          (text.drop (if !text.isEmpty && text.head? == some kEscapeSign then 1 else 0)))⟩
        hcell (by simp [Cell.unvalued, hd]) rfl
        ⟨1, by simp [Sheet.scratch, hq, hc0]⟩
        (by intro r hr; simp [Cell.refs, CellData.content, Content.refs] at hr)
      exact ⟨_, _, rfl, h1, h2, Sheet.Grown.of_update h3 hcell (Or.inl hvc), _,
        by rw [h3, Function.update_same], rfl⟩
    | Formula f =>
      have hfc : f.value_cache_ = none := by
        have := hv.formula q cell hcell hvc
        simpa [Cell.fcache, hd] using this
      simp only [hfc]
      have hcont : c0.data_.content = .Formula f.node_ := by
        rw [← (Cell.unvalued_content hu).1, hd]; rfl
      obtain ⟨f0, hf0, hn0⟩ := Cell.content_formula hcont
      have hrefs0 : c0.refs = f.node_.GetReferencedCells := by
        simp [Cell.refs, hcont, Content.refs]
      obtain ⟨fv, s1, he, hs1, hv1, hgr1, hc1, m, hm⟩ :=
        Node.Evaluate_spec ops s0 (GetValueAt ops k) f.node_
          (fun r hr _ => hrec r (by rw [hrefs0]; exact hr)) s hs hv
      simp only [he]
      obtain ⟨cell', hcell', hu'⟩ := hs1.cell hq
      have hslot' : s1.slot q = some cell' := by rw [← Sheet.cells_eq_slot hqv]; exact hcell'
      simp only [hslot']
      have hcont' : cell'.data_.content = .Formula f.node_ := by
        rw [(Cell.unvalued_content hu').1]; exact hcont
      obtain ⟨f', hf', hn'⟩ := Cell.content_formula hcont'
      have hstored : ∀ r ∈ f.node_.GetReferencedCells, (s0.cells r).isSome = true := by
        intro r hr
        obtain ⟨d, hd, _⟩ := hwf.inv.forward q c0.g r (Sheet.graph_of_cells hq)
          (by simpa [GCell.refs, Cell.g, hcont, Content.refs] using hr)
        obtain ⟨c, hc, _⟩ := Sheet.cells_of_graph hd
        rw [hc]; rfl
      have hself : ∀ r ∈ f.node_.GetReferencedCells, r ≠ q := by
        intro r hr heq
        apply hwf.inv.not_self_ref q
        unfold Graph.refsAt
        rw [Sheet.graph_of_cells hq]
        simpa [GCell.refs, Cell.g, hcont, Content.refs, heq] using hr
      obtain ⟨h1, h2, h3⟩ := store_value ops hs1 hv1
        { cell' with
          data_ :=
            match cell'.data_ with
            | .Formula f' => CellData.Formula { f' with value_cache_ := some fv }
            | .Text t => CellData.Text t
          value_cache_ := some fv.toCValue }
        hcell' (by simp [Cell.unvalued, hf']) rfl
        ⟨m + 1, by
          rw [Sheet.scratch]
          simp only [hq, hf0, hn0, hm, Option.map_some']⟩
        (by
          intro r hr
          have hr' : r ∈ f.node_.GetReferencedCells := by
            simpa [Cell.refs, hf', CellData.content, Content.refs, hn'] using hr
          exact ⟨hself r hr', hc1 r hr' (hstored r hr')⟩)
      refine ⟨_, _, rfl, h1, h2, ?_, _, (congrFun h3 q).trans (Function.update_same _ _ _), rfl⟩
      intro x c hx hxv
      obtain ⟨c1, hc1', hcv1⟩ := hgr1 x c hx hxv
      have hxq : x ≠ q := by
        intro heq
        rw [heq, hcell] at hx
        cases hx
        rw [hvc] at hxv
        cases hxv
      exact ⟨c1, (congrFun h3 x).trans (by rw [Function.update_noteq hxq]; exact hc1'), hcv1⟩

/-- With enough fuel `Cell::GetValue` delivers at every stored cell of a well-formed sheet. -/
theorem GetValueAt_spec (ops : DoubleOps D) (s0 : Sheet D) (hwf : s0.WF) (q : Position)
    (hq : (s0.cells q).isSome = true) :
    ∃ N, ∀ fuel, N ≤ fuel → ValueSpec ops s0 (GetValueAt ops fuel) q := by
  have wf := s0.wf_refs hwf.inv.acyclic
  refine wf.induction
    (C := fun q => (s0.cells q).isSome = true →
      ∃ N, ∀ fuel, N ≤ fuel → ValueSpec ops s0 (GetValueAt ops fuel) q) q ?_ hq
  intro q ih hq
  cases hc : s0.cells q with
  | none => rw [hc] at hq; cases hq
  | some c0 =>
    have hall : ∀ r ∈ c0.refs, ∃ N, ∀ fuel, N ≤ fuel →
        ValueSpec ops s0 (GetValueAt ops fuel) r := by
      intro r hr
      have hedge : s0.graph.Edge q r := ⟨c0.g, Sheet.graph_of_cells hc, hr⟩
      obtain ⟨d, hd, _⟩ := hwf.inv.forward q c0.g r (Sheet.graph_of_cells hc) hr
      obtain ⟨c, hcr, _⟩ := Sheet.cells_of_graph hd
      exact ih r hedge (by rw [hcr]; rfl)
    obtain ⟨N, hN⟩ := exists_fuel_forall_mem
      (fun fuel r => ValueSpec ops s0 (GetValueAt ops fuel) r) c0.refs hall
    refine ⟨N + 1, fun fuel hf => ?_⟩
    obtain ⟨k, rfl⟩ : ∃ k, fuel = k + 1 := ⟨fuel - 1, by omega⟩
    exact GetValueAt_step ops s0 hwf k q c0 hc (fun r hr => hN k (by omega) r hr)

theorem Node.Evaluate_mono (ops : DoubleOps D)
    (g g' : Sheet D → Position → Res (Sheet D) (CValue D))
    (h : ∀ s q, Res.Le (g s q) (g' s q)) (n : Node D) :
    ∀ s, Res.Le (n.Evaluate ops g s) (n.Evaluate ops g' s) := by
  induction n with
  | Number v str => intro s; exact Res.Le.res_refl _
  | Cell p =>
    intro s
    simp only [Node.Evaluate]
    split
    · split
      · rcases h s p with hv | hv
        · rw [hv]; exact Res.Le.stuck _
        · rw [← hv]; exact Res.Le.res_refl _
      · exact Res.Le.res_refl _
    · exact Res.Le.res_refl _
  | UnaryOp k n ih =>
    intro s
    simp only [Node.Evaluate]
    rcases ih s with hv | hv
    · rw [hv]; exact Res.Le.stuck _
    · rw [← hv]; exact Res.Le.res_refl _
  | BinaryOp k l r ihl ihr =>
    intro s
    simp only [Node.Evaluate]
    rcases ihl s with hv | hv
    · rw [hv]; exact Res.Le.stuck _
    · rw [← hv]
      split
      · rename_i v s' _
        rcases ihr s' with hw | hw
        · rw [hw]; exact Res.Le.stuck _
        · rw [← hw]; exact Res.Le.res_refl _
      · exact Res.Le.res_refl _
      · exact Res.Le.res_refl _

theorem GetValueAt_mono_succ (ops : DoubleOps D) (fuel : Nat) :
    ∀ (s : Sheet D) self,
      Res.Le (GetValueAt ops fuel s self) (GetValueAt ops (fuel + 1) s self) := by
  induction fuel with
  | zero => intro s self; exact Res.Le.stuck _
  | succ k ih =>
    intro s self
    rw [GetValueAt, GetValueAt]
    split
    · exact Res.Le.res_refl _
    · split
      · exact Res.Le.res_refl _
      · split
        · exact Res.Le.res_refl _
        · split
          · exact Res.Le.res_refl _
          · rename_i f _ _ _
            rcases Node.Evaluate_mono ops _ _ ih f.node_ s with hv | hv
            · rw [hv]; exact Res.Le.stuck _
            · rw [← hv]; exact Res.Le.res_refl _

theorem GetValueAt_mono (ops : DoubleOps D) (k k' : Nat) (hk : k ≤ k') (s : Sheet D)
    (self : Position) : Res.Le (GetValueAt ops k s self) (GetValueAt ops k' s self) :=
  mono_of_succ (fun k => GetValueAt ops k s self) Res.Le
    Res.Le.res_refl (fun _ _ _ => Res.Le.res_trans) (fun k => GetValueAt_mono_succ ops k s self)
    k k' hk

theorem Sheet.GetValue_mono (ops : DoubleOps D) (k k' : Nat) (hk : k ≤ k') (s : Sheet D)
    (pos : Position) : Res.Le (s.GetValue ops k pos) (s.GetValue ops k' pos) := by
  unfold Sheet.GetValue
  split
  · exact Res.Le.res_refl _
  · exact Res.Le.res_refl _
  · exact GetValueAt_mono ops k k' hk s pos

theorem SameCore.core_trans {a b c : Cell D} (h1 : SameCore a b) (h2 : SameCore b c) :
    SameCore a c :=
  ⟨h2.1.trans h1.1, h2.2.1.trans h1.2.1, h2.2.2.trans h1.2.2⟩

theorem SameCore.addIncoming (c : Cell D) (pos : Position) :
    SameCore c (c.AddIncomingRef pos) := ⟨rfl, rfl, rfl⟩

theorem SameCore.afterRemove {c c' : Cell D} {pos : Position}
    (h : c.afterRemove pos = some c') : SameCore c c' := by
  unfold Cell.afterRemove at h
  split at h
  · cases h
  · cases h
    exact ⟨rfl, rfl, rfl⟩

theorem Sheet.afterDelete_core (A : Sheet D) (R : List Position) (pos x : Position) (c' : Cell D)
    (h : A.afterDelete R pos x = some c') : ∃ c, A.cells x = some c ∧ SameCore c c' := by
  unfold Sheet.afterDelete at h
  by_cases hxR : x ∈ R
  · rw [if_pos hxR] at h
    cases hc : A.cells x with
    | none => rw [hc] at h; simp at h
    | some c =>
      rw [hc] at h
      exact ⟨c, rfl, SameCore.afterRemove h⟩
  · rw [if_neg hxR] at h
    exact ⟨c', h, SameCore.rfl_core c'⟩

theorem Sheet.afterDelete_g (A : Sheet D) (pos x : Position) :
    (A.afterDelete (A.graph.refsAt pos) pos x).map Cell.g = A.graph.removed pos x := by
  unfold Sheet.afterDelete Graph.removed
  by_cases hx : x ∈ A.graph.refsAt pos
  · rw [if_pos hx, if_pos hx]
    unfold Sheet.graph
    cases hc : A.cells x with
    | none => rfl
    | some c =>
      simp only [Option.some_bind, Option.map_some']
      exact Cell.afterRemove_g pos c
  · rw [if_neg hx, if_neg hx]
    rfl

theorem Sheet.installed_eq (A : Sheet D) (R N : List Position) (pos : Position) (newc : Cell D)
    (x : Position) :
    A.installed R N pos newc x =
      if x = pos then some newc
      else if x ∈ N then some (Cell.afterAdd pos (A.afterDelete R pos x))
      else A.afterDelete R pos x := rfl

/-- Every cell of the sheet after an installation, the installed cell apart, is a cell of
before that holds the same and has the same cached values, or a new cell without cached
values at a position that the deletion of references left without a cell. -/
theorem installed_core (A : Sheet D) (R N : List Position) (pos : Position) (newc : Cell D)
    (x : Position) (c' : Cell D) (h : A.installed R N pos newc x = some c') (hx : x ≠ pos) :
    (∃ c, A.cells x = some c ∧ SameCore c c') ∨
      (A.afterDelete R pos x = none ∧ c'.value_cache_ = none ∧ c'.fcache = none) := by
  rw [Sheet.installed_eq, if_neg hx] at h
  by_cases hxN : x ∈ N
  · rw [if_pos hxN] at h
    cases h
    cases ho : A.afterDelete R pos x with
    | some c1 =>
      obtain ⟨c, hc, hcore⟩ := A.afterDelete_core R pos x c1 ho
      left
      exact ⟨c, hc, hcore.core_trans (SameCore.addIncoming c1 pos)⟩
    | none => right; exact ⟨rfl, rfl, rfl⟩
  · rw [if_neg hxN] at h
    left
    exact A.afterDelete_core R pos x c' h

/-- A cell with a cached value to which a cell other than `pos` refers is kept, with its
cached value, by an installation at `pos`. -/
theorem installed_keeps (A : Sheet D) (hinv : A.graph.Inv) (N : List Position)
    (pos : Position) (newc : Cell D) (x r : Position) (c d : Cell D) (hx : x ≠ pos)
    (hr : r ≠ pos) (hc : A.cells x = some c) (hrc : r ∈ c.refs) (hd : A.cells r = some d) :
    ∃ d', A.installed (A.graph.refsAt pos) N pos newc r = some d' ∧ SameCore d d' := by
  obtain ⟨d0, hd0, hin⟩ := hinv.forward x c.g r (Sheet.graph_of_cells hc) hrc
  obtain ⟨g1, hg1⟩ := A.graph.removed_keeps hinv pos r d0 hd0 (Or.inr ⟨x, hin, hx⟩)
  have hg := A.afterDelete_g pos r
  rw [hg1] at hg
  cases ho : A.afterDelete (A.graph.refsAt pos) pos r with
  | none => rw [ho] at hg; simp at hg
  | some c1 =>
    obtain ⟨d2, hd2, hcore⟩ := A.afterDelete_core _ pos r c1 ho
    rw [hd] at hd2
    cases hd2
    rw [Sheet.installed_eq, if_neg hr, ho]
    by_cases hrN : r ∈ N
    · rw [if_pos hrN]
      exact ⟨_, rfl, hcore.core_trans (SameCore.addIncoming c1 pos)⟩
    · rw [if_neg hrN]
      exact ⟨c1, rfl, hcore⟩

/-- The chain of cached values survives an installation at `pos` when the installed cell has
a cached value only if it refers to no cell and only if the cell of before had one. -/
theorem installed_chain (A : Sheet D) (hinv : A.graph.Inv) (N : List Position)
    (pos : Position) (newc : Cell D) (hchain : A.Chain (fun _ => False))
    (hsrc : newc.value_cache_.isSome = true → newc.refs = [])
    (htgt : ∀ c, A.cells pos = some c → c.value_cache_.isSome = true →
      newc.value_cache_.isSome = true)
    (x : Position) (c' : Cell D) (r : Position)
    (hx : A.installed (A.graph.refsAt pos) N pos newc x = some c')
    (hv : c'.value_cache_.isSome = true) (hr : r ∈ c'.refs) :
    ∃ d', A.installed (A.graph.refsAt pos) N pos newc r = some d' ∧
      d'.value_cache_.isSome = true := by
  by_cases hxp : x = pos
  · rw [Sheet.installed_eq, if_pos hxp] at hx
    cases hx
    rw [hsrc hv] at hr
    cases hr
  · rcases installed_core A _ N pos newc x c' hx hxp with ⟨c, hc, hcore⟩ | ⟨_, hnone, _⟩
    · have hcv : c.value_cache_.isSome = true := by rw [← hcore.2.1]; exact hv
      rw [hcore.refs] at hr
      rcases hchain x c r hc hcv hr with hf | ⟨d, hd, hdv⟩
      · exact absurd hf id
      · by_cases hrp : r = pos
        · rw [hrp] at hd ⊢
          exact ⟨newc, by rw [Sheet.installed_eq, if_pos rfl], htgt d hd hdv⟩
        · obtain ⟨d', hd', hcore'⟩ := installed_keeps A hinv N pos newc x r c d hxp hrp hc hr hd
          exact ⟨d', hd', by rw [hcore'.2.1]; exact hdv⟩
    · rw [hnone] at hv
      cases hv

theorem Cell.fcache_strip (c : Cell D) : c.strip.fcache = c.fcache := by
  obtain ⟨d, i, v⟩ := c
  cases d <;> rfl

theorem Cell.fcache_invalidate (c : Cell D) : c.invalidate.fcache = none := by
  obtain ⟨d, i, v⟩ := c
  cases d <;> rfl

theorem Cell.fcache_of_strip_eq {c c' : Cell D} (h : c'.strip = c.strip) :
    c'.fcache = c.fcache := by
  rw [← Cell.fcache_strip c', h, Cell.fcache_strip]

theorem StripRel.cases_cell {o o' : Option (Cell D)} (h : StripRel o o') (c' : Cell D)
    (hc' : o' = some c') :
    ∃ c, o = some c ∧ (c'.strip = c.strip ∨ c'.strip = c.invalidate.strip) := by
  subst hc'
  unfold StripRel at h
  cases o with
  | none => rcases h with h | h <;> simp at h
  | some c =>
    refine ⟨c, rfl, ?_⟩
    rcases h with h | h
    · left; simpa using h
    · right; simpa using h

theorem StripRel.strip_isSome {o o' : Option (Cell D)} (h : StripRel o o') :
    o'.isSome = o.isSome := by
  have := congrArg Option.isSome h.strip_g
  simpa using this

/-- Filling memoized expressions and clearing caches keeps the cached values right. -/
theorem Sheet.Valued.of_upd {ops : DoubleOps D} {s sI : Sheet D} (hV : s.Valued ops)
    (h : s.Upd sI) : sI.Valued ops := by
  apply hV.transfer (h.chain _ hV.chain)
  · intro p c' hc' hv
    obtain ⟨c, hc, hrel⟩ := (h.rel p).cases_cell c' hc'
    rcases hrel with hrel | hrel
    · have hcore := SameCore.of_strip hrel
      rw [hcore.2.2]
      exact hV.formula p c hc (by rw [← hcore.2.1]; exact hv)
    · rw [← Cell.fcache_strip, hrel, Cell.fcache_strip, Cell.fcache_invalidate]
  · intro x c' hc' hv
    obtain ⟨c, hc, hrel⟩ := (h.rel x).cases_cell c' hc'
    rcases hrel with hrel | hrel
    · exact ⟨c, hc, SameCore.of_strip hrel⟩
    · have : c'.strip.value_cache_ = none := by rw [hrel]; rfl
      rw [Cell.strip_value_cache] at this
      rw [this] at hv
      cases hv

theorem Sheet.Upd.upd_of_sim {s s1 : Sheet D} (h : s.Sim s1) : s.Upd s1 := by
  refine ⟨fun x => ?_, fun _ => h.2, fun X hc => Sheet.Chain.of_stripped h.1 X hc⟩
  left
  exact congrFun h.1 x

theorem Content.toCell_uncached (content : Content D) (inc : List Position) :
    (content.toCell inc).value_cache_ = none ∧ (content.toCell inc).fcache = none := by
  cases content <;> exact ⟨rfl, rfl⟩

/-- The sheet after an installation has right cached values when the sheet before had and
the installed cell has none. -/
theorem Sheet.Valued.installed {ops : DoubleOps D} {A B : Sheet D} (hV : A.Valued ops)
    (hinv : A.graph.Inv) (N : List Position) (pos : Position) (newc : Cell D)
    (hB : B.cells = A.installed (A.graph.refsAt pos) N pos newc)
    (hnew : newc.value_cache_ = none ∧ newc.fcache = none)
    (hpos : ∀ c, A.cells pos = some c → c.value_cache_ = none) : B.Valued ops := by
  apply hV.transfer
  · intro x c' r hx hv hr
    right
    rw [hB] at hx ⊢
    exact installed_chain A hinv N pos newc hV.chain
      (fun h => by rw [hnew.1] at h; cases h)
      (fun c hc h => by rw [hpos c hc] at h; cases h) x c' r hx hv hr
  · intro p c' hc' hv
    rw [hB] at hc'
    by_cases hp : p = pos
    · rw [Sheet.installed_eq, if_pos hp] at hc'
      cases hc'
      exact hnew.2
    · rcases installed_core A _ N pos newc p c' hc' hp with ⟨c, hc, hcore⟩ | ⟨_, _, h⟩
      · rw [hcore.2.2]
        exact hV.formula p c hc (by rw [← hcore.2.1]; exact hv)
      · exact h
  · intro x c' hc' hv
    rw [hB] at hc'
    by_cases hp : x = pos
    · rw [Sheet.installed_eq, if_pos hp] at hc'
      cases hc'
      rw [hnew.1] at hv
      cases hv
    · rcases installed_core A _ N pos newc x c' hc' hp with ⟨c, hc, hcore⟩ | ⟨_, h, _⟩
      · exact ⟨c, hc, hcore⟩
      · rw [h] at hv
        cases hv

/-- Whatever `SetCell` does on a valid position, it keeps the cached values right. -/
theorem SetCellOutcome.setCell_keeps_values {ops : DoubleOps D} {env : Env D} {s : Sheet D} {pos : Position}
    {text : Str} {out : Res (Sheet D) Unit} (h : SetCellOutcome env s pos text out)
    (hwf : s.WF) (hV : s.Valued ops) :
    (∀ a s', out = .ok a s' → s'.Valued ops) ∧ (∀ e s', out = .raise e s' → s'.Valued ops) := by
  have hsim : ∀ s1, s.Sim s1 → s1.Valued ops := fun s1 h1 => hV.of_upd (Sheet.Upd.upd_of_sim h1)
  by_cases hs : s.HoldsText pos text
  · obtain ⟨s1, h1, hsim1⟩ := h.same hs
    rw [h1]
    exact ⟨fun a s' h' => by cases h'; exact hsim s1 hsim1, fun e s' h' => by cases h'⟩
  · cases hc : env.content text with
    | none =>
      obtain ⟨s1, h1, hsim1⟩ := h.parse hs hc
      rw [h1]
      exact ⟨fun a s' h' => (by cases h'), fun e s' h' => by cases h'; exact hsim s1 hsim1⟩
    | some content =>
      by_cases hcyc : s.graph.Cyclic pos content.refs
      · obtain ⟨s1, h1, hsim1⟩ := h.cyclic hs content hc hcyc
        rw [h1]
        exact ⟨fun a s' h' => (by cases h'), fun e s' h' => by cases h'; exact hsim s1 hsim1⟩
      · obtain ⟨sI, s2, h1, hupd, hunc, hcells⟩ := h.done hs content hc hcyc
        rw [h1]
        refine ⟨fun a s' h' => ?_, fun e s' h' => by cases h'⟩
        cases h'
        have hg : sI.graph = s.graph := hupd.upd_graph
        have hVI := hV.of_upd hupd
        apply hVI.installed (by rw [hg]; exact hwf.inv) content.refs pos
          (content.toCell (s.graph.incomingAt pos)) (by rw [hg]; exact hcells)
          (content.toCell_uncached _)
        intro c hcI
        apply hunc _ c hcI
        rw [← (hupd.rel pos).strip_isSome, hcI]
        rfl

theorem Cell.emptied_facts (c : Cell D) :
    c.emptied.refs = [] ∧ c.emptied.value_cache_ = c.value_cache_ ∧ c.emptied.fcache = none :=
  ⟨rfl, rfl, rfl⟩

theorem Cell.sameCore_emptied {c : Cell D} (hf : c.Fresh) (he : c.Empty = true) :
    SameCore c c.GetReferencedCells.2.emptied := by
  have h1 := SameCore.of_strip (c.GetReferencedCells_fresh hf).2.1
  have he2 : c.GetReferencedCells.2.Empty = true := by
    obtain ⟨d, i, v⟩ := c
    cases d with
    | Text t => exact he
    | Formula f => simp [Cell.Empty] at he
  rw [Cell.emptied_of_empty _ he2]
  exact h1

/-- Whatever `ClearCell` does on a valid position, it keeps the cached values right. -/
theorem ClearCellOutcome.clearCell_keeps_values {ops : DoubleOps D} {s : Sheet D} {pos : Position}
    {out : Res (Sheet D) Unit} (h : ClearCellOutcome s pos out) (hwf : s.WF)
    (hV : s.Valued ops) : ∀ a s', out = .ok a s' → s'.Valued ops := by
  intro a s' hout
  cases hcell : s.cells pos with
  | none =>
    rw [h.absent hcell] at hout
    cases hout
    exact hV
  | some cell =>
    have hfresh := hwf.fresh pos cell hcell
    have hcoreG := SameCore.of_strip (cell.GetReferencedCells_fresh hfresh).2.1
    have hnv : cell.GetReferencedCells.2.emptied.value_cache_ = cell.value_cache_ := by
      rw [(Cell.emptied_facts _).2.1, hcoreG.2.1]
    by_cases hinc : cell.incoming_refs_ = []
    · obtain ⟨s1, h1, hcells⟩ := h.removed cell hcell hinc
      rw [h1] at hout
      cases hout
      have hother : ∀ x c', s'.cells x = some c' → x ≠ pos ∧
          s.installed (s.graph.refsAt pos) [] pos cell.GetReferencedCells.2.emptied x
            = some c' := by
        intro x c' hx
        rw [hcells] at hx
        by_cases hxp : x = pos
        · rw [hxp, Function.update_same] at hx
          cases hx
        · rw [Function.update_noteq hxp] at hx
          exact ⟨hxp, hx⟩
      apply hV.transfer
      · intro x c' r hx hv hr
        right
        obtain ⟨hxp, hxi⟩ := hother x c' hx
        obtain ⟨d', hd', hdv⟩ := installed_chain s hwf.inv [] pos _ hV.chain
          (fun _ => (Cell.emptied_facts _).1) (fun c hc hcv => by
            rw [hcell] at hc; cases hc; rw [hnv]; exact hcv) x c' r hxi hv hr
        have hrp : r ≠ pos := by
          intro hrp
          rcases installed_core s _ [] pos _ x c' hxi hxp with ⟨c, hc, hcore⟩ | ⟨_, hn, _⟩
          · rw [hcore.refs] at hr
            obtain ⟨d0, hd0, hin⟩ := hwf.inv.forward x c.g r (Sheet.graph_of_cells hc) hr
            rw [hrp, Sheet.graph_of_cells hcell] at hd0
            cases hd0
            simp only [Cell.g] at hin
            rw [hinc] at hin
            cases hin
          · rw [hn] at hv; cases hv
        exact ⟨d', by rw [hcells, Function.update_noteq hrp]; exact hd', hdv⟩
      · intro p c' hc' hv
        obtain ⟨hxp, hxi⟩ := hother p c' hc'
        rcases installed_core s _ [] pos _ p c' hxi hxp with ⟨c, hc, hcore⟩ | ⟨_, _, hn⟩
        · rw [hcore.2.2]
          exact hV.formula p c hc (by rw [← hcore.2.1]; exact hv)
        · exact hn
      · intro x c' hc' hv
        obtain ⟨hxp, hxi⟩ := hother x c' hc'
        rcases installed_core s _ [] pos _ x c' hxi hxp with ⟨c, hc, hcore⟩ | ⟨_, hn, _⟩
        · exact ⟨c, hc, hcore⟩
        · rw [hn] at hv; cases hv
    · obtain ⟨s3, s1, h1, hcells, hcl, hunc, hch⟩ := h.kept cell hcell hinc
      rw [h1] at hout
      cases hout
      have hchain3 : s3.Chain (fun _ => False) := by
        intro x c' r hx hv hr
        right
        rw [hcells] at hx ⊢
        exact installed_chain s hwf.inv [] pos _ hV.chain
          (fun _ => (Cell.emptied_facts _).1) (fun c hc hcv => by
            rw [hcell] at hc; cases hc; rw [hnv]; exact hcv) x c' r hx hv hr
      apply hV.transfer (hch _ hchain3)
      · intro p c' hc' hv
        rcases hcl p with hsame | ⟨c3, hc3, hinv⟩
        · rw [hsame, hcells] at hc'
          by_cases hp : p = pos
          · rw [Sheet.installed_eq, if_pos hp] at hc'
            cases hc'
            exact (Cell.emptied_facts _).2.2
          · rcases installed_core s _ [] pos _ p c' hc' hp with ⟨c, hc, hcore⟩ | ⟨_, _, hn⟩
            · rw [hcore.2.2]
              exact hV.formula p c hc (by rw [← hcore.2.1]; exact hv)
            · exact hn
        · rw [hinv] at hc'
          cases hc'
          exact Cell.fcache_invalidate c3
      · intro x c' hc' hv
        have hx3 : s3.cells x = some c' := (hcl x).cached c' hc' hv
        rw [hcells] at hx3
        by_cases hp : x = pos
        · rw [Sheet.installed_eq, if_pos hp] at hx3
          cases hx3
          have he : cell.Empty = true := by
            cases he : cell.Empty with
            | true => rfl
            | false =>
              have := hunc he _ (by rw [← hp]; exact hc')
              rw [this] at hv
              cases hv
          exact ⟨cell, by rw [hp]; exact hcell, Cell.sameCore_emptied hfresh he⟩
        · rcases installed_core s _ [] pos _ x c' hx3 hp with ⟨c, hc, hcore⟩ | ⟨_, hn, _⟩
          · exact ⟨c, hc, hcore⟩
          · rw [hn] at hv; cases hv

theorem Sheet.Valued.valued_empty (ops : DoubleOps D) : (Sheet.empty : Sheet D).Valued ops := by
  have hnone : ∀ p, (Sheet.empty : Sheet D).cells p = none := by
    intro p
    unfold Sheet.cells Sheet.slot Sheet.empty
    split <;> simp
  refine ⟨?_, ?_, ?_⟩
  · intro p c v hc; rw [hnone] at hc; cases hc
  · intro p c hc; rw [hnone] at hc; cases hc
  · intro x c q hc; rw [hnone] at hc; cases hc

theorem Sheet.Valued.setCell_valued {ops : DoubleOps D} {s : Sheet D} (hwf : s.WF)
    (hV : s.Valued ops) (env : Env D) (fuel : Nat) (pos : Position) (text : Str)
    (s' : Sheet D)
    (h : (∃ a, s.SetCell env fuel pos text = .ok a s') ∨
      ∃ e, s.SetCell env fuel pos text = .raise e s') : s'.Valued ops := by
  cases hpos : pos.IsValid with
  | false =>
    rw [Sheet.SetCell_invalid env fuel s pos text hpos] at h
    rcases h with ⟨a, h⟩ | ⟨e, h⟩
    · cases h
    · cases h; exact hV
  | true =>
    obtain ⟨N, hN⟩ := Sheet.SetCell_spec env s hwf.fresh hwf.inv pos hpos text
    have hmono := Sheet.SetCell_mono env fuel (max fuel N) (le_max_left _ _) s pos text
    obtain ⟨h2, h3⟩ := (hN (max fuel N) (le_max_right _ _)).setCell_keeps_values hwf hV
    rcases h with ⟨a, h⟩ | ⟨e, h⟩
    · exact h2 a s' (by rw [hmono.eq_of_ne (by rw [h]; simp), h])
    · exact h3 e s' (by rw [hmono.eq_of_ne (by rw [h]; simp), h])

theorem Sheet.Valued.clearCell_valued {ops : DoubleOps D} {s : Sheet D} (hwf : s.WF)
    (hV : s.Valued ops) (fuel : Nat) (pos : Position) (s' : Sheet D)
    (h : (∃ a, s.ClearCell fuel pos = .ok a s') ∨ ∃ e, s.ClearCell fuel pos = .raise e s') :
    s'.Valued ops := by
  cases hpos : pos.IsValid with
  | false =>
    rw [Sheet.ClearCell_invalid fuel s pos hpos] at h
    rcases h with ⟨a, h⟩ | ⟨e, h⟩
    · cases h
    · cases h; exact hV
  | true =>
    obtain ⟨N, hN⟩ := Sheet.ClearCell_spec s hwf pos hpos
    have hmono := Sheet.ClearCell_mono fuel (max fuel N) (le_max_left _ _) s pos
    have hout := hN (max fuel N) (le_max_right _ _)
    obtain ⟨s1, h1, _⟩ := hout.clearCell_wf hwf
    rcases h with ⟨a, h⟩ | ⟨e, h⟩
    · exact hout.clearCell_keeps_values hwf hV a s' (by rw [hmono.eq_of_ne (by rw [h]; simp), h])
    · have := hmono.eq_of_ne (by rw [h]; simp)
      rw [h1, h] at this
      cases this

/-- With enough fuel `GetValue` on a stored cell returns the value the sheet then holds
cached at the position, and leaves a well-formed sheet with right cached values. -/
theorem Sheet.GetValue_spec (ops : DoubleOps D) (s : Sheet D) (hwf : s.WF) (hV : s.Valued ops)
    (pos : Position) (c : Cell D) (hc : s.cells pos = some c) :
    ∃ N, ∀ fuel, N ≤ fuel → ∃ v s', s.GetValue ops fuel pos = .ok v s' ∧ s'.WF ∧
      s'.Valued ops ∧ ∃ n, s.scratch ops n pos = some v := by
  obtain ⟨N, hN⟩ := GetValueAt_spec ops s hwf pos (by rw [hc]; rfl)
  refine ⟨N, fun fuel hf => ?_⟩
  obtain ⟨v, s', hg, hs', hV', _, d, hd, hdv⟩ := hN fuel hf s (Sheet.SameHeld.same_refl s) hV
  refine ⟨v, s', ?_, hs'.wf hwf, hV', ?_⟩
  · unfold Sheet.GetValue
    rw [(Sheet.GetCellImpl_iff s pos c).mpr hc]
    exact hg
  · obtain ⟨n, hn⟩ := hV'.value pos d v hd hdv
    exact ⟨n, by rw [← hs'.scratch]; exact hn⟩

theorem Sheet.GetValue_any {ops : DoubleOps D} {s : Sheet D} (hwf : s.WF) (hV : s.Valued ops)
    (fuel : Nat) (pos : Position) (s' : Sheet D)
    (h : (∃ v, s.GetValue ops fuel pos = .ok v s') ∨ ∃ e, s.GetValue ops fuel pos = .raise e s') :
    s'.WF ∧ s'.Valued ops := by
  cases hg : s.GetCellImpl pos with
  | none =>
    simp only [Sheet.GetValue, hg] at h
    rcases h with ⟨v, h⟩ | ⟨e, h⟩
    · cases h
    · cases h; exact ⟨hwf, hV⟩
  | some o =>
    cases o with
    | none =>
      simp only [Sheet.GetValue, hg] at h
      rcases h with ⟨v, h⟩ | ⟨e, h⟩ <;> cases h
    | some c =>
      have hc := (Sheet.GetCellImpl_iff s pos c).mp hg
      obtain ⟨N, hN⟩ := Sheet.GetValue_spec ops s hwf hV pos c hc
      have hmono := Sheet.GetValue_mono ops fuel (max fuel N) (le_max_left _ _) s pos
      obtain ⟨v1, s1, h1, hwf1, hV1, _⟩ := hN (max fuel N) (le_max_right _ _)
      rcases h with ⟨v, h⟩ | ⟨e, h⟩
      · have := hmono.eq_of_ne (by rw [h]; simp)
        rw [h1, h] at this
        cases this
        exact ⟨hwf1, hV1⟩
      · have := hmono.eq_of_ne (by rw [h]; simp)
        rw [h1, h] at this
        cases this

theorem ReachableWithValues.invariant {env : Env D} {s : Sheet D}
    (h : ReachableWithValues env s) : s.WF ∧ s.Valued env.ops := by
  induction h with
  | empty => exact ⟨Sheet.WF.wf_empty, Sheet.Valued.valued_empty env.ops⟩
  | setCell fuel pos text _ hstep ih =>
    exact ⟨ih.1.setCell_any env fuel pos text _ (Or.inl ⟨(), hstep⟩),
      ih.2.setCell_valued ih.1 env fuel pos text _ (Or.inl ⟨(), hstep⟩)⟩
  | setCellRaise fuel pos text e _ hstep ih =>
    exact ⟨ih.1.setCell_any env fuel pos text _ (Or.inr ⟨e, hstep⟩),
      ih.2.setCell_valued ih.1 env fuel pos text _ (Or.inr ⟨e, hstep⟩)⟩
  | clearCell fuel pos _ hstep ih =>
    exact ⟨ih.1.clearCell_any fuel pos _ (Or.inl ⟨(), hstep⟩),
      ih.2.clearCell_valued ih.1 fuel pos _ (Or.inl ⟨(), hstep⟩)⟩
  | clearCellRaise fuel pos e _ hstep ih =>
    exact ⟨ih.1.clearCell_any fuel pos _ (Or.inr ⟨e, hstep⟩),
      ih.2.clearCell_valued ih.1 fuel pos _ (Or.inr ⟨e, hstep⟩)⟩
  | getValue fuel pos v _ hstep ih =>
    exact Sheet.GetValue_any ih.1 ih.2 fuel pos _ (Or.inl ⟨v, hstep⟩)
  | getValueRaise fuel pos e _ hstep ih =>
    exact Sheet.GetValue_any ih.1 ih.2 fuel pos _ (Or.inr ⟨e, hstep⟩)

/-! ## The claim on cached values -/

set_option maxRecDepth 100000 in
theorem sheetB2_setCell :
    Sheet.empty.SetCell exampleEnv 4 ⟨0, 0⟩ "=B2".toList = .ok () sheetB2 := by decide

set_option maxRecDepth 100000 in
theorem sheetB2Three_setCell :
    sheetB2.SetCell exampleEnv 4 ⟨1, 1⟩ "3".toList = .ok () sheetB2Three := by decide

set_option maxRecDepth 100000 in
theorem sheetB2Cached_getValue :
    sheetB2Three.GetValue exampleOps 4 ⟨0, 0⟩ = .ok (.number (some 3)) sheetB2Cached := by
  decide

set_option maxRecDepth 100000 in
theorem sheetB2Seven_setCell :
    sheetB2Cached.SetCell exampleEnv 4 ⟨1, 1⟩ "7".toList = .ok () sheetB2Seven := by decide

/-- After `SetCell(A1, "=B2")`, `SetCell(B2, "3")`, `GetValue(A1)` and `SetCell(B2, "7")` the
call `GetValue(A1)` returns 7. -/
theorem sheetB2Seven_getValue :
    sheetB2Seven.GetValue exampleOps 4 ⟨0, 0⟩ = .ok (.number (some 7))
      ⟨[[some ⟨.Formula ⟨.Cell ⟨1, 1⟩, some (.number (some 7)), none, none⟩, [],
          some (.number (some 7))⟩],
        [none, some ⟨.Text "7".toList, [⟨0, 0⟩], some (.text "7".toList)⟩]]⟩ := by
  decide

theorem sheetB2Seven_reachable : ReachableWithValues exampleEnv sheetB2Seven :=
  .setCell 4 ⟨1, 1⟩ "7".toList
    (.getValue 4 ⟨0, 0⟩ (.number (some 3))
      (.setCell 4 ⟨1, 1⟩ "3".toList
        (.setCell 4 ⟨0, 0⟩ "=B2".toList .empty sheetB2_setCell)
        sheetB2Three_setCell)
      sheetB2Cached_getValue)
    sheetB2Seven_setCell

/-- C6: in every sheet reachable from the empty sheet by `SetCell`, `ClearCell` and `GetValue`
calls, whether they return or throw, `GetValue` on a stored cell returns, and the value it
returns is the value of that cell evaluated from scratch on the sheet as it is, all caches
ignored. The sheet after a `SetCell` that changes a cell is such a sheet, and evaluation from
scratch reads what the cells then hold, so the value returned for a cell that refers to the
changed cell, directly or through other cells, is computed from the new content. -/
theorem GetValue_eq_scratch (env : Env D) (s : Sheet D) (h : ReachableWithValues env s)
    (pos : Position) (c : Cell D) (hc : s.GetCellImpl pos = some (some c)) :
    ∃ N, ∀ fuel, N ≤ fuel →
      ∃ v s', s.GetValue env.ops fuel pos = .ok v s' ∧ s.scratch env.ops fuel pos = some v := by
  obtain ⟨hwf, hV⟩ := h.invariant
  have hcell := (Sheet.GetCellImpl_iff s pos c).mp hc
  obtain ⟨N, hN⟩ := Sheet.GetValue_spec env.ops s hwf hV pos c hcell
  obtain ⟨v, s', hg, _, _, n, hn⟩ := hN N (le_refl N)
  refine ⟨max N n, fun fuel hf => ⟨v, s', ?_, ?_⟩⟩
  · have hmono := Sheet.GetValue_mono env.ops N fuel (le_trans (le_max_left _ _) hf) s pos
    rw [hmono.eq_of_ne (by rw [hg]; simp), hg]
  · exact Sheet.scratch_mono env.ops s pos v n fuel (le_trans (le_max_right _ _) hf) hn

theorem GetValue_eq_scratch_witness :
    ∃ N, ∀ fuel, N ≤ fuel →
      ∃ v s', sheetB2Seven.GetValue exampleEnv.ops fuel ⟨0, 0⟩ = .ok v s' ∧
        sheetB2Seven.scratch exampleEnv.ops fuel ⟨0, 0⟩ = some v :=
  GetValue_eq_scratch exampleEnv sheetB2Seven sheetB2Seven_reachable ⟨0, 0⟩
    ⟨.Formula ⟨.Cell ⟨1, 1⟩, none, none, none⟩, [], none⟩ (by decide)

theorem Boundary.nil : Boundary [] := by
  intro c h
  cases h

theorem Boundary.cons_op (c : Char) (cs : Str)
    (h : c = '+' ∨ c = '-' ∨ c = '*' ∨ c = '/' ∨ c = '(' ∨ c = ')') : Boundary (c :: cs) := by
  intro d hd
  simp only [List.head?_cons, Option.some.injEq] at hd
  rw [← hd]
  exact h

theorem Boundary.not_digit {rest : Str} (h : Boundary rest) :
    ∀ y, rest.head? = some y → y.isDigit = false := by
  intro y hy
  rcases h y hy with h | h | h | h | h | h <;> rw [h] <;> decide

theorem Boundary.not_upper {rest : Str} (h : Boundary rest) :
    ∀ y, rest.head? = some y → y.isUpper = false := by
  intro y hy
  rcases h y hy with h | h | h | h | h | h <;> rw [h] <;> decide

theorem Boundary.not_point {rest : Str} (h : Boundary rest) : ∀ cs, rest ≠ '.' :: cs := by
  intro cs heq
  have := h '.' (by rw [heq]; rfl)
  revert this
  decide

theorem digit_facts {c : Char} (h : c.isDigit = true) :
    isSpace c = false ∧ c ≠ '+' ∧ c ≠ '-' ∧ c ≠ '*' ∧ c ≠ '/' ∧ c ≠ '(' ∧ c ≠ ')' ∧
      c.isUpper = false ∧ c ≠ '.' := by
  have h1 := isDigit_toNat h
  refine ⟨?_, ?_, ?_, ?_, ?_, ?_, ?_, isDigit_not_isUpper h, ?_⟩
  · simp only [isSpace, Bool.or_eq_false_iff, beq_eq_false_iff_ne, ne_eq]
    refine ⟨⟨⟨?_, ?_⟩, ?_⟩, ?_⟩ <;> intro heq <;> rw [heq] at h1 <;> revert h1 <;> decide
  all_goals intro heq; rw [heq] at h1; revert h1; decide

theorem upper_facts {c : Char} (h : c.isUpper = true) :
    isSpace c = false ∧ c ≠ '+' ∧ c ≠ '-' ∧ c ≠ '*' ∧ c ≠ '/' ∧ c ≠ '(' ∧ c ≠ ')' := by
  have h1 := isUpper_toNat h
  refine ⟨?_, ?_, ?_, ?_, ?_, ?_, ?_⟩
  · simp only [isSpace, Bool.or_eq_false_iff, beq_eq_false_iff_ne, ne_eq]
    refine ⟨⟨⟨?_, ?_⟩, ?_⟩, ?_⟩ <;> intro heq <;> rw [heq] at h1 <;> revert h1 <;> decide
  all_goals intro heq; rw [heq] at h1; revert h1; decide

theorem lex_number (s rest : Str) (hs : IsNumberLit s) (hr : Boundary rest) (n : Nat) :
    lex (n + 1) (s ++ rest) = (lex n rest).map (Token.NUMBER s :: ·) := by
  obtain ⟨whole, hne, hw, hs⟩ := hs
  obtain ⟨c, w, rfl⟩ : ∃ c w, whole = c :: w := by
    cases whole with
    | nil => exact absurd rfl hne
    | cons c w => exact ⟨c, w, rfl⟩
  have hc : c.isDigit = true := hw c (List.mem_cons_self _ _)
  obtain ⟨h1, h2, h3, h4, h5, h6, h7, h8, _⟩ := digit_facts hc
  rcases hs with hs | ⟨frac, hfne, hf, hs⟩
  · subst hs
    have htd := takeWhile_append_of Char.isDigit (c :: w) rest hw hr.not_digit
    rw [List.cons_append, lex]
    simp only [h1, h2, h3, h4, h5, h6, h7, h8, hc, Bool.false_eq_true, if_false, if_true]
    rw [← List.cons_append, htd.1, htd.2]
    split
    · exact absurd rfl (hr.not_point _)
    · rfl
  · subst hs
    have hpoint : ∀ y, ('.' :: (frac ++ rest)).head? = some y → y.isDigit = false := by
      intro y hy
      simp only [List.head?_cons, Option.some.injEq] at hy
      rw [← hy]; decide
    have htd := takeWhile_append_of Char.isDigit (c :: w) ('.' :: (frac ++ rest)) hw hpoint
    have htf := takeWhile_append_of Char.isDigit frac rest hf hr.not_digit
    have hassoc : (c :: w ++ '.' :: frac) ++ rest = c :: (w ++ '.' :: (frac ++ rest)) := by simp
    rw [hassoc, lex]
    simp only [h1, h2, h3, h4, h5, h6, h7, h8, hc, Bool.false_eq_true, if_false, if_true]
    rw [← List.cons_append, htd.1, htd.2]
    simp only [htf.1, htf.2]
    have : frac.isEmpty = false := by
      cases frac with
      | nil => exact absurd rfl hfne
      | cons _ _ => rfl
    simp [this]

theorem lex_cell (s rest : Str) (hs : IsCellText s) (hr : Boundary rest) (n : Nat) :
    lex (n + 1) (s ++ rest) = (lex n rest).map (Token.CELL s :: ·) := by
  obtain ⟨ls, ds, hlne, hdne, hl, hd, rfl⟩ := hs
  obtain ⟨c, w, rfl⟩ : ∃ c w, ls = c :: w := by
    cases ls with
    | nil => exact absurd rfl hlne
    | cons c w => exact ⟨c, w, rfl⟩
  have hc : c.isUpper = true := hl c (List.mem_cons_self _ _)
  obtain ⟨h1, h2, h3, h4, h5, h6, h7⟩ := upper_facts hc
  have hdig : ∀ y, (ds ++ rest).head? = some y → y.isUpper = false := by
    intro y hy
    cases ds with
    | nil => exact absurd rfl hdne
    | cons d ds' =>
      simp only [List.cons_append, List.head?_cons, Option.some.injEq] at hy
      rw [← hy]
      exact isDigit_not_isUpper (hd d (List.mem_cons_self _ _))
  have htl := takeWhile_append_of Char.isUpper (c :: w) (ds ++ rest) hl hdig
  have htd := takeWhile_append_of Char.isDigit ds rest hd hr.not_digit
  have hassoc : (c :: w ++ ds) ++ rest = c :: (w ++ (ds ++ rest)) := by simp
  have hassoc2 : c :: (w ++ (ds ++ rest)) = (c :: w) ++ (ds ++ rest) := rfl
  rw [hassoc, lex]
  simp only [h1, h2, h3, h4, h5, h6, h7, hc, Bool.false_eq_true, if_false, if_true]
  rw [hassoc2, htl.1, htl.2, htd.1, htd.2]
  have : ds.isEmpty = false := by
    cases ds with
    | nil => exact absurd rfl hdne
    | cons _ _ => rfl
  simp [this]

theorem lex_lparen (rest : Str) (n : Nat) :
    lex (n + 1) ('(' :: rest) = (lex n rest).map (Token.LPAREN :: ·) := by
  rw [lex]
  simp [isSpace]

theorem lex_rparen (rest : Str) (n : Nat) :
    lex (n + 1) (')' :: rest) = (lex n rest).map (Token.RPAREN :: ·) := by
  rw [lex]
  simp [isSpace]

theorem lex_op (op : Token) (hop : IsOp op) (rest : Str) (n : Nat) :
    lex (n + 1) (opChar op :: rest) = (lex n rest).map (op :: ·) := by
  rcases hop with h | h | h | h <;> subst h <;> rw [lex] <;> simp [isSpace, opChar]

theorem lex_unary (op : Token) (hop : IsOp op) (t : ParseTree)
    (ih : ∀ rest n, Boundary rest →
      lex (n + t.tokens.length) (t.text ++ rest) = (lex n rest).map (t.tokens ++ ·))
    (rest : Str) (n : Nat) (hr : Boundary rest) :
    lex (n + (ParseTree.UnaryOp op t).tokens.length) ((ParseTree.UnaryOp op t).text ++ rest) =
      (lex n rest).map ((ParseTree.UnaryOp op t).tokens ++ ·) := by
  simp only [ParseTree.tokens, ParseTree.text, List.length_cons, List.cons_append]
  rw [← Nat.add_assoc, lex_op op hop, ih rest n hr, Option.map_map]
  rfl

theorem lex_binary (op : Token) (hop : IsOp op) (l r : ParseTree)
    (ihl : ∀ rest n, Boundary rest →
      lex (n + l.tokens.length) (l.text ++ rest) = (lex n rest).map (l.tokens ++ ·))
    (ihr : ∀ rest n, Boundary rest →
      lex (n + r.tokens.length) (r.text ++ rest) = (lex n rest).map (r.tokens ++ ·))
    (rest : Str) (n : Nat) (hr : Boundary rest) :
    lex (n + (ParseTree.BinaryOp op l r).tokens.length)
        ((ParseTree.BinaryOp op l r).text ++ rest) =
      (lex n rest).map ((ParseTree.BinaryOp op l r).tokens ++ ·) := by
  have hb : Boundary (opChar op :: (r.text ++ rest)) := by
    apply Boundary.cons_op
    rcases hop with h | h | h | h <;> subst h <;> simp [opChar]
  simp only [ParseTree.tokens, ParseTree.text, List.length_append, List.length_cons,
    List.append_assoc, List.cons_append]
  have hn : n + (l.tokens.length + (r.tokens.length + 1)) =
      (n + r.tokens.length + 1) + l.tokens.length := by omega
  rw [hn, ihl _ _ hb, lex_op op hop, ihr rest n hr]
  cases lex n rest <;> simp

/-- The lexer reads the text of a parse tree of the grammar as the tokens of the tree. -/
theorem lex_tree (lvl : Level) (t : ParseTree) (h : Derives lvl t) :
    ∀ rest n, Boundary rest →
      lex (n + t.tokens.length) (t.text ++ rest) = (lex n rest).map (t.tokens ++ ·) := by
  induction h with
  | lit s hs =>
    intro rest n hr
    simp only [ParseTree.tokens, ParseTree.text, List.length_singleton]
    rw [lex_number s rest hs hr n]
    rfl
  | cell s hs =>
    intro rest n hr
    simp only [ParseTree.tokens, ParseTree.text, List.length_singleton]
    rw [lex_cell s rest hs hr n]
    rfl
  | plus t _ ih => exact lex_unary .ADD (Or.inl rfl) t ih
  | minus t _ ih => exact lex_unary .SUB (Or.inr (Or.inl rfl)) t ih
  | parens e _ ih =>
    intro rest n hr
    simp only [ParseTree.tokens, ParseTree.text, List.length_cons, List.length_append,
      List.length_singleton, List.cons_append, List.append_assoc, List.singleton_append,
      List.length_nil, List.nil_append]
    have hn : n + (e.tokens.length + (0 + 1) + 1) = ((n + 1) + e.tokens.length) + 1 := by omega
    rw [hn, lex_lparen, ih (')' :: rest) (n + 1) (Boundary.cons_op _ _ (by simp)), lex_rparen]
    cases lex n rest <;> simp
  | ofFactor t _ ih => exact ih
  | mul l r _ _ ihl ihr => exact lex_binary .MUL (Or.inr (Or.inr (Or.inl rfl))) l r ihl ihr
  | div l r _ _ ihl ihr => exact lex_binary .DIV (Or.inr (Or.inr (Or.inr rfl))) l r ihl ihr
  | ofTerm t _ ih => exact ih
  | add l r _ _ ihl ihr => exact lex_binary .ADD (Or.inl rfl) l r ihl ihr
  | sub l r _ _ ihl ihr => exact lex_binary .SUB (Or.inr (Or.inl rfl)) l r ihl ihr

theorem tokens_length_le_text (lvl : Level) (t : ParseTree) (h : Derives lvl t) :
    t.tokens.length ≤ t.text.length := by
  induction h with
  | lit s hs =>
    obtain ⟨w, hne, _, hs⟩ := hs
    have : 1 ≤ w.length := by
      cases w with
      | nil => exact absurd rfl hne
      | cons _ _ => simp
    rcases hs with hs | ⟨f, _, _, hs⟩ <;> subst hs <;>
      simp only [ParseTree.tokens, ParseTree.text, List.length_singleton, List.length_append,
        List.length_cons, List.length_nil] <;> omega
  | cell s hs =>
    obtain ⟨ls, ds, hne, _, _, _, hs⟩ := hs
    have : 1 ≤ ls.length := by
      cases ls with
      | nil => exact absurd rfl hne
      | cons _ _ => simp
    subst hs
    simp only [ParseTree.tokens, ParseTree.text, List.length_singleton, List.length_append,
      List.length_cons, List.length_nil]
    omega
  | plus t _ ih => simp only [ParseTree.tokens, ParseTree.text, List.length_cons]; omega
  | minus t _ ih => simp only [ParseTree.tokens, ParseTree.text, List.length_cons]; omega
  | parens e _ ih =>
    simp only [ParseTree.tokens, ParseTree.text, List.length_cons, List.length_append,
      List.length_singleton, List.length_nil]
    omega
  | ofFactor t _ ih => exact ih
  | mul l r _ _ ihl ihr =>
    simp only [ParseTree.tokens, ParseTree.text, List.length_cons, List.length_append]; omega
  | div l r _ _ ihl ihr =>
    simp only [ParseTree.tokens, ParseTree.text, List.length_cons, List.length_append]; omega
  | ofTerm t _ ih => exact ih
  | add l r _ _ ihl ihr =>
    simp only [ParseTree.tokens, ParseTree.text, List.length_cons, List.length_append]; omega
  | sub l r _ _ ihl ihr =>
    simp only [ParseTree.tokens, ParseTree.text, List.length_cons, List.length_append]; omega

theorem lex_nil (n : Nat) : lex (n + 1) [] = some [] := by
  rw [lex]

theorem parseExprRest_stop (f : Nat) (acc : ParseTree) (ts : List Token) (h : NoAdd ts) :
    parseExprRest (f + 1) acc ts = some (acc, ts) := by
  rw [parseExprRest]
  · intro r hr; exact h.1 r hr
  · intro r hr; exact h.2 r hr

theorem parseTermRest_stop (f : Nat) (acc : ParseTree) (ts : List Token) (h : NoMul ts) :
    parseTermRest (f + 1) acc ts = some (acc, ts) := by
  rw [parseTermRest]
  · intro r hr; exact h.1 r hr
  · intro r hr; exact h.2 r hr

theorem noAdd_or (ts : List Token) :
    NoAdd ts ∨ (∃ r, ts = Token.ADD :: r) ∨ ∃ r, ts = Token.SUB :: r := by
  cases ts with
  | nil => left; exact ⟨fun r h => (by cases h), fun r h => (by cases h)⟩
  | cons t r =>
    cases t
    case ADD => right; left; exact ⟨r, rfl⟩
    case SUB => right; right; exact ⟨r, rfl⟩
    all_goals left; exact ⟨fun r h => (by cases h), fun r h => (by cases h)⟩

theorem noMul_or (ts : List Token) :
    NoMul ts ∨ (∃ r, ts = Token.MUL :: r) ∨ ∃ r, ts = Token.DIV :: r := by
  cases ts with
  | nil => left; exact ⟨fun r h => (by cases h), fun r h => (by cases h)⟩
  | cons t r =>
    cases t
    case MUL => right; left; exact ⟨r, rfl⟩
    case DIV => right; right; exact ⟨r, rfl⟩
    all_goals left; exact ⟨fun r h => (by cases h), fun r h => (by cases h)⟩

/-- More fuel does not change a result of the parser. -/
theorem parse_mono_succ (n : Nat) :
    (∀ ts r, parseExpr n ts = some r → parseExpr (n + 1) ts = some r) ∧
    (∀ acc ts r, parseExprRest n acc ts = some r → parseExprRest (n + 1) acc ts = some r) ∧
    (∀ ts r, parseTerm n ts = some r → parseTerm (n + 1) ts = some r) ∧
    (∀ acc ts r, parseTermRest n acc ts = some r → parseTermRest (n + 1) acc ts = some r) ∧
    (∀ ts r, parseFactor n ts = some r → parseFactor (n + 1) ts = some r) := by
  induction n with
  | zero =>
    refine ⟨?_, ?_, ?_, ?_, ?_⟩
    · intro ts r h; rw [parseExpr] at h; cases h
    · intro acc ts r h; rw [parseExprRest] at h; cases h
    · intro ts r h; rw [parseTerm] at h; cases h
    · intro acc ts r h; rw [parseTermRest] at h; cases h
    · intro ts r h; rw [parseFactor] at h; cases h
  | succ n ih =>
    obtain ⟨ihE, ihER, ihT, ihTR, ihF⟩ := ih
    refine ⟨?_, ?_, ?_, ?_, ?_⟩
    · intro ts r h
      rw [parseExpr] at h ⊢
      cases hp : parseTerm n ts with
      | none => rw [hp] at h; cases h
      | some p =>
        obtain ⟨t, rest⟩ := p
        rw [hp] at h
        rw [ihT ts _ hp]
        exact ihER _ _ _ h
    · intro acc ts r h
      rcases noAdd_or ts with hs | ⟨r', rfl⟩ | ⟨r', rfl⟩
      · rw [parseExprRest_stop n acc ts hs] at h
        rw [parseExprRest_stop (n + 1) acc ts hs]
        exact h
      · rw [parseExprRest] at h ⊢
        cases hp : parseTerm n r' with
        | none => rw [hp] at h; cases h
        | some p =>
          obtain ⟨t, rest⟩ := p
          rw [hp] at h
          rw [ihT r' _ hp]
          exact ihER _ _ _ h
      · rw [parseExprRest] at h ⊢
        cases hp : parseTerm n r' with
        | none => rw [hp] at h; cases h
        | some p =>
          obtain ⟨t, rest⟩ := p
          rw [hp] at h
          rw [ihT r' _ hp]
          exact ihER _ _ _ h
    · intro ts r h
      rw [parseTerm] at h ⊢
      cases hp : parseFactor n ts with
      | none => rw [hp] at h; cases h
      | some p =>
        obtain ⟨t, rest⟩ := p
        rw [hp] at h
        rw [ihF ts _ hp]
        exact ihTR _ _ _ h
    · intro acc ts r h
      rcases noMul_or ts with hs | ⟨r', rfl⟩ | ⟨r', rfl⟩
      · rw [parseTermRest_stop n acc ts hs] at h
        rw [parseTermRest_stop (n + 1) acc ts hs]
        exact h
      · rw [parseTermRest] at h ⊢
        cases hp : parseFactor n r' with
        | none => rw [hp] at h; cases h
        | some p =>
          obtain ⟨t, rest⟩ := p
          rw [hp] at h
          rw [ihF r' _ hp]
          exact ihTR _ _ _ h
      · rw [parseTermRest] at h ⊢
        cases hp : parseFactor n r' with
        | none => rw [hp] at h; cases h
        | some p =>
          obtain ⟨t, rest⟩ := p
          rw [hp] at h
          rw [ihF r' _ hp]
          exact ihTR _ _ _ h
    · intro ts r h
      cases ts with
      | nil => simp [parseFactor] at h
      | cons tk ts =>
        cases tk with
        | ADD =>
          rw [parseFactor] at h ⊢
          cases hp : parseFactor n ts with
          | none => rw [hp] at h; cases h
          | some p =>
            obtain ⟨t, rest⟩ := p
            rw [hp] at h
            rw [ihF ts _ hp]
            exact h
        | SUB =>
          rw [parseFactor] at h ⊢
          cases hp : parseFactor n ts with
          | none => rw [hp] at h; cases h
          | some p =>
            obtain ⟨t, rest⟩ := p
            rw [hp] at h
            rw [ihF ts _ hp]
            exact h
        | LPAREN =>
          rw [parseFactor] at h ⊢
          cases hp : parseExpr n ts with
          | none => rw [hp] at h; cases h
          | some p =>
            obtain ⟨t, rest⟩ := p
            rw [hp] at h
            rw [ihE ts _ hp]
            exact h
        | NUMBER s => rw [parseFactor] at h ⊢; exact h
        | CELL s => rw [parseFactor] at h ⊢; exact h
        | MUL => simp [parseFactor] at h
        | DIV => simp [parseFactor] at h
        | RPAREN => simp [parseFactor] at h

theorem parseExpr_mono {n m : Nat} (h : n ≤ m) (ts : List Token) (r : ParseTree × List Token)
    (hp : parseExpr n ts = some r) : parseExpr m ts = some r := by
  induction h with
  | refl => exact hp
  | step _ ih => exact (parse_mono_succ _).1 ts r ih

theorem parseExprRest_mono {n m : Nat} (h : n ≤ m) (acc : ParseTree) (ts : List Token)
    (r : ParseTree × List Token) (hp : parseExprRest n acc ts = some r) :
    parseExprRest m acc ts = some r := by
  induction h with
  | refl => exact hp
  | step _ ih => exact (parse_mono_succ _).2.1 acc ts r ih

theorem parseTerm_mono {n m : Nat} (h : n ≤ m) (ts : List Token) (r : ParseTree × List Token)
    (hp : parseTerm n ts = some r) : parseTerm m ts = some r := by
  induction h with
  | refl => exact hp
  | step _ ih => exact (parse_mono_succ _).2.2.1 ts r ih

theorem parseTermRest_mono {n m : Nat} (h : n ≤ m) (acc : ParseTree) (ts : List Token)
    (r : ParseTree × List Token) (hp : parseTermRest n acc ts = some r) :
    parseTermRest m acc ts = some r := by
  induction h with
  | refl => exact hp
  | step _ ih => exact (parse_mono_succ _).2.2.2.1 acc ts r ih

theorem parseFactor_mono {n m : Nat} (h : n ≤ m) (ts : List Token) (r : ParseTree × List Token)
    (hp : parseFactor n ts = some r) : parseFactor m ts = some r := by
  induction h with
  | refl => exact hp
  | step _ ih => exact (parse_mono_succ _).2.2.2.2 ts r ih

theorem parseExprRest_pos {m : Nat} {acc : ParseTree} {ts : List Token}
    {r : ParseTree × List Token} (h : parseExprRest m acc ts = some r) : 1 ≤ m := by
  cases m with
  | zero => rw [parseExprRest] at h; cases h
  | succ m => omega

theorem parseOK_unary (op : Token) (hop : op = .ADD ∨ op = .SUB) (t : ParseTree)
    (ih : ParseOK .factor t) : ParseOK .factor (.UnaryOp op t) := by
  intro rest
  have h := parseFactor_mono (Nat.le_succ _) _ _ (ih rest)
  simp only [ParseTree.tokens, List.length_cons, List.cons_append]
  have hn : 2 * (t.tokens.length + 1) = (2 * t.tokens.length).succ + 1 := by omega
  rw [hn]
  rcases hop with rfl | rfl
  · rw [parseFactor, h]
  · rw [parseFactor, h]

theorem parseOK_mul (op : Token) (hop : op = .MUL ∨ op = .DIV) (l r : ParseTree)
    (ihl : ParseOK .term l) (ihr : ParseOK .factor r) : ParseOK .term (.BinaryOp op l r) := by
  intro rest out m hout
  simp only [ParseTree.tokens, List.length_append, List.length_cons, List.append_assoc,
    List.cons_append]
  have hf := parseFactor_mono (show 2 * r.tokens.length ≤ m + 2 * r.tokens.length + 1 by omega)
    _ _ (ihr rest)
  have hrest := parseTermRest_mono (show m ≤ m + 2 * r.tokens.length + 1 by omega) _ _ _ hout
  have hstep : parseTermRest ((m + 2 * r.tokens.length + 1) + 1) l (op :: (r.tokens ++ rest))
      = some out := by
    rcases hop with rfl | rfl
    · rw [parseTermRest, hf]; exact hrest
    · rw [parseTermRest, hf]; exact hrest
  have := ihl (op :: (r.tokens ++ rest)) out _ hstep
  have hn : m + 2 * (l.tokens.length + (r.tokens.length + 1)) + 1 =
      m + 2 * r.tokens.length + 1 + 1 + 2 * l.tokens.length + 1 := by omega
  rw [hn]
  exact this

theorem parseOK_add (op : Token) (hop : op = .ADD ∨ op = .SUB) (l r : ParseTree)
    (ihl : ParseOK .expr l) (ihr : ParseOK .term r) : ParseOK .expr (.BinaryOp op l r) := by
  intro rest out m hno hout
  have hm := parseExprRest_pos hout
  simp only [ParseTree.tokens, List.length_append, List.length_cons, List.append_assoc,
    List.cons_append]
  have ht0 := ihr rest (r, rest) 1 (parseTermRest_stop 0 r rest hno)
  have ht := parseTerm_mono (show 1 + 2 * r.tokens.length + 1 ≤ m + 2 * r.tokens.length + 1
    by omega) _ _ ht0
  have hrest := parseExprRest_mono (show m ≤ m + 2 * r.tokens.length + 1 by omega) _ _ _ hout
  have hstep : parseExprRest ((m + 2 * r.tokens.length + 1) + 1) l (op :: (r.tokens ++ rest))
      = some out := by
    rcases hop with rfl | rfl
    · rw [parseExprRest, ht]; exact hrest
    · rw [parseExprRest, ht]; exact hrest
  have hnm : NoMul (op :: (r.tokens ++ rest)) := by
    rcases hop with rfl | rfl <;> exact ⟨fun r h => (by cases h), fun r h => (by cases h)⟩
  have := ihl (op :: (r.tokens ++ rest)) out _ hnm hstep
  have hn : m + 2 * (l.tokens.length + (r.tokens.length + 1)) + 2 =
      m + 2 * r.tokens.length + 1 + 1 + 2 * l.tokens.length + 2 := by omega
  rw [hn]
  exact this

/-- The parser reads the tokens of every parse tree of the grammar as that tree. -/
theorem parseOK_of_derives (lvl : Level) (t : ParseTree) (h : Derives lvl t) :
    ParseOK lvl t := by
  induction h with
  | lit s _ => intro rest; rfl
  | cell s _ => intro rest; rfl
  | plus t _ ih => exact parseOK_unary .ADD (Or.inl rfl) t ih
  | minus t _ ih => exact parseOK_unary .SUB (Or.inr rfl) t ih
  | parens e _ ih =>
    intro rest
    simp only [ParseTree.tokens, List.length_cons, List.length_append, List.length_singleton,
      List.cons_append, List.append_assoc, List.singleton_append, List.length_nil,
      List.nil_append, Nat.zero_add]
    have hstop : parseExprRest 1 e (Token.RPAREN :: rest) = some (e, Token.RPAREN :: rest) :=
      parseExprRest_stop 0 e _ ⟨fun r h => (by cases h), fun r h => (by cases h)⟩
    have he := ih (Token.RPAREN :: rest) (e, Token.RPAREN :: rest) 1
      ⟨fun r h => (by cases h), fun r h => (by cases h)⟩ hstop
    have hn : 2 * (e.tokens.length + 1 + 1) = (1 + 2 * e.tokens.length + 2) + 1 := by omega
    rw [hn, parseFactor, he]
  | ofFactor t _ ih =>
    intro rest out m hout
    have hf := parseFactor_mono (show 2 * t.tokens.length ≤ m + 2 * t.tokens.length by omega)
      _ _ (ih rest)
    rw [parseTerm, hf]
    exact parseTermRest_mono (by omega) _ _ _ hout
  | mul l r _ _ ihl ihr => exact parseOK_mul .MUL (Or.inl rfl) l r ihl ihr
  | div l r _ _ ihl ihr => exact parseOK_mul .DIV (Or.inr rfl) l r ihl ihr
  | ofTerm t _ ih =>
    intro rest out m hno hout
    have hm := parseExprRest_pos hout
    have ht0 := ih rest (t, rest) 1 (parseTermRest_stop 0 t rest hno)
    have ht := parseTerm_mono (show 1 + 2 * t.tokens.length + 1 ≤ m + 2 * t.tokens.length + 1
      by omega) _ _ ht0
    rw [parseExpr, ht]
    exact parseExprRest_mono (by omega) _ _ _ hout
  | add l r _ _ ihl ihr => exact parseOK_add .ADD (Or.inl rfl) l r ihl ihr
  | sub l r _ _ ihl ihr => exact parseOK_add .SUB (Or.inr rfl) l r ihl ihr

theorem parseMain_tree (e : ParseTree) (h : Derives .expr e) : parseMain e.tokens = some e := by
  have hok := parseOK_of_derives .expr e h [] (e, []) 1
    ⟨fun r h => (by cases h), fun r h => (by cases h)⟩
    (parseExprRest_stop 0 e [] ⟨fun r h => (by cases h), fun r h => (by cases h)⟩)
  rw [List.append_nil] at hok
  have := parseExpr_mono (show 1 + 2 * e.tokens.length + 2 ≤ 4 * e.tokens.length + 4 by omega)
    _ _ hok
  unfold parseMain
  rw [this]

theorem walk_node (ops : DoubleOps D) (t : ParseTree) (st : List (Node D)) :
    walk ops t st = (t.node ops).map (· :: st) := by
  induction t generalizing st with
  | Literal s =>
    simp only [walk, exitLiteral, ParseTree.node]
    cases ops.stod s with
    | none => rfl
    | some p =>
      obtain ⟨v, k⟩ := p
      simp only
      split <;> rfl
  | Cell s =>
    simp only [walk, exitCell, ParseTree.node]
    split <;> rfl
  | UnaryOp op t ih =>
    simp only [walk, ParseTree.node, ih]
    cases t.node ops with
    | none => rfl
    | some n => rfl
  | BinaryOp op l r ihl ihr =>
    simp only [walk, ParseTree.node, ihl, ihr]
    cases l.node ops with
    | none => rfl
    | some a =>
      simp only [Option.map_some']
      cases r.node ops with
      | none => rfl
      | some b => rfl
  | Parens t ih => simp only [walk, ParseTree.node, ih]

theorem node_ser (ops : DoubleOps D) (t : ParseTree) (n : Node D) (h : t.node ops = some n) :
    n.GetExpression = t.ser ∧ n.type = t.type := by
  induction t generalizing n with
  | Literal s =>
    simp only [ParseTree.node] at h
    cases hs : ops.stod s with
    | none => rw [hs] at h; cases h
    | some p =>
      obtain ⟨v, k⟩ := p
      rw [hs] at h
      simp only at h
      split at h
      · cases h
      · cases h; exact ⟨rfl, rfl⟩
  | Cell s =>
    simp only [ParseTree.node] at h
    split at h
    · cases h
    · rename_i hv
      cases h
      simp only [Bool.not_eq_true, Bool.not_eq_false'] at hv
      exact ⟨by simp [Node.GetExpression, ParseTree.ser, hv], rfl⟩
  | UnaryOp op t ih =>
    simp only [ParseTree.node, Option.map_eq_some'] at h
    obtain ⟨m, hm, rfl⟩ := h
    obtain ⟨h1, h2⟩ := ih m hm
    exact ⟨by simp [Node.GetExpression, ParseTree.ser, h1, h2], rfl⟩
  | BinaryOp op l r ihl ihr =>
    simp only [ParseTree.node] at h
    cases hl : l.node ops with
    | none => rw [hl] at h; cases h
    | some a =>
      cases hr : r.node ops with
      | none => rw [hl, hr] at h; cases h
      | some b =>
        rw [hl, hr] at h
        cases h
        obtain ⟨h1, h2⟩ := ihl a hl
        obtain ⟨h3, h4⟩ := ihr b hr
        exact ⟨by simp [Node.GetExpression, ParseTree.ser, h1, h2, h3, h4], rfl⟩
  | Parens t ih =>
    simp only [ParseTree.node] at h
    exact ih n h

theorem node_of_leavesOK (ops : DoubleOps D) (t : ParseTree) (h : LeavesOK ops t) :
    ∃ n, t.node ops = some n := by
  induction t with
  | Literal s =>
    obtain ⟨v, k, hs, hf⟩ := h
    exact ⟨.Number v s, by simp [ParseTree.node, hs, hf]⟩
  | Cell s =>
    simp only [LeavesOK] at h
    exact ⟨.Cell (Position.FromString s), by simp [ParseTree.node, h]⟩
  | UnaryOp op t ih =>
    obtain ⟨n, hn⟩ := ih h
    exact ⟨.UnaryOp (unaryKindOf op) n, by simp [ParseTree.node, hn]⟩
  | BinaryOp op l r ihl ihr =>
    obtain ⟨a, ha⟩ := ihl h.1
    obtain ⟨b, hb⟩ := ihr h.2
    exact ⟨.BinaryOp (binaryKindOf op) a b, by simp [ParseTree.node, ha, hb]⟩
  | Parens t ih => exact ih h

theorem Derives.factor_not_binary {o : Token} {l r : ParseTree}
    (h : Derives .factor (.BinaryOp o l r)) : False := by
  cases h

theorem Derives.term_binary {o : Token} {l r : ParseTree}
    (h : Derives .term (.BinaryOp o l r)) :
    (o = .MUL ∨ o = .DIV) ∧ Derives .term l ∧ Derives .factor r := by
  cases h with
  | ofFactor _ h => exact absurd h.factor_not_binary id
  | mul _ _ hl hr => exact ⟨Or.inl rfl, hl, hr⟩
  | div _ _ hl hr => exact ⟨Or.inr rfl, hl, hr⟩

theorem Derives.expr_cases {t : ParseTree} (h : Derives .expr t) :
    Derives .term t ∨ ∃ l r, (t = .BinaryOp .ADD l r ∨ t = .BinaryOp .SUB l r) ∧
      Derives .expr l ∧ Derives .term r := by
  cases h with
  | ofTerm _ h => exact Or.inl h
  | add l r hl hr => exact Or.inr ⟨l, r, Or.inl rfl, hl, hr⟩
  | sub l r hl hr => exact Or.inr ⟨l, r, Or.inr rfl, hl, hr⟩

theorem Derives.term_cases {t : ParseTree} (h : Derives .term t) :
    Derives .factor t ∨ ∃ o l r, t = .BinaryOp o l r := by
  cases h with
  | ofFactor _ h => exact Or.inl h
  | mul l r _ _ => exact Or.inr ⟨_, l, r, rfl⟩
  | div l r _ _ => exact Or.inr ⟨_, l, r, rfl⟩

theorem Derives.to_expr {lvl : Level} {t : ParseTree} (h : Derives lvl t) : Derives .expr t := by
  cases lvl with
  | factor => exact .ofTerm t (.ofFactor t h)
  | term => exact .ofTerm t h
  | expr => exact h

/-- A factor that is not in parentheses builds a number, a cell or a unary node: the
serializer never puts it in parentheses. -/
theorem Derives.factor_type {t : ParseTree} (h : Derives .factor t) (hp : t.isParens = false) :
    t.type.isAdditive = false ∧ t.type.isMultiplicative = false ∧
      ∀ k side, AreParenthesesNeeded k t.type side = false := by
  cases h with
  | lit s _ => exact ⟨rfl, rfl, fun k side => by cases k <;> cases side <;> rfl⟩
  | cell s _ => exact ⟨rfl, rfl, fun k side => by cases k <;> cases side <;> rfl⟩
  | plus t _ => exact ⟨rfl, rfl, fun k side => by cases k <;> cases side <;> rfl⟩
  | minus t _ => exact ⟨rfl, rfl, fun k side => by cases k <;> cases side <;> rfl⟩
  | parens e _ => cases hp

theorem Derives.term_type {t : ParseTree} (h : Derives .term t) (hp : t.isParens = false) :
    t.type.isAdditive = false := by
  cases h with
  | ofFactor _ h => exact (h.factor_type hp).1
  | mul l r _ _ => rfl
  | div l r _ _ => rfl

theorem opChar_unary (op : Token) (h : op = .ADD ∨ op = .SUB) :
    (unaryKindOf op).GetOpSymbol = opChar op := by
  rcases h with rfl | rfl <;> rfl

theorem opChar_binary (op : Token) (h : IsOp op) :
    (binaryKindOf op).GetOpSymbol = opChar op := by
  rcases h with rfl | rfl | rfl | rfl <;> rfl

theorem argOK_text (needed : NodeType → Bool) (t : ParseTree)
    (h1 : t.isParens = false → t.ser = t.text)
    (h2 : ∀ e, t = .Parens e → e.isParens = false → e.ser = e.text)
    (h : ArgOK needed t) : ExprPrinter t.ser (needed t.type) = t.text := by
  cases t with
  | Parens e =>
    obtain ⟨hn, hp⟩ := h
    simp only [ParseTree.ser, ParseTree.type, ParseTree.text, hn, ExprPrinter, if_true,
      h2 e rfl hp]
  | Literal s =>
    have hn : needed (ParseTree.Literal s).type = false := h
    rw [hn]; exact h1 rfl
  | Cell s =>
    have hn : needed (ParseTree.Cell s).type = false := h
    rw [hn]; exact h1 rfl
  | UnaryOp op t =>
    have hn : needed (ParseTree.UnaryOp op t).type = false := h
    rw [hn]; exact h1 rfl
  | BinaryOp op l r =>
    have hn : needed (ParseTree.BinaryOp op l r).type = false := h
    rw [hn]; exact h1 rfl

/-- On a canonical parse tree of the grammar the serialization of the node built is the
text of the tree. -/
theorem canon_ser (lvl : Level) (t : ParseTree) (h : Derives lvl t) :
    Canon t → (t.isParens = false → t.ser = t.text) ∧
      ∀ e, t = .Parens e → e.isParens = false → e.ser = e.text := by
  induction h with
  | lit s _ => intro _; exact ⟨fun _ => rfl, fun e he => by cases he⟩
  | cell s _ => intro hc; exact ⟨fun _ => hc, fun e he => by cases he⟩
  | plus t _ ih =>
    intro hc
    obtain ⟨ha, hct⟩ := hc
    obtain ⟨i1, i2⟩ := ih hct
    refine ⟨fun _ => ?_, fun e he => by cases he⟩
    have := argOK_text NodeType.isAdditive t i1 i2 ha
    simp only [ParseTree.ser, ParseTree.text]
    rw [opChar_unary _ (Or.inl rfl)]
    exact congrArg _ this
  | minus t _ ih =>
    intro hc
    obtain ⟨ha, hct⟩ := hc
    obtain ⟨i1, i2⟩ := ih hct
    refine ⟨fun _ => ?_, fun e he => by cases he⟩
    have := argOK_text NodeType.isAdditive t i1 i2 ha
    simp only [ParseTree.ser, ParseTree.text]
    rw [opChar_unary _ (Or.inr rfl)]
    exact congrArg _ this
  | parens e _ ih =>
    intro hc
    refine ⟨fun hp => (by cases hp), fun e' he hp => ?_⟩
    cases he
    exact (ih hc).1 hp
  | ofFactor t _ ih => exact ih
  | ofTerm t _ ih => exact ih
  | mul l r _ _ ihl ihr =>
    intro hc
    obtain ⟨hal, har, hcl, hcr⟩ := hc
    refine ⟨fun _ => ?_, fun e he => by cases he⟩
    have h1 := argOK_text _ l (ihl hcl).1 (ihl hcl).2 hal
    have h2 := argOK_text _ r (ihr hcr).1 (ihr hcr).2 har
    simp only [ParseTree.ser, ParseTree.text]
    rw [h1, h2]; rfl
  | div l r _ _ ihl ihr =>
    intro hc
    obtain ⟨hal, har, hcl, hcr⟩ := hc
    refine ⟨fun _ => ?_, fun e he => by cases he⟩
    have h1 := argOK_text _ l (ihl hcl).1 (ihl hcl).2 hal
    have h2 := argOK_text _ r (ihr hcr).1 (ihr hcr).2 har
    simp only [ParseTree.ser, ParseTree.text]
    rw [h1, h2]; rfl
  | add l r _ _ ihl ihr =>
    intro hc
    obtain ⟨hal, har, hcl, hcr⟩ := hc
    refine ⟨fun _ => ?_, fun e he => by cases he⟩
    have h1 := argOK_text _ l (ihl hcl).1 (ihl hcl).2 hal
    have h2 := argOK_text _ r (ihr hcr).1 (ihr hcr).2 har
    simp only [ParseTree.ser, ParseTree.text]
    rw [h1, h2]; rfl
  | sub l r _ _ ihl ihr =>
    intro hc
    obtain ⟨hal, har, hcl, hcr⟩ := hc
    refine ⟨fun _ => ?_, fun e he => by cases he⟩
    have h1 := argOK_text _ l (ihl hcl).1 (ihl hcl).2 hal
    have h2 := argOK_text _ r (ihr hcr).1 (ihr hcr).2 har
    simp only [ParseTree.ser, ParseTree.text]
    rw [h1, h2]; rfl

theorem argOK_of_not_parens (needed : NodeType → Bool) (t : ParseTree)
    (hp : t.isParens = false) : ArgOK needed t ↔ needed t.type = false := by
  cases t with
  | Parens e => cases hp
  | _ => exact Iff.rfl

theorem graftU_text (op : Token) (t : ParseTree) : (graftU op t).text = opChar op :: t.text := by
  induction t with
  | BinaryOp o l r ihl _ => simp only [graftU, ParseTree.text, ihl, List.cons_append]
  | _ => rfl

theorem graftT_text (acc : ParseTree) (op : Token) (t : ParseTree) :
    (graftT acc op t).text = acc.text ++ opChar op :: t.text := by
  induction t with
  | BinaryOp o l r ihl _ =>
    simp only [graftT, ParseTree.text, ihl, List.cons_append, List.append_assoc]
  | _ => rfl

theorem graftE_text (acc : ParseTree) (op : Token) (t : ParseTree) :
    (graftE acc op t).text = acc.text ++ opChar op :: t.text := by
  induction t with
  | BinaryOp o l r ihl _ =>
    cases o <;> simp only [graftE, ParseTree.text, ihl, List.cons_append, List.append_assoc]
  | _ => rfl

theorem graftU_leaves (ops : DoubleOps D) (op : Token) (t : ParseTree) :
    LeavesOK ops (graftU op t) ↔ LeavesOK ops t := by
  induction t with
  | BinaryOp o l r ihl _ => simp only [graftU, LeavesOK, ihl]
  | _ => exact Iff.rfl

theorem graftT_leaves (ops : DoubleOps D) (acc : ParseTree) (op : Token) (t : ParseTree) :
    LeavesOK ops (graftT acc op t) ↔ LeavesOK ops acc ∧ LeavesOK ops t := by
  induction t with
  | BinaryOp o l r ihl _ => simp only [graftT, LeavesOK, ihl, and_assoc]
  | _ => exact Iff.rfl

theorem graftE_leaves (ops : DoubleOps D) (acc : ParseTree) (op : Token) (t : ParseTree) :
    LeavesOK ops (graftE acc op t) ↔ LeavesOK ops acc ∧ LeavesOK ops t := by
  induction t with
  | BinaryOp o l r ihl _ => cases o <;> simp only [graftE, LeavesOK, ihl, and_assoc]
  | _ => exact Iff.rfl

theorem needed_left_mul (o : Token) (ho : o = .MUL ∨ o = .DIV) :
    (fun ty => AreParenthesesNeeded (binaryKindOf o).type ty .Left) = NodeType.isAdditive := by
  funext ty
  rcases ho with rfl | rfl <;> cases ty <;> rfl

theorem needed_right_mul (o : Token) (ho : o = .MUL ∨ o = .DIV) (ty : NodeType)
    (h : ty.isAdditive = true) : AreParenthesesNeeded (binaryKindOf o).type ty .Right = true := by
  rcases ho with rfl | rfl <;> cases ty <;> first | rfl | cases h

theorem needed_add (o : Token) (ho : o = .ADD ∨ o = .SUB) (ty : NodeType) :
    AreParenthesesNeeded (binaryKindOf o).type ty .Left = false ∧
      AreParenthesesNeeded (binaryKindOf o).type ty .Right =
        (decide (o = .SUB) && ty.isAdditive) := by
  rcases ho with rfl | rfl <;> cases ty <;> exact ⟨rfl, rfl⟩

theorem unary_type (op : Token) :
    (unaryKindOf op).type.isAdditive = false ∧ (unaryKindOf op).type.isMultiplicative = false := by
  unfold unaryKindOf
  split <;> exact ⟨rfl, rfl⟩

theorem binary_type_mul (o : Token) (ho : o = .MUL ∨ o = .DIV) :
    (binaryKindOf o).type.isAdditive = false ∧ (binaryKindOf o).type.isMultiplicative = true := by
  rcases ho with rfl | rfl <;> exact ⟨rfl, rfl⟩

theorem binary_type_add (o : Token) (ho : o = .ADD ∨ o = .SUB) :
    (binaryKindOf o).type.isAdditive = true := by
  rcases ho with rfl | rfl <;> rfl

theorem derives_unary (op : Token) (hop : op = .ADD ∨ op = .SUB) (t : ParseTree)
    (h : Derives .factor t) : Derives .factor (.UnaryOp op t) := by
  rcases hop with rfl | rfl
  · exact .plus t h
  · exact .minus t h

theorem derives_mul (op : Token) (hop : op = .MUL ∨ op = .DIV) (l r : ParseTree)
    (hl : Derives .term l) (hr : Derives .factor r) : Derives .term (.BinaryOp op l r) := by
  rcases hop with rfl | rfl
  · exact .mul l r hl hr
  · exact .div l r hl hr

theorem derives_add (op : Token) (hop : op = .ADD ∨ op = .SUB) (l r : ParseTree)
    (hl : Derives .expr l) (hr : Derives .term r) : Derives .expr (.BinaryOp op l r) := by
  rcases hop with rfl | rfl
  · exact .add l r hl hr
  · exact .sub l r hl hr

theorem graftU_leaf (op : Token) (hop : op = .ADD ∨ op = .SUB) (t : ParseTree)
    (ht : Derives .factor t) (hc : Canon t) (ha : ArgOK NodeType.isAdditive t) :
    Grafted .term (.UnaryOp op t) ∧ (ParseTree.UnaryOp op t).type.isAdditive = false :=
  ⟨⟨.ofFactor _ (derives_unary op hop t ht), ⟨ha, hc⟩, rfl⟩, (unary_type op).1⟩

theorem graftU_good (op : Token) (hop : op = .ADD ∨ op = .SUB) (t : ParseTree) :
    Derives .term t → Canon t → ArgOK NodeType.isAdditive t →
      Grafted .term (graftU op t) ∧ (graftU op t).type.isAdditive = false := by
  induction t with
  | BinaryOp o l r ihl _ =>
    intro ht hc _
    obtain ⟨ho, hl, hr⟩ := ht.term_binary
    obtain ⟨hal, har, hcl, hcr⟩ := hc
    rw [needed_left_mul o ho] at hal
    obtain ⟨⟨gd, gc, gb⟩, gt⟩ := ihl hl hcl hal
    refine ⟨⟨derives_mul o ho _ r gd hr, ⟨?_, har, gc, hcr⟩, rfl⟩, (binary_type_mul o ho).1⟩
    rw [needed_left_mul o ho]
    exact (argOK_of_not_parens _ _ gb).mpr gt
  | Literal s =>
    intro ht hc ha
    rcases ht.term_cases with hf | ⟨_, _, _, h⟩
    · exact graftU_leaf op hop _ hf hc ha
    · cases h
  | Cell s =>
    intro ht hc ha
    rcases ht.term_cases with hf | ⟨_, _, _, h⟩
    · exact graftU_leaf op hop _ hf hc ha
    · cases h
  | UnaryOp o t _ =>
    intro ht hc ha
    rcases ht.term_cases with hf | ⟨_, _, _, h⟩
    · exact graftU_leaf op hop _ hf hc ha
    · cases h
  | Parens e _ =>
    intro ht hc ha
    rcases ht.term_cases with hf | ⟨_, _, _, h⟩
    · exact graftU_leaf op hop _ hf hc ha
    · cases h

theorem graftT_leaf (op : Token) (hop : op = .MUL ∨ op = .DIV) (acc : ParseTree)
    (hacc : Derives .term acc) (hca : Canon acc)
    (haa : ArgOK (fun ty => AreParenthesesNeeded (binaryKindOf op).type ty .Left) acc)
    (t : ParseTree) (ht : Derives .factor t) (hc : Canon t) (ha : ArgOK NodeType.isAdditive t) :
    Grafted .term (.BinaryOp op acc t) ∧
      (ParseTree.BinaryOp op acc t).type.isMultiplicative = true := by
  refine ⟨⟨derives_mul op hop acc t hacc ht, ⟨haa, ?_, hca, hc⟩, rfl⟩, (binary_type_mul op hop).2⟩
  cases hp : t.isParens with
  | false =>
    rw [argOK_of_not_parens _ _ hp]
    exact (ht.factor_type hp).2.2 _ _
  | true =>
    cases t with
    | Parens e => exact ⟨needed_right_mul op hop _ ha.1, ha.2⟩
    | _ => cases hp

theorem graftT_good (op : Token) (hop : op = .MUL ∨ op = .DIV) (acc : ParseTree)
    (hacc : Derives .term acc) (hca : Canon acc)
    (haa : ArgOK (fun ty => AreParenthesesNeeded (binaryKindOf op).type ty .Left) acc)
    (t : ParseTree) :
    Derives .term t → Canon t → ArgOK NodeType.isAdditive t →
      Grafted .term (graftT acc op t) ∧ (graftT acc op t).type.isMultiplicative = true := by
  induction t with
  | BinaryOp o l r ihl _ =>
    intro ht hc _
    obtain ⟨ho, hl, hr⟩ := ht.term_binary
    obtain ⟨hal, har, hcl, hcr⟩ := hc
    rw [needed_left_mul o ho] at hal
    obtain ⟨⟨gd, gc, gb⟩, gt⟩ := ihl hl hcl hal
    refine ⟨⟨derives_mul o ho _ r gd hr, ⟨?_, har, gc, hcr⟩, rfl⟩, (binary_type_mul o ho).2⟩
    rw [needed_left_mul o ho]
    refine (argOK_of_not_parens _ _ gb).mpr ?_
    revert gt
    cases (graftT acc op l).type <;> simp [NodeType.isMultiplicative, NodeType.isAdditive]
  | Literal s =>
    intro ht hc ha
    rcases ht.term_cases with hf | ⟨_, _, _, h⟩
    · exact graftT_leaf op hop acc hacc hca haa _ hf hc ha
    · cases h
  | Cell s =>
    intro ht hc ha
    rcases ht.term_cases with hf | ⟨_, _, _, h⟩
    · exact graftT_leaf op hop acc hacc hca haa _ hf hc ha
    · cases h
  | UnaryOp o t _ =>
    intro ht hc ha
    rcases ht.term_cases with hf | ⟨_, _, _, h⟩
    · exact graftT_leaf op hop acc hacc hca haa _ hf hc ha
    · cases h
  | Parens e _ =>
    intro ht hc ha
    rcases ht.term_cases with hf | ⟨_, _, _, h⟩
    · exact graftT_leaf op hop acc hacc hca haa _ hf hc ha
    · cases h

theorem graftE_leaf (op : Token) (hop : op = .ADD ∨ op = .SUB) (acc : ParseTree)
    (hacc : Derives .expr acc) (hca : Canon acc) (hpa : acc.isParens = false)
    (t : ParseTree) (ht : Derives .term t) (hc : Canon t) (hp : t.isParens = false)
    (hsub : op = .SUB → t.type.isAdditive = false) :
    Grafted .expr (.BinaryOp op acc t) ∧ (ParseTree.BinaryOp op acc t).type.isAdditive = true := by
  refine ⟨⟨derives_add op hop acc t hacc ht, ⟨?_, ?_, hca, hc⟩, rfl⟩, binary_type_add op hop⟩
  · rw [argOK_of_not_parens _ _ hpa]
    exact (needed_add op hop _).1
  · rw [argOK_of_not_parens _ _ hp, (needed_add op hop _).2]
    by_cases h : op = .SUB
    · rw [hsub h]; simp
    · simp [h]

theorem graftE_good (op : Token) (hop : op = .ADD ∨ op = .SUB) (acc : ParseTree)
    (hacc : Derives .expr acc) (hca : Canon acc) (hpa : acc.isParens = false)
    (t : ParseTree) :
    Derives .expr t → Canon t → t.isParens = false → (op = .SUB → t.type.isAdditive = false) →
      Grafted .expr (graftE acc op t) ∧ (graftE acc op t).type.isAdditive = true := by
  induction t with
  | BinaryOp o l r ihl _ =>
    intro ht hc hp hsub
    rcases ht.expr_cases with hterm | ⟨l', r', heq, hl, hr⟩
    · -- a product: the graft stops
      obtain ⟨ho, _, _⟩ := hterm.term_binary
      have hg : graftE acc op (.BinaryOp o l r) = .BinaryOp op acc (.BinaryOp o l r) := by
        rcases ho with rfl | rfl <;> rfl
      rw [hg]
      exact graftE_leaf op hop acc hacc hca hpa _ hterm hc hp hsub
    · -- a sum: the graft goes on in its left operand
      have ho : o = .ADD ∨ o = .SUB := by
        rcases heq with h | h <;> cases h
        · exact Or.inl rfl
        · exact Or.inr rfl
      have hl' : l' = l ∧ r' = r := by
        rcases heq with h | h <;> cases h <;> exact ⟨rfl, rfl⟩
      obtain ⟨rfl, rfl⟩ := hl'
      have hopadd : op = .ADD := by
        rcases hop with h | h
        · exact h
        · have := hsub h
          rw [show (ParseTree.BinaryOp o l' r').type = (binaryKindOf o).type from rfl,
            binary_type_add o ho] at this
          cases this
      obtain ⟨hal, har, hcl, hcr⟩ := hc
      have hlp : l'.isParens = false := by
        cases l' with
        | Parens e =>
          have h1 : AreParenthesesNeeded (binaryKindOf o).type e.type .Left = true := hal.1
          rw [(needed_add o ho _).1] at h1
          cases h1
        | _ => rfl
      obtain ⟨⟨gd, gc, gb⟩, _⟩ := ihl hl hcl hlp (fun h => by rw [hopadd] at h; cases h)
      have hg : graftE acc op (.BinaryOp o l' r') = .BinaryOp o (graftE acc op l') r' := by
        rcases ho with rfl | rfl <;> rfl
      rw [hg]
      refine ⟨⟨derives_add o ho _ r' gd hr, ⟨?_, har, gc, hcr⟩, rfl⟩, binary_type_add o ho⟩
      rw [argOK_of_not_parens _ _ gb]
      exact (needed_add o ho _).1
  | Literal s =>
    intro ht hc hp hsub
    rcases ht.expr_cases with hterm | ⟨_, _, heq, _, _⟩
    · exact graftE_leaf op hop acc hacc hca hpa _ hterm hc hp hsub
    · rcases heq with h | h <;> cases h
  | Cell s =>
    intro ht hc hp hsub
    rcases ht.expr_cases with hterm | ⟨_, _, heq, _, _⟩
    · exact graftE_leaf op hop acc hacc hca hpa _ hterm hc hp hsub
    · rcases heq with h | h <;> cases h
  | UnaryOp o t _ =>
    intro ht hc hp hsub
    rcases ht.expr_cases with hterm | ⟨_, _, heq, _, _⟩
    · exact graftE_leaf op hop acc hacc hca hpa _ hterm hc hp hsub
    · rcases heq with h | h <;> cases h
  | Parens e _ =>
    intro _ _ hp _
    cases hp

theorem binaryKindOf_token (k : BinaryKind) : binaryKindOf k.token = k := by
  cases k <;> rfl

theorem unaryKindOf_token (k : UnaryKind) : unaryKindOf k.token = k := by
  cases k <;> rfl

theorem opChar_unary_token (k : UnaryKind) : opChar k.token = k.GetOpSymbol := by
  cases k <;> rfl

theorem opChar_binary_token (k : BinaryKind) : opChar k.token = k.GetOpSymbol := by
  cases k <;> rfl

theorem unary_token (k : UnaryKind) : k.token = .ADD ∨ k.token = .SUB := by
  cases k
  · exact Or.inl rfl
  · exact Or.inr rfl

theorem binary_token (k : BinaryKind) :
    (k.type.isAdditive = true ∧ (k.token = .ADD ∨ k.token = .SUB)) ∨
      (k.type.isAdditive = false ∧ (k.token = .MUL ∨ k.token = .DIV)) := by
  cases k
  · exact Or.inl ⟨rfl, Or.inl rfl⟩
  · exact Or.inl ⟨rfl, Or.inr rfl⟩
  · exact Or.inr ⟨rfl, Or.inl rfl⟩
  · exact Or.inr ⟨rfl, Or.inr rfl⟩

theorem needed_left_congr (k : NodeType) (ty ty' : NodeType)
    (h : ty'.isAdditive = ty.isAdditive) :
    AreParenthesesNeeded k ty' .Left = AreParenthesesNeeded k ty .Left := by
  revert h
  cases k <;> cases ty <;> cases ty' <;> decide

theorem needed_right_congr (k : NodeType) (ty ty' : NodeType)
    (h : ty'.isAdditive = ty.isAdditive)
    (hm : ty.isMultiplicative = true → ty'.isMultiplicative = true)
    (hn : AreParenthesesNeeded k ty .Right = true) :
    AreParenthesesNeeded k ty' .Right = true := by
  revert h hm hn
  cases k <;> cases ty <;> cases ty' <;> decide

theorem needed_right_false (k : BinaryKind) (ty : NodeType)
    (h : AreParenthesesNeeded k.type ty .Right = false) :
    (k.token = .SUB → ty.isAdditive = false) ∧
      (k.type.isAdditive = false → ty.isAdditive = false) := by
  revert h
  cases k <;> cases ty <;> decide

theorem isCellText_toString (p : Position) (h : p.IsValid = true) : IsCellText p.ToString := by
  have hft := FromString_ToString p h
  rcases FromString_shape p.ToString with hs | ⟨ls, ds, heq, hl, hd, hu, hg⟩
  · rw [hft] at hs
    rw [hs] at h
    exact absurd h (by decide)
  · exact ⟨ls, ds, hl, hd, hu, hg, heq⟩

theorem treeOf_unary (ops : DoubleOps D) (k : UnaryKind) (X : Node D)
    (ih : TreeOf ops X X.toTree) : TreeOf ops (.UnaryOp k X) (Node.UnaryOp k X).toTree := by
  have htok := unary_token k
  cases hadd : X.type.isAdditive with
  | true =>
    have hT : (Node.UnaryOp k X).toTree = .UnaryOp k.token (.Parens X.toTree) := by
      simp [Node.toTree, hadd]
    rw [hT]
    have hfac : Derives .factor (.UnaryOp k.token (.Parens X.toTree)) :=
      derives_unary _ htok _ (.parens _ ih.grafted.derives)
    refine ⟨⟨hfac.to_expr, ⟨⟨?_, ih.grafted.bare⟩, ih.grafted.canon⟩, rfl⟩,
      fun _ => .ofFactor _ hfac, ?_, ?_, ih.leaves, ?_⟩
    · rw [ih.additive]; exact hadd
    · show (unaryKindOf k.token).type.isAdditive = k.type.isAdditive
      rw [unaryKindOf_token]
    · intro h; cases k <;> cases h
    · simp only [ParseTree.text, Node.GetExpression, ih.text, opChar_unary_token, ExprPrinter]
      have : (X.type == .Addition || X.type == .Subtraction) = true := hadd
      rw [this]
      rfl
  | false =>
    have hT : (Node.UnaryOp k X).toTree = graftU k.token X.toTree := by
      simp [Node.toTree, hadd]
    rw [hT]
    have harg : ArgOK NodeType.isAdditive X.toTree := by
      rw [argOK_of_not_parens _ _ ih.grafted.bare, ih.additive]
      exact hadd
    obtain ⟨⟨gd, gc, gb⟩, gt⟩ := graftU_good k.token htok X.toTree (ih.term hadd)
      ih.grafted.canon harg
    refine ⟨⟨gd.to_expr, gc, gb⟩, fun _ => gd, ?_, ?_, (graftU_leaves ops _ _).mpr ih.leaves, ?_⟩
    · rw [gt]; cases k <;> rfl
    · intro h; cases k <;> cases h
    · rw [graftU_text, ih.text, opChar_unary_token]
      simp only [Node.GetExpression, ExprPrinter]
      have : (X.type == .Addition || X.type == .Subtraction) = false := hadd
      rw [this]
      rfl

theorem needed_left_table (k : BinaryKind) (ty : NodeType) :
    (k.type.isAdditive = true → AreParenthesesNeeded k.type ty .Left = false) ∧
      (k.type.isAdditive = false → AreParenthesesNeeded k.type ty .Left = ty.isAdditive) := by
  cases k <;> cases ty <;> decide

theorem additive_not_multiplicative {L R : Node D} (k : BinaryKind)
    (h : k.type.isAdditive = true) :
    ¬ (Node.BinaryOp k L R : Node D).type.isMultiplicative = true := by
  show ¬ k.type.isMultiplicative = true
  revert h
  cases k <;> decide

/-- The left operand of a binary node, in parentheses when the serializer puts it so. -/
theorem treeOf_left (ops : DoubleOps D) (k : BinaryKind) (L : Node D)
    (ih : TreeOf ops L L.toTree) (lt : ParseTree)
    (hlt : lt = if AreParenthesesNeeded k.type L.type .Left then .Parens L.toTree else L.toTree) :
    Canon lt ∧ LeavesOK ops lt ∧
      ArgOK (fun ty => AreParenthesesNeeded (binaryKindOf k.token).type ty .Left) lt ∧
      lt.text = ExprPrinter L.GetExpression (AreParenthesesNeeded k.type L.type .Left) ∧
      Derives .expr lt ∧ (k.type.isAdditive = false → Derives .term lt) ∧
      (k.type.isAdditive = true → lt.isParens = false) := by
  have hcongr := needed_left_congr k.type L.type L.toTree.type ih.additive
  rw [binaryKindOf_token]
  cases hn : AreParenthesesNeeded k.type L.type .Left with
  | true =>
    rw [hn] at hlt
    simp only [if_true] at hlt
    subst hlt
    have hfac : Derives .factor (.Parens L.toTree) := .parens _ ih.grafted.derives
    refine ⟨ih.grafted.canon, ih.leaves, ⟨?_, ih.grafted.bare⟩, ?_, hfac.to_expr,
      fun _ => .ofFactor _ hfac, ?_⟩
    · show AreParenthesesNeeded k.type L.toTree.type .Left = true
      rw [hcongr]; exact hn
    · simp [ParseTree.text, ExprPrinter, ih.text]
    · intro hk
      rw [(needed_left_table k L.type).1 hk] at hn
      cases hn
  | false =>
    rw [hn] at hlt
    simp only [Bool.false_eq_true, if_false] at hlt
    subst hlt
    refine ⟨ih.grafted.canon, ih.leaves, ?_, ?_, ih.grafted.derives, ?_,
      fun _ => ih.grafted.bare⟩
    · rw [argOK_of_not_parens _ _ ih.grafted.bare]
      show AreParenthesesNeeded k.type L.toTree.type .Left = false
      rw [hcongr]; exact hn
    · simp [ExprPrinter, ih.text]
    · intro hk
      apply ih.term
      rw [← (needed_left_table k L.type).2 hk]
      exact hn

theorem treeOf_binary (ops : DoubleOps D) (k : BinaryKind) (L R : Node D)
    (ihl : TreeOf ops L L.toTree) (ihr : TreeOf ops R R.toTree) :
    TreeOf ops (.BinaryOp k L R) (Node.BinaryOp k L R).toTree := by
  obtain ⟨hcl, hll, hal, htl, hdl, hdtl, hpl⟩ := treeOf_left ops k L ihl _ rfl
  have htype : ∀ l r, (ParseTree.BinaryOp k.token l r).type = k.type := by
    intro l r
    show (binaryKindOf k.token).type = k.type
    rw [binaryKindOf_token]
  have hser : (Node.BinaryOp k L R).GetExpression =
      ExprPrinter L.GetExpression (AreParenthesesNeeded k.type L.type .Left) ++
        k.GetOpSymbol :: ExprPrinter R.GetExpression (AreParenthesesNeeded k.type R.type .Right) :=
    rfl
  cases hnr : AreParenthesesNeeded k.type R.type .Right with
  | true =>
    have hT : (Node.BinaryOp k L R).toTree = .BinaryOp k.token
        (if AreParenthesesNeeded k.type L.type .Left then .Parens L.toTree else L.toTree)
        (.Parens R.toTree) := by
      simp [Node.toTree, hnr]
    rw [hT]
    have hfr : Derives .factor (.Parens R.toTree) := .parens _ ihr.grafted.derives
    have hcanon : Canon (.BinaryOp k.token
        (if AreParenthesesNeeded k.type L.type .Left then .Parens L.toTree else L.toTree)
        (.Parens R.toTree)) := by
      refine ⟨hal, ⟨?_, ihr.grafted.bare⟩, hcl, ihr.grafted.canon⟩
      show AreParenthesesNeeded (binaryKindOf k.token).type R.toTree.type .Right = true
      rw [binaryKindOf_token]
      exact needed_right_congr k.type R.type R.toTree.type ihr.additive ihr.multiplicative hnr
    have htext : (ParseTree.BinaryOp k.token
        (if AreParenthesesNeeded k.type L.type .Left then .Parens L.toTree else L.toTree)
        (.Parens R.toTree)).text = (Node.BinaryOp k L R).GetExpression := by
      rw [hser, hnr]
      simp only [ParseTree.text, htl, opChar_binary_token, ihr.text, ExprPrinter, if_true]
    rcases binary_token k with ⟨hk, htok⟩ | ⟨hk, htok⟩
    · have hd := derives_add k.token htok _ _ hdl (.ofFactor _ hfr)
      refine ⟨⟨hd, hcanon, rfl⟩, fun h => ?_, ?_, ?_, ⟨hll, ihr.leaves⟩, htext⟩
      · rw [show (Node.BinaryOp k L R).type = k.type from rfl, hk] at h; cases h
      · rw [htype]; rfl
      · intro h; rw [htype]; exact h
    · have hd := derives_mul k.token htok _ _ (hdtl hk) hfr
      refine ⟨⟨hd.to_expr, hcanon, rfl⟩, fun _ => hd, ?_, ?_, ⟨hll, ihr.leaves⟩, htext⟩
      · rw [htype]; rfl
      · intro h; rw [htype]; exact h
  | false =>
    obtain ⟨hsubR, hmulR⟩ := needed_right_false k R.type hnr
    rcases binary_token k with ⟨hk, htok⟩ | ⟨hk, htok⟩
    · have hT : (Node.BinaryOp k L R).toTree = graftE
          (if AreParenthesesNeeded k.type L.type .Left then .Parens L.toTree else L.toTree)
          k.token R.toTree := by
        simp [Node.toTree, hnr, hk]
      rw [hT]
      obtain ⟨⟨gd, gc, gb⟩, gt⟩ := graftE_good k.token htok _ hdl hcl (hpl hk) R.toTree
        ihr.grafted.derives ihr.grafted.canon ihr.grafted.bare
        (fun h => by rw [ihr.additive]; exact hsubR h)
      refine ⟨⟨gd, gc, gb⟩, fun h => ?_, ?_, ?_, (graftE_leaves ops _ _ _).mpr ⟨hll, ihr.leaves⟩,
        ?_⟩
      · rw [show (Node.BinaryOp k L R).type = k.type from rfl, hk] at h; cases h
      · rw [gt]; exact hk.symm
      · intro h
        exact absurd h (additive_not_multiplicative k hk)
      · rw [graftE_text, htl, ihr.text, opChar_binary_token, hser, hnr]
        simp [ExprPrinter]
    · have hT : (Node.BinaryOp k L R).toTree = graftT
          (if AreParenthesesNeeded k.type L.type .Left then .Parens L.toTree else L.toTree)
          k.token R.toTree := by
        simp [Node.toTree, hnr, hk]
      rw [hT]
      have hRadd : R.type.isAdditive = false := hmulR hk
      have harg : ArgOK NodeType.isAdditive R.toTree := by
        rw [argOK_of_not_parens _ _ ihr.grafted.bare, ihr.additive]
        exact hRadd
      obtain ⟨⟨gd, gc, gb⟩, gt⟩ := graftT_good k.token htok _ (hdtl hk) hcl hal R.toTree
        (ihr.term hRadd) ihr.grafted.canon harg
      refine ⟨⟨gd.to_expr, gc, gb⟩, fun _ => gd, ?_, fun _ => gt,
        (graftT_leaves ops _ _ _).mpr ⟨hll, ihr.leaves⟩, ?_⟩
      · rw [show (Node.BinaryOp k L R).type = k.type from rfl, hk]
        revert gt
        cases (graftT _ k.token R.toTree).type <;> decide
      · rw [graftT_text, htl, ihr.text, opChar_binary_token, hser, hnr]
        simp [ExprPrinter]

/-- The parse tree of the serialization of a well-formed expression tree is a canonical parse
tree of the grammar whose text is the serialization. -/
theorem treeOf_toTree (ops : DoubleOps D) (T : Node D) (h : T.WellFormed ops) :
    TreeOf ops T T.toTree := by
  induction T with
  | Number v s =>
    obtain ⟨hlit, hst⟩ := h
    have hf : Derives .factor (.Literal s) := .lit s hlit
    exact ⟨⟨hf.to_expr, trivial, rfl⟩, fun _ => .ofFactor _ hf, rfl, fun h => (by cases h), hst,
      rfl⟩
  | Cell p =>
    have hv : p.IsValid = true := h
    have hT : (Node.Cell p : Node D).toTree = .Cell p.ToString := by
      simp [Node.toTree, hv]
    rw [hT]
    have hf : Derives .factor (.Cell p.ToString) := .cell _ (isCellText_toString p hv)
    have hft := FromString_ToString p hv
    refine ⟨⟨hf.to_expr, ?_, rfl⟩, fun _ => .ofFactor _ hf, rfl, fun h => (by cases h), ?_, ?_⟩
    · show (Position.FromString p.ToString).ToString = p.ToString
      rw [hft]
    · show (Position.FromString p.ToString).IsValid = true
      rw [hft]; exact hv
    · simp [ParseTree.text, Node.GetExpression, hv]
  | UnaryOp k X ih => exact treeOf_unary ops k X (ih h)
  | BinaryOp k L R ihl ihr => exact treeOf_binary ops k L R (ihl h.1) (ihr h.2)

/-- The parser consumes the tokens of the tree it returns. -/
theorem parse_sound (n : Nat) :
    (∀ ts t rest, parseExpr n ts = some (t, rest) → ts = t.tokens ++ rest) ∧
    (∀ acc ts t rest, parseExprRest n acc ts = some (t, rest) →
      acc.tokens ++ ts = t.tokens ++ rest) ∧
    (∀ ts t rest, parseTerm n ts = some (t, rest) → ts = t.tokens ++ rest) ∧
    (∀ acc ts t rest, parseTermRest n acc ts = some (t, rest) →
      acc.tokens ++ ts = t.tokens ++ rest) ∧
    (∀ ts t rest, parseFactor n ts = some (t, rest) → ts = t.tokens ++ rest) := by
  induction n with
  | zero =>
    refine ⟨?_, ?_, ?_, ?_, ?_⟩
    · intro ts t rest h; rw [parseExpr] at h; cases h
    · intro acc ts t rest h; rw [parseExprRest] at h; cases h
    · intro ts t rest h; rw [parseTerm] at h; cases h
    · intro acc ts t rest h; rw [parseTermRest] at h; cases h
    · intro ts t rest h; rw [parseFactor] at h; cases h
  | succ n ih =>
    obtain ⟨ihE, ihER, ihT, ihTR, ihF⟩ := ih
    have hER : ∀ (op : Token) acc ts t rest, (op = .ADD ∨ op = .SUB) →
        parseExprRest (n + 1) acc (op :: ts) = some (t, rest) →
        acc.tokens ++ op :: ts = t.tokens ++ rest := by
      intro op acc ts t rest hop h
      have h' : (match parseTerm n ts with
          | none => none
          | some (t1, rest1) => parseExprRest n (.BinaryOp op acc t1) rest1) = some (t, rest) := by
        rcases hop with rfl | rfl <;> (rw [parseExprRest] at h; exact h)
      cases hp : parseTerm n ts with
      | none => rw [hp] at h'; cases h'
      | some p =>
        obtain ⟨t1, rest1⟩ := p
        rw [hp] at h'
        have h1 := ihT _ _ _ hp
        have h2 := ihER _ _ _ _ h'
        rw [← h2, h1]
        simp [ParseTree.tokens]
    have hTR : ∀ (op : Token) acc ts t rest, (op = .MUL ∨ op = .DIV) →
        parseTermRest (n + 1) acc (op :: ts) = some (t, rest) →
        acc.tokens ++ op :: ts = t.tokens ++ rest := by
      intro op acc ts t rest hop h
      have h' : (match parseFactor n ts with
          | none => none
          | some (t1, rest1) => parseTermRest n (.BinaryOp op acc t1) rest1) = some (t, rest) := by
        rcases hop with rfl | rfl <;> (rw [parseTermRest] at h; exact h)
      cases hp : parseFactor n ts with
      | none => rw [hp] at h'; cases h'
      | some p =>
        obtain ⟨t1, rest1⟩ := p
        rw [hp] at h'
        have h1 := ihF _ _ _ hp
        have h2 := ihTR _ _ _ _ h'
        rw [← h2, h1]
        simp [ParseTree.tokens]
    refine ⟨?_, ?_, ?_, ?_, ?_⟩
    · intro ts t rest h
      rw [parseExpr] at h
      cases hp : parseTerm n ts with
      | none => rw [hp] at h; cases h
      | some p =>
        obtain ⟨t1, rest1⟩ := p
        rw [hp] at h
        rw [ihT _ _ _ hp]
        exact ihER _ _ _ _ h
    · intro acc ts t rest h
      rcases noAdd_or ts with hs | ⟨r', rfl⟩ | ⟨r', rfl⟩
      · rw [parseExprRest_stop n acc ts hs] at h
        cases h
        rfl
      · exact hER _ _ _ _ _ (Or.inl rfl) h
      · exact hER _ _ _ _ _ (Or.inr rfl) h
    · intro ts t rest h
      rw [parseTerm] at h
      cases hp : parseFactor n ts with
      | none => rw [hp] at h; cases h
      | some p =>
        obtain ⟨t1, rest1⟩ := p
        rw [hp] at h
        rw [ihF _ _ _ hp]
        exact ihTR _ _ _ _ h
    · intro acc ts t rest h
      rcases noMul_or ts with hs | ⟨r', rfl⟩ | ⟨r', rfl⟩
      · rw [parseTermRest_stop n acc ts hs] at h
        cases h
        rfl
      · exact hTR _ _ _ _ _ (Or.inl rfl) h
      · exact hTR _ _ _ _ _ (Or.inr rfl) h
    · intro ts t rest h
      cases ts with
      | nil => simp [parseFactor] at h
      | cons tk ts =>
        cases tk with
        | ADD =>
          rw [parseFactor] at h
          cases hp : parseFactor n ts with
          | none => rw [hp] at h; cases h
          | some p =>
            obtain ⟨t1, rest1⟩ := p
            rw [hp] at h
            cases h
            rw [ihF _ _ _ hp]
            rfl
        | SUB =>
          rw [parseFactor] at h
          cases hp : parseFactor n ts with
          | none => rw [hp] at h; cases h
          | some p =>
            obtain ⟨t1, rest1⟩ := p
            rw [hp] at h
            cases h
            rw [ihF _ _ _ hp]
            rfl
        | LPAREN =>
          rw [parseFactor] at h
          cases hp : parseExpr n ts with
          | none => rw [hp] at h; cases h
          | some p =>
            obtain ⟨t1, rest1⟩ := p
            rw [hp] at h
            cases rest1 with
            | nil => cases h
            | cons tk2 rest2 =>
              cases tk2 <;> cases h
              rw [ihE _ _ _ hp]
              simp [ParseTree.tokens]
        | NUMBER s => rw [parseFactor] at h; cases h; rfl
        | CELL s => rw [parseFactor] at h; cases h; rfl
        | MUL => simp [parseFactor] at h
        | DIV => simp [parseFactor] at h
        | RPAREN => simp [parseFactor] at h

theorem parseMain_sound (ts : List Token) (t : ParseTree) (h : parseMain ts = some t) :
    ts = t.tokens := by
  unfold parseMain at h
  cases hp : parseExpr (4 * ts.length + 4) ts with
  | none => rw [hp] at h; cases h
  | some p =>
    obtain ⟨t1, rest⟩ := p
    rw [hp] at h
    cases rest with
    | nil =>
      cases h
      have := (parse_sound _).1 _ _ _ hp
      rw [List.append_nil] at this
      exact this
    | cons _ _ => cases h

/-- A tree built from tokens whose numbers are number literals is well-formed. -/
theorem wellFormed_of_node (ops : DoubleOps D) (t : ParseTree) :
    (∀ x, Token.NUMBER x ∈ t.tokens → IsNumberLit x) →
      ∀ T, t.node ops = some T → T.WellFormed ops := by
  induction t with
  | Literal s =>
    intro hnum T h
    simp only [ParseTree.node] at h
    cases hs : ops.stod s with
    | none => rw [hs] at h; cases h
    | some p =>
      obtain ⟨v, k⟩ := p
      rw [hs] at h
      simp only at h
      split at h
      · cases h
      · rename_i hf
        cases h
        exact ⟨hnum s (by simp [ParseTree.tokens]), v, k, hs, by simpa using hf⟩
  | Cell s =>
    intro _ T h
    simp only [ParseTree.node] at h
    split at h
    · cases h
    · rename_i hv
      cases h
      simpa [Node.WellFormed] using hv
  | UnaryOp op t ih =>
    intro hnum T h
    simp only [ParseTree.node, Option.map_eq_some'] at h
    obtain ⟨m, hm, rfl⟩ := h
    exact ih (fun x hx => hnum x (by simp [ParseTree.tokens, hx])) m hm
  | BinaryOp op l r ihl ihr =>
    intro hnum T h
    simp only [ParseTree.node] at h
    cases hl : l.node ops with
    | none => rw [hl] at h; cases h
    | some a =>
      cases hr : r.node ops with
      | none => rw [hl, hr] at h; cases h
      | some b =>
        rw [hl, hr] at h
        cases h
        exact ⟨ihl (fun x hx => hnum x (by simp [ParseTree.tokens, hx])) a hl,
          ihr (fun x hx => hnum x (by simp [ParseTree.tokens, hx])) b hr⟩
  | Parens t ih =>
    intro hnum T h
    simp only [ParseTree.node] at h
    exact ih (fun x hx => hnum x (by simp [ParseTree.tokens, hx])) T h

theorem numbersOK_cons (tok : Token) (ts : List Token)
    (h1 : ∀ x, tok = .NUMBER x → IsNumberLit x) (h2 : NumbersOK ts) : NumbersOK (tok :: ts) := by
  intro x hx
  rcases List.mem_cons.mp hx with h | h
  · exact h1 x h.symm
  · exact h2 x h

theorem numbersOK_map (n : Nat) (r : Str) (tok : Token) (ts : List Token)
    (ih : ∀ ts', lex n r = some ts' → NumbersOK ts')
    (h1 : ∀ x, tok = .NUMBER x → IsNumberLit x)
    (h : (lex n r).map (tok :: ·) = some ts) : NumbersOK ts := by
  cases hl : lex n r with
  | none => rw [hl] at h; cases h
  | some ts' =>
    rw [hl] at h
    cases h
    exact numbersOK_cons tok ts' h1 (ih ts' hl)

theorem takeWhile_digit_cons (c : Char) (cs : Str) (h : c.isDigit = true) :
    (c :: cs).takeWhile Char.isDigit ≠ [] := by
  simp [List.takeWhile, h]

/-- The lexer produces only number literals as `NUMBER` tokens. -/
theorem lex_numbers (n : Nat) : ∀ (s : Str) (ts : List Token), lex n s = some ts →
    NumbersOK ts := by
  induction n with
  | zero => intro s ts h; rw [lex] at h; cases h
  | succ n ih =>
    intro s ts h
    cases s with
    | nil =>
      rw [lex] at h
      cases h
      intro x hx
      cases hx
    | cons c cs =>
      have hop : ∀ tok : Token, (∀ x, tok ≠ .NUMBER x) → ∀ r,
          (lex n r).map (tok :: ·) = some ts → NumbersOK ts :=
        fun tok hne r hm => numbersOK_map n r tok ts (ih r) (fun x hx => absurd hx (hne x)) hm
      rw [lex] at h
      by_cases h1 : isSpace c = true
      · rw [if_pos h1] at h; exact ih _ _ h
      rw [if_neg h1] at h
      by_cases h2 : c = '+'
      · rw [if_pos h2] at h; exact hop _ (fun x hx => by cases hx) _ h
      rw [if_neg h2] at h
      by_cases h3 : c = '-'
      · rw [if_pos h3] at h; exact hop _ (fun x hx => by cases hx) _ h
      rw [if_neg h3] at h
      by_cases h4 : c = '*'
      · rw [if_pos h4] at h; exact hop _ (fun x hx => by cases hx) _ h
      rw [if_neg h4] at h
      by_cases h5 : c = '/'
      · rw [if_pos h5] at h; exact hop _ (fun x hx => by cases hx) _ h
      rw [if_neg h5] at h
      by_cases h6 : c = '('
      · rw [if_pos h6] at h; exact hop _ (fun x hx => by cases hx) _ h
      rw [if_neg h6] at h
      by_cases h7 : c = ')'
      · rw [if_pos h7] at h; exact hop _ (fun x hx => by cases hx) _ h
      rw [if_neg h7] at h
      by_cases h8 : c.isUpper = true
      · rw [if_pos h8] at h
        simp only at h
        by_cases h9 : (List.takeWhile Char.isDigit (List.dropWhile Char.isUpper (c :: cs))).isEmpty
            = true
        · rw [if_pos h9] at h; cases h
        · rw [if_neg h9] at h
          exact hop _ (fun x hx => by cases hx) _ h
      rw [if_neg h8] at h
      by_cases h9 : c.isDigit = true
      · rw [if_pos h9] at h
        simp only at h
        have hwhole : IsNumberLit ((c :: cs).takeWhile Char.isDigit) :=
          ⟨_, takeWhile_digit_cons c cs h9, takeWhile_all _ _, Or.inl rfl⟩
        split at h
        · rename_i rest' heq
          by_cases h10 : (List.takeWhile Char.isDigit rest').isEmpty = true
          · rw [if_pos h10] at h
            exact numbersOK_map n _ _ ts (ih _) (fun x hx => by cases hx; exact hwhole) h
          · rw [if_neg h10] at h
            refine numbersOK_map n _ _ ts (ih _) (fun x hx => ?_) h
            cases hx
            refine ⟨_, takeWhile_digit_cons c cs h9, takeWhile_all _ _, Or.inr ⟨_, ?_,
              takeWhile_all _ _, rfl⟩⟩
            intro hnil
            rw [hnil] at h10
            exact h10 rfl
        · exact numbersOK_map n _ _ ts (ih _) (fun x hx => by cases hx; exact hwhole) h
      · rw [if_neg h9] at h; cases h

/-! ## The claim on the serializer -/

/-- An expression tree that the parser returns is well-formed. -/
theorem ParseFormula_wellFormed (ops : DoubleOps D) (F : Str) (T : Node D)
    (h : ParseFormula ops F = some T) : T.WellFormed ops := by
  unfold ParseFormula at h
  cases hl : lex (F.length + 1) F with
  | none => rw [hl] at h; cases h
  | some ts =>
    rw [hl] at h
    simp only at h
    cases hp : parseMain ts with
    | none => rw [hp] at h; cases h
    | some tree =>
      rw [hp] at h
      simp only [walk_node] at h
      cases hn : tree.node ops with
      | none => rw [hn] at h; cases h
      | some T' =>
        rw [hn] at h
        simp only [Option.map_some', Option.some.injEq] at h
        subst h
        have hts := parseMain_sound ts tree hp
        apply wellFormed_of_node ops tree _ T' hn
        rw [← hts]
        exact lex_numbers _ _ _ hl

/-- The serialization of a well-formed expression tree parses, to a tree with the same
serialization. -/
theorem ParseFormula_GetExpression (ops : DoubleOps D) (T : Node D) (h : T.WellFormed ops) :
    ∃ T', ParseFormula ops T.GetExpression = some T' ∧
      T'.GetExpression = T.GetExpression := by
  have tr := treeOf_toTree ops T h
  obtain ⟨T', hT'⟩ := node_of_leavesOK ops T.toTree tr.leaves
  have hlen := tokens_length_le_text .expr T.toTree tr.grafted.derives
  have hlex : lex (T.toTree.text.length + 1) T.toTree.text = some T.toTree.tokens := by
    have := lex_tree .expr T.toTree tr.grafted.derives []
      (T.toTree.text.length - T.toTree.tokens.length + 1) Boundary.nil
    rw [List.append_nil, lex_nil] at this
    have hn : T.toTree.text.length - T.toTree.tokens.length + 1 + T.toTree.tokens.length
        = T.toTree.text.length + 1 := by omega
    rw [hn] at this
    rw [this]
    simp
  refine ⟨T', ?_, ?_⟩
  · unfold ParseFormula
    rw [← tr.text, hlex]
    simp only [parseMain_tree T.toTree tr.grafted.derives, walk_node, hT', Option.map_some']
  · rw [(node_ser ops T.toTree T' hT').1,
      (canon_ser .expr T.toTree tr.grafted.derives tr.grafted.canon).1 tr.grafted.bare, tr.text]

/-- C7: for every formula source `F` that the parser of the grammar accepts, with expression
tree `T`, the serialization of `T` parses again, and the tree it parses to serializes to the
same string: `GetExpression(parse(GetExpression(T))) = GetExpression(T)`. -/
theorem GetExpression_idempotent (ops : DoubleOps D) (F : Str) (T : Node D)
    (h : ParseFormula ops F = some T) :
    ∃ T', ParseFormula ops T.GetExpression = some T' ∧
      T'.GetExpression = T.GetExpression :=
  ParseFormula_GetExpression ops T (ParseFormula_wellFormed ops F T h)

set_option maxRecDepth 100000 in
theorem parse_example :
    ParseFormula exampleOps "1/-(2*A1)".toList =
      some (.BinaryOp .Division (.Number (some 1) "1".toList)
        (.UnaryOp .UnaryMinus
          (.BinaryOp .Multiplication (.Number (some 2) "2".toList) (.Cell ⟨0, 0⟩)))) := by
  decide

theorem GetExpression_idempotent_witness :
    ∃ T', ParseFormula exampleOps
        (Node.BinaryOp .Division (.Number (some 1) "1".toList)
          (.UnaryOp .UnaryMinus
            (.BinaryOp .Multiplication (.Number (some 2) "2".toList)
              (.Cell ⟨0, 0⟩)))).GetExpression = some T' ∧
      T'.GetExpression =
        (Node.BinaryOp .Division (.Number (some 1) "1".toList)
          (.UnaryOp .UnaryMinus
            (.BinaryOp .Multiplication (.Number (some 2) "2".toList)
              (.Cell ⟨0, 0⟩)))).GetExpression :=
  GetExpression_idempotent exampleOps "1/-(2*A1)".toList _ parse_example

theorem AreParenthesesNeeded_iff (P : BinaryKind) (child : NodeType) (pos : ChildNodePos) :
    AreParenthesesNeeded P.type child pos = true ↔ WrapsChild P child pos := by
  cases P <;> cases child <;> cases pos <;> decide

theorem ExprPrinter_eq (e : Str) (b : Bool) (c : Prop) [Decidable c] (h : b = true ↔ c) :
    ExprPrinter e b = wrapWhen c e := by
  unfold ExprPrinter wrapWhen
  by_cases hc : c
  · rw [if_pos hc, if_pos (h.mpr hc)]; simp
  · rw [if_neg hc, if_neg (fun hb => hc (h.mp hb))]

theorem BinaryKind.binary_symbol_eq (k : BinaryKind) : k.symbol = [k.GetOpSymbol] := by
  cases k <;> rfl

theorem UnaryKind.unary_symbol_eq (k : UnaryKind) : k.symbol = [k.GetOpSymbol] := by
  cases k <;> rfl

set_option maxRecDepth 100000 in
theorem parse_parens_examples :
    (ParseFormula exampleOps "(1+2)*3".toList).map Node.GetExpression = some "(1+2)*3".toList ∧
    (ParseFormula exampleOps "1+(2+3)".toList).map Node.GetExpression = some "1+2+3".toList ∧
    (ParseFormula exampleOps "1-(2-3)".toList).map Node.GetExpression = some "1-(2-3)".toList ∧
    (ParseFormula exampleOps "1/(2*3)".toList).map Node.GetExpression = some "1/(2*3)".toList := by
  refine ⟨?_, ?_, ?_, ?_⟩ <;> decide

/-- C11: for every binary node with operator `P`, `GetExpression` is the expression of the
left child, the symbol of `P`, then the expression of the right child, a child being wrapped
in parentheses exactly in the listed cases (`WrapsChild`). No child of an addition and no
number, cell reference or unary child is wrapped. The trees parsed from `(1+2)*3`, `1+(2+3)`,
`1-(2-3)` and `1/(2*3)` serialize as `(1+2)*3`, `1+2+3`, `1-(2-3)` and `1/(2*3)`. -/
theorem BinaryOp_GetExpression (P : BinaryKind) (left right : Node D) :
    (Node.BinaryOp P left right).GetExpression =
        wrapWhen (WrapsChild P left.type .Left) left.GetExpression ++ P.symbol ++
          wrapWhen (WrapsChild P right.type .Right) right.GetExpression ∧
      (Node.BinaryOp .Addition left right).GetExpression =
        left.GetExpression ++ "+".toList ++ right.GetExpression ∧
      (∀ pos, AreParenthesesNeeded P.type .Number pos = false ∧
        AreParenthesesNeeded P.type .Cell pos = false ∧
        AreParenthesesNeeded P.type .UnaryPlus pos = false ∧
        AreParenthesesNeeded P.type .UnaryMinus pos = false) ∧
      (ParseFormula exampleOps "(1+2)*3".toList).map Node.GetExpression
        = some "(1+2)*3".toList ∧
      (ParseFormula exampleOps "1+(2+3)".toList).map Node.GetExpression
        = some "1+2+3".toList ∧
      (ParseFormula exampleOps "1-(2-3)".toList).map Node.GetExpression
        = some "1-(2-3)".toList ∧
      (ParseFormula exampleOps "1/(2*3)".toList).map Node.GetExpression
        = some "1/(2*3)".toList := by
  refine ⟨?_, ?_, ?_, parse_parens_examples⟩
  · rw [Node.GetExpression,
      ExprPrinter_eq _ _ _ (AreParenthesesNeeded_iff P left.type .Left),
      ExprPrinter_eq _ _ _ (AreParenthesesNeeded_iff P right.type .Right), P.binary_symbol_eq]
    simp
  · rw [Node.GetExpression]
    simp [AreParenthesesNeeded, BinaryKind.type, ExprPrinter, BinaryKind.GetOpSymbol]
  · intro pos
    cases P <;> cases pos <;> decide

/-- C12: for every unary node, `GetExpression` is the operator symbol followed by the
expression of the child, which is wrapped in parentheses if and only if the child is a binary
addition or subtraction; `Unary(-, Unary(-, 1))` serializes as `--1`. -/
theorem UnaryOp_GetExpression (k : UnaryKind) (child : Node D) (value : D) :
    (Node.UnaryOp k child).GetExpression =
        k.symbol ++
          wrapWhen (child.type = .Addition ∨ child.type = .Subtraction) child.GetExpression ∧
      (Node.UnaryOp .UnaryMinus (Node.UnaryOp .UnaryMinus
        (Node.Number value "1".toList))).GetExpression = "--1".toList := by
  constructor
  · rw [Node.GetExpression, ExprPrinter_eq _ _ (child.type = .Addition ∨ child.type = .Subtraction)
      (by cases child.type <;> decide), k.unary_symbol_eq]
    simp
  · rfl

theorem Node.mem_refs (T : Node D) (q : Position) :
    q ∈ T.GetReferencedCells ↔ q ∈ T.cellPositions ∧ q.IsValid = true := by
  induction T with
  | Number v s => simp [Node.GetReferencedCells, Node.cellPositions]
  | Cell p =>
    simp only [Node.GetReferencedCells, Node.cellPositions, List.mem_singleton]
    by_cases hp : p.IsValid = true
    · rw [if_pos hp, List.mem_singleton]
      constructor
      · intro h; exact ⟨h, h ▸ hp⟩
      · exact fun h => h.1
    · rw [if_neg hp]
      constructor
      · intro h; cases h
      · rintro ⟨h1, h2⟩; exact absurd (h1 ▸ h2) hp
  | UnaryOp k n ih => simpa [Node.GetReferencedCells, Node.cellPositions] using ih
  | BinaryOp k l r ihl ihr =>
    simp only [Node.GetReferencedCells, Node.cellPositions, mem_unique, mem_merge,
      List.mem_append, ihl, ihr]
    tauto

/-- C16: for every expression tree `T`, `GetReferencedCells(T)` is strictly increasing in the
lexicographic order on (row, col), and its elements are exactly the valid positions of the
`CellRef` nodes of `T`; the tree of `A1+A1` yields `[A1]` and a reference with an invalid
position contributes nothing. -/
theorem GetReferencedCells_sorted_exact (T : Node D) :
    T.GetReferencedCells.Pairwise
        (fun a b => a.row < b.row ∨ (a.row = b.row ∧ a.col < b.col)) ∧
      (∀ q, q ∈ T.GetReferencedCells ↔ q ∈ T.cellPositions ∧ q.IsValid = true) ∧
      (Node.BinaryOp .Addition (Node.Cell ⟨0, 0⟩) (Node.Cell ⟨0, 0⟩) :
        Node D).GetReferencedCells = [⟨0, 0⟩] ∧
      (Node.BinaryOp .Addition (Node.Cell ⟨-1, -1⟩) (Node.Cell ⟨0, 0⟩) :
        Node D).GetReferencedCells = [⟨0, 0⟩] := by
  refine ⟨?_, T.mem_refs, ?_, ?_⟩
  · exact (T.strictSorted_refs).imp (fun h => (Position.lt_iff _ _).mp h)
  · rfl
  · rfl

/-! ## Evaluation of operator and reference nodes -/

/-- C13: for every binary node and every sheet, if the left child evaluates to an error `e`
the node evaluates to `e` whatever the right child evaluates to, and if the left child
evaluates to a number and the right child to an error `e'` the node evaluates to `e'`; for
every unary node an error of the child is returned unchanged. -/
theorem Evaluate_error_precedence (ops : DoubleOps D)
    (getValue : Sheet D → Position → Res (Sheet D) (CValue D)) (k : BinaryKind) (u : UnaryKind)
    (left right : Node D) (s s1 s2 : Sheet D) (lv rv : FValue D)
    (hl : left.Evaluate ops getValue s = .ok lv s1)
    (hr : right.Evaluate ops getValue s1 = .ok rv s2) :
    (∀ e, lv = .error e →
        (Node.BinaryOp k left right).Evaluate ops getValue s = .ok (.error e) s2) ∧
      (∀ a e', lv = .number a → rv = .error e' →
        (Node.BinaryOp k left right).Evaluate ops getValue s = .ok (.error e') s2) ∧
      (∀ e, lv = .error e →
        (Node.UnaryOp u left).Evaluate ops getValue s = .ok (.error e) s1) := by
  refine ⟨?_, ?_, ?_⟩
  · intro e he
    subst he
    rw [Node.Evaluate, hl]
    simp only [hr]
    cases rv <;> rfl
  · intro a e' ha he
    subst ha; subst he
    rw [Node.Evaluate, hl]
    simp only [hr]
    rfl
  · intro e he
    subst he
    rw [Node.Evaluate, hl]
    rfl

theorem Evaluate_error_precedence_witness :
    (Node.BinaryOp .Addition (Node.Cell ⟨-1, -1⟩)
        (Node.BinaryOp .Division (Node.Number (some 1) "1".toList)
          (Node.Number (some 0) "0".toList))).Evaluate exampleOps (GetValueAt exampleOps 0)
        Sheet.empty = .ok (.error .Ref) Sheet.empty ∧
      (Node.UnaryOp .UnaryMinus (Node.Cell ⟨-1, -1⟩)).Evaluate exampleOps
        (GetValueAt exampleOps 0) Sheet.empty = .ok (.error .Ref) Sheet.empty :=
  have h := Evaluate_error_precedence exampleOps (GetValueAt exampleOps 0) .Addition .UnaryMinus
    (Node.Cell ⟨-1, -1⟩)
    (Node.BinaryOp .Division (Node.Number (some 1) "1".toList) (Node.Number (some 0) "0".toList))
    Sheet.empty Sheet.empty Sheet.empty (.error .Ref) (.error .Div0) (by decide) (by decide)
  ⟨h.1 .Ref rfl, h.2.2 .Ref rfl⟩

/-- C14: for every cell reference node and every sheet, `Evaluate` returns the `Ref` error if
the position of the node is invalid and `0.0` if the position is valid and no cell is stored
there; otherwise it depends on the value `GetValue` returns for the stored cell: a number or an
error is returned as it is, the empty string gives `0.0`, a non-empty string gives the number
`std::stod` reads when it consumes the whole string and the `Value` error when it does not. -/
theorem Cell_Evaluate (ops : DoubleOps D) (fuel : Nat) (s : Sheet D) (p : Position) :
    (p.IsValid = false →
        (Node.Cell p).Evaluate ops (GetValueAt ops fuel) s = .ok (.error .Ref) s) ∧
      (p.IsValid = true → s.GetCellImpl p = some none →
        (Node.Cell p).Evaluate ops (GetValueAt ops fuel) s = .ok (.number ops.zero) s) ∧
      (∀ c v s', p.IsValid = true → s.GetCellImpl p = some (some c) →
        s.GetValue ops fuel p = .ok v s' →
        (∀ d, v = .number d →
          (Node.Cell p).Evaluate ops (GetValueAt ops fuel) s = .ok (.number d) s') ∧
        (∀ e, v = .error e →
          (Node.Cell p).Evaluate ops (GetValueAt ops fuel) s = .ok (.error e) s') ∧
        (v = .text [] →
          (Node.Cell p).Evaluate ops (GetValueAt ops fuel) s = .ok (.number ops.zero) s') ∧
        (∀ t d, v = .text t → t ≠ [] → ops.stod t = some (d, t.length) →
          (Node.Cell p).Evaluate ops (GetValueAt ops fuel) s = .ok (.number d) s') ∧
        (∀ t, v = .text t → t ≠ [] → (∀ d, ops.stod t ≠ some (d, t.length)) →
          (Node.Cell p).Evaluate ops (GetValueAt ops fuel) s = .ok (.error .Value) s')) := by
  refine ⟨?_, ?_, ?_⟩
  · intro hp
    simp [Node.Evaluate, hp]
  · intro hp hs
    have hslot : s.slot p = none := by
      simpa [Sheet.GetCellImpl, hp] using hs
    simp [Node.Evaluate, hp, hslot]
  · intro c v s' hp hs hv
    have hslot : s.slot p = some c := by
      simpa [Sheet.GetCellImpl, hp] using hs
    have hv' : GetValueAt ops fuel s p = .ok v s' := by
      simpa [Sheet.GetValue, hs] using hv
    have hE : (Node.Cell p).Evaluate ops (GetValueAt ops fuel) s
        = .ok (CellEvaluater ops v) s' := by
      simp [Node.Evaluate, hp, hslot, hv']
    rw [hE]
    refine ⟨?_, ?_, ?_, ?_, ?_⟩
    · intro d hd; subst hd; rfl
    · intro e he; subst he; rfl
    · intro ht; subst ht; rfl
    · intro t d ht hne hst
      subst ht
      have : t.isEmpty = false := by cases t with
        | nil => exact absurd rfl hne
        | cons a l => rfl
      simp [CellEvaluater, this, hst]
    · intro t ht hne hst
      subst ht
      have : t.isEmpty = false := by cases t with
        | nil => exact absurd rfl hne
        | cons a l => rfl
      simp only [CellEvaluater, this, Bool.false_eq_true, if_false]
      cases hres : ops.stod t with
      | none => rfl
      | some r =>
        obtain ⟨d, n⟩ := r
        simp only
        by_cases hn : n = t.length
        · subst hn; exact absurd hres (hst d)
        · rw [if_neg hn]

set_option maxRecDepth 100000 in
theorem Cell_Evaluate_witness :
    (Node.Cell ⟨-1, -1⟩).Evaluate exampleOps (GetValueAt exampleOps 2) sheetB2Three
        = .ok (.error .Ref) sheetB2Three ∧
      (Node.Cell ⟨5, 5⟩).Evaluate exampleOps (GetValueAt exampleOps 2) sheetB2Three
        = .ok (.number (some 0)) sheetB2Three ∧
      (Node.Cell ⟨1, 1⟩).Evaluate exampleOps (GetValueAt exampleOps 2) sheetB2Three
        = .ok (.number (some 3))
          ⟨[[some ⟨.Formula ⟨.Cell ⟨1, 1⟩, none, none, some [⟨1, 1⟩]⟩, [], none⟩],
            [none, some ⟨.Text "3".toList, [⟨0, 0⟩], some (.text "3".toList)⟩]]⟩ :=
  ⟨(Cell_Evaluate exampleOps 2 sheetB2Three ⟨-1, -1⟩).1 (by decide),
    (Cell_Evaluate exampleOps 2 sheetB2Three ⟨5, 5⟩).2.1 (by decide) (by decide),
    ((Cell_Evaluate exampleOps 2 sheetB2Three ⟨1, 1⟩).2.2
      ⟨.Text "3".toList, [⟨0, 0⟩], none⟩ (.text "3".toList) _ (by decide) (by decide)
      (by decide)).2.2.2.1 "3".toList (some 3) rfl (by decide) (by decide)⟩

/-! ## Division by zero -/

theorem ParseFormula_one_over_zero (ops : DoubleOps D) (one zero : D) (n1 n0 : Nat)
    (h1 : ops.stod "1".toList = some (one, n1)) (hf1 : ops.isfinite one = true)
    (h0 : ops.stod "0".toList = some (zero, n0)) (hf0 : ops.isfinite zero = true) :
    ParseFormula ops "1/0".toList
      = some (.BinaryOp .Division (.Number one "1".toList) (.Number zero "0".toList)) := by
  have hlex : lex ("1/0".toList.length + 1) "1/0".toList
      = some [.NUMBER "1".toList, .DIV, .NUMBER "0".toList] := by decide
  have hparse : parseMain [.NUMBER "1".toList, .DIV, .NUMBER "0".toList]
      = some (.BinaryOp .DIV (.Literal "1".toList) (.Literal "0".toList)) := by decide
  unfold ParseFormula
  rw [hlex]
  simp only [hparse]
  have h1' : ops.stod ['1'] = some (one, n1) := h1
  have h0' : ops.stod ['0'] = some (zero, n0) := h0
  simp [walk, exitLiteral, exitBinaryOp, h1', h0', hf1, hf0]

theorem Sheet.installed_self (sI : Sheet D) (R N : List Position) (pos : Position)
    (newc : Cell D) : sI.installed R N pos newc pos = some newc := by
  simp [Sheet.installed]

/-- A cell set to a formula without references holds the parsed tree and evaluates to the
value of the tree. -/
theorem SetCell_constant_value (env : Env D) (s : Sheet D) (hs : ReachableWithValues env s)
    (pos : Position) (hpos : pos.IsValid = true) (text : Str) (node : Node D)
    (htext : IsTextCell text = false) (hparse : env.ParseFormula (text.drop 1) = some node)
    (hrefs : node.GetReferencedCells = []) (hnew : ¬ s.HoldsText pos text) (fv : FValue D)
    (hval : ∀ stored value, node.scratch env.ops stored value = some fv) :
    ∃ N, ∀ fuel, N ≤ fuel → ∃ s' s'', s.SetCell env fuel pos text = .ok () s' ∧
      s'.GetValue env.ops fuel pos = .ok fv.toCValue s'' := by
  obtain ⟨hwf, hV⟩ := hs.invariant
  obtain ⟨N1, hN1⟩ := Sheet.SetCell_spec env s hwf.fresh hwf.inv pos hpos text
  have hcont : env.content text = some (.Formula node) := by
    unfold Env.content
    rw [if_neg (by rw [htext]; simp), hparse]
    rfl
  have hncyc : ¬ s.graph.Cyclic pos (Content.Formula node).refs := by
    rintro ⟨r, hr, _⟩
    simp [Content.refs, hrefs] at hr
  obtain ⟨sI, s', hset, _, _, hcells⟩ := (hN1 N1 le_rfl).done hnew _ hcont hncyc
  have hs' : ReachableWithValues env s' := ReachableWithValues.setCell N1 pos text hs hset
  obtain ⟨hwf', hV'⟩ := hs'.invariant
  have hc : s'.cells pos = some ((Content.Formula node).toCell (s.graph.incomingAt pos)) := by
    rw [hcells]; exact Sheet.installed_self _ _ _ _ _
  obtain ⟨N2, hN2⟩ := Sheet.GetValue_spec env.ops s' hwf' hV' pos _ hc
  refine ⟨max N1 N2, fun fuel hf => ?_⟩
  have hmono := Sheet.SetCell_mono env N1 fuel (le_trans (le_max_left _ _) hf) s pos text
  have hset' : s.SetCell env fuel pos text = .ok () s' := by
    rw [hmono.eq_of_ne (by rw [hset]; simp), hset]
  obtain ⟨v, s'', hg, _, _, n, hn⟩ := hN2 fuel (le_trans (le_max_right _ _) hf)
  refine ⟨s', s'', hset', ?_⟩
  rw [hg]
  cases n with
  | zero => simp [Sheet.scratch] at hn
  | succ n =>
    rw [Sheet.scratch, hc] at hn
    simp only [Content.toCell, hval, Option.map_some', Option.some.injEq] at hn
    rw [hn]

theorem exampleOps_div_zero (x : Option Int) :
    exampleOps.isfinite (exampleOps.div x exampleOps.zero) = false := by
  cases x <;> rfl

/-- The value `Cell::GetValue` computes for a text. -/
theorem text_value (u : Str) :
    u.drop (if !u.isEmpty && u.head? == some kEscapeSign then 1 else 0)
      = if u.head? = some kEscapeSign then u.drop 1 else u := by
  cases u with
  | nil => simp
  | cons a l =>
    by_cases h : a = kEscapeSign
    · simp [h]
    · simp [h]

/-- In a reachable sheet `GetValue` on a text cell returns the text without its escape sign. -/
theorem GetValue_text (env : Env D) (s : Sheet D) (hs : ReachableWithValues env s)
    (fuel : Nat) (p : Position) (c : Cell D) (hc : s.cells p = some c) (u : Str)
    (hd : c.data_ = .Text u) :
    ∃ s', s.GetValue env.ops (fuel + 1) p
      = .ok (.text (if u.head? = some kEscapeSign then u.drop 1 else u)) s' := by
  obtain ⟨_, hV⟩ := hs.invariant
  have hp : p.IsValid = true := by
    by_contra hp
    simp [Sheet.cells, hp] at hc
  have hslot : s.slot p = some c := by rw [← Sheet.cells_eq_slot hp]; exact hc
  unfold Sheet.GetValue
  rw [(Sheet.GetCellImpl_iff s p c).mpr hc]
  simp only
  rw [GetValueAt, hslot]
  simp only
  cases hv : c.value_cache_ with
  | some v =>
    obtain ⟨n, hn⟩ := hV.value p c v hc hv
    cases n with
    | zero => simp [Sheet.scratch] at hn
    | succ n =>
      rw [Sheet.scratch, hc] at hn
      simp only [hd, Option.some.injEq] at hn
      rw [text_value] at hn
      exact ⟨s, by rw [← hn]⟩
  | none =>
    simp only [hd]
    rw [text_value]
    exact ⟨_, rfl⟩

/-- C17: for every text `t` that begins with the escape sign, the constructor builds a text
cell without calling the parser, also when the second character is the formula sign; `GetText`
of that cell returns `t` and `GetValue` returns `t` without its first character. For every text
cell of a reachable sheet, `GetText` returns the text, and `GetValue` returns it without its
first character if it begins with the escape sign and unchanged if it does not. -/
theorem escape_sign_text (env : Env D) (fuel : Nat) (s0 : Sheet D) (pos : Position) (t : Str)
    (has_incoming_refs : Bool) (ht : t.head? = some kEscapeSign)
    (s : Sheet D) (hs : ReachableWithValues env s) (p : Position) (c : Cell D)
    (hc : s.cells p = some c) (u : Str) (hd : c.data_ = .Text u) :
    Cell.create env fuel s0 pos t has_incoming_refs = .ok ⟨.Text t, [], none⟩ s0 ∧
      (⟨.Text t, [], none⟩ : Cell D).GetText.1 = t ∧
      (∀ (s1 : Sheet D) (self : Position) (incoming : List Position),
        s1.slot self = some ⟨.Text t, incoming, none⟩ →
        GetValueAt env.ops (fuel + 1) s1 self = .ok (.text (t.drop 1))
          (s1.setCell self ⟨.Text t, incoming, some (.text (t.drop 1))⟩)) ∧
      c.GetText.1 = u ∧
      (u.head? = some kEscapeSign →
        ∃ s', s.GetValue env.ops (fuel + 1) p = .ok (.text (u.drop 1)) s') ∧
      (u.head? ≠ some kEscapeSign →
        ∃ s', s.GetValue env.ops (fuel + 1) p = .ok (.text u) s') := by
  have hG := GetValue_text env s hs fuel p c hc u hd
  refine ⟨?_, rfl, ?_, ?_, ?_, ?_⟩
  · unfold Cell.create
    rw [if_pos (by simp [ht])]
    rfl
  · intro s1 self incoming hslot
    rw [GetValueAt, hslot]
    simp only
    rw [text_value, if_pos ht]
  · unfold Cell.GetText
    rw [hd]
  · intro hu
    rw [if_pos hu] at hG
    exact hG
  · intro hu
    rw [if_neg hu] at hG
    exact hG

set_option maxRecDepth 100000 in
theorem sheetEscaped_setCell :
    Sheet.empty.SetCell exampleEnv 4 ⟨0, 0⟩ (kEscapeSign :: "=A1".toList)
      = .ok () sheetEscaped := by decide

theorem escape_sign_text_witness :
    Cell.create exampleEnv 4 Sheet.empty ⟨0, 0⟩ (kEscapeSign :: "=A1".toList) false
        = .ok ⟨.Text (kEscapeSign :: "=A1".toList), [], none⟩ Sheet.empty ∧
      ∃ s', sheetEscaped.GetValue exampleOps 5 ⟨0, 0⟩ = .ok (.text "=A1".toList) s' :=
  have h := escape_sign_text exampleEnv 4 Sheet.empty ⟨0, 0⟩ (kEscapeSign :: "=A1".toList) false
    rfl sheetEscaped (.setCell 4 ⟨0, 0⟩ _ .empty sheetEscaped_setCell) ⟨0, 0⟩
    ⟨.Text (kEscapeSign :: "=A1".toList), [], none⟩ (by decide) (kEscapeSign :: "=A1".toList) rfl
  ⟨h.1, h.2.2.2.2.1 rfl⟩

/-! ## The effect of `ClearCell` -/

theorem Sheet.GetCellImpl_none_iff (s : Sheet D) (p : Position) (hp : p.IsValid = true) :
    s.GetCellImpl p = some none ↔ s.cells p = none := by
  unfold Sheet.GetCellImpl Sheet.cells
  simp [hp]

/-- A slot whose caches may have been cleared holds a cell with the same content and the
same incoming references. -/
theorem Cleared.of_some {a : Cell D} {o : Option (Cell D)} (h : Cleared (some a) o) :
    ∃ b, o = some b ∧ b.incoming_refs_ = a.incoming_refs_ ∧
      b.data_.content = a.data_.content ∧ b.Empty = a.Empty := by
  rcases h with h | ⟨c, hc, h⟩
  · exact ⟨a, h, rfl, rfl, rfl⟩
  · cases hc
    refine ⟨a.invalidate, h, rfl, ?_, ?_⟩
    · obtain ⟨d, i, v⟩ := a
      cases d <;> rfl
    · obtain ⟨d, i, v⟩ := a
      cases d <;> rfl

theorem Cleared.of_none {o : Option (Cell D)} (h : Cleared none o) : o = none := by
  rcases h with h | ⟨c, hc, _⟩
  · exact h
  · cases hc

/-- The stored cells after `ClearCell` on a valid position, up to cleared caches. -/
theorem ClearCell_cells (s : Sheet D) (hwf : s.WF) (pos : Position)
    (hpos : pos.IsValid = true) :
    ∃ N, ∀ fuel, N ≤ fuel → ∃ s', s.ClearCell fuel pos = .ok () s' ∧
      (s.cells pos = none → s' = s) ∧
      ∀ c, s.cells pos = some c →
        (∀ x, x ∈ c.refs → Cleared ((s.cells x).bind (Cell.afterRemove pos)) (s'.cells x)) ∧
        (∀ x, x ≠ pos → x ∉ c.refs → Cleared (s.cells x) (s'.cells x)) ∧
        (c.incoming_refs_ ≠ [] →
          Cleared (some c.GetReferencedCells.2.emptied) (s'.cells pos)) ∧
        (c.incoming_refs_ = [] → s'.cells pos = none) := by
  obtain ⟨N, hN⟩ := s.ClearCell_spec hwf pos hpos
  refine ⟨N, fun fuel hf => ?_⟩
  have hO := hN fuel hf
  cases hc : s.cells pos with
  | none =>
    exact ⟨s, hO.absent hc, fun _ => rfl, fun c h => (by cases h)⟩
  | some c =>
    have hR : s.graph.refsAt pos = c.refs := Sheet.graph_refs hc
    have hself : pos ∉ c.refs := by
      rw [← hR]; exact hwf.inv.not_self_ref pos
    by_cases hin : c.incoming_refs_ = []
    · obtain ⟨s', hs', hcells⟩ := hO.removed c hc hin
      refine ⟨s', hs', fun h => (by cases h), fun c' hc' => ?_⟩
      cases hc'
      refine ⟨?_, ?_, fun h => absurd hin h, ?_⟩
      · intro x hx
        have hxp : x ≠ pos := fun h => hself (h ▸ hx)
        rw [hcells, Function.update_noteq hxp, hR]
        simp only [Sheet.installed, if_neg hxp, List.not_mem_nil, if_false, if_pos hx]
        exact Or.inl rfl
      · intro x hxp hx
        rw [hcells, Function.update_noteq hxp, hR]
        simp only [Sheet.installed, if_neg hxp, List.not_mem_nil, if_false, if_neg hx]
        exact Or.inl rfl
      · intro _
        rw [hcells, Function.update_same]
    · obtain ⟨s3, s', hs', hcells, hcl, _, _⟩ := hO.kept c hc hin
      refine ⟨s', hs', fun h => (by cases h), fun c' hc' => ?_⟩
      cases hc'
      refine ⟨?_, ?_, ?_, fun h => absurd h hin⟩
      · intro x hx
        have hxp : x ≠ pos := fun h => hself (h ▸ hx)
        have := hcl x
        rw [hcells, hR] at this
        simpa only [Sheet.installed, if_neg hxp, List.not_mem_nil, if_false, if_pos hx]
          using this
      · intro x hxp hx
        have := hcl x
        rw [hcells, hR] at this
        simpa only [Sheet.installed, if_neg hxp, List.not_mem_nil, if_false, if_neg hx]
          using this
      · intro _
        have := hcl pos
        rw [hcells, Sheet.installed_self] at this
        exact this

theorem Cell.afterRemove_eq (p : Position) (d : Cell D) (hs : StrictSorted d.incoming_refs_)
    (hm : p ∈ d.incoming_refs_) :
    Cell.afterRemove p d =
      if d.Empty = true ∧ d.incoming_refs_.erase p = [] then none
      else some { d with incoming_refs_ := d.incoming_refs_.erase p } := by
  have hr : (d.RemoveIncomingRef p) = { d with incoming_refs_ := d.incoming_refs_.erase p } := by
    unfold Cell.RemoveIncomingRef
    rw [removeIncomingRef_of_mem _ _ hs hm]
  unfold Cell.afterRemove
  rw [hr]
  have he : ({ d with incoming_refs_ := d.incoming_refs_.erase p } : Cell D).Empty = d.Empty := rfl
  rw [he]
  by_cases h1 : d.Empty = true
  · cases hl : d.incoming_refs_.erase p with
    | nil => simp [h1, Cell.HasIncomingRefs, hl]
    | cons a l => simp [h1, Cell.HasIncomingRefs, hl]
  · simp [h1]

/-- C18: on a sheet that satisfies the sheet invariants, for every valid position `p`,
`ClearCell(p)` returns. If no cell is stored at `p` the sheet is unchanged. Otherwise `p` has
been removed from the incoming references of every cell the old cell referenced, each such
cell that is empty text and is left without incoming references has been removed, and
`GetCell(p)` is an empty text cell with the incoming references of the old cell if there
were any, and null if there were none. -/
theorem ClearCell_effect (s : Sheet D) (hwf : s.WF) (p : Position) (hp : p.IsValid = true) :
    ∃ N, ∀ fuel, N ≤ fuel → ∃ s', s.ClearCell fuel p = .ok () s' ∧
      (s.GetCellImpl p = some none → s' = s) ∧
      ∀ c, s.GetCellImpl p = some (some c) →
        (∀ q ∈ c.GetReferencedCells.1, ∃ d, s.GetCellImpl q = some (some d) ∧
          (d.Empty = true ∧ d.incoming_refs_.erase p = [] → s'.GetCellImpl q = some none) ∧
          (¬ (d.Empty = true ∧ d.incoming_refs_.erase p = []) →
            ∃ d', s'.GetCellImpl q = some (some d') ∧
              d'.incoming_refs_ = d.incoming_refs_.erase p ∧ p ∉ d'.incoming_refs_ ∧
              d'.data_.content = d.data_.content)) ∧
        (c.HasIncomingRefs = true →
          ∃ c', s'.GetCellImpl p = some (some c') ∧ c'.data_ = .Text [] ∧
            c'.incoming_refs_ = c.incoming_refs_) ∧
        (c.HasIncomingRefs = false → s'.GetCellImpl p = some none) := by
  obtain ⟨N, hN⟩ := ClearCell_cells s hwf p hp
  refine ⟨N, fun fuel hf => ?_⟩
  obtain ⟨s', hs', habs, hcell⟩ := hN fuel hf
  refine ⟨s', hs', fun h => habs ((s.GetCellImpl_none_iff p hp).mp h), fun c hc => ?_⟩
  rw [Sheet.GetCellImpl_iff] at hc
  obtain ⟨hrefs, _, hkept, hrem⟩ := hcell c hc
  have hfr := (c.GetReferencedCells_fresh (hwf.fresh p c hc)).1
  refine ⟨?_, ?_, ?_⟩
  · intro q hq
    rw [hfr] at hq
    obtain ⟨dg, hdg, hpin⟩ := hwf.inv.forward p c.g q (Sheet.graph_of_cells hc) hq
    obtain ⟨d, hd, hdg'⟩ := Sheet.cells_of_graph hdg
    have hsorted : StrictSorted d.incoming_refs_ := by
      have := hwf.inv.sorted q dg hdg
      rw [← hdg'] at this
      exact this
    have hpin' : p ∈ d.incoming_refs_ := by
      rw [← hdg'] at hpin
      exact hpin
    have hq' : q.IsValid = true := by
      by_contra hq'
      simp [Sheet.cells, hq'] at hd
    have hcl := hrefs q hq
    rw [hd, Option.some_bind, Cell.afterRemove_eq p d hsorted hpin'] at hcl
    refine ⟨d, (s.GetCellImpl_iff q d).mpr hd, ?_, ?_⟩
    · intro h
      rw [if_pos h] at hcl
      exact (s'.GetCellImpl_none_iff q hq').mpr hcl.of_none
    · intro h
      rw [if_neg h] at hcl
      obtain ⟨b, hb, hbi, hbc, _⟩ := hcl.of_some
      refine ⟨b, (s'.GetCellImpl_iff q b).mpr hb, hbi, ?_, hbc⟩
      rw [hbi]
      intro hmem
      exact ((hsorted.mem_erase p p).mp hmem).2 rfl
  · intro hin
    have hne : c.incoming_refs_ ≠ [] := by
      intro h
      simp [Cell.HasIncomingRefs, h] at hin
    obtain ⟨b, hb, hbi, hbc, _⟩ := (hkept hne).of_some
    refine ⟨b, (s'.GetCellImpl_iff p b).mpr hb, ?_, ?_⟩
    · have hbc' : b.data_.content = Content.Text [] := hbc
      cases hbd : b.data_ with
      | Text t =>
        rw [hbd] at hbc'
        simp only [CellData.content, Content.Text.injEq] at hbc'
        rw [hbc']
      | Formula f =>
        rw [hbd] at hbc'
        simp [CellData.content] at hbc'
    · rw [hbi]
      obtain ⟨d, i, v⟩ := c
      cases d <;> rfl
  · intro hin
    have he : c.incoming_refs_ = [] := by
      cases hl : c.incoming_refs_ with
      | nil => rfl
      | cons a l => simp [Cell.HasIncomingRefs, hl] at hin
    exact (s'.GetCellImpl_none_iff p hp).mpr (hrem he)

set_option maxRecDepth 100000 in
theorem sheetA1_clearCell : sheetA1.ClearCell 4 ⟨0, 0⟩ = .ok () Sheet.empty := by decide

theorem ClearCell_effect_witness :
    ∃ N, ∀ fuel, N ≤ fuel → ∃ s', sheetA1.ClearCell fuel ⟨0, 0⟩ = .ok () s' ∧
      (sheetA1.GetCellImpl ⟨0, 0⟩ = some none → s' = sheetA1) ∧
      ∀ c, sheetA1.GetCellImpl ⟨0, 0⟩ = some (some c) →
        (∀ q ∈ c.GetReferencedCells.1, ∃ d, sheetA1.GetCellImpl q = some (some d) ∧
          (d.Empty = true ∧ d.incoming_refs_.erase ⟨0, 0⟩ = [] →
            s'.GetCellImpl q = some none) ∧
          (¬ (d.Empty = true ∧ d.incoming_refs_.erase ⟨0, 0⟩ = []) →
            ∃ d', s'.GetCellImpl q = some (some d') ∧
              d'.incoming_refs_ = d.incoming_refs_.erase ⟨0, 0⟩ ∧
              (⟨0, 0⟩ : Position) ∉ d'.incoming_refs_ ∧
              d'.data_.content = d.data_.content)) ∧
        (c.HasIncomingRefs = true →
          ∃ c', s'.GetCellImpl ⟨0, 0⟩ = some (some c') ∧ c'.data_ = .Text [] ∧
            c'.incoming_refs_ = c.incoming_refs_) ∧
        (c.HasIncomingRefs = false → s'.GetCellImpl ⟨0, 0⟩ = some none) :=
  ClearCell_effect sheetA1 sheetA1_reachable.reachable_wf ⟨0, 0⟩ (by decide)

/-! ## The table after an insertion -/

theorem mapOption_length {α β : Type} (f : α → Option β) :
    ∀ (l : List α) (l' : List β), mapOption f l = some l' → l'.length = l.length := by
  intro l
  induction l with
  | nil => intro l' h; simp only [mapOption, Option.some.injEq] at h; rw [← h]; rfl
  | cons x xs ih =>
    intro l' h
    simp only [mapOption] at h
    cases hx : f x with
    | none => rw [hx] at h; cases h
    | some y =>
      cases hxs : mapOption f xs with
      | none => rw [hx, hxs] at h; cases h
      | some ys =>
        rw [hx, hxs] at h
        simp only [Option.some.injEq] at h
        rw [← h, List.length_cons, List.length_cons, ih ys hxs]

theorem mapOption_getElem? {α β : Type} (f : α → Option β) :
    ∀ (l : List α) (l' : List β), mapOption f l = some l' →
      ∀ i : Nat, l'[i]? = (l[i]?).bind f := by
  intro l
  induction l with
  | nil => intro l' h i; simp only [mapOption, Option.some.injEq] at h; rw [← h]; simp
  | cons x xs ih =>
    intro l' h i
    simp only [mapOption] at h
    cases hx : f x with
    | none => rw [hx] at h; cases h
    | some y =>
      cases hxs : mapOption f xs with
      | none => rw [hx, hxs] at h; cases h
      | some ys =>
        rw [hx, hxs] at h
        simp only [Option.some.injEq] at h
        rw [← h]
        cases i with
        | zero => simp [hx]
        | succ i => simpa using ih ys hxs i

theorem resize_grow {α : Type} (l : List α) (k : Nat) (fill : α) :
    resize l (l.length + k) fill = l ++ List.replicate k fill := by
  unfold resize
  rw [List.take_of_length_le (Nat.le_add_right _ _), Nat.add_sub_cancel_left]

theorem rotate_inserted {α : Type} (l : List α) (k b : Nat) (fill : α) (hb : b ≤ l.length) :
    rotate (l ++ List.replicate k fill) b ((l ++ List.replicate k fill).length - k)
      = l.take b ++ List.replicate k fill ++ l.drop b := by
  unfold rotate
  have hlen : (l ++ List.replicate k fill).length - k = l.length := by
    rw [List.length_append, List.length_replicate, Nat.add_sub_cancel]
  rw [hlen, List.take_append_of_le_length hb, List.drop_left, List.take_left]

theorem to_size_t_nonneg (x : Int) (h0 : 0 ≤ x) (h1 : x < 2 ^ 63) : to_size_t x = x.toNat := by
  unfold to_size_t
  rw [kSizeMod_eq]
  rw [Int.emod_eq_of_lt h0 (by omega)]

/-- The insertion proper: when the call passes the size test with rows to insert in the
middle and no handler overflows, the handled rows from `before` on move down by `count`
and empty rows take their place. -/
theorem InsertRows_middle (s : Sheet D) (before count : Int) (hb : 0 ≤ before)
    (hmid : before.toNat < s.table_.length) (hc : 0 < count) (hsum : before + count < 2 ^ 31)
    (hsize : s.table_.length < 2 ^ 63)
    (hnew : static_cast_int (s.table_.length + count.toNat) ≤ (kMaxRows : Int))
    (T : List (List (Option (Cell D))))
    (hT : mapOption (handleRow .Row before count) s.table_ = some T) :
    s.InsertRows before count
      = .ok () ⟨T.take before.toNat ++ List.replicate count.toNat [] ++ T.drop before.toNat⟩ := by
  have hbs : to_size_t before = before.toNat := to_size_t_nonneg before hb (by omega)
  have hcs : to_size_t count = count.toNat := to_size_t_nonneg count (by omega) (by omega)
  have hadd : int_add before count = some (before + count) := by
    unfold int_add
    rw [if_pos ⟨by omega, hsum⟩]
  have hTlen : T.length = s.table_.length := mapOption_length _ _ _ hT
  have hmod : (s.table_.length + count.toNat) % kSizeMod = s.table_.length + count.toNat := by
    rw [kSizeMod_eq]
    exact Nat.mod_eq_of_lt (by omega)
  unfold Sheet.InsertRows
  simp only [hadd, hbs, hcs, decide_eq_true hmid, if_true, if_false, Nat.mul_one, Int.mul_zero]
  have hz : to_size_t 0 = 0 := by decide
  rw [hz, Nat.add_zero, hmod, hmod, if_neg (by omega)]
  have hne : (count != 0) = true := by
    simp only [bne_iff_ne, ne_eq]
    omega
  simp only [hne, Bool.and_self, if_true, if_neg (by omega : ¬ count < 0), hT]
  have hmod' : (T.length + count.toNat) % kSizeMod = T.length + count.toNat := by
    rw [hTlen]; exact hmod
  rw [hmod', resize_grow, rotate_inserted _ _ _ _ (by omega)]

theorem sheetA1_insertRows_wraps :
    sheetA1.InsertRows 0 2147483647 = .ok () sheetA1Moved := by
  have h := InsertRows_middle sheetA1 0 2147483647 (by decide) (by decide) (by decide)
    (by decide) (by decide) (by decide) [[some cellA1Moved, some cellB1Moved]] (by decide)
  rw [h]
  rfl

/-! ## The size test of `InsertRows` -/

theorem static_cast_int_fits (x : Nat) (h : x < 2 ^ 31) : static_cast_int x = x := by
  unfold static_cast_int
  have : x % 2 ^ 32 = x := Nat.mod_eq_of_lt (by omega)
  rw [this, if_pos h]

/-- When no sum of the size test leaves the range of `int`, the test is the one of the
specification: an insertion that would put the last stored row at `kMaxRows` or beyond throws
`TableTooBig` and leaves the sheet as it is. -/
theorem InsertRows_TableTooBig_of_fits (s : Sheet D) (before count : Int) (hb : 0 ≤ before)
    (hc : 0 ≤ count) (hrows : 1 ≤ s.table_.length)
    (hbig : ((s.table_.length : Int) - 1) + count ≥ (kMaxRows : Int))
    (hfit : (s.table_.length : Int) + count < 2 ^ 31) (hfit' : before + count < 2 ^ 31) :
    s.InsertRows before count = .raise .TableTooBig s := by
  have hbs : to_size_t before = before.toNat := to_size_t_nonneg before hb (by omega)
  have hcs : to_size_t count = count.toNat := to_size_t_nonneg count hc (by omega)
  have hadd : int_add before count = some (before + count) := by
    unfold int_add
    rw [if_pos ⟨by omega, hfit'⟩]
  have hz : to_size_t 0 = 0 := by decide
  unfold Sheet.InsertRows
  simp only [hadd, hbs, hcs]
  by_cases hmid : s.table_.length > before.toNat
  · simp only [decide_eq_true hmid, if_true, if_false, Nat.mul_one, Int.mul_zero, hz,
      Nat.add_zero]
    have hmod : (s.table_.length + count.toNat) % kSizeMod = s.table_.length + count.toNat := by
      rw [kSizeMod_eq]
      exact Nat.mod_eq_of_lt (by omega)
    rw [hmod, hmod, static_cast_int_fits _ (by omega), if_pos]
    rw [kMaxRows_eq] at *
    omega
  · simp only [decide_eq_false hmid, if_true, if_false, Nat.mul_zero, Int.mul_one,
      Nat.zero_add, Bool.false_eq_true]
    have hs : to_size_t (before + count) = (before + count).toNat :=
      to_size_t_nonneg _ (by omega) (by omega)
    have hmod : (before + count).toNat % kSizeMod = (before + count).toNat := by
      rw [kSizeMod_eq]
      exact Nat.mod_eq_of_lt (by omega)
    rw [hs, hmod, static_cast_int_fits _ (by omega), if_pos]
    rw [kMaxRows_eq] at *
    omega

theorem sheetA1Moved_ne : sheetA1Moved ≠ sheetA1 := by
  intro h
  have h1 : sheetA1Moved.table_.length = 2147483647 + 1 := by
    unfold sheetA1Moved
    rw [List.length_append, List.length_replicate]
    rfl
  rw [h] at h1
  exact absurd h1 (by decide)

/-- C19, evaluated where the code departs from it: the sheet after `SetCell(A1, "=B1")` has one
stored row, of index 0, and `0 + 2147483647 ≥ kMaxRows`; yet `InsertRows(0, 2147483647)` does
not throw `TableTooBig`, because the `int new_rows` it compares with `kMaxRows` has wrapped
to `-2147483648`. The call returns and the sheet is not the one of before. -/
theorem InsertRows_wraps_no_TableTooBig :
    sheetA1.table_.length = 1 ∧
      ((sheetA1.table_.length : Int) - 1) + 2147483647 ≥ (kMaxRows : Int) ∧
      static_cast_int (sheetA1.table_.length + 2147483647) = -2147483648 ∧
      sheetA1.InsertRows 0 2147483647 = .ok () sheetA1Moved ∧
      (∀ s', sheetA1.InsertRows 0 2147483647 ≠ .raise .TableTooBig s') ∧
      sheetA1Moved ≠ sheetA1 := by
  refine ⟨rfl, by decide, by decide, sheetA1_insertRows_wraps, ?_, sheetA1Moved_ne⟩
  intro s' h
  rw [sheetA1_insertRows_wraps] at h
  cases h

theorem sheetA1Moved_slot (col : Nat) :
    sheetA1Moved.slot ⟨2147483647, col⟩
      = ([some cellA1Moved, some cellB1Moved][col]?).getD none := by
  unfold Sheet.slot sheetA1Moved
  have h : (2147483647 : Int).toNat = (List.replicate 2147483647
      ([] : List (Option (Cell (Option Int))))).length := by
    rw [List.length_replicate]; rfl
  simp only [h, List.getElem?_append_right (Nat.le_refl _), Nat.sub_self]
  rfl

/-- C20, evaluated where the code departs from it: on the sheet after `SetCell(A1, "=B1")`
the call `InsertRows(0, 2147483647)` returns normally (the size test has wrapped, as for C19).
The cells of row 0 are then in row 2147483647 of the table, where `GetCell` throws
`InvalidPosition`; the reference of the formula has become an invalid position, so the formula
reads `=#REF!` and lists no referenced cell, while the cell it referred to still lists it
as an incoming reference. -/
theorem InsertRows_wraps_breaks_references :
    sheetA1.WF ∧
      sheetA1.InsertRows 0 2147483647 = .ok () sheetA1Moved ∧
      sheetA1Moved.slot ⟨2147483647, 0⟩ = some cellA1Moved ∧
      sheetA1Moved.slot ⟨2147483647, 1⟩ = some cellB1Moved ∧
      sheetA1Moved.GetCell ⟨2147483647, 0⟩ = .raise .InvalidPosition sheetA1Moved ∧
      cellA1Moved.GetText.1 = "=#REF!".toList ∧
      cellA1Moved.GetReferencedCells.1 = [] ∧
      cellB1Moved.incoming_refs_ = [⟨2147483647, 0⟩] := by
  refine ⟨sheetA1_reachable.reachable_wf, sheetA1_insertRows_wraps, sheetA1Moved_slot 0,
    sheetA1Moved_slot 1, ?_, by decide, by decide, rfl⟩
  unfold Sheet.GetCell Sheet.GetCellImpl
  rw [if_pos (by decide)]

theorem int_add_fits (a b : Int) (h1 : -2 ^ 31 ≤ a + b) (h2 : a + b < 2 ^ 31) :
    int_add a b = some (a + b) := by
  unfold int_add
  rw [if_pos ⟨h1, h2⟩]

theorem Position.dim_bounds {p : Position} (h : p.IsValid = true) (dim : Axis) :
    0 ≤ p.dim dim ∧ p.dim dim < 16384 := by
  rw [IsValid_iff, kMaxRows_eq, kMaxCols_eq] at h
  cases dim
  · exact ⟨h.1, by simpa [Position.dim] using h.2.1⟩
  · exact ⟨h.2.2.1, by simpa [Position.dim] using h.2.2.2⟩

theorem HandleInsertedImpl_eq (p : Position) (dim : Axis) (before count : Int)
    (hc : 0 ≤ count) (hcount : count ≤ 2 ^ 30) :
    ∃ r, HandleInsertedImpl p dim before count
        = some (if p.IsValid then p.shifted dim before count else p, r) ∧
      (r = .NothingChanged → (if p.IsValid then p.shifted dim before count else p) = p) ∧
      r ≠ .ReferencesChanged := by
  unfold HandleInsertedImpl Position.shifted
  by_cases hv : p.IsValid = true
  · obtain ⟨h0, h1⟩ := Position.dim_bounds hv dim
    by_cases hge : p.dim dim ≥ before
    · refine ⟨.ReferencesRenamedOnly, ?_, fun h => (by cases h), by decide⟩
      simp only [hv, decide_eq_true hge, Bool.and_self, if_true, if_pos hge]
      rw [int_add_fits _ _ (by omega) (by omega)]
      rfl
    · refine ⟨.NothingChanged, ?_, fun _ => (by simp [hv, hge]), by decide⟩
      simp [hv, hge]
  · refine ⟨.NothingChanged, ?_, fun _ => (by simp [hv]), by decide⟩
    simp [hv]

theorem HandlingResult.max_nothing {a b : HandlingResult} (h : a.max b = .NothingChanged) :
    a = .NothingChanged ∧ b = .NothingChanged := by
  cases a <;> cases b <;> simp [HandlingResult.max] at h ⊢

theorem HandlingResult.max_changed {a b : HandlingResult} (ha : a ≠ .ReferencesChanged)
    (hb : b ≠ .ReferencesChanged) : a.max b ≠ .ReferencesChanged := by
  cases a <;> cases b <;> simp [HandlingResult.max] at ha hb ⊢

theorem Node.HandleInserted_node (n : Node D) (dim : Axis) (before count : Int)
    (hc : 0 ≤ count) (hcount : count ≤ 2 ^ 30) :
    ∃ r, n.HandleInserted dim before count = some (n.shifted dim before count, r) ∧
      (r = .NothingChanged → n.shifted dim before count = n) ∧ r ≠ .ReferencesChanged := by
  induction n with
  | Number v s => exact ⟨.NothingChanged, rfl, fun _ => rfl, by decide⟩
  | Cell p =>
    obtain ⟨r, h1, h2, h3⟩ := HandleInsertedImpl_eq p dim before count hc hcount
    refine ⟨r, ?_, ?_, h3⟩
    · simp only [Node.HandleInserted, h1, Option.map_some', Node.shifted]
    · intro hr
      simp only [Node.shifted]
      rw [h2 hr]
  | UnaryOp k n ih =>
    obtain ⟨r, h1, h2, h3⟩ := ih
    refine ⟨r, ?_, ?_, h3⟩
    · simp only [Node.HandleInserted, h1, Option.map_some', Node.shifted]
    · intro hr
      simp only [Node.shifted]
      rw [h2 hr]
  | BinaryOp k l r ihl ihr =>
    obtain ⟨a, h1, h2, h3⟩ := ihl
    obtain ⟨b, h1', h2', h3'⟩ := ihr
    refine ⟨a.max b, ?_, ?_, HandlingResult.max_changed h3 h3'⟩
    · simp only [Node.HandleInserted, h1, h1', Node.shifted]
    · intro hr
      obtain ⟨ha, hb⟩ := HandlingResult.max_nothing hr
      simp only [Node.shifted]
      rw [h2 ha, h2' hb]

theorem shiftIncoming_eq (p : Position) (hv : p.IsValid = true) (dim : Axis)
    (before count : Int) (hc : 0 ≤ count) (hcount : count ≤ 2 ^ 30) :
    shiftIncoming dim before count p = some (p.shifted dim before count) := by
  obtain ⟨h0, h1⟩ := Position.dim_bounds hv dim
  unfold shiftIncoming Position.shifted
  by_cases hge : p.dim dim ≥ before
  · rw [if_pos hge, if_pos hge, Int.mul_one, int_add_fits _ _ (by omega) (by omega)]
    rfl
  · rw [if_neg hge, if_neg hge, Int.mul_zero, int_add_fits _ _ (by omega) (by omega),
      Int.add_zero]
    simp only [Option.map_some', Option.some.injEq]
    cases dim <;> rfl

theorem mapOption_eq_map {α β : Type} (f : α → Option β) (g : α → β) :
    ∀ l : List α, (∀ x ∈ l, f x = some (g x)) → mapOption f l = some (l.map g) := by
  intro l
  induction l with
  | nil => intro _; rfl
  | cons x xs ih =>
    intro h
    simp only [mapOption, h x (List.mem_cons_self _ _),
      ih (fun y hy => h y (List.mem_cons_of_mem _ hy)), List.map_cons]

theorem Position.shifted_lt (dim : Axis) (before count : Int) (hc : 0 ≤ count)
    (a b : Position) :
    (a.shifted dim before count).lt (b.shifted dim before count) = a.lt b := by
  obtain ⟨ar, ac⟩ := a
  obtain ⟨br, bc⟩ := b
  rw [Bool.eq_iff_iff, Position.lt_iff, Position.lt_iff]
  cases dim
  · simp only [Position.shifted, Position.dim, Position.setDim]
    by_cases h1 : ar ≥ before <;> by_cases h2 : br ≥ before <;>
      simp only [h1, h2, if_true, if_false] <;> omega
  · simp only [Position.shifted, Position.dim, Position.setDim]
    by_cases h1 : ac ≥ before <;> by_cases h2 : bc ≥ before <;>
      simp only [h1, h2, if_true, if_false] <;> omega

theorem Position.shifted_inj (dim : Axis) (before count : Int) (hc : 0 ≤ count)
    (a b : Position) (h : a.shifted dim before count = b.shifted dim before count) : a = b := by
  have h1 := Position.shifted_lt dim before count hc a b
  have h2 := Position.shifted_lt dim before count hc b a
  rw [h, Position.lt_irrefl] at h1
  rw [h, Position.lt_irrefl] at h2
  exact Position.eq_of_not_lt h1.symm h2.symm

theorem mergeGo_map (f : Position → Position) (hf : ∀ a b, (f a).lt (f b) = a.lt b)
    (x : Position) (xs : List Position) (m m' : List Position → List Position)
    (hm : ∀ ys, m' (ys.map f) = (m ys).map f) (ys : List Position) :
    mergeGo (f x) (xs.map f) m' (ys.map f) = (mergeGo x xs m ys).map f := by
  induction ys with
  | nil => simp [mergeGo]
  | cons y ys ih =>
    simp only [List.map_cons, mergeGo, hf]
    by_cases h : y.lt x = true
    · rw [if_pos h, if_pos h, List.map_cons, ih]
    · rw [if_neg h, if_neg h, List.map_cons, ← hm]
      rfl

theorem merge_map (f : Position → Position) (hf : ∀ a b, (f a).lt (f b) = a.lt b)
    (xs ys : List Position) : merge (xs.map f) (ys.map f) = (merge xs ys).map f := by
  induction xs generalizing ys with
  | nil => simp [merge]
  | cons x xs ih =>
    simp only [List.map_cons, merge]
    exact mergeGo_map f hf x xs (merge xs) (merge (xs.map f)) (fun ys => ih ys) ys

theorem unique_map (f : Position → Position) (hf : ∀ a b, f a = f b → a = b)
    (l : List Position) : unique (l.map f) = (unique l).map f := by
  induction l with
  | nil => rfl
  | cons x l ih =>
    cases l with
    | nil => rfl
    | cons y rest =>
      simp only [List.map_cons, unique] at ih ⊢
      by_cases h : x = y
      · rw [if_pos h, if_pos (congrArg f h)]
        exact ih
      · rw [if_neg h, if_neg (fun h' => h (hf _ _ h')), List.map_cons]
        rw [ih]

theorem Node.refs_of_shifted (n : Node D) (dim : Axis) (before count : Int) (hc : 0 ≤ count)
    (hv : ∀ q ∈ n.GetReferencedCells, (q.shifted dim before count).IsValid = true) :
    (n.shifted dim before count).GetReferencedCells
      = n.GetReferencedCells.map (Position.shifted dim before count) := by
  induction n with
  | Number v s => rfl
  | Cell p =>
    simp only [Node.shifted, Node.GetReferencedCells]
    by_cases hp : p.IsValid = true
    · have := hv p (by simp [Node.GetReferencedCells, hp])
      simp only [hp, if_true, this, List.map_cons, List.map_nil]
    · have hp' : p.IsValid = false := by simpa using hp
      simp [hp']
  | UnaryOp k n ih =>
    simp only [Node.shifted, Node.GetReferencedCells] at hv ⊢
    exact ih hv
  | BinaryOp k l r ihl ihr =>
    simp only [Node.shifted, Node.GetReferencedCells] at hv ⊢
    rw [ihl (fun q hq => hv q ((mem_unique _ _).mpr ((mem_merge _ _ _).mpr (Or.inl hq)))),
      ihr (fun q hq => hv q ((mem_unique _ _).mpr ((mem_merge _ _ _).mpr (Or.inr hq)))),
      merge_map _ (Position.shifted_lt dim before count hc),
      unique_map _ (Position.shifted_inj dim before count hc)]

theorem Content.content_refs_shifted (c : Content D) (dim : Axis) (before count : Int) (hc : 0 ≤ count)
    (hv : ∀ q ∈ c.refs, (q.shifted dim before count).IsValid = true) :
    (c.shifted dim before count).refs = c.refs.map (Position.shifted dim before count) := by
  cases c with
  | Text t => rfl
  | Formula n => exact n.refs_of_shifted dim before count hc hv

theorem Cell.HandleInserted_cell (c : Cell D) (dim : Axis) (before count : Int) (hc : 0 ≤ count)
    (hcount : count ≤ 2 ^ 30) (hin : ∀ p ∈ c.incoming_refs_, p.IsValid = true) :
    ∃ c', c.HandleInserted dim before count = some c' ∧
      c'.incoming_refs_ = c.incoming_refs_.map (Position.shifted dim before count) ∧
      c'.data_.content = c.data_.content.shifted dim before count ∧
      c'.value_cache_ = c.value_cache_ ∧ (c.Fresh → c'.Fresh) := by
  have hmap := mapOption_eq_map (shiftIncoming dim before count)
    (Position.shifted dim before count) c.incoming_refs_
    (fun p hp => shiftIncoming_eq p (hin p hp) dim before count hc hcount)
  obtain ⟨d, i, v⟩ := c
  cases d with
  | Text t =>
    refine ⟨⟨.Text t, i.map (Position.shifted dim before count), v⟩, ?_, rfl, rfl, rfl,
      fun _ => trivial⟩
    simp only [Cell.HandleInserted, hmap]
  | Formula f =>
    obtain ⟨r, h1, h2, h3⟩ := f.node_.HandleInserted_node dim before count hc hcount
    refine ⟨⟨.Formula (Formula.HandleInsertionOrDeletion
      { f with node_ := f.node_.shifted dim before count } r),
      i.map (Position.shifted dim before count), v⟩, ?_, rfl, ?_, rfl, ?_⟩
    · simp only [Cell.HandleInserted, hmap, Formula.HandleInserted, h1, Option.map_some']
    · cases r <;> rfl
    · intro hfresh
      cases r with
      | NothingChanged =>
        have hn := h2 rfl
        simp only [Cell.Fresh, Formula.HandleInsertionOrDeletion, hn]
        exact hfresh
      | ReferencesRenamedOnly =>
        simp [Cell.Fresh, Formula.HandleInsertionOrDeletion, Formula.Fresh]
      | ReferencesChanged => exact absurd rfl h3

/-- The graph invariants survive a renaming of the positions that keeps their order. -/
theorem Graph.Inv.relabel {g g' : Graph D} (f : Position → Position)
    (hlt : ∀ a b, (f a).lt (f b) = a.lt b)
    (h1 : ∀ p c, g p = some c →
      ∃ c', g' (f p) = some c' ∧ c'.incoming = c.incoming.map f ∧ c'.refs = c.refs.map f)
    (h2 : ∀ q d, g' q = some d → ∃ p, q = f p ∧ (g p).isSome = true)
    (hg : g.Inv) : g'.Inv := by
  have hinj : ∀ a b, f a = f b → a = b := by
    intro a b h
    have e1 := hlt a b
    have e2 := hlt b a
    rw [h, Position.lt_irrefl] at e1
    rw [h, Position.lt_irrefl] at e2
    exact Position.eq_of_not_lt e1.symm e2.symm
  have hback : ∀ q d, g' q = some d →
      ∃ p c, q = f p ∧ g p = some c ∧ d.incoming = c.incoming.map f ∧ d.refs = c.refs.map f := by
    intro q d hd
    obtain ⟨p, hq, hp⟩ := h2 q d hd
    cases hc : g p with
    | none => rw [hc] at hp; cases hp
    | some c =>
      obtain ⟨c', hc', hi, hr⟩ := h1 p c hc
      rw [← hq, hd] at hc'
      cases hc'
      exact ⟨p, c, hq, hc, hi, hr⟩
  have hedge : ∀ a b, g'.Edge a b → ∃ p q, a = f p ∧ b = f q ∧ g.Edge p q := by
    rintro a b ⟨d, hd, hb⟩
    obtain ⟨p, c, ha, hc, _, hr⟩ := hback a d hd
    rw [GCell.refs] at hb
    have hb' : b ∈ c.refs.map f := by rw [← hr]; exact hb
    obtain ⟨q, hq, hqb⟩ := List.mem_map.mp hb'
    exact ⟨p, q, ha, hqb.symm, c, hc, hq⟩
  have htrans : ∀ a b, Relation.TransGen g'.Edge a b →
      ∃ p q, a = f p ∧ b = f q ∧ Relation.TransGen g.Edge p q := by
    intro a b h
    induction h with
    | single h =>
      obtain ⟨p, q, ha, hb, he⟩ := hedge _ _ h
      exact ⟨p, q, ha, hb, .single he⟩
    | tail _ h ih =>
      obtain ⟨p, q, ha, hb, ht⟩ := ih
      obtain ⟨q', r, hb', hc, he⟩ := hedge _ _ h
      have : q = q' := hinj _ _ (hb.symm.trans hb')
      subst this
      exact ⟨p, r, ha, hc, .tail ht he⟩
  refine ⟨?_, ?_, ?_, ?_⟩
  · intro q d hd
    obtain ⟨p, c, _, hc, hi, _⟩ := hback q d hd
    rw [hi]
    unfold StrictSorted
    rw [List.pairwise_map]
    exact (hg.sorted p c hc).imp (fun h => by rw [hlt]; exact h)
  · intro a d b hd hb
    obtain ⟨p, c, ha, hc, _, hr⟩ := hback a d hd
    rw [GCell.refs] at hb
    have hb' : b ∈ c.refs.map f := by rw [← hr]; exact hb
    obtain ⟨q, hq, hqb⟩ := List.mem_map.mp hb'
    obtain ⟨e, he, hpe⟩ := hg.forward p c q hc hq
    obtain ⟨e', he', hi', _⟩ := h1 q e he
    refine ⟨e', by rw [← hqb]; exact he', ?_⟩
    rw [hi', ha]
    exact List.mem_map.mpr ⟨p, hpe, rfl⟩
  · intro b e a he ha
    obtain ⟨q, c, hb, hc, hi, _⟩ := hback b e he
    have ha' : a ∈ c.incoming.map f := by rw [← hi]; exact ha
    obtain ⟨p, hp, hpa⟩ := List.mem_map.mp ha'
    obtain ⟨d, hd, hqd⟩ := hg.backward q c p hc hp
    obtain ⟨d', hd', _, hr'⟩ := h1 p d hd
    refine ⟨d', by rw [← hpa]; exact hd', ?_⟩
    rw [GCell.refs] at hqd ⊢
    have : d'.content.refs = d.content.refs.map f := hr'
    rw [this, hb]
    exact List.mem_map.mpr ⟨q, hqd, rfl⟩
  · intro a h
    obtain ⟨p, q, ha, hb, ht⟩ := htrans a a h
    have : p = q := hinj _ _ (ha.symm.trans hb)
    subst this
    exact hg.acyclic p ht

theorem Sheet.WF.of_shifted {s s' : Sheet D} (hwf : s.WF) (dim : Axis) (before count : Int)
    (hc : 0 ≤ count) (h : Sheet.Shifted dim before count s s') : s'.WF := by
  have hvalid : ∀ p c q, s.cells p = some c → q ∈ c.data_.content.refs →
      (q.shifted dim before count).IsValid = true := by
    intro p c q hp hq
    obtain ⟨e, he, _⟩ := hwf.inv.forward p c.g q (Sheet.graph_of_cells hp) hq
    obtain ⟨e0, he0, _⟩ := Sheet.cells_of_graph he
    obtain ⟨e', he', _⟩ := h.moved q e0 he0
    exact Sheet.cells_valid he'
  constructor
  · intro q c' hq
    obtain ⟨p, hqp, hp⟩ := h.only q c' hq
    cases hc0 : s.cells p with
    | none => rw [hc0] at hp; cases hp
    | some c =>
      obtain ⟨c'', hc'', _, _, _, hfresh⟩ := h.moved p c hc0
      rw [← hqp, hq] at hc''
      cases hc''
      exact hfresh
  · refine Graph.Inv.relabel (Position.shifted dim before count)
      (Position.shifted_lt dim before count hc) ?_ ?_ hwf.inv
    · intro p g hg
      obtain ⟨c, hc0, hcg⟩ := Sheet.cells_of_graph hg
      obtain ⟨c', hc', hi, hd, _, _⟩ := h.moved p c hc0
      refine ⟨c'.g, Sheet.graph_of_cells hc', ?_, ?_⟩
      · rw [← hcg]; exact hi
      · rw [← hcg]
        show c'.data_.content.refs = c.data_.content.refs.map _
        rw [hd]
        exact Content.content_refs_shifted _ dim before count hc (fun q hq => hvalid p c q hc0 hq)
    · intro q d hd
      obtain ⟨c', hc', _⟩ := Sheet.cells_of_graph hd
      obtain ⟨p, hqp, hp⟩ := h.only q c' hc'
      refine ⟨p, hqp, ?_⟩
      unfold Sheet.graph
      cases hc0 : s.cells p with
      | none => rw [hc0] at hp; cases hp
      | some c => rfl

/-- A tree none of whose referenced cells moves is not changed by the renaming. -/
theorem Node.shifted_id (n : Node D) (dim : Axis) (before count : Int)
    (h : ∀ q ∈ n.GetReferencedCells, q.shifted dim before count = q) :
    n.shifted dim before count = n := by
  induction n with
  | Number v s => rfl
  | Cell p =>
    simp only [Node.shifted]
    by_cases hp : p.IsValid = true
    · rw [if_pos hp, h p (by simp [Node.GetReferencedCells, hp])]
    · rw [if_neg hp]
  | UnaryOp k n ih =>
    simp only [Node.shifted, Node.GetReferencedCells] at h ⊢
    rw [ih h]
  | BinaryOp k l r ihl ihr =>
    simp only [Node.shifted, Node.GetReferencedCells] at h ⊢
    rw [ihl (fun q hq => h q ((mem_unique _ _).mpr ((mem_merge _ _ _).mpr (Or.inl hq)))),
      ihr (fun q hq => h q ((mem_unique _ _).mpr ((mem_merge _ _ _).mpr (Or.inr hq))))]

/-- On a sheet none of whose cells lies at or after `before`, or with nothing to insert, the
sheet itself is the shifted sheet. -/
theorem Sheet.Shifted.same {s : Sheet D} (hwf : s.WF) (dim : Axis) (before count : Int)
    (h : ∀ p c, s.cells p = some c → p.shifted dim before count = p) :
    Sheet.Shifted dim before count s s := by
  constructor
  · intro p c hp
    rw [h p c hp]
    refine ⟨c, hp, ?_, ?_, rfl, hwf.fresh p c hp⟩
    · have : ∀ x ∈ c.incoming_refs_, x.shifted dim before count = x := by
        intro x hx
        obtain ⟨d, hd, _⟩ := hwf.inv.backward p c.g x (Sheet.graph_of_cells hp) hx
        obtain ⟨d0, hd0, _⟩ := Sheet.cells_of_graph hd
        exact h x d0 hd0
      rw [List.map_congr_left this, List.map_id']
    · have : ∀ q ∈ c.data_.content.refs, q.shifted dim before count = q := by
        intro q hq
        obtain ⟨e, he, _⟩ := hwf.inv.forward p c.g q (Sheet.graph_of_cells hp) hq
        obtain ⟨e0, he0, _⟩ := Sheet.cells_of_graph he
        exact h q e0 he0
      cases hd : c.data_.content with
      | Text t => rfl
      | Formula n =>
        rw [hd] at this
        simp only [Content.shifted]
        rw [n.shifted_id dim before count this]
  · intro q c' hq
    exact ⟨q, (h q c' hq).symm, by rw [hq]; rfl⟩

theorem Sheet.slot_eq_slotOf (s : Sheet D) (p : Position) :
    s.slot p = slotOf s.table_ p.row.toNat p.col.toNat := rfl

theorem handleRow_slot (dim : Axis) (before count : Int) (row row' : List (Option (Cell D)))
    (h : handleRow dim before count row = some row') (c : Nat) :
    (row'[c]?).getD none = ((row[c]?).getD none).bind (Cell.HandleInserted dim before count) := by
  have hlen := mapOption_length _ _ _ h
  have hget := mapOption_getElem? _ _ _ h c
  cases hr : row[c]? with
  | none =>
    rw [hr] at hget
    rw [hget]
    rfl
  | some slot =>
    rw [hr] at hget
    cases slot with
    | none =>
      rw [hget]
      rfl
    | some cell =>
      simp only [Option.some_bind] at hget
      have hlt : c < row'.length := by
        rw [hlen]
        exact (List.getElem?_eq_some_iff.mp hr).1
      cases hc : cell.HandleInserted dim before count with
      | none =>
        rw [hc] at hget
        simp only [Option.map_none'] at hget
        rw [List.getElem?_eq_none_iff] at hget
        omega
      | some cell' =>
        rw [hc] at hget
        rw [hget]
        simp [hc]

theorem handled_slot (dim : Axis) (before count : Int) (T0 T : List (List (Option (Cell D))))
    (h : mapOption (handleRow dim before count) T0 = some T) (r c : Nat) :
    slotOf T r c = (slotOf T0 r c).bind (Cell.HandleInserted dim before count) := by
  have hlen := mapOption_length _ _ _ h
  have hget := mapOption_getElem? _ _ _ h r
  unfold slotOf
  cases hr : T0[r]? with
  | none =>
    rw [hr] at hget
    rw [hget]
    rfl
  | some row =>
    rw [hr] at hget
    simp only [Option.some_bind] at hget
    have hlt : r < T.length := by
      rw [hlen]
      exact (List.getElem?_eq_some_iff.mp hr).1
    cases hrow : handleRow dim before count row with
    | none =>
      rw [hrow, List.getElem?_eq_none_iff] at hget
      omega
    | some row' =>
      rw [hrow] at hget
      rw [hget]
      exact handleRow_slot dim before count row row' hrow c

theorem inserted_rows_slot (T : List (List (Option (Cell D)))) (b k : Nat)
    (hb : b ≤ T.length) (r c : Nat) :
    slotOf (T.take b ++ List.replicate k [] ++ T.drop b) r c
      = if r < b then slotOf T r c else if r < b + k then none else slotOf T (r - k) c := by
  unfold slotOf
  have hlen : (T.take b).length = b := by rw [List.length_take]; omega
  by_cases h1 : r < b
  · rw [if_pos h1, List.append_assoc, List.getElem?_append_left (by omega),
      List.getElem?_take_of_lt h1]
  · rw [if_neg h1]
    have h3 : (T.take b ++ List.replicate k ([] : List (Option (Cell D)))).length = b + k := by
      rw [List.length_append, List.length_replicate, hlen]
    by_cases h2 : r < b + k
    · rw [if_pos h2, List.getElem?_append_left (by rw [h3]; omega),
        List.getElem?_append_right (by rw [hlen]; omega), hlen,
        List.getElem?_replicate_of_lt (by omega)]
      rfl
    · rw [if_neg h2, List.getElem?_append_right (by rw [h3]; omega), h3, List.getElem?_drop]
      have h4 : b + (r - (b + k)) = r - k := by omega
      rw [h4]

theorem slotOf_some_lt {T : List (List (Option (Cell D)))} {r c : Nat} {cell : Cell D}
    (h : slotOf T r c = some cell) : r < T.length := by
  by_contra hlt
  unfold slotOf at h
  rw [List.getElem?_eq_none_iff.mpr (Nat.le_of_not_lt hlt)] at h
  simp at h

theorem Position.shifted_zero (dim : Axis) (before : Int) (p : Position) :
    p.shifted dim before 0 = p := by
  unfold Position.shifted
  split
  · cases dim <;> simp [Position.setDim, Position.dim]
  · rfl

/-- The outcomes of `InsertRows` when no sum of its size test leaves the range of `int`. -/
theorem InsertRows_cases (s : Sheet D) (before count : Int) (hb : 0 ≤ before) (hc : 0 ≤ count)
    (hfit : (s.table_.length : Int) + count < 2 ^ 31) (hfit' : before + count < 2 ^ 31) :
    s.InsertRows before count =
      if before.toNat < s.table_.length then
        if (s.table_.length : Int) + count > (kMaxRows : Int) then .raise .TableTooBig s
        else if count = 0 then .ok () s
        else
          match mapOption (handleRow .Row before count) s.table_ with
          | none => .stuck
          | some T =>
            .ok () ⟨T.take before.toNat ++ List.replicate count.toNat [] ++ T.drop before.toNat⟩
      else if before + count > (kMaxRows : Int) then .raise .TableTooBig s
      else .ok () s := by
  have hbs : to_size_t before = before.toNat := to_size_t_nonneg before hb (by omega)
  have hcs : to_size_t count = count.toNat := to_size_t_nonneg count hc (by omega)
  have hadd : int_add before count = some (before + count) :=
    int_add_fits _ _ (by omega) hfit'
  have hz : to_size_t 0 = 0 := by decide
  unfold Sheet.InsertRows
  simp only [hadd, hbs, hcs]
  by_cases hmid : before.toNat < s.table_.length
  · simp only [decide_eq_true hmid, if_true, if_false, Nat.mul_one, Int.mul_zero, hz,
      Nat.add_zero, if_pos hmid]
    have hmod : (s.table_.length + count.toNat) % kSizeMod = s.table_.length + count.toNat := by
      rw [kSizeMod_eq]
      exact Nat.mod_eq_of_lt (by omega)
    rw [hmod, hmod, static_cast_int_fits _ (by omega)]
    have hcast : ((s.table_.length + count.toNat : Nat) : Int) = s.table_.length + count := by
      omega
    rw [hcast]
    by_cases hbig : (s.table_.length : Int) + count > (kMaxRows : Int)
    · rw [if_pos hbig, if_pos hbig]
    · rw [if_neg hbig, if_neg hbig]
      by_cases h0 : count = 0
      · simp [h0]
      · have hne : (count != 0) = true := by simpa using h0
        simp only [hne, Bool.and_self, if_true, if_neg (by omega : ¬ count < 0), if_neg h0]
        cases hT : mapOption (handleRow .Row before count) s.table_ with
        | none => rfl
        | some T =>
          have hTlen : T.length = s.table_.length := mapOption_length _ _ _ hT
          have hmod' : (T.length + count.toNat) % kSizeMod = T.length + count.toNat := by
            rw [hTlen]; exact hmod
          simp only
          rw [hmod', resize_grow, rotate_inserted _ _ _ _ (by omega)]
  · have hmid' : ¬ (s.table_.length > before.toNat) := hmid
    simp only [decide_eq_false hmid', if_true, if_false, Nat.mul_zero, Int.mul_one,
      Nat.zero_add, Bool.false_eq_true, if_neg hmid, Bool.false_and]
    have hs : to_size_t (before + count) = (before + count).toNat :=
      to_size_t_nonneg _ (by omega) (by omega)
    have hmod : (before + count).toNat % kSizeMod = (before + count).toNat := by
      rw [kSizeMod_eq]
      exact Nat.mod_eq_of_lt (by omega)
    rw [hs, hmod, static_cast_int_fits _ (by omega)]
    have hcast : (((before + count).toNat : Nat) : Int) = before + count := by omega
    rw [hcast]

theorem Sheet.WF.incoming_valid {s : Sheet D} (hwf : s.WF) {p : Position} {c : Cell D}
    (hp : s.cells p = some c) : ∀ x ∈ c.incoming_refs_, x.IsValid = true := by
  intro x hx
  obtain ⟨d, hd, _⟩ := hwf.inv.backward p c.g x (Sheet.graph_of_cells hp) hx
  exact Sheet.graph_valid hd

/-- The rows of a table moved down by an insertion hold the handled cells at the shifted
positions and nothing elsewhere. -/
theorem Sheet.Shifted.rows {s : Sheet D} (hwf : s.WF) (before count : Int) (hb : 0 ≤ before)
    (hc : 0 < count) (hmid : before.toNat < s.table_.length)
    (hbig : (s.table_.length : Int) + count ≤ (kMaxRows : Int))
    (T : List (List (Option (Cell D))))
    (hT : mapOption (handleRow .Row before count) s.table_ = some T) :
    Sheet.Shifted .Row before count s
      ⟨T.take before.toNat ++ List.replicate count.toNat [] ++ T.drop before.toNat⟩ := by
  have hTlen : T.length = s.table_.length := mapOption_length _ _ _ hT
  have hslot : ∀ q : Position, 0 ≤ q.row →
      (⟨T.take before.toNat ++ List.replicate count.toNat [] ++ T.drop before.toNat⟩ :
        Sheet D).slot q
      = if q.row < before then (s.slot q).bind (Cell.HandleInserted .Row before count)
        else if q.row < before + count then none
        else (s.slot ⟨q.row - count, q.col⟩).bind (Cell.HandleInserted .Row before count) := by
    intro q hq
    rw [Sheet.slot_eq_slotOf, inserted_rows_slot T _ _ (by omega)]
    by_cases h1 : q.row < before
    · rw [if_pos h1, if_pos (by omega), handled_slot _ _ _ _ _ hT]
      rfl
    · rw [if_neg h1, if_neg (by omega)]
      by_cases h2 : q.row < before + count
      · rw [if_pos h2, if_pos (by omega)]
      · rw [if_neg h2, if_neg (by omega), handled_slot _ _ _ _ _ hT, Sheet.slot_eq_slotOf]
        have : (q.row - count).toNat = q.row.toNat - count.toNat := by omega
        simp only [this]
  rw [kMaxRows_eq] at hbig
  constructor
  · intro p c hp
    have hv := Sheet.cells_valid hp
    have hs : s.slot p = some c := by rw [← Sheet.cells_eq_slot hv]; exact hp
    have hrow : p.row.toNat < s.table_.length := slotOf_some_lt hs
    obtain ⟨h0, h1, h2, h3⟩ := (IsValid_iff p).mp hv
    obtain ⟨c', hc', hi, hd, hvc, hf⟩ := c.HandleInserted_cell .Row before count (by omega)
      (by omega) (hwf.incoming_valid hp)
    refine ⟨c', ?_, hi, hd, hvc, hf (hwf.fresh p c hp)⟩
    have hv' : (p.shifted .Row before count).IsValid = true := by
      rw [IsValid_iff, kMaxRows_eq]
      unfold Position.shifted
      by_cases hge : p.dim .Row ≥ before
      · rw [if_pos hge]
        simp only [Position.setDim, Position.dim] at hge ⊢
        exact ⟨by omega, by omega, h2, h3⟩
      · rw [if_neg hge]
        rw [kMaxRows_eq] at h1
        exact ⟨h0, h1, h2, h3⟩
    rw [Sheet.cells_eq_slot hv']
    unfold Position.shifted
    by_cases hge : p.dim .Row ≥ before
    · rw [if_pos hge]
      simp only [Position.setDim, Position.dim] at hge ⊢
      rw [hslot _ (by simp only; omega), if_neg (by simp only; omega),
        if_neg (by simp only; omega)]
      have : (⟨p.row + count - count, p.col⟩ : Position) = p := by
        simp
      simp only [this, hs, Option.some_bind, hc']
    · rw [if_neg hge]
      simp only [Position.dim] at hge
      rw [hslot _ h0, if_pos (by omega), hs, Option.some_bind, hc']
  · intro q c' hq
    have hv := Sheet.cells_valid hq
    rw [Sheet.cells_eq_slot hv] at hq
    obtain ⟨h0, h1, h2, h3⟩ := (IsValid_iff q).mp hv
    rw [hslot q h0] at hq
    by_cases hlt : q.row < before
    · rw [if_pos hlt] at hq
      refine ⟨q, ?_, ?_⟩
      · unfold Position.shifted
        rw [if_neg (by simp only [Position.dim]; omega)]
      · rw [Sheet.cells_eq_slot hv]
        cases hs : s.slot q with
        | none => rw [hs] at hq; cases hq
        | some c => rfl
    · rw [if_neg hlt] at hq
      by_cases hlt' : q.row < before + count
      · rw [if_pos hlt'] at hq; cases hq
      · rw [if_neg hlt'] at hq
        have hvp : (⟨q.row - count, q.col⟩ : Position).IsValid = true := by
          rw [IsValid_iff]
          exact ⟨by simp only; omega, by simp only; omega, h2, h3⟩
        refine ⟨⟨q.row - count, q.col⟩, ?_, ?_⟩
        · unfold Position.shifted
          rw [if_pos (by simp only [Position.dim]; omega)]
          simp [Position.setDim, Position.dim]
        · rw [Sheet.cells_eq_slot hvp]
          cases hs : s.slot ⟨q.row - count, q.col⟩ with
          | none => rw [hs] at hq; cases hq
          | some c => rfl

/-- When no sum of the size test of `InsertRows` leaves the range of `int`, a call that
returns on a sheet satisfying the sheet invariants has moved every cell of a row at or after
`before` down by `count` rows, has kept the other cells where they were, has added `count`
to the row of every formula reference and incoming reference at or after `before`, and
leaves a sheet that satisfies the sheet invariants. -/
theorem InsertRows_shifts (s : Sheet D) (hwf : s.WF) (before count : Int) (hb : 0 ≤ before)
    (hc : 0 ≤ count) (hfit : (s.table_.length : Int) + count < 2 ^ 31)
    (hfit' : before + count < 2 ^ 31) (s' : Sheet D)
    (h : s.InsertRows before count = .ok () s') :
    Sheet.Shifted .Row before count s s' ∧ s'.WF := by
  rw [InsertRows_cases s before count hb hc hfit hfit'] at h
  by_cases hmid : before.toNat < s.table_.length
  · rw [if_pos hmid] at h
    by_cases hbig : (s.table_.length : Int) + count > (kMaxRows : Int)
    · rw [if_pos hbig] at h; cases h
    · rw [if_neg hbig] at h
      by_cases h0 : count = 0
      · rw [if_pos h0] at h
        cases h
        refine ⟨Sheet.Shifted.same hwf .Row before count ?_, hwf⟩
        intro p c _
        rw [h0]
        exact Position.shifted_zero .Row before p
      · rw [if_neg h0] at h
        cases hT : mapOption (handleRow .Row before count) s.table_ with
        | none => rw [hT] at h; cases h
        | some T =>
          rw [hT] at h
          cases h
          have hsh := Sheet.Shifted.rows hwf before count hb (by omega) hmid (by omega) T hT
          exact ⟨hsh, hwf.of_shifted .Row before count hc hsh⟩
  · rw [if_neg hmid] at h
    by_cases hbig : before + count > (kMaxRows : Int)
    · rw [if_pos hbig] at h; cases h
    · rw [if_neg hbig] at h
      cases h
      refine ⟨Sheet.Shifted.same hwf .Row before count ?_, hwf⟩
      intro p c hp
      have hv := Sheet.cells_valid hp
      have hs : s.slot p = some c := by rw [← Sheet.cells_eq_slot hv]; exact hp
      have hrow : p.row.toNat < s.table_.length := slotOf_some_lt hs
      unfold Position.shifted
      rw [if_neg (by simp only [Position.dim]; omega)]

set_option maxRecDepth 100000 in
theorem insertRows_example :
    (match Sheet.empty.SetCell exampleEnv 8 ⟨0, 0⟩ "=B2+C3".toList with
      | .ok _ s =>
        match s.InsertRows 1 2 with
        | .ok _ s' => (s'.slot ⟨0, 0⟩).map (fun c => c.GetText.1)
        | _ => none
      | _ => none) = some "=B4+C5".toList := by
  decide

/-! ## Inserted columns -/

theorem foldl_max_ge (l : List Nat) : ∀ a, a ≤ l.foldl Nat.max a ∧
    ∀ x ∈ l, x ≤ l.foldl Nat.max a := by
  induction l with
  | nil => intro a; exact ⟨Nat.le_refl _, fun x hx => (by cases hx)⟩
  | cons y l ih =>
    intro a
    simp only [List.foldl_cons]
    obtain ⟨h1, h2⟩ := ih (Nat.max a y)
    refine ⟨le_trans (Nat.le_max_left a y) h1, ?_⟩
    intro x hx
    rcases List.mem_cons.mp hx with hx | hx
    · rw [hx]; exact le_trans (Nat.le_max_right a y) h1
    · exact h2 x hx

theorem foldl_max_lt (l : List Nat) (B : Nat) (h : ∀ x ∈ l, x < B) :
    ∀ a, a < B → l.foldl Nat.max a < B := by
  induction l with
  | nil => intro a ha; exact ha
  | cons y l ih =>
    intro a ha
    simp only [List.foldl_cons]
    exact ih (fun x hx => h x (List.mem_cons_of_mem _ hx)) _
      (Nat.max_lt.mpr ⟨ha, h y (List.mem_cons_self _ _)⟩)

/-- The slots of a row after `count` null pointers have been inserted before `before` when
the row reaches that far. -/
theorem inserted_cols_slot (row : List (Option (Cell D))) (b k c : Nat) :
    ((if row.length > b then row.take b ++ List.replicate k none ++ row.drop b
      else row)[c]?).getD none
      = if c < b then (row[c]?).getD none else if c < b + k then none
        else (row[c - k]?).getD none := by
  by_cases hlen : row.length > b
  · rw [if_pos hlen]
    have hl : (row.take b).length = b := by rw [List.length_take]; omega
    have h3 : (row.take b ++ List.replicate k (none : Option (Cell D))).length = b + k := by
      rw [List.length_append, List.length_replicate, hl]
    by_cases h1 : c < b
    · rw [if_pos h1, List.append_assoc, List.getElem?_append_left (by omega),
        List.getElem?_take_of_lt h1]
    · rw [if_neg h1]
      by_cases h2 : c < b + k
      · rw [if_pos h2, List.getElem?_append_left (by rw [h3]; omega),
          List.getElem?_append_right (by rw [hl]; omega), hl,
          List.getElem?_replicate_of_lt (by omega)]
        rfl
      · rw [if_neg h2, List.getElem?_append_right (by rw [h3]; omega), h3,
          List.getElem?_drop]
        have h4 : b + (c - (b + k)) = c - k := by omega
        rw [h4]
  · rw [if_neg hlen]
    by_cases h1 : c < b
    · rw [if_pos h1]
    · rw [if_neg h1, List.getElem?_eq_none_iff.mpr (by omega)]
      by_cases h2 : c < b + k
      · rw [if_pos h2]; rfl
      · rw [if_neg h2, List.getElem?_eq_none_iff.mpr (by omega)]

theorem insertColsRow_eq (before count : Int) (hb : 0 ≤ before) (hc : 0 < count)
    (hcount : count < 2 ^ 31) (hbefore : before < 2 ^ 31) (row : List (Option (Cell D)))
    (hlen : row.length < 2 ^ 31) :
    insertColsRow before count row
      = (handleRow .Col before count row).map (fun row' =>
          if row'.length > before.toNat then
            row'.take before.toNat ++ List.replicate count.toNat none ++ row'.drop before.toNat
          else row') := by
  have hbs : to_size_t before = before.toNat := to_size_t_nonneg before hb (by omega)
  have hcs : to_size_t count = count.toNat := to_size_t_nonneg count (by omega) (by omega)
  unfold insertColsRow
  cases hr : handleRow .Col before count row with
  | none => rfl
  | some row' =>
    have hl : row'.length = row.length := mapOption_length _ _ _ hr
    simp only [Option.map_some', hbs, hcs]
    by_cases hgt : row'.length > before.toNat
    · rw [if_pos hgt, if_pos hgt, if_neg (by omega)]
      have hmod : (row'.length + count.toNat) % kSizeMod = row'.length + count.toNat := by
        rw [kSizeMod_eq]
        exact Nat.mod_eq_of_lt (by omega)
      simp only [hmod]
      rw [resize_grow, rotate_inserted _ _ _ _ (by omega)]
    · rw [if_neg hgt, if_neg hgt]

theorem inserted_cols_table (before count : Int) (hb : 0 ≤ before) (hc : 0 < count)
    (hcount : count < 2 ^ 31) (hbefore : before < 2 ^ 31)
    (T0 T : List (List (Option (Cell D)))) (hrows : ∀ row ∈ T0, row.length < 2 ^ 31)
    (h : mapOption (insertColsRow before count) T0 = some T) (r c : Nat) :
    slotOf T r c
      = if c < before.toNat then (slotOf T0 r c).bind (Cell.HandleInserted .Col before count)
        else if c < before.toNat + count.toNat then none
        else (slotOf T0 r (c - count.toNat)).bind (Cell.HandleInserted .Col before count) := by
  have hlen := mapOption_length _ _ _ h
  have hget := mapOption_getElem? _ _ _ h r
  unfold slotOf
  cases hr : T0[r]? with
  | none =>
    rw [hr] at hget
    rw [hget]
    simp
  | some row =>
    rw [hr] at hget
    simp only [Option.some_bind] at hget
    have hmem : row ∈ T0 := List.mem_iff_getElem?.mpr ⟨r, hr⟩
    rw [insertColsRow_eq before count hb hc hcount hbefore row (hrows row hmem)] at hget
    have hlt : r < T.length := by
      rw [hlen]
      exact (List.getElem?_eq_some_iff.mp hr).1
    cases hrow : handleRow .Col before count row with
    | none =>
      rw [hrow] at hget
      simp only [Option.map_none'] at hget
      rw [List.getElem?_eq_none_iff] at hget
      omega
    | some row' =>
      rw [hrow] at hget
      simp only [Option.map_some'] at hget
      rw [hget]
      simp only [Option.getD_some]
      rw [inserted_cols_slot row' before.toNat count.toNat c,
        handleRow_slot .Col before count row row' hrow,
        handleRow_slot .Col before count row row' hrow]

theorem slotOf_some_col {T : List (List (Option (Cell D)))} {r c : Nat} {cell : Cell D}
    (h : slotOf T r c = some cell) : ∃ row ∈ T, c < row.length := by
  unfold slotOf at h
  cases hr : T[r]? with
  | none => rw [hr] at h; simp at h
  | some row =>
    rw [hr] at h
    refine ⟨row, List.mem_iff_getElem?.mpr ⟨r, hr⟩, ?_⟩
    by_contra hlt
    simp only [Option.getD_some] at h
    rw [List.getElem?_eq_none_iff.mpr (Nat.le_of_not_lt hlt)] at h
    simp at h

theorem int_add_some {a b c : Int} (h : int_add a b = some c) :
    c = a + b ∧ -2 ^ 31 ≤ a + b ∧ a + b < 2 ^ 31 := by
  unfold int_add at h
  split at h
  · rename_i hr
    simp only [Option.some.injEq] at h
    exact ⟨h.symm, hr⟩
  · cases h

/-- The columns of a table moved right by an insertion hold the handled cells at the shifted
positions and nothing elsewhere. -/
theorem Sheet.Shifted.cols {s : Sheet D} (hwf : s.WF) (before count : Int) (hb : 0 ≤ before)
    (hc : 0 < count) (hcount : count < 2 ^ 31) (hbefore : before < 2 ^ 31)
    (hrows : ∀ row ∈ s.table_, row.length < 2 ^ 31) (M : Nat)
    (hM : ∀ row ∈ s.table_, row.length ≤ M) (hbig : (M : Int) + count ≤ (kMaxCols : Int))
    (T : List (List (Option (Cell D))))
    (hT : mapOption (insertColsRow before count) s.table_ = some T) :
    Sheet.Shifted .Col before count s ⟨T⟩ := by
  have hslot : ∀ q : Position, 0 ≤ q.col →
      (⟨T⟩ : Sheet D).slot q
      = if q.col < before then (s.slot q).bind (Cell.HandleInserted .Col before count)
        else if q.col < before + count then none
        else (s.slot ⟨q.row, q.col - count⟩).bind (Cell.HandleInserted .Col before count) := by
    intro q hq
    rw [Sheet.slot_eq_slotOf,
      inserted_cols_table before count hb hc hcount hbefore s.table_ T hrows hT]
    by_cases h1 : q.col < before
    · rw [if_pos h1, if_pos (by omega)]
      rfl
    · rw [if_neg h1, if_neg (by omega)]
      by_cases h2 : q.col < before + count
      · rw [if_pos h2, if_pos (by omega)]
      · rw [if_neg h2, if_neg (by omega), Sheet.slot_eq_slotOf]
        have : (q.col - count).toNat = q.col.toNat - count.toNat := by omega
        simp only [this]
  rw [kMaxCols_eq] at hbig
  constructor
  · intro p c hp
    have hv := Sheet.cells_valid hp
    have hs : s.slot p = some c := by rw [← Sheet.cells_eq_slot hv]; exact hp
    obtain ⟨row, hrow, hcol⟩ := slotOf_some_col hs
    have hcolM : p.col.toNat < M := lt_of_lt_of_le hcol (hM row hrow)
    obtain ⟨h0, h1, h2, h3⟩ := (IsValid_iff p).mp hv
    obtain ⟨c', hc', hi, hd, hvc, hf⟩ := c.HandleInserted_cell .Col before count (by omega)
      (by omega) (hwf.incoming_valid hp)
    refine ⟨c', ?_, hi, hd, hvc, hf (hwf.fresh p c hp)⟩
    have hv' : (p.shifted .Col before count).IsValid = true := by
      rw [IsValid_iff, kMaxCols_eq]
      unfold Position.shifted
      by_cases hge : p.dim .Col ≥ before
      · rw [if_pos hge]
        simp only [Position.setDim, Position.dim] at hge ⊢
        exact ⟨h0, h1, by omega, by omega⟩
      · rw [if_neg hge]
        rw [kMaxCols_eq] at h3
        exact ⟨h0, h1, h2, h3⟩
    rw [Sheet.cells_eq_slot hv']
    unfold Position.shifted
    by_cases hge : p.dim .Col ≥ before
    · rw [if_pos hge]
      simp only [Position.setDim, Position.dim] at hge ⊢
      rw [hslot _ (by simp only; omega), if_neg (by simp only; omega),
        if_neg (by simp only; omega)]
      have : (⟨p.row, p.col + count - count⟩ : Position) = p := by
        simp
      simp only [this, hs, Option.some_bind, hc']
    · rw [if_neg hge]
      simp only [Position.dim] at hge
      rw [hslot _ h2, if_pos (by omega), hs, Option.some_bind, hc']
  · intro q c' hq
    have hv := Sheet.cells_valid hq
    rw [Sheet.cells_eq_slot hv] at hq
    obtain ⟨h0, h1, h2, h3⟩ := (IsValid_iff q).mp hv
    rw [hslot q h2] at hq
    by_cases hlt : q.col < before
    · rw [if_pos hlt] at hq
      refine ⟨q, ?_, ?_⟩
      · unfold Position.shifted
        rw [if_neg (by simp only [Position.dim]; omega)]
      · rw [Sheet.cells_eq_slot hv]
        cases hs : s.slot q with
        | none => rw [hs] at hq; cases hq
        | some c => rfl
    · rw [if_neg hlt] at hq
      by_cases hlt' : q.col < before + count
      · rw [if_pos hlt'] at hq; cases hq
      · rw [if_neg hlt'] at hq
        have hvp : (⟨q.row, q.col - count⟩ : Position).IsValid = true := by
          rw [IsValid_iff]
          exact ⟨h0, h1, by simp only; omega, by simp only; omega⟩
        refine ⟨⟨q.row, q.col - count⟩, ?_, ?_⟩
        · unfold Position.shifted
          rw [if_pos (by simp only [Position.dim]; omega)]
          simp [Position.setDim, Position.dim]
        · rw [Sheet.cells_eq_slot hvp]
          cases hs : s.slot ⟨q.row, q.col - count⟩ with
          | none => rw [hs] at hq; cases hq
          | some c => rfl

/-- On a sheet that satisfies the sheet invariants and has no row of 2147483648 slots or
more, a call of `InsertCols` that returns has moved every cell of a column at or after
`before` right by `count` columns, has kept the other cells where they were, has added
`count` to the column of every formula reference and incoming reference at or after
`before`, and leaves a sheet that satisfies the sheet invariants. -/
theorem InsertCols_shifts (s : Sheet D) (hwf : s.WF) (before count : Int) (hb : 0 ≤ before)
    (hc : 0 ≤ count) (hrows : ∀ row ∈ s.table_, row.length < 2 ^ 31) (s' : Sheet D)
    (h : s.InsertCols before count = .ok () s') :
    Sheet.Shifted .Col before count s s' ∧ s'.WF := by
  have hMlt : (s.table_.map List.length).foldl Nat.max 0 < 2 ^ 31 :=
    foldl_max_lt _ _ (fun x hx => by
      obtain ⟨row, hrow, hx'⟩ := List.mem_map.mp hx
      rw [← hx']
      exact hrows row hrow) 0 (by decide)
  have hM : ∀ row ∈ s.table_, row.length ≤ (s.table_.map List.length).foldl Nat.max 0 :=
    fun row hrow => (foldl_max_ge _ 0).2 _ (List.mem_map.mpr ⟨row, hrow, rfl⟩)
  obtain ⟨M, hMdef⟩ : ∃ M, (s.table_.map List.length).foldl Nat.max 0 = M := ⟨_, rfl⟩
  rw [hMdef] at hMlt hM
  have hsame : (M : Int) ≤ before ∨ count = 0 →
      Sheet.Shifted .Col before count s s ∧ s.WF := by
    intro hcase
    refine ⟨Sheet.Shifted.same hwf .Col before count ?_, hwf⟩
    intro p c hp
    rcases hcase with hcase | hcase
    · have hv := Sheet.cells_valid hp
      have hs : s.slot p = some c := by rw [← Sheet.cells_eq_slot hv]; exact hp
      obtain ⟨row, hrow, hcol⟩ := slotOf_some_col hs
      have := hM row hrow
      unfold Position.shifted
      rw [if_neg (by simp only [Position.dim]; omega)]
    · rw [hcase]
      exact Position.shifted_zero .Col before p
  unfold Sheet.InsertCols at h
  simp only [hMdef, static_cast_int_fits M hMlt] at h
  cases h1 : int_add (M : Int) count with
  | none => rw [h1] at h; cases h
  | some sm =>
    cases h2 : int_add before count with
    | none => rw [h1, h2] at h; cases h
    | some sum =>
      rw [h1, h2] at h
      simp only at h
      obtain ⟨hsm, _, hsmlt⟩ := int_add_some h1
      obtain ⟨hsum, _, hsumlt⟩ := int_add_some h2
      by_cases hmid : (M : Int) > before
      · simp only [decide_eq_true hmid, if_true, if_false, Int.mul_one, Int.mul_zero,
          Int.add_zero] at h
        by_cases hbig : sm > (kMaxCols : Int)
        · rw [if_pos hbig] at h; cases h
        · rw [if_neg hbig] at h
          by_cases h0 : count = 0
          · have hne : (count != 0) = false := by simp [h0]
            simp only [hne, Bool.and_false, Bool.false_eq_true, if_false] at h
            cases h
            exact hsame (Or.inr h0)
          · have hne : (count != 0) = true := by simpa using h0
            simp only [hne, Bool.and_self, if_true] at h
            cases hT : mapOption (insertColsRow before count) s.table_ with
            | none => rw [hT] at h; cases h
            | some T =>
              rw [hT] at h
              cases h
              have hsh := Sheet.Shifted.cols hwf before count hb (by omega) (by omega)
                (by omega) hrows M hM (by omega) T hT
              exact ⟨hsh, hwf.of_shifted .Col before count hc hsh⟩
      · have hmid' : decide ((M : Int) > before) = false := decide_eq_false hmid
        simp only [hmid', Bool.false_and, Bool.false_eq_true, if_false] at h
        by_cases hbig : sm * 0 + sum * 1 > (kMaxCols : Int)
        · rw [if_pos hbig] at h; cases h
        · rw [if_neg hbig] at h
          cases h
          exact hsame (Or.inl (by omega))

/-! ## Maintenance of the incoming references -/

/-- On a sorted duplicate-free list `AddIncomingRef` inserts the position in order, once. -/
theorem addIncomingRef_spec (l : List Position) (pos : Position) (hs : StrictSorted l) :
    StrictSorted (addIncomingRef l pos) ∧ ∀ x, x ∈ addIncomingRef l pos ↔ x = pos ∨ x ∈ l := by
  by_cases hm : pos ∈ l
  · rw [addIncomingRef_of_mem l pos hs hm]
    refine ⟨hs, fun x => ⟨fun h => Or.inr h, fun h => ?_⟩⟩
    rcases h with h | h
    · rw [h]; exact hm
    · exact h
  · exact addIncomingRef_of_not_mem l pos hs hm

/-- On a sorted duplicate-free list that holds the position, `RemoveIncomingRef` removes it and
nothing else. -/
theorem removeIncomingRef_spec (l : List Position) (pos : Position) (hs : StrictSorted l)
    (hm : pos ∈ l) :
    StrictSorted (removeIncomingRef l pos) ∧
      ∀ x, x ∈ removeIncomingRef l pos ↔ x ∈ l ∧ x ≠ pos := by
  rw [removeIncomingRef_of_mem l pos hs hm]
  exact ⟨hs.erase pos, fun x => hs.mem_erase pos x⟩

/-- C30, evaluated where the code departs from it: `[B1]` is sorted and duplicate-free and
does not hold `A1`, yet `RemoveIncomingRef(A1)` removes `B1` from it: the element at the lower
bound is erased without being compared with the position. `AddIncomingRef` does compare, and
on the same list it adds `A1` in front. -/
theorem RemoveIncomingRef_erases_other :
    StrictSorted [⟨0, 1⟩] ∧ (⟨0, 0⟩ : Position) ∉ [(⟨0, 1⟩ : Position)] ∧
      removeIncomingRef [⟨0, 1⟩] ⟨0, 0⟩ = [] ∧
      ((⟨.Text [], [⟨0, 1⟩], none⟩ : Cell (Option Int)).RemoveIncomingRef ⟨0, 0⟩).incoming_refs_
        = [] ∧
      addIncomingRef [⟨0, 1⟩] ⟨0, 0⟩ = [⟨0, 0⟩, ⟨0, 1⟩] := by
  refine ⟨?_, by decide, by decide, by decide, by decide⟩
  unfold StrictSorted
  simp

/-! ## The caches of a formula under structural edits -/

/-- C29: for every formula and every structural-edit handler called on it: if the tree
returns `NothingChanged` none of the three caches changes; if it returns
`ReferencesRenamedOnly` the expression cache and the referenced-cells cache are cleared and
the value cache is as before; if it returns `ReferencesChanged` all three caches are cleared.
`Formula::InvalidateCache` clears all three. -/
theorem Formula_caches_after_edit (f : Formula D) (dim : Axis) (a b : Int) :
    (∀ f', f.HandleInserted dim a b = some f' →
        ∃ node r, f.node_.HandleInserted dim a b = some (node, r) ∧ f'.node_ = node ∧
          (r = .NothingChanged → f'.value_cache_ = f.value_cache_ ∧
            f'.expression_cache_ = f.expression_cache_ ∧
            f'.referenced_cells_cache_ = f.referenced_cells_cache_) ∧
          (r = .ReferencesRenamedOnly → f'.value_cache_ = f.value_cache_ ∧
            f'.expression_cache_ = none ∧ f'.referenced_cells_cache_ = none) ∧
          (r = .ReferencesChanged → f'.value_cache_ = none ∧
            f'.expression_cache_ = none ∧ f'.referenced_cells_cache_ = none)) ∧
      (∀ f' r, f.HandleDeleted dim a b = some (f', r) →
        ∃ node, f.node_.HandleDeleted dim a b = some (node, r) ∧ f'.node_ = node ∧
          (r = .NothingChanged → f'.value_cache_ = f.value_cache_ ∧
            f'.expression_cache_ = f.expression_cache_ ∧
            f'.referenced_cells_cache_ = f.referenced_cells_cache_) ∧
          (r = .ReferencesRenamedOnly → f'.value_cache_ = f.value_cache_ ∧
            f'.expression_cache_ = none ∧ f'.referenced_cells_cache_ = none) ∧
          (r = .ReferencesChanged → f'.value_cache_ = none ∧
            f'.expression_cache_ = none ∧ f'.referenced_cells_cache_ = none)) ∧
      f.InvalidateCache.value_cache_ = none ∧ f.InvalidateCache.expression_cache_ = none ∧
      f.InvalidateCache.referenced_cells_cache_ = none ∧ f.InvalidateCache.node_ = f.node_ := by
  refine ⟨?_, ?_, rfl, rfl, rfl, rfl⟩
  · intro f' h
    unfold Formula.HandleInserted at h
    cases hn : f.node_.HandleInserted dim a b with
    | none => rw [hn] at h; cases h
    | some p =>
      obtain ⟨node, r⟩ := p
      rw [hn] at h
      simp only [Option.map_some', Option.some.injEq] at h
      subst h
      refine ⟨node, r, rfl, ?_, ?_, ?_, ?_⟩
      · cases r <;> rfl
      · intro hr; subst hr; exact ⟨rfl, rfl, rfl⟩
      · intro hr; subst hr; exact ⟨rfl, rfl, rfl⟩
      · intro hr; subst hr; exact ⟨rfl, rfl, rfl⟩
  · intro f' r h
    unfold Formula.HandleDeleted at h
    cases hn : f.node_.HandleDeleted dim a b with
    | none => rw [hn] at h; cases h
    | some p =>
      obtain ⟨node, r'⟩ := p
      rw [hn] at h
      simp only [Option.map_some', Option.some.injEq, Prod.mk.injEq] at h
      obtain ⟨h1, h2⟩ := h
      subst h2
      subst h1
      refine ⟨node, rfl, ?_, ?_, ?_, ?_⟩
      · cases r' <;> rfl
      · intro hr; subst hr; exact ⟨rfl, rfl, rfl⟩
      · intro hr; subst hr; exact ⟨rfl, rfl, rfl⟩
      · intro hr; subst hr; exact ⟨rfl, rfl, rfl⟩

set_option maxRecDepth 100000 in
theorem Formula_caches_after_edit_witness :
    ∃ f' : Formula (Option Int),
      Formula.HandleDeleted .Row
          ⟨.Cell ⟨1, 1⟩, some (.number (some 0)), some "B2".toList, some [⟨1, 1⟩]⟩ 1 1
        = some (f', .ReferencesChanged) ∧
      f'.value_cache_ = none ∧ f'.expression_cache_ = none ∧
      f'.referenced_cells_cache_ = none :=
  ⟨⟨.Cell ⟨-1, -1⟩, none, none, none⟩, by decide,
    ((((Formula_caches_after_edit
      (⟨.Cell ⟨1, 1⟩, some (.number (some 0)), some "B2".toList, some [⟨1, 1⟩]⟩ :
        Formula (Option Int)) .Row 1 1).2.1 ⟨.Cell ⟨-1, -1⟩, none, none, none⟩
      .ReferencesChanged (by decide)).choose_spec).2.2.2.2 rfl)⟩

theorem HandleInsertedImpl_some (p : Position) (dim : Axis) (before count : Int)
    (p' : Position) (r : HandlingResult)
    (h : HandleInsertedImpl p dim before count = some (p', r)) :
    p' = (if p.IsValid then p.shifted dim before count else p) ∧
      r = (if p.IsValid && decide (p.dim dim ≥ before) then .ReferencesRenamedOnly
        else .NothingChanged) := by
  unfold HandleInsertedImpl at h
  by_cases hc : (p.IsValid && decide (p.dim dim ≥ before)) = true
  · rw [if_pos hc] at h
    rw [if_pos hc]
    simp only [Bool.and_eq_true, decide_eq_true_eq] at hc
    obtain ⟨v, hv, hpv⟩ := Option.map_eq_some'.mp h
    obtain ⟨hv', _⟩ := int_add_some hv
    simp only [Prod.mk.injEq] at hpv
    refine ⟨?_, hpv.2.symm⟩
    rw [if_pos hc.1, ← hpv.1, hv']
    unfold Position.shifted
    rw [if_pos hc.2]
  · rw [if_neg hc] at h
    rw [if_neg hc]
    simp only [Option.some.injEq, Prod.mk.injEq] at h
    refine ⟨?_, h.2.symm⟩
    rw [← h.1]
    by_cases hv : p.IsValid = true
    · rw [if_pos hv]
      unfold Position.shifted
      rw [if_neg (fun hge => hc (by simp [hv, hge]))]
    · rw [if_neg hv]

theorem HandlingResult.max_inserted (a b : Bool) :
    HandlingResult.max (if a then .ReferencesRenamedOnly else .NothingChanged)
        (if b then .ReferencesRenamedOnly else .NothingChanged)
      = if (a || b) then .ReferencesRenamedOnly else .NothingChanged := by
  cases a <;> cases b <;> rfl

theorem Node.HandleInserted_some (T : Node D) (dim : Axis) (before count : Int) :
    ∀ T' r, T.HandleInserted dim before count = some (T', r) →
      T' = T.shifted dim before count ∧ r = T.insertedResult dim before := by
  induction T with
  | Number v s =>
    intro T' r h
    simp only [Node.HandleInserted, Option.some.injEq, Prod.mk.injEq] at h
    exact ⟨h.1.symm, h.2.symm⟩
  | Cell p =>
    intro T' r h
    simp only [Node.HandleInserted] at h
    obtain ⟨q, hq, hT⟩ := Option.map_eq_some'.mp h
    obtain ⟨p', r'⟩ := q
    simp only [Prod.mk.injEq] at hT
    obtain ⟨h1, h2⟩ := HandleInsertedImpl_some p dim before count p' r' hq
    refine ⟨?_, ?_⟩
    · rw [← hT.1, h1]; rfl
    · rw [← hT.2, h2]
      simp [Node.insertedResult, Node.refersFrom, Node.cellPositions]
  | UnaryOp k n ih =>
    intro T' r h
    simp only [Node.HandleInserted] at h
    obtain ⟨q, hq, hT⟩ := Option.map_eq_some'.mp h
    obtain ⟨n', r'⟩ := q
    simp only [Prod.mk.injEq] at hT
    obtain ⟨h1, h2⟩ := ih n' r' hq
    refine ⟨?_, ?_⟩
    · rw [← hT.1, h1]; rfl
    · rw [← hT.2, h2]; rfl
  | BinaryOp k l r ihl ihr =>
    intro T' res h
    simp only [Node.HandleInserted] at h
    cases hl : l.HandleInserted dim before count with
    | none => rw [hl] at h; cases h
    | some ql =>
      obtain ⟨l', a⟩ := ql
      cases hr : r.HandleInserted dim before count with
      | none => rw [hl, hr] at h; cases h
      | some qr =>
        obtain ⟨r', b⟩ := qr
        rw [hl, hr] at h
        simp only [Option.some.injEq, Prod.mk.injEq] at h
        obtain ⟨h1, h2⟩ := ihl l' a hl
        obtain ⟨h3, h4⟩ := ihr r' b hr
        refine ⟨?_, ?_⟩
        · rw [← h.1, h1, h3]; rfl
        · rw [← h.2, h2, h4]
          simp only [Node.insertedResult, HandlingResult.max_inserted, Node.refersFrom,
            Node.cellPositions, List.any_append]

theorem Node.HandleInserted_isSome (T : Node D) (dim : Axis) (before count : Int)
    (hc : 0 ≤ count) (hfit : count + 16384 ≤ 2 ^ 31) :
    (T.HandleInserted dim before count).isSome = true := by
  induction T with
  | Number v s => rfl
  | Cell p =>
    simp only [Node.HandleInserted, Option.isSome_map']
    unfold HandleInsertedImpl
    by_cases hcnd : (p.IsValid && decide (p.dim dim ≥ before)) = true
    · rw [if_pos hcnd]
      simp only [Bool.and_eq_true, decide_eq_true_eq] at hcnd
      obtain ⟨h0, h1⟩ := Position.dim_bounds hcnd.1 dim
      rw [int_add_fits _ _ (by omega) (by omega)]
      rfl
    · rw [if_neg hcnd]
      rfl
  | UnaryOp k n ih =>
    simp only [Node.HandleInserted, Option.isSome_map']
    exact ih
  | BinaryOp k l r ihl ihr =>
    simp only [Node.HandleInserted]
    cases hl : l.HandleInserted dim before count with
    | none => rw [hl] at ihl; cases ihl
    | some ql =>
      cases hr : r.HandleInserted dim before count with
      | none => rw [hr] at ihr; cases ihr
      | some qr => rfl

/-- C26: for every expression tree `T`, every `B` and every `C`, whenever
`HandleInsertedRows(B, C)` is defined (no `int` sum overflows) it adds `C` to the row of every
valid cell reference of `T` with row at least `B`, leaves every other node unchanged, and
returns `ReferencesRenamedOnly` if `T` has such a reference and `NothingChanged` otherwise.
It is defined for every `C` from 0 to `2^31 - 16384`. The same holds for
`HandleInsertedCols` with columns. -/
theorem HandleInserted_renames (T : Node D) (dim : Axis) (B C : Int) :
    (∀ T' r, T.HandleInserted dim B C = some (T', r) →
        T' = T.shifted dim B C ∧ r = T.insertedResult dim B) ∧
      (0 ≤ C → C + 16384 ≤ 2 ^ 31 →
        T.HandleInserted dim B C = some (T.shifted dim B C, T.insertedResult dim B)) := by
  refine ⟨T.HandleInserted_some dim B C, fun hc hfit => ?_⟩
  have h := T.HandleInserted_isSome dim B C hc hfit
  cases hT : T.HandleInserted dim B C with
  | none => rw [hT] at h; cases h
  | some q =>
    obtain ⟨T', r⟩ := q
    obtain ⟨h1, h2⟩ := T.HandleInserted_some dim B C T' r hT
    rw [h1, h2]

theorem HandleInserted_renames_witness :
    (Node.BinaryOp .Addition (Node.Cell ⟨1, 1⟩) (Node.Cell ⟨0, 2⟩) :
        Node (Option Int)).HandleInserted .Row 1 2
      = some (Node.BinaryOp .Addition (Node.Cell ⟨3, 1⟩) (Node.Cell ⟨0, 2⟩),
        .ReferencesRenamedOnly) :=
  (HandleInserted_renames (Node.BinaryOp .Addition (Node.Cell ⟨1, 1⟩) (Node.Cell ⟨0, 2⟩) :
    Node (Option Int)) .Row 1 2).2 (by decide) (by decide)

theorem HandleDeletedImpl_some (p : Position) (dim : Axis) (first count : Int) (hc : 0 ≤ count)
    (p' : Position) (r : HandlingResult)
    (h : HandleDeletedImpl p dim first count = some (p', r)) :
    p' = (if p.IsValid then p.deleted dim first count else p) ∧
      r = severity
        (p.IsValid && decide (first ≤ p.dim dim) && decide (p.dim dim < first + count))
        (p.IsValid && decide (p.dim dim ≥ first + count)) := by
  unfold HandleDeletedImpl at h
  by_cases hcnd : (p.IsValid && decide (p.dim dim ≥ first)) = true
  · rw [if_pos hcnd] at h
    simp only [Bool.and_eq_true, decide_eq_true_eq] at hcnd
    obtain ⟨hv, hge⟩ := hcnd
    cases hl : int_add first count with
    | none => rw [hl] at h; cases h
    | some last =>
      rw [hl] at h
      obtain ⟨hlast, _⟩ := int_add_some hl
      subst hlast
      simp only at h
      by_cases hin : p.dim dim < first + count
      · rw [if_pos hin] at h
        simp only [Option.some.injEq, Prod.mk.injEq] at h
        refine ⟨?_, ?_⟩
        · rw [← h.1, if_pos hv]
          unfold Position.deleted
          rw [if_neg (by omega), if_pos hin]
        · rw [← h.2]
          simp [severity, hv, hge, hin]
      · rw [if_neg hin] at h
        obtain ⟨v, hv', hpv⟩ := Option.map_eq_some'.mp h
        unfold int_sub at hv'
        split at hv'
        · simp only [Option.some.injEq] at hv'
          simp only [Prod.mk.injEq] at hpv
          refine ⟨?_, ?_⟩
          · rw [← hpv.1, if_pos hv, ← hv']
            unfold Position.deleted
            rw [if_neg (by omega), if_neg hin]
          · rw [← hpv.2]
            have hge' : p.dim dim ≥ first + count := by omega
            simp [severity, hv, hin, hge']
        · cases hv'
  · rw [if_neg hcnd] at h
    simp only [Option.some.injEq, Prod.mk.injEq] at h
    refine ⟨?_, ?_⟩
    · rw [← h.1]
      by_cases hv : p.IsValid = true
      · rw [if_pos hv]
        unfold Position.deleted
        rw [if_pos]
        by_contra hlt
        exact hcnd (by simp [hv]; omega)
      · rw [if_neg hv]
    · rw [← h.2]
      by_cases hv : p.IsValid = true
      · have hlt : p.dim dim < first := by
          by_contra hlt
          exact hcnd (by simp [hv]; omega)
        have h1 : ¬ (first ≤ p.dim dim) := by omega
        have h2 : ¬ (p.dim dim ≥ first + count) := by omega
        simp [severity, hv, h1, h2]
      · have hv' : p.IsValid = false := by simpa using hv
        simp [severity, hv']

theorem HandlingResult.max_severity (a b c d : Bool) :
    HandlingResult.max (severity a b) (severity c d) = severity (a || c) (b || d) := by
  cases a <;> cases b <;> cases c <;> cases d <;> rfl

theorem Node.HandleDeleted_some (T : Node D) (dim : Axis) (first count : Int) (hc : 0 ≤ count) :
    ∀ T' r, T.HandleDeleted dim first count = some (T', r) →
      T' = T.deleted dim first count ∧ r = T.deletedResult dim first count := by
  induction T with
  | Number v s =>
    intro T' r h
    simp only [Node.HandleDeleted, Option.some.injEq, Prod.mk.injEq] at h
    exact ⟨h.1.symm, h.2.symm⟩
  | Cell p =>
    intro T' r h
    simp only [Node.HandleDeleted] at h
    obtain ⟨q, hq, hT⟩ := Option.map_eq_some'.mp h
    obtain ⟨p', r'⟩ := q
    simp only [Prod.mk.injEq] at hT
    obtain ⟨h1, h2⟩ := HandleDeletedImpl_some p dim first count hc p' r' hq
    refine ⟨?_, ?_⟩
    · rw [← hT.1, h1]; rfl
    · rw [← hT.2, h2]
      simp [Node.deletedResult, Node.refersInto, Node.refersFrom, Node.cellPositions]
  | UnaryOp k n ih =>
    intro T' r h
    simp only [Node.HandleDeleted] at h
    obtain ⟨q, hq, hT⟩ := Option.map_eq_some'.mp h
    obtain ⟨n', r'⟩ := q
    simp only [Prod.mk.injEq] at hT
    obtain ⟨h1, h2⟩ := ih n' r' hq
    refine ⟨?_, ?_⟩
    · rw [← hT.1, h1]; rfl
    · rw [← hT.2, h2]; rfl
  | BinaryOp k l r ihl ihr =>
    intro T' res h
    simp only [Node.HandleDeleted] at h
    cases hl : l.HandleDeleted dim first count with
    | none => rw [hl] at h; cases h
    | some ql =>
      obtain ⟨l', a⟩ := ql
      cases hr : r.HandleDeleted dim first count with
      | none => rw [hl, hr] at h; cases h
      | some qr =>
        obtain ⟨r', b⟩ := qr
        rw [hl, hr] at h
        simp only [Option.some.injEq, Prod.mk.injEq] at h
        obtain ⟨h1, h2⟩ := ihl l' a hl
        obtain ⟨h3, h4⟩ := ihr r' b hr
        refine ⟨?_, ?_⟩
        · rw [← h.1, h1, h3]; rfl
        · rw [← h.2, h2, h4]
          simp only [Node.deletedResult, HandlingResult.max_severity, Node.refersInto,
            Node.refersFrom, Node.cellPositions, List.any_append]

theorem Node.HandleDeleted_isSome (T : Node D) (dim : Axis) (first count : Int)
    (hf : 0 ≤ first) (hc : 0 ≤ count) (hfit : first + count < 2 ^ 31) :
    (T.HandleDeleted dim first count).isSome = true := by
  induction T with
  | Number v s => rfl
  | Cell p =>
    simp only [Node.HandleDeleted, Option.isSome_map']
    unfold HandleDeletedImpl
    by_cases hcnd : (p.IsValid && decide (p.dim dim ≥ first)) = true
    · rw [if_pos hcnd]
      simp only [Bool.and_eq_true, decide_eq_true_eq] at hcnd
      obtain ⟨h0, h1⟩ := Position.dim_bounds hcnd.1 dim
      rw [int_add_fits _ _ (by omega) hfit]
      simp only
      by_cases hin : p.dim dim < first + count
      · rw [if_pos hin]; rfl
      · rw [if_neg hin]
        unfold int_sub
        rw [if_pos ⟨by omega, by omega⟩]
        rfl
    · rw [if_neg hcnd]
      rfl
  | UnaryOp k n ih =>
    simp only [Node.HandleDeleted, Option.isSome_map']
    exact ih
  | BinaryOp k l r ihl ihr =>
    simp only [Node.HandleDeleted]
    cases hl : l.HandleDeleted dim first count with
    | none => rw [hl] at ihl; cases ihl
    | some ql =>
      cases hr : r.HandleDeleted dim first count with
      | none => rw [hr] at ihr; cases ihr
      | some qr => rfl

/-- C27: for every expression tree `T`, every `F ≥ 0` and every `C > 0` with `F + C` an
`int`, `HandleDeletedRows(F, C)` sets every valid cell reference of `T` with row in
`[F, F + C)` to the sentinel `{-1, -1}`, subtracts `C` from the row of every valid reference
with row at least `F + C`, and leaves every other node unchanged; it returns
`ReferencesChanged` if a reference was invalidated, otherwise `ReferencesRenamedOnly` if one
was renumbered, otherwise `NothingChanged`. The same holds for `HandleDeletedCols` with
columns. -/
theorem HandleDeleted_invalidates (T : Node D) (dim : Axis) (F C : Int) (hF : 0 ≤ F)
    (hC : 0 < C) (hfit : F + C < 2 ^ 31) :
    T.HandleDeleted dim F C = some (T.deleted dim F C, T.deletedResult dim F C) := by
  have h := T.HandleDeleted_isSome dim F C hF (by omega) hfit
  cases hT : T.HandleDeleted dim F C with
  | none => rw [hT] at h; cases h
  | some q =>
    obtain ⟨T', r⟩ := q
    obtain ⟨h1, h2⟩ := T.HandleDeleted_some dim F C (by omega) T' r hT
    rw [h1, h2]

theorem HandleDeleted_invalidates_witness :
    (Node.BinaryOp .Addition (Node.Cell ⟨1, 1⟩) (Node.Cell ⟨4, 2⟩) :
        Node (Option Int)).HandleDeleted .Row 1 2
      = some (Node.BinaryOp .Addition (Node.Cell ⟨-1, -1⟩) (Node.Cell ⟨2, 2⟩),
        .ReferencesChanged) :=
  HandleDeleted_invalidates (Node.BinaryOp .Addition (Node.Cell ⟨1, 1⟩) (Node.Cell ⟨4, 2⟩) :
    Node (Option Int)) .Row 1 2 (by decide) (by decide) (by decide)

/-! ## The incoming references under a deletion -/

/-- What the deletion handlers of a cell do with its incoming references: the entries in the
deleted range are dropped, all others are kept as they are. -/
theorem deleteIncoming_eq (dim : Axis) (first count : Int) (l : List Position)
    (h1 : -2 ^ 31 ≤ first + count) (h2 : first + count < 2 ^ 31) :
    deleteIncoming dim first count l
      = some (l.filter (fun pos =>
          !(decide (first ≤ pos.dim dim) && decide (pos.dim dim < first + count)))) := by
  cases l with
  | nil => rfl
  | cons a l =>
    unfold deleteIncoming
    rw [int_add_fits _ _ h1 h2]
    rfl

/-- C24, evaluated where the code departs from it: on a cell with the incoming references
`A1`, `A2`, `A6` the handler `HandleDeletedRows(1, 1)` drops `A2`, whose row is deleted, and
keeps `A1`; but it keeps `A6` as it is, where the claim has it renumbered to `A5`: the
handler erases and never subtracts, unlike `HandleInsertedRows`, which adds `count`. The
same happens with columns. -/
theorem HandleDeleted_keeps_numbers :
    deleteIncoming .Row 1 1 [⟨0, 0⟩, ⟨1, 0⟩, ⟨5, 0⟩] = some [⟨0, 0⟩, ⟨5, 0⟩] ∧
      HandleDeletedAt .Row 1 1 1 sheetIncoming ⟨0, 0⟩
        = .ok () ⟨[[some ⟨.Text "x".toList, [⟨0, 0⟩, ⟨5, 0⟩], none⟩]]⟩ ∧
      deleteIncoming .Col 1 1 [⟨0, 0⟩, ⟨0, 1⟩, ⟨0, 5⟩] = some [⟨0, 0⟩, ⟨0, 5⟩] ∧
      mapOption (shiftIncoming .Row 1 1) [⟨0, 0⟩, ⟨1, 0⟩, ⟨5, 0⟩]
        = some [⟨0, 0⟩, ⟨2, 0⟩, ⟨6, 0⟩] := by
  refine ⟨by decide, by decide, by decide, by decide⟩

theorem printableRow_eq (rows : Int) (row : List (Option (Cell D))) :
    ∀ (k : Nat) (size : Size), k + row.length < 2147483648 →
      printableRow rows row ((k : Int), size)
        = some (((k + row.length : Nat) : Int),
            ⟨if extent row = 0 then size.rows else rows,
              if extent row = 0 then size.cols else max size.cols ((k + extent row : Nat) : Int)⟩) := by
  induction row with
  | nil => intro k size _; simp [printableRow, extent]
  | cons x xs ih =>
    intro k size hk
    simp only [List.length_cons] at hk
    have hadd : int_add (k : Int) 1 = some (((k + 1 : Nat) : Int)) := by
      rw [int_add_fits _ _ (by omega) (by omega)]
      simp
    have hlen : k + 1 + xs.length = k + (x :: xs).length := by
      simp only [List.length_cons]; omega
    have hstep : ∀ size1 : Size,
        printableCell rows ((k + 1 : Nat) : Int) size x = size1 →
        (if extent xs = 0 then size1.rows else rows) =
          (if extent (x :: xs) = 0 then size.rows else rows) ∧
        (if extent xs = 0 then size1.cols
          else max size1.cols ((k + 1 + extent xs : Nat) : Int)) =
          (if extent (x :: xs) = 0 then size.cols
            else max size.cols ((k + extent (x :: xs) : Nat) : Int)) := by
      intro size1 hs
      have hocc : occupied x = true → size1 = ⟨rows, max size.cols ((k + 1 : Nat) : Int)⟩ := by
        intro ho
        cases x with
        | none => simp [occupied] at ho
        | some c =>
          simp only [occupied] at ho
          simp only [printableCell, ho, if_true] at hs
          exact hs.symm
      have hfree : occupied x = false → size1 = size := by
        intro ho
        cases x with
        | none => exact hs.symm
        | some c =>
          simp only [occupied] at ho
          simp only [printableCell, ho, Bool.false_eq_true, if_false] at hs
          exact hs.symm
      by_cases he : extent xs = 0
      · by_cases ho : occupied x = true
        · have h1 : extent (x :: xs) = 1 := by simp [extent, he, ho]
          rw [hocc ho, h1, he]
          simp
        · have ho' : occupied x = false := by simpa using ho
          have h1 : extent (x :: xs) = 0 := by simp [extent, he, ho']
          rw [hfree ho', h1, he]
          simp
      · have h1 : extent (x :: xs) = extent xs + 1 := by simp [extent, he]
        have hpos : 0 < extent xs := Nat.pos_of_ne_zero he
        rw [h1, if_neg he, if_neg he, if_neg (by omega), if_neg (by omega)]
        refine ⟨rfl, ?_⟩
        by_cases ho : occupied x = true
        · rw [hocc ho]
          simp only
          omega
        · have ho' : occupied x = false := by simpa using ho
          rw [hfree ho']
          have : k + 1 + extent xs = k + (extent xs + 1) := by omega
          rw [this]
    have hk' : k + 1 + xs.length < 2147483648 := by omega
    rw [printableRow, hadd]
    simp only
    rw [ih (k + 1) _ hk', hlen]
    obtain ⟨hR, hC⟩ := hstep _ rfl
    rw [hR, hC]

theorem printableRows_eq (T : List (List (Option (Cell D)))) :
    ∀ (k : Nat) (size : Size), 0 ≤ size.cols → k + T.length < 2147483648 →
      (∀ row ∈ T, row.length < 2147483648) →
      printableRows T ((k : Int), size)
        = some ⟨if rowExtent T = 0 then size.rows else ((k + rowExtent T : Nat) : Int),
            max size.cols ((colExtent T : Nat) : Int)⟩ := by
  induction T with
  | nil =>
    intro k size hs _ _
    simp only [printableRows, rowExtent, colExtent, if_true, Nat.cast_zero]
    rw [max_eq_left hs]
  | cons row rest ih =>
    intro k size hs hk hrows
    simp only [List.length_cons] at hk
    have hadd : int_add (k : Int) 1 = some (((k + 1 : Nat) : Int)) := by
      rw [int_add_fits _ _ (by omega) (by omega)]
      simp
    have hrow := printableRow_eq (((k + 1 : Nat) : Int)) row 0 size
      (by have := hrows row (List.mem_cons_self _ _); omega)
    simp only [Nat.cast_zero, Nat.zero_add] at hrow
    have hk' : k + 1 + rest.length < 2147483648 := by omega
    rw [printableRows, hadd]
    simp only
    rw [hrow]
    simp only
    rw [ih (k + 1) _ (by
      simp only
      split
      · exact hs
      · exact le_trans hs (le_max_left _ _)) hk'
      (fun r hr => hrows r (List.mem_cons_of_mem _ hr))]
    simp only [Option.some.injEq, Size.mk.injEq]
    refine ⟨?_, ?_⟩
    · by_cases hr : rowExtent rest = 0
      · by_cases he : extent row = 0
        · simp [rowExtent, hr, he]
        · simp [rowExtent, hr, he]
      · have h1 : rowExtent (row :: rest) = rowExtent rest + 1 := by simp [rowExtent, hr]
        rw [h1, if_neg hr, if_neg (by omega)]
        have h2 : k + 1 + rowExtent rest = k + (rowExtent rest + 1) := by omega
        rw [h2]
    · by_cases he : extent row = 0
      · simp only [he, if_true, colExtent, Nat.zero_max]
      · simp only [he, if_false, colExtent, Nat.cast_max]
        rw [max_assoc]

theorem getD_none_eq_some {row : List (Option (Cell D))} {c : Nat} {cell : Cell D} :
    (row[c]?).getD none = some cell ↔ row[c]? = some (some cell) := by
  cases h : row[c]? with
  | none => simp
  | some v => simp

theorem extent_spec (row : List (Option (Cell D))) :
    (∀ j cell, row[j]? = some (some cell) → cell.Empty = false → j < extent row) ∧
      (extent row = 0 ∨
        ∃ cell, row[extent row - 1]? = some (some cell) ∧ cell.Empty = false) := by
  induction row with
  | nil => exact ⟨fun j cell h => (by simp at h), Or.inl rfl⟩
  | cons x xs ih =>
    obtain ⟨ih1, ih2⟩ := ih
    constructor
    · intro j cell hj hne
      cases j with
      | zero =>
        simp only [List.getElem?_cons_zero, Option.some.injEq] at hj
        have ho : occupied x = true := by rw [hj]; simp [occupied, hne]
        simp only [extent, ho, if_true]
        split <;> omega
      | succ j =>
        simp only [List.getElem?_cons_succ] at hj
        have := ih1 j cell hj hne
        simp only [extent]
        rw [if_neg (by omega)]
        omega
    · by_cases he : extent xs = 0
      · by_cases ho : occupied x = true
        · right
          have h1 : extent (x :: xs) = 1 := by simp [extent, he, ho]
          rw [h1]
          cases x with
          | none => simp [occupied] at ho
          | some c =>
            refine ⟨c, by simp, ?_⟩
            simpa [occupied] using ho
        · left
          have ho' : occupied x = false := by simpa using ho
          simp [extent, he, ho']
      · right
        rcases ih2 with h0 | ⟨cell, hc, hne⟩
        · exact absurd h0 he
        · have h1 : extent (x :: xs) = extent xs + 1 := by simp [extent, he]
          rw [h1]
          refine ⟨cell, ?_, hne⟩
          have : extent xs + 1 - 1 = (extent xs - 1) + 1 := by omega
          rw [this, List.getElem?_cons_succ]
          exact hc

theorem slotOf_cons_zero (row : List (Option (Cell D))) (rest : List (List (Option (Cell D))))
    (c : Nat) : slotOf (row :: rest) 0 c = (row[c]?).getD none := by
  simp [slotOf]

theorem slotOf_cons_succ (row : List (Option (Cell D))) (rest : List (List (Option (Cell D))))
    (r c : Nat) : slotOf (row :: rest) (r + 1) c = slotOf rest r c := by
  simp [slotOf]

theorem slotOf_nil (r c : Nat) : slotOf ([] : List (List (Option (Cell D)))) r c = none := by
  simp [slotOf]

theorem rowExtent_spec (T : List (List (Option (Cell D)))) :
    (∀ r c cell, slotOf T r c = some cell → cell.Empty = false → r < rowExtent T) ∧
      (rowExtent T = 0 ∨
        ∃ c cell, slotOf T (rowExtent T - 1) c = some cell ∧ cell.Empty = false) := by
  induction T with
  | nil => exact ⟨fun r c cell h => (by rw [slotOf_nil] at h; cases h), Or.inl rfl⟩
  | cons row rest ih =>
    obtain ⟨ih1, ih2⟩ := ih
    obtain ⟨e1, e2⟩ := extent_spec row
    constructor
    · intro r c cell h hne
      cases r with
      | zero =>
        rw [slotOf_cons_zero, getD_none_eq_some] at h
        have := e1 c cell h hne
        simp only [rowExtent]
        split
        · rw [if_neg (by omega)]; omega
        · omega
      | succ r =>
        rw [slotOf_cons_succ] at h
        have := ih1 r c cell h hne
        simp only [rowExtent]
        rw [if_neg (by omega)]
        omega
    · by_cases hr : rowExtent rest = 0
      · by_cases he : extent row = 0
        · left
          simp [rowExtent, hr, he]
        · right
          have h1 : rowExtent (row :: rest) = 1 := by simp [rowExtent, hr, he]
          rw [h1]
          rcases e2 with h0 | ⟨cell, hc, hne⟩
          · exact absurd h0 he
          · exact ⟨extent row - 1, cell, by
              rw [slotOf_cons_zero, getD_none_eq_some]; exact hc, hne⟩
      · right
        rcases ih2 with h0 | ⟨c, cell, hc, hne⟩
        · exact absurd h0 hr
        · have h1 : rowExtent (row :: rest) = rowExtent rest + 1 := by simp [rowExtent, hr]
          rw [h1]
          refine ⟨c, cell, ?_, hne⟩
          have : rowExtent rest + 1 - 1 = (rowExtent rest - 1) + 1 := by omega
          rw [this, slotOf_cons_succ]
          exact hc

theorem colExtent_spec (T : List (List (Option (Cell D)))) :
    (∀ r c cell, slotOf T r c = some cell → cell.Empty = false → c < colExtent T) ∧
      (colExtent T = 0 ∨
        ∃ r cell, slotOf T r (colExtent T - 1) = some cell ∧ cell.Empty = false) := by
  induction T with
  | nil => exact ⟨fun r c cell h => (by rw [slotOf_nil] at h; cases h), Or.inl rfl⟩
  | cons row rest ih =>
    obtain ⟨ih1, ih2⟩ := ih
    obtain ⟨e1, e2⟩ := extent_spec row
    constructor
    · intro r c cell h hne
      simp only [colExtent]
      cases r with
      | zero =>
        rw [slotOf_cons_zero, getD_none_eq_some] at h
        have := e1 c cell h hne
        omega
      | succ r =>
        rw [slotOf_cons_succ] at h
        have := ih1 r c cell h hne
        omega
    · simp only [colExtent]
      by_cases hle : colExtent rest ≤ extent row
      · rw [Nat.max_eq_left hle]
        rcases e2 with h0 | ⟨cell, hc, hne⟩
        · exact Or.inl h0
        · exact Or.inr ⟨0, cell, by rw [slotOf_cons_zero, getD_none_eq_some]; exact hc, hne⟩
      · rw [Nat.max_eq_right (by omega)]
        rcases ih2 with h0 | ⟨r, cell, hc, hne⟩
        · exact Or.inl h0
        · exact Or.inr ⟨r + 1, cell, by rw [slotOf_cons_succ]; exact hc, hne⟩

/-- C22: for every sheet (with fewer than 2^31 rows and slots per row, so that the `int`
counters do not overflow) `GetPrintableSize` returns the smallest `(rows, cols)` such that every
stored cell that is not empty lies at a row below `rows` and a column below `cols`: the
result bounds all such cells, and when it is not 0 a non-empty cell lies in its last row, and
one in its last column. It is `(0, 0)` when no stored cell is non-empty, so empty placeholder
cells do not enlarge it. -/
theorem GetPrintableSize_bounding_box (s : Sheet D) (hrows : s.table_.length < 2147483648)
    (hcols : ∀ row ∈ s.table_, row.length < 2147483648) :
    ∃ rows cols : Nat, s.GetPrintableSize = some ⟨rows, cols⟩ ∧
      (∀ (r c : Nat) (cell : Cell D), s.slot ⟨r, c⟩ = some cell → cell.Empty = false →
        r < rows ∧ c < cols) ∧
      (rows = 0 ∨ ∃ (c : Nat) (cell : Cell D), s.slot ⟨(rows - 1 : Nat), c⟩ = some cell ∧
        cell.Empty = false) ∧
      (cols = 0 ∨ ∃ (r : Nat) (cell : Cell D), s.slot ⟨r, (cols - 1 : Nat)⟩ = some cell ∧
        cell.Empty = false) ∧
      ((∀ (r c : Nat) (cell : Cell D), s.slot ⟨r, c⟩ = some cell → cell.Empty = true) →
        rows = 0 ∧ cols = 0) := by
  obtain ⟨r1, r2⟩ := rowExtent_spec s.table_
  obtain ⟨c1, c2⟩ := colExtent_spec s.table_
  have hslot : ∀ r c : Nat, s.slot ⟨r, c⟩ = slotOf s.table_ r c := fun r c => rfl
  refine ⟨rowExtent s.table_, colExtent s.table_, ?_, ?_, ?_, ?_, ?_⟩
  · unfold Sheet.GetPrintableSize
    have h := printableRows_eq s.table_ 0 ⟨0, 0⟩ (le_refl _) (by omega) hcols
    simp only [Nat.cast_zero, Nat.zero_add] at h
    rw [h]
    simp only [Option.some.injEq, Size.mk.injEq]
    refine ⟨?_, ?_⟩
    · split
      · rename_i h0; rw [h0]; rfl
      · rfl
    · exact max_eq_right (by omega)
  · intro r c cell h hne
    rw [hslot] at h
    exact ⟨r1 r c cell h hne, c1 r c cell h hne⟩
  · rcases r2 with h | ⟨c, cell, h, hne⟩
    · exact Or.inl h
    · exact Or.inr ⟨c, cell, h, hne⟩
  · rcases c2 with h | ⟨r, cell, h, hne⟩
    · exact Or.inl h
    · exact Or.inr ⟨r, cell, h, hne⟩
  · intro hall
    constructor
    · rcases r2 with h | ⟨c, cell, h, hne⟩
      · exact h
      · have := hall _ c cell h
        rw [this] at hne
        cases hne
    · rcases c2 with h | ⟨r, cell, h, hne⟩
      · exact h
      · have := hall r _ cell h
        rw [this] at hne
        cases hne

set_option maxRecDepth 100000 in
theorem GetPrintableSize_bounding_box_witness :
    ∃ rows cols : Nat, sheetA1.GetPrintableSize = some ⟨rows, cols⟩ ∧
      (∀ (r c : Nat) (cell : Cell (Option Int)), sheetA1.slot ⟨r, c⟩ = some cell → cell.Empty = false →
        r < rows ∧ c < cols) ∧
      (rows = 0 ∨ ∃ (c : Nat) (cell : Cell (Option Int)), sheetA1.slot ⟨(rows - 1 : Nat), c⟩ = some cell ∧
        cell.Empty = false) ∧
      (cols = 0 ∨ ∃ (r : Nat) (cell : Cell (Option Int)), sheetA1.slot ⟨r, (cols - 1 : Nat)⟩ = some cell ∧
        cell.Empty = false) ∧
      ((∀ (r c : Nat) (cell : Cell (Option Int)), sheetA1.slot ⟨r, c⟩ = some cell → cell.Empty = true) →
        rows = 0 ∧ cols = 0) :=
  GetPrintableSize_bounding_box sheetA1 (by decide) (by decide)

theorem sheetA1_printableSize : sheetA1.GetPrintableSize = some ⟨1, 1⟩ := by decide

set_option maxRecDepth 100000 in
theorem sheetChain0_setCell :
    sheetB2.SetCell exampleEnv 4 ⟨2, 2⟩ "=A1".toList = .ok () sheetChain0 := by decide

set_option maxRecDepth 100000 in
theorem sheetChain_getValue :
    sheetChain0.GetValue exampleOps 4 ⟨2, 2⟩ = .ok (.number (some 0)) sheetChain := by decide

theorem sheetChain_reachable : ReachableWithValues exampleEnv sheetChain :=
  .getValue 4 ⟨2, 2⟩ (.number (some 0))
    (.setCell 4 ⟨2, 2⟩ "=A1".toList
      (.setCell 4 ⟨0, 0⟩ "=B2".toList .empty sheetB2_setCell) sheetChain0_setCell)
    sheetChain_getValue

set_option maxRecDepth 100000 in
theorem sheetChain_deleteRows (fuel : Nat) : sheetChain.DeleteRows fuel 1 1 = .stuck := by
  cases fuel with
  | zero => decide
  | succ n => rfl

set_option maxRecDepth 100000 in
theorem sheetB2_deleteRows :
    sheetB2.DeleteRows 4 1 1
      = .ok () ⟨[[some ⟨.Formula ⟨.Cell ⟨-1, -1⟩, none, none, none⟩, [], none⟩]]⟩ := by
  decide

set_option maxRecDepth 100000 in
theorem sheetGap_reachable : ReachableWithValues exampleEnv sheetGap :=
  .setCell 4 ⟨1, 0⟩ "2".toList
    (.setCell 4 ⟨0, 2⟩ "3".toList
      (.setCell 4 ⟨0, 0⟩ "1".toList .empty
        (by decide : Sheet.empty.SetCell exampleEnv 4 ⟨0, 0⟩ "1".toList
          = .ok () ⟨[[some ⟨.Text "1".toList, [], none⟩]]⟩))
      (by decide : Sheet.SetCell exampleEnv 4 ⟨[[some ⟨.Text "1".toList, [], none⟩]]⟩ ⟨0, 2⟩
          "3".toList
        = .ok () ⟨[[some ⟨.Text "1".toList, [], none⟩, none,
            some ⟨.Text "3".toList, [], none⟩]]⟩))
    (by decide : Sheet.SetCell exampleEnv 4 ⟨[[some ⟨.Text "1".toList, [], none⟩, none,
          some ⟨.Text "3".toList, [], none⟩]]⟩ ⟨1, 0⟩ "2".toList
      = .ok () sheetGap)

set_option maxRecDepth 100000 in
theorem sheetShort_reachable : ReachableWithValues exampleEnv sheetShort :=
  .setCell 4 ⟨1, 0⟩ "x".toList
    (.setCell 4 ⟨0, 0⟩ "=C1".toList .empty
      (by decide : Sheet.empty.SetCell exampleEnv 4 ⟨0, 0⟩ "=C1".toList
        = .ok () ⟨[[some ⟨.Formula ⟨.Cell ⟨0, 2⟩, none, none, some [⟨0, 2⟩]⟩, [], none⟩, none,
            some ⟨.Text [], [⟨0, 0⟩], none⟩]]⟩))
    (by decide : Sheet.SetCell exampleEnv 4
        ⟨[[some ⟨.Formula ⟨.Cell ⟨0, 2⟩, none, none, some [⟨0, 2⟩]⟩, [], none⟩, none,
          some ⟨.Text [], [⟨0, 0⟩], none⟩]]⟩ ⟨1, 0⟩ "x".toList
      = .ok () sheetShort)

/-- C21, evaluated where the code departs from it: the sheet after `SetCell(A1, "=B2")`,
`SetCell(C3, "=A1")` and `GetValue(C3)` holds in row 0 the formula cell A1, which refers to
B2 in row 1, has a cached value and lists C3 as an incoming reference. `DeleteRows(1, 1)`
does not return on it, whatever the fuel: the handler of A1 invalidates the cache of A1
and follows the incoming reference (2, 2), which the deletion has left unrenumbered and
where no cell is stored any more. On the sheet after `SetCell(A1, "=B2")` alone the call
returns, `GetText(A1)` is `=#REF!` and `GetValue(A1)` is the `Ref` error. -/
theorem DeleteRows_follows_stale_incoming :
    ReachableWithValues exampleEnv sheetChain ∧
      sheetChain.slot ⟨0, 0⟩
        = some ⟨.Formula ⟨.Cell ⟨1, 1⟩, some (.number (some 0)), none, some [⟨1, 1⟩]⟩,
            [⟨2, 2⟩], some (.number (some 0))⟩ ∧
      (∀ fuel, sheetChain.DeleteRows fuel 1 1 = .stuck) ∧
      sheetB2.DeleteRows 4 1 1 = .ok () sheetB2Deleted ∧
      (sheetB2Deleted.slot ⟨0, 0⟩).map (fun c => c.GetText.1) = some "=#REF!".toList ∧
      (∃ s', sheetB2Deleted.GetValue exampleOps 4 ⟨0, 0⟩ = .ok (.error .Ref) s') := by
  refine ⟨sheetChain_reachable, rfl, sheetChain_deleteRows, sheetB2_deleteRows, by decide,
    ⟨_, rfl⟩⟩

/-- C23, evaluated where the code departs from it: the sheet after `SetCell(A1, "1")`,
`SetCell(C1, "3")` and `SetCell(A2, "2")` has no row ending in a null slot and no empty last
row. `DeleteCols(2, 1)` erases C1 from row 0 and returns without shrinking, because the last
row has no slot at column 2: row 0 of the stored table then ends in a null slot. -/
theorem DeleteCols_leaves_trailing_null :
    ReachableWithValues exampleEnv sheetGap ∧
      sheetGap.Shrunk = true ∧
      sheetGap.DeleteCols 4 2 1
        = .ok () ⟨[[some ⟨.Text "1".toList, [], none⟩, none],
            [some ⟨.Text "2".toList, [], none⟩]]⟩ ∧
      Sheet.Shrunk (⟨[[some ⟨.Text "1".toList, [], none⟩, none],
            [some ⟨.Text "2".toList, [], none⟩]]⟩ : Sheet (Option Int)) = false ∧
      (∀ fuel, sheetGap.DeleteCols fuel 2 1 = sheetGap.DeleteCols 4 2 1) := by
  refine ⟨sheetGap_reachable, by decide, by decide, by decide, fun fuel => rfl⟩

/-- C25, evaluated where the code departs from it: on the sheet after `SetCell(A1, "=C1")` and
`SetCell(A2, "x")` the call `DeleteCols(1, 1)` removes the slot of column 1 from row 0, so
that the cell A1 referred to is now in column 1; the last row has no slot at column 1, and
the handler is applied to no cell: the formula of A1 still refers to column 2, where no
cell is stored, instead of column 1, and the cell in column 1 still lists A1. -/
theorem DeleteCols_skips_handlers :
    ReachableWithValues exampleEnv sheetShort ∧
      sheetShort.DeleteCols 4 1 1
        = .ok () ⟨[[some ⟨.Formula ⟨.Cell ⟨0, 2⟩, none, none, some [⟨0, 2⟩]⟩, [], none⟩,
              some ⟨.Text [], [⟨0, 0⟩], none⟩],
            [some ⟨.Text "x".toList, [], none⟩]]⟩ ∧
      (∀ fuel, sheetShort.DeleteCols fuel 1 1 = sheetShort.DeleteCols 4 1 1) ∧
      (sheetShort.table_.map List.length = [3, 1]) ∧
      Node.HandleDeleted .Col 1 1 (.Cell ⟨0, 2⟩ : Node (Option Int))
        = some (.Cell ⟨0, 1⟩, .ReferencesRenamedOnly) := by
  refine ⟨sheetShort_reachable, by decide, fun fuel => rfl, rfl, by decide⟩

/-- C28, evaluated where the code departs from it: the sheet after `SetCell(A1, "=B1")`
satisfies the sheet invariants and its formula refers to the valid position (0, 1). The call
`InsertRows(0, 2147483647)` returns normally (the size test has wrapped, as for C19), and the
reference of the formula is then (2147483647, 1), whose row is not below `kMaxRows`: the
insertion has turned a valid reference into an invalid one. -/
theorem InsertRows_wraps_invalidates_reference :
    sheetA1.WF ∧
      (sheetA1.slot ⟨0, 0⟩).map Cell.refs = some [⟨0, 1⟩] ∧
      (⟨0, 1⟩ : Position).IsValid = true ∧
      sheetA1.InsertRows 0 2147483647 = .ok () sheetA1Moved ∧
      (sheetA1Moved.slot ⟨2147483647, 0⟩).map (fun c => c.data_.content)
        = some (.Formula (.Cell ⟨2147483647, 1⟩)) ∧
      (⟨2147483647, 1⟩ : Position).IsValid = false ∧
      ¬ ((2147483647 : Int) < kMaxRows) := by
  refine ⟨sheetA1_reachable.reachable_wf, by decide, by decide, sheetA1_insertRows_wraps, ?_,
    by decide, by decide⟩
  have h : sheetA1Moved.slot ⟨2147483647, 0⟩ = some cellA1Moved := sheetA1Moved_slot 0
  rw [h]
  rfl

theorem Sheet.Shifted.keeps_valid {s s' : Sheet D} (hwf : s.WF) (dim : Axis)
    (before count : Int) (h : Sheet.Shifted dim before count s s') (p : Position) (c : Cell D)
    (q : Position) (hp : s.cells p = some c) (hq : q ∈ c.data_.content.refs) :
    (q.shifted dim before count).IsValid = true ∧
      ∃ c', s'.cells (p.shifted dim before count) = some c' ∧
        c'.data_.content = c.data_.content.shifted dim before count := by
  obtain ⟨e, he, _⟩ := hwf.inv.forward p c.g q (Sheet.graph_of_cells hp) hq
  obtain ⟨e0, he0, _⟩ := Sheet.cells_of_graph he
  obtain ⟨e', he', _⟩ := h.moved q e0 he0
  obtain ⟨c', hc', _, hcont, _⟩ := h.moved p c hp
  exact ⟨Sheet.cells_valid he', c', hc', hcont⟩

/-- When no sum of the size test of `InsertRows` leaves the range of `int`, a call that
returns on a sheet satisfying the sheet invariants leaves every referenced position of every
formula a valid position, at the place the insertion has moved it to. -/
theorem InsertRows_keeps_references_valid (s : Sheet D) (hwf : s.WF) (before count : Int)
    (hb : 0 ≤ before) (hc : 0 ≤ count) (hfit : (s.table_.length : Int) + count < 2 ^ 31)
    (hfit' : before + count < 2 ^ 31) (s' : Sheet D)
    (h : s.InsertRows before count = .ok () s') (p : Position) (c : Cell D) (q : Position)
    (hp : s.cells p = some c) (hq : q ∈ c.data_.content.refs) :
    (q.shifted .Row before count).IsValid = true :=
  ((InsertRows_shifts s hwf before count hb hc hfit hfit' s' h).1.keeps_valid hwf .Row before
    count p c q hp hq).1

/-- On a sheet that satisfies the sheet invariants and has no row of 2147483648 slots or
more, a call of `InsertCols` that returns leaves every referenced position of every formula
a valid position, at the place the insertion has moved it to. -/
theorem InsertCols_keeps_references_valid (s : Sheet D) (hwf : s.WF) (before count : Int)
    (hb : 0 ≤ before) (hc : 0 ≤ count) (hrows : ∀ row ∈ s.table_, row.length < 2 ^ 31)
    (s' : Sheet D) (h : s.InsertCols before count = .ok () s') (p : Position) (c : Cell D)
    (q : Position) (hp : s.cells p = some c) (hq : q ∈ c.data_.content.refs) :
    (q.shifted .Col before count).IsValid = true :=
  ((InsertCols_shifts s hwf before count hb hc hrows s' h).1.keeps_valid hwf .Col before
    count p c q hp hq).1

/-! ## `ToString` after `FromString` -/

theorem Char.eq_of_toNat_eq {a b : Char} (h : a.toNat = b.toNat) : a = b := by
  rw [← Char.ofNat_toNat a, ← Char.ofNat_toNat b, h]

theorem bijRev_cons (c : Char) (L : Str) :
    bijRev (c :: L) = bijRev L * 26 + (c.toNat - 65 + 1) := rfl

theorem bijRev_inj : ∀ (L1 L2 : Str), (∀ c ∈ L1, c.isUpper = true) →
    (∀ c ∈ L2, c.isUpper = true) → bijRev L1 = bijRev L2 → L1 = L2 := by
  intro L1
  induction L1 with
  | nil =>
    intro L2 _ _ h
    cases L2 with
    | nil => rfl
    | cons c L =>
      rw [bijRev_cons] at h
      have : bijRev ([] : Str) = 0 := rfl
      omega
  | cons a L1 ih =>
    intro L2 h1 h2 h
    cases L2 with
    | nil =>
      rw [bijRev_cons] at h
      have : bijRev ([] : Str) = 0 := rfl
      omega
    | cons b L2 =>
      rw [bijRev_cons, bijRev_cons] at h
      have ha := isUpper_toNat (h1 a (List.mem_cons_self _ _))
      have hb := isUpper_toNat (h2 b (List.mem_cons_self _ _))
      have hab : a.toNat = b.toNat := by omega
      have hL : bijRev L1 = bijRev L2 := by omega
      rw [Char.eq_of_toNat_eq hab,
        ih L2 (fun c hc => h1 c (List.mem_cons_of_mem _ hc))
          (fun c hc => h2 c (List.mem_cons_of_mem _ hc)) hL]

theorem digitsAcc_pos (ds : Str) (hne : ds ≠ []) (hd : ∀ c ∈ ds, c.isDigit = true)
    (h0 : ds.head? ≠ some '0') : 1 ≤ digitsAcc 0 ds := by
  cases ds with
  | nil => exact absurd rfl hne
  | cons c rest =>
    have hc := isDigit_toNat (hd c (List.mem_cons_self _ _))
    have hne0 : c.toNat ≠ 48 := by
      intro h
      apply h0
      have : c = '0' := Char.eq_of_toNat_eq (by rw [h]; rfl)
      rw [this]
      rfl
    have := digitsAcc_ge rest (0 * 10 + (c.toNat - 48))
    simp only [digitsAcc, List.foldl_cons] at this ⊢
    omega

theorem head?_of_concat {α : Type} (L : List α) (d x : α) (h : (L ++ [d]).head? ≠ some x) :
    L.head? ≠ some x := by
  cases L with
  | nil => simp
  | cons a L => simpa using h

theorem digitsAcc_inj : ∀ (D1 D2 : Str), (∀ c ∈ D1, c.isDigit = true) →
    (∀ c ∈ D2, c.isDigit = true) → D1.head? ≠ some '0' → D2.head? ≠ some '0' →
    digitsAcc 0 D1 = digitsAcc 0 D2 → D1 = D2 := by
  intro D1
  induction D1 using List.reverseRecOn with
  | nil =>
    intro D2 _ h2 _ z2 h
    by_cases hne : D2 = []
    · exact hne.symm
    · have := digitsAcc_pos D2 hne h2 z2
      have h' : digitsAcc 0 ([] : Str) = 0 := rfl
      omega
  | append_singleton L1 d1 ih =>
    intro D2 h1 h2 z1 z2 h
    rcases List.eq_nil_or_concat D2 with hD | ⟨L2, d2, hD⟩
    · subst hD
      have := digitsAcc_pos (L1 ++ [d1]) (by simp) h1 z1
      have h' : digitsAcc 0 ([] : Str) = 0 := rfl
      omega
    · rw [List.concat_eq_append] at hD
      subst hD
      rw [digitsAcc_append, digitsAcc_append] at h
      have hd1 := isDigit_toNat (h1 d1 (by simp))
      have hd2 := isDigit_toNat (h2 d2 (by simp))
      have hd : d1.toNat = d2.toNat := by omega
      have hL : digitsAcc 0 L1 = digitsAcc 0 L2 := by omega
      rw [Char.eq_of_toNat_eq hd,
        ih L2 (fun c hc => h1 c (List.mem_append_left _ hc))
          (fun c hc => h2 c (List.mem_append_left _ hc)) (head?_of_concat L1 d1 _ z1)
          (head?_of_concat L2 d2 _ z2) hL]

theorem toDigitsCore_head : ∀ (fuel n : Nat), 0 < n → n < fuel → ∀ ds : Str,
    ∃ L, Nat.toDigitsCore 10 fuel n ds = L ++ ds ∧ L ≠ [] ∧ (∀ c ∈ L, c.isDigit = true) ∧
      digitsAcc 0 L = n ∧ L.head? ≠ some '0' := by
  intro fuel
  induction fuel with
  | zero => intro n _ h; omega
  | succ fuel ih =>
    intro n hpos hn ds
    have hk := digitChar_spec (n % 10) (Nat.mod_lt _ (by omega))
    simp only [Nat.toDigitsCore]
    by_cases hz : n / 10 = 0
    · simp only [hz, if_true]
      refine ⟨[Nat.digitChar (n % 10)], rfl, by simp, ?_, ?_, ?_⟩
      · intro c hc
        simp only [List.mem_singleton] at hc
        rw [hc]; exact hk.2
      · simp only [digitsAcc, List.foldl_cons, List.foldl_nil, hk.1]
        omega
      · simp only [List.head?_cons, ne_eq, Option.some.injEq]
        intro h
        have h2 := hk.1
        rw [h] at h2
        have h3 : ('0' : Char).toNat = 48 := rfl
        omega
    · simp only [hz, if_false]
      obtain ⟨L, hL, hne, hLu, hLv, hL0⟩ := ih (n / 10) (by omega) (by omega)
        (Nat.digitChar (n % 10) :: ds)
      refine ⟨L ++ [Nat.digitChar (n % 10)], ?_, by simp, ?_, ?_, ?_⟩
      · rw [hL]; simp
      · intro c hc
        rcases List.mem_append.mp hc with h | h
        · exact hLu c h
        · simp only [List.mem_singleton] at h
          rw [h]; exact hk.2
      · rw [digitsAcc_append, hLv, hk.1]
        omega
      · obtain ⟨a, L', rfl⟩ := List.exists_cons_of_ne_nil hne
        simpa using hL0

/-- The text `ToString` gives for a valid position: the letters of the column, which the loop
has produced last letter first, and the digits of the row number, which do not begin
with `0`. -/
theorem ToString_shape (p : Position) (h : p.IsValid = true) :
    ∃ L Dg, p.ToString = L.reverse ++ Dg ∧ L ≠ [] ∧ (∀ c ∈ L, c.isUpper = true) ∧
      bijRev L = p.col.toNat + 1 ∧ Dg ≠ [] ∧ (∀ c ∈ Dg, c.isDigit = true) ∧
      digitsAcc 0 Dg = (p.row + 1).toNat ∧ Dg.head? ≠ some '0' := by
  obtain ⟨r, c⟩ := p
  have hv := (IsValid_iff _).mp h
  simp only at hv
  obtain ⟨L, hL, hLne, hLu, hLv⟩ := ToStringLoop_spec (c.toNat + 1) c.toNat (by omega) c false []
    (by simp only [Bool.false_eq_true, if_false]; omega)
  obtain ⟨Dg, hD, hDne, hDu, hDv, hD0⟩ := toDigitsCore_head ((r + 1).toNat + 1) (r + 1).toNat
    (by omega) (by omega) []
  have hts : to_string (r + 1) = Dg := by
    simp only [to_string, Nat.toDigits]
    rw [if_neg (by omega), hD, List.append_nil]
  simp only [List.nil_append] at hL
  refine ⟨L, Dg, ?_, hLne, hLu, hLv, hDne, hDu, hDv, hD0⟩
  simp only [Position.ToString, h, Bool.not_true, Bool.false_eq_true, if_false, hL, hts]

theorem ToString_of_FromString (s : Str) (hv : (Position.FromString s).IsValid = true)
    (h0 : (s.dropWhile Char.isUpper).head? ≠ some '0') :
    (Position.FromString s).ToString = s := by
  rcases FromString_shape s with h | ⟨ls, ds, hs, hl, hd, hu, hg⟩
  · rw [h, sentinel_not_valid] at hv
    exact absurd hv (by decide)
  · have hdrop := (takeWhile_append_of Char.isUpper ls ds hu (by
      intro y hy
      cases ds with
      | nil => simp at hy
      | cons d ds =>
        simp only [List.head?_cons, Option.some.injEq] at hy
        subst hy
        exact isDigit_not_isUpper (hg _ (List.mem_cons_self _ _)))).2
    rw [hs, hdrop] at h0
    have hF := FromString_append ls ds hl hd hu hg
    rw [← hs] at hF
    by_cases hc : columnOf ls < kMaxCols ∧ decimalOf ds ≤ kMaxRows
    · rw [if_pos hc] at hF
      rw [hF] at hv ⊢
      obtain ⟨L, Dg, hT, hLne, hLu, hLv, hDne, hDu, hDv, hD0⟩ := ToString_shape _ hv
      have hvv := (IsValid_iff _).mp hv
      simp only at hvv hLv hDv
      have hrev : bijectiveBase26 ls = bijRev ls.reverse := by
        have := bijectiveBase26_reverse ls.reverse
        rwa [List.reverse_reverse] at this
      have hpos : 1 ≤ bijRev ls.reverse := by
        obtain ⟨a, t, hat⟩ := List.exists_cons_of_ne_nil
          (by simpa using hl : ls.reverse ≠ [])
        rw [hat, bijRev_cons]
        omega
      have hLeq : L = ls.reverse := by
        apply bijRev_inj L ls.reverse hLu
          (fun x hx => hu x (List.mem_reverse.mp hx))
        rw [hLv, ← hrev]
        simp only [columnOf] at hvv ⊢
        rw [hrev]
        omega
      have hDeq : Dg = ds := by
        apply digitsAcc_inj Dg ds hDu hg hD0 h0
        rw [hDv, ← decimalOf_eq]
        omega
      rw [hT, hLeq, hDeq, List.reverse_reverse, hs]
    · rw [if_neg hc] at hF
      rw [hF, sentinel_not_valid] at hv
      exact absurd hv (by decide)

theorem ToString_no_leading_zero (p : Position) (h : p.IsValid = true) :
    (p.ToString.dropWhile Char.isUpper).head? ≠ some '0' := by
  obtain ⟨L, Dg, hT, _, hLu, _, _, hDu, _, hD0⟩ := ToString_shape p h
  have hdrop := (takeWhile_append_of Char.isUpper L.reverse Dg
    (fun x hx => hLu x (List.mem_reverse.mp hx)) (by
      intro y hy
      cases Dg with
      | nil => simp at hy
      | cons d ds =>
        simp only [List.head?_cons, Option.some.injEq] at hy
        subst hy
        exact isDigit_not_isUpper (hDu _ (List.mem_cons_self _ _)))).2
  rw [hT, hdrop]
  exact hD0

/-- C31: for every string `s` for which `Position::FromString(s)` is a valid position and
whose digit part (what follows the upper-case letters) does not begin with `0`,
`Position::FromString(s).ToString()` is `s`. `FromString` also accepts a digit part with
leading zeros, as in `A01`, whose position prints as `A1`; and the digit part of what
`ToString` gives for a valid position never begins with `0`. -/
theorem ToString_FromString :
    (∀ s : Str, (Position.FromString s).IsValid = true →
      (s.dropWhile Char.isUpper).head? ≠ some '0' →
      (Position.FromString s).ToString = s) ∧
    ((Position.FromString "A01".toList).IsValid = true ∧
      (Position.FromString "A01".toList).ToString = "A1".toList) ∧
    (∀ p : Position, p.IsValid = true →
      (p.ToString.dropWhile Char.isUpper).head? ≠ some '0') :=
  ⟨ToString_of_FromString, ⟨by decide, by decide⟩, ToString_no_leading_zero⟩

theorem ToString_FromString_witness :
    (Position.FromString "AB27".toList).IsValid = true ∧
      ("AB27".toList.dropWhile Char.isUpper).head? ≠ some '0' ∧
      (Position.FromString "AB27".toList).ToString = "AB27".toList :=
  ⟨by decide, by decide, ToString_FromString.1 "AB27".toList (by decide) (by decide)⟩

theorem Formula.HandleInserted_eq_call (f : Formula D) (dim : Axis) (before count : Int) :
    (f.call (.HandleInserted dim before count)).map (fun r => r.1)
      = Formula.HandleInserted dim f before count := by
  simp only [Formula.call, Formula.HandleInserted, Option.map_map]
  rfl

theorem HandleInsertedImpl_nothing (p : Position) (dim : Axis) (before count : Int)
    (p' : Position) (h : HandleInsertedImpl p dim before count = some (p', .NothingChanged)) :
    p' = p := by
  unfold HandleInsertedImpl at h
  by_cases hc : (p.IsValid && decide (p.dim dim ≥ before)) = true
  · rw [if_pos hc] at h
    cases hi : int_add (p.dim dim) count with
    | none => rw [hi] at h; cases h
    | some v => rw [hi] at h; cases h
  · rw [if_neg hc] at h
    cases h
    rfl

theorem HandleDeletedImpl_nothing (p : Position) (dim : Axis) (first count : Int)
    (p' : Position) (h : HandleDeletedImpl p dim first count = some (p', .NothingChanged)) :
    p' = p := by
  unfold HandleDeletedImpl at h
  by_cases hc : (p.IsValid && decide (p.dim dim ≥ first)) = true
  · rw [if_pos hc] at h
    cases hi : int_add first count with
    | none => rw [hi] at h; cases h
    | some last =>
      rw [hi] at h
      by_cases hl : p.dim dim < last
      · simp only [hl, if_true] at h
        cases h
      · simp only [hl, if_false] at h
        cases hs : int_sub (p.dim dim) count with
        | none => rw [hs] at h; cases h
        | some v => rw [hs] at h; cases h
  · rw [if_neg hc] at h
    cases h
    rfl

/-- A tree handler of an insertion that reports `NothingChanged` has left the tree as it
was. -/
theorem Node.HandleInserted_nothing (T : Node D) (dim : Axis) (before count : Int) :
    ∀ T', T.HandleInserted dim before count = some (T', .NothingChanged) → T' = T := by
  induction T with
  | Number v s =>
    intro T' h
    simp only [Node.HandleInserted, Option.some.injEq, Prod.mk.injEq] at h
    exact h.1.symm
  | Cell p =>
    intro T' h
    simp only [Node.HandleInserted] at h
    cases hi : HandleInsertedImpl p dim before count with
    | none => rw [hi] at h; cases h
    | some q =>
      obtain ⟨p', r⟩ := q
      rw [hi] at h
      simp only [Option.map_some', Option.some.injEq, Prod.mk.injEq] at h
      rw [h.2] at hi
      rw [← h.1, HandleInsertedImpl_nothing p dim before count p' hi]
  | UnaryOp k n ih =>
    intro T' h
    simp only [Node.HandleInserted] at h
    cases hi : n.HandleInserted dim before count with
    | none => rw [hi] at h; cases h
    | some q =>
      obtain ⟨n', r⟩ := q
      rw [hi] at h
      simp only [Option.map_some', Option.some.injEq, Prod.mk.injEq] at h
      rw [h.2] at hi
      rw [← h.1, ih n' hi]
  | BinaryOp k l r ihl ihr =>
    intro T' h
    simp only [Node.HandleInserted] at h
    cases hl : l.HandleInserted dim before count with
    | none => rw [hl] at h; cases h
    | some ql =>
      cases hr : r.HandleInserted dim before count with
      | none => rw [hl, hr] at h; cases h
      | some qr =>
        obtain ⟨l', a⟩ := ql
        obtain ⟨r', b⟩ := qr
        rw [hl, hr] at h
        simp only [Option.some.injEq, Prod.mk.injEq] at h
        obtain ⟨ha, hb⟩ := HandlingResult.max_nothing h.2
        rw [ha] at hl
        rw [hb] at hr
        rw [← h.1, ihl l' hl, ihr r' hr]

/-- A tree handler of a deletion that reports `NothingChanged` has left the tree as it
was. -/
theorem Node.HandleDeleted_nothing (T : Node D) (dim : Axis) (first count : Int) :
    ∀ T', T.HandleDeleted dim first count = some (T', .NothingChanged) → T' = T := by
  induction T with
  | Number v s =>
    intro T' h
    simp only [Node.HandleDeleted, Option.some.injEq, Prod.mk.injEq] at h
    exact h.1.symm
  | Cell p =>
    intro T' h
    simp only [Node.HandleDeleted] at h
    cases hi : HandleDeletedImpl p dim first count with
    | none => rw [hi] at h; cases h
    | some q =>
      obtain ⟨p', r⟩ := q
      rw [hi] at h
      simp only [Option.map_some', Option.some.injEq, Prod.mk.injEq] at h
      rw [h.2] at hi
      rw [← h.1, HandleDeletedImpl_nothing p dim first count p' hi]
  | UnaryOp k n ih =>
    intro T' h
    simp only [Node.HandleDeleted] at h
    cases hi : n.HandleDeleted dim first count with
    | none => rw [hi] at h; cases h
    | some q =>
      obtain ⟨n', r⟩ := q
      rw [hi] at h
      simp only [Option.map_some', Option.some.injEq, Prod.mk.injEq] at h
      rw [h.2] at hi
      rw [← h.1, ih n' hi]
  | BinaryOp k l r ihl ihr =>
    intro T' h
    simp only [Node.HandleDeleted] at h
    cases hl : l.HandleDeleted dim first count with
    | none => rw [hl] at h; cases h
    | some ql =>
      cases hr : r.HandleDeleted dim first count with
      | none => rw [hl, hr] at h; cases h
      | some qr =>
        obtain ⟨l', a⟩ := ql
        obtain ⟨r', b⟩ := qr
        rw [hl, hr] at h
        simp only [Option.some.injEq, Prod.mk.injEq] at h
        obtain ⟨ha, hb⟩ := HandlingResult.max_nothing h.2
        rw [ha] at hl
        rw [hb] at hr
        rw [← h.1, ihl l' hl, ihr r' hr]

theorem Formula.HandleInsertionOrDeletion_node (f : Formula D) (r : HandlingResult) :
    (Formula.HandleInsertionOrDeletion f r).node_ = f.node_ := by
  cases r <;> rfl

theorem Formula.HandleInsertionOrDeletion_fresh (f : Formula D) (hf : f.Fresh) (node : Node D)
    (r : HandlingResult) (h : r = .NothingChanged → node = f.node_) :
    (Formula.HandleInsertionOrDeletion { f with node_ := node } r).Fresh := by
  cases r with
  | NothingChanged =>
    rw [h rfl]
    exact hf
  | ReferencesRenamedOnly =>
    constructor
    · intro e he; cases he
    · intro e he; cases he
  | ReferencesChanged =>
    constructor
    · intro e he; cases he
    · intro e he; cases he

theorem Formula.create_fresh (node : Node D) : (Formula.create node).Fresh := by
  constructor
  · intro e he; cases he
  · intro e he; cases he

theorem Formula.GetExpression_of_fresh (f : Formula D) (hf : f.Fresh) :
    f.GetExpression.1 = f.node_.GetExpression ∧ f.GetExpression.2.node_ = f.node_ ∧
      f.GetExpression.2.Fresh := by
  unfold Formula.GetExpression
  cases he : f.expression_cache_ with
  | some e => exact ⟨hf.1 e he, rfl, hf⟩
  | none =>
    refine ⟨rfl, rfl, ?_, ?_⟩
    · intro e h
      simp only [Option.some.injEq] at h
      exact h.symm
    · intro r h
      exact hf.2 r h

theorem Formula.GetReferencedCells_of_fresh (f : Formula D) (hf : f.Fresh) :
    f.GetReferencedCells.1 = f.node_.GetReferencedCells ∧
      f.GetReferencedCells.2.node_ = f.node_ ∧ f.GetReferencedCells.2.Fresh := by
  unfold Formula.GetReferencedCells
  cases he : f.referenced_cells_cache_ with
  | some e => exact ⟨hf.2 e he, rfl, hf⟩
  | none =>
    refine ⟨rfl, rfl, ?_, ?_⟩
    · intro e h
      exact hf.1 e h
    · intro r h
      simp only [Option.some.injEq] at h
      exact h.symm

/-- One call on a formula whose memoized results are not stale returns what the call on the
bare tree returns, leaves the tree the call on the bare tree leaves, and leaves no stale
memoized result. -/
theorem Formula.call_spec (f : Formula D) (hf : f.Fresh) (c : FormulaCall) :
    (f.call c).map (fun r => (r.1.node_, r.2)) = f.node_.callFresh c ∧
      ∀ r, f.call c = some r → r.1.Fresh := by
  cases c with
  | GetExpression =>
    obtain ⟨h1, h2, h3⟩ := f.GetExpression_of_fresh hf
    constructor
    · simp only [Formula.call, Node.callFresh, Option.map_some', h1, h2]
    · intro r hr
      simp only [Formula.call, Option.some.injEq] at hr
      rw [← hr]
      exact h3
  | GetReferencedCells =>
    obtain ⟨h1, h2, h3⟩ := f.GetReferencedCells_of_fresh hf
    constructor
    · simp only [Formula.call, Node.callFresh, Option.map_some', h1, h2]
    · intro r hr
      simp only [Formula.call, Option.some.injEq] at hr
      rw [← hr]
      exact h3
  | HandleInserted dim before count =>
    simp only [Formula.call, Node.callFresh]
    cases hi : f.node_.HandleInserted dim before count with
    | none => exact ⟨rfl, fun r hr => by cases hr⟩
    | some q =>
      obtain ⟨n', res⟩ := q
      constructor
      · simp only [Option.map_some', Formula.HandleInsertionOrDeletion_node]
      · intro r hr
        simp only [Option.map_some', Option.some.injEq] at hr
        rw [← hr]
        apply Formula.HandleInsertionOrDeletion_fresh f hf
        intro hres
        rw [hres] at hi
        exact Node.HandleInserted_nothing f.node_ dim before count n' hi
  | HandleDeleted dim first count =>
    simp only [Formula.call, Node.callFresh, Formula.HandleDeleted]
    cases hi : f.node_.HandleDeleted dim first count with
    | none => exact ⟨rfl, fun r hr => by cases hr⟩
    | some q =>
      obtain ⟨n', res⟩ := q
      constructor
      · simp only [Option.map_some', Formula.HandleInsertionOrDeletion_node]
      · intro r hr
        simp only [Option.map_some', Option.some.injEq] at hr
        rw [← hr]
        apply Formula.HandleInsertionOrDeletion_fresh f hf
        intro hres
        rw [hres] at hi
        exact Node.HandleDeleted_nothing f.node_ dim first count n' hi
  | InvalidateCache =>
    constructor
    · rfl
    · intro r hr
      simp only [Formula.call, Option.some.injEq] at hr
      rw [← hr]
      constructor
      · intro e he; cases he
      · intro e he; cases he

theorem Formula.calls_spec (cs : List FormulaCall) : ∀ (f : Formula D), f.Fresh →
    (f.calls cs).map (fun r => (r.1.node_, r.2)) = f.node_.callsFresh cs ∧
      ∀ r, f.calls cs = some r → r.1.Fresh := by
  induction cs with
  | nil =>
    intro f hf
    refine ⟨rfl, ?_⟩
    intro r hr
    simp only [Formula.calls, Option.some.injEq] at hr
    rw [← hr]
    exact hf
  | cons c cs ih =>
    intro f hf
    obtain ⟨h1, h2⟩ := f.call_spec hf c
    cases hc : f.call c with
    | none =>
      rw [hc] at h1
      simp only [Option.map_none'] at h1
      simp only [Formula.calls, Node.callsFresh, hc, ← h1]
      exact ⟨rfl, fun r hr => by cases hr⟩
    | some q =>
      obtain ⟨f', res⟩ := q
      rw [hc] at h1
      simp only [Option.map_some'] at h1
      obtain ⟨h3, h4⟩ := ih f' (h2 _ hc)
      simp only [Formula.calls, Node.callsFresh, hc, ← h1, ← h3]
      constructor
      · cases Formula.calls f' cs with
        | none => rfl
        | some q => rfl
      · intro r hr
        cases hq : Formula.calls f' cs with
        | none => rw [hq] at hr; cases hr
        | some q =>
          rw [hq] at hr
          simp only [Option.map_some', Option.some.injEq] at hr
          rw [← hr]
          exact h4 q hq

theorem Formula.call_isSome (f : Formula D) (c : FormulaCall) (hc : c.Fits) :
    (f.call c).isSome = true := by
  cases c with
  | GetExpression => rfl
  | GetReferencedCells => rfl
  | HandleInserted dim before count =>
    have h := Node.HandleInserted_isSome f.node_ dim before count hc.2.1 hc.2.2
    simp only [Formula.call, Option.isSome_map']
    exact h
  | HandleDeleted dim first count =>
    have h := Node.HandleDeleted_isSome f.node_ dim first count hc.1 hc.2.1 hc.2.2
    simp only [Formula.call, Formula.HandleDeleted, Option.isSome_map']
    exact h
  | InvalidateCache => rfl

theorem Formula.calls_isSome (cs : List FormulaCall) : ∀ (f : Formula D),
    (∀ c ∈ cs, c.Fits) → (f.calls cs).isSome = true := by
  induction cs with
  | nil => intro f _; rfl
  | cons c cs ih =>
    intro f h
    have h1 := f.call_isSome c (h c (List.mem_cons_self _ _))
    cases hc : f.call c with
    | none => rw [hc] at h1; cases h1
    | some q =>
      obtain ⟨f', res⟩ := q
      have h2 := ih f' (fun x hx => h x (List.mem_cons_of_mem _ hx))
      simp only [Formula.calls, hc, Option.isSome_map']
      exact h2

/-- C32: for every formula whose memoized expression and referenced cells are not stale (as
those of a formula just constructed, whose caches are empty) and every finite sequence of
calls to `GetExpression`, `GetReferencedCells`, `HandleInsertedRows/Cols`,
`HandleDeletedRows/Cols` and `InvalidateCache`, every call returns what it returns on the
bare tree, where `GetExpression` and `GetReferencedCells` compute their result afresh from
the current tree; the sequence has a result whenever the handler arguments are not negative
and their sums stay in the range of `int`; and after it no memoized result is stale. This
is because a tree handler that reports `NothingChanged` has left the tree as it was. -/
theorem Formula_calls_never_stale (f : Formula D) (hf : f.Fresh) (cs : List FormulaCall) :
    (f.calls cs).map (fun r => (r.1.node_, r.2)) = f.node_.callsFresh cs ∧
      ((∀ c ∈ cs, c.Fits) → (f.calls cs).isSome = true) ∧
      (∀ r, f.calls cs = some r →
        r.1.Fresh ∧ r.1.GetExpression.1 = r.1.node_.GetExpression ∧
          r.1.GetReferencedCells.1 = r.1.node_.GetReferencedCells) ∧
      (∀ (T T' : Node D) (dim : Axis) (a b : Int),
        T.HandleInserted dim a b = some (T', .NothingChanged) → T' = T) ∧
      (∀ (T T' : Node D) (dim : Axis) (a b : Int),
        T.HandleDeleted dim a b = some (T', .NothingChanged) → T' = T) := by
  obtain ⟨h1, h2⟩ := Formula.calls_spec cs f hf
  refine ⟨h1, Formula.calls_isSome cs f, ?_, ?_, ?_⟩
  · intro r hr
    have hfr := h2 r hr
    exact ⟨hfr, (r.1.GetExpression_of_fresh hfr).1, (r.1.GetReferencedCells_of_fresh hfr).1⟩
  · intro T T' dim a b h
    exact Node.HandleInserted_nothing T dim a b T' h
  · intro T T' dim a b h
    exact Node.HandleDeleted_nothing T dim a b T' h

theorem exampleCalls_results :
    ((Formula.create (.BinaryOp .Addition (.Cell ⟨1, 1⟩) (.Cell ⟨3, 0⟩)) :
        Formula (Option Int)).calls exampleCalls).map (fun r => r.2)
      = some [.expression "B2+A4".toList, .handled .ReferencesChanged,
          .expression "#REF!+A3".toList, .cells [⟨2, 0⟩], .handled .ReferencesRenamedOnly,
          .expression "#REF!+C3".toList] := by
  decide

theorem Formula_calls_never_stale_witness :
    (Formula.create (.BinaryOp .Addition (.Cell ⟨1, 1⟩) (.Cell ⟨3, 0⟩)) :
        Formula (Option Int)).Fresh ∧
      ((Formula.create (.BinaryOp .Addition (.Cell ⟨1, 1⟩) (.Cell ⟨3, 0⟩)) :
          Formula (Option Int)).calls exampleCalls).map (fun r => (r.1.node_, r.2))
        = Node.callsFresh (.BinaryOp .Addition (.Cell ⟨1, 1⟩) (.Cell ⟨3, 0⟩)) exampleCalls :=
  ⟨Formula.create_fresh _,
    (Formula_calls_never_stale
      (Formula.create (.BinaryOp .Addition (.Cell ⟨1, 1⟩) (.Cell ⟨3, 0⟩)) :
        Formula (Option Int)) (Formula.create_fresh _) exampleCalls).1⟩

theorem Sheet.SameSlots.slots_refl (s : Sheet D) : s.SameSlots s := fun _ _ => rfl

theorem Sheet.SameSlots.slots_trans {s1 s2 s3 : Sheet D} (h1 : s1.SameSlots s2)
    (h2 : s2.SameSlots s3) : s1.SameSlots s3 := fun r c => (h2 r c).trans (h1 r c)

theorem slotOf_set (T : List (List (Option (Cell D)))) (r0 c0 : Nat) (v : Option (Cell D))
    (r c : Nat) :
    slotOf (T.set r0 ((T[r0]?.getD []).set c0 v)) r c
      = if r = r0 ∧ c = c0 ∧ c0 < (T[r0]?.getD []).length then v else slotOf T r c := by
  unfold slotOf
  simp only [List.getElem?_set]
  by_cases hr : r0 = r
  · subst hr
    rw [if_pos rfl]
    by_cases hlen : r0 < T.length
    · rw [if_pos hlen]
      simp only [Option.getD_some, List.getElem?_set]
      by_cases hc : c0 = c
      · subst hc
        rw [if_pos rfl]
        by_cases hin : c0 < (T[r0]?.getD []).length
        · simp [hin]
        · simp [hin, List.getElem?_eq_none (Nat.le_of_not_lt hin)]
      · rw [if_neg hc, if_neg (fun h => hc h.2.1.symm)]
    · rw [if_neg hlen]
      have hnone : T[r0]? = none := List.getElem?_eq_none (by omega)
      rw [hnone]
      simp
  · rw [if_neg hr, if_neg (fun h => hr h.1.symm)]

theorem Cell.GetReferencedCells_strip (c : Cell D) : c.GetReferencedCells.2.strip = c.strip := by
  obtain ⟨data, inc, v⟩ := c
  cases data with
  | Text t => rfl
  | Formula f =>
    obtain ⟨n, fv, e, rc⟩ := f
    cases rc <;> rfl

theorem Cell.GetText_strip (c : Cell D) : c.GetText.2.strip = c.strip := by
  obtain ⟨data, inc, v⟩ := c
  cases data with
  | Text t => rfl
  | Formula f =>
    obtain ⟨n, fv, e, rc⟩ := f
    cases e <;> rfl

theorem Sheet.SameSlots.slots_setCell (s : Sheet D) (self : Position) (cell c' : Cell D)
    (hslot : s.slot self = some cell) (hstrip : c'.strip = cell.strip) :
    s.SameSlots (s.setCell self c') := by
  intro r c
  unfold Sheet.setCell Sheet.setSlot
  rw [slotOf_set]
  by_cases h : r = self.row.toNat ∧ c = self.col.toNat ∧
      self.col.toNat < (s.table_[self.row.toNat]?.getD []).length
  · rw [if_pos h, h.1, h.2.1, ← Sheet.slot_eq_slotOf, hslot]
    simp only [Option.map_some', hstrip]
  · rw [if_neg h]

theorem Sheet.SameSlots.getCellRef (s : Sheet D) (p : Position) :
    s.SameSlots (s.GetCellRef p) := by
  intro r c
  have h := Sheet.slot_GetCellRef s p ⟨(r : Int), (c : Int)⟩
  rw [Sheet.slot_eq_slotOf, Sheet.slot_eq_slotOf] at h
  simp only [Int.toNat_ofNat] at h
  rw [h]

theorem Sheet.SameSlots.preState (s : Sheet D) (pos : Position) (hpos : pos.IsValid = true) :
    s.SameSlots (s.preState pos) := by
  unfold Sheet.preState
  cases hc : s.cells pos with
  | none => exact Sheet.SameSlots.getCellRef s pos
  | some cell =>
    have hslot : (s.GetCellRef pos).slot pos = some cell := by
      rw [Sheet.slot_GetCellRef, ← Sheet.cells_eq_slot hpos, hc]
    exact (Sheet.SameSlots.getCellRef s pos).slots_trans
      (Sheet.SameSlots.slots_setCell _ pos cell _ hslot cell.GetText_strip)

theorem anyOfRefs_keeps
    (visit : Sheet D → Position → List Position → Res (Sheet D × List Position) Bool)
    (hv : ∀ s p ch, Res.KeepsSlots s (visit s p ch)) :
    ∀ (refs : List Position) (s0 s : Sheet D) (ch : List Position), s0.SameSlots s →
      Res.KeepsSlots s0 (anyOfRefs visit refs s ch) := by
  intro refs
  induction refs with
  | nil => intro s0 s ch h; exact h
  | cons p rest ih =>
    intro s0 s ch h
    simp only [anyOfRefs]
    by_cases hm : p ∈ ch
    · rw [if_pos hm]; exact ih s0 s ch h
    · rw [if_neg hm]
      cases hg : s.GetCellImpl p with
      | none => exact h
      | some o =>
        cases o with
        | none => exact ih s0 s ch h
        | some cell =>
          have hk := hv s p ch
          cases hvis : visit s p ch with
          | stuck => trivial
          | raise e st =>
            rw [hvis] at hk
            exact h.slots_trans hk
          | ok result st =>
            rw [hvis] at hk
            obtain ⟨s', ch'⟩ := st
            have h' : s0.SameSlots s' := h.slots_trans hk
            by_cases hres : result = true
            · simp only [hres, if_true]
              exact h'
            · simp only [hres, Bool.false_eq_true, if_false]
              exact ih s0 s' (p :: ch') h'

theorem CheckForCircularDependencyImpl_keeps : ∀ (fuel : Nat) (pos : Position) (s : Sheet D)
    (self : Position) (ch : List Position),
    Res.KeepsSlots s (CheckForCircularDependencyImpl fuel pos s self ch) := by
  intro fuel
  induction fuel with
  | zero => intro pos s self ch; trivial
  | succ fuel ih =>
    intro pos s self ch
    cases hslot : s.slot self with
    | none =>
      simp only [CheckForCircularDependencyImpl, hslot]
      trivial
    | some cell =>
      cases hd : cell.data_ with
      | Text t =>
        simp only [CheckForCircularDependencyImpl, hslot, hd]
        exact Sheet.SameSlots.slots_refl s
      | Formula f =>
        have hs1 : s.SameSlots (s.setCell self cell.GetReferencedCells.2) :=
          Sheet.SameSlots.slots_setCell s self cell _ hslot cell.GetReferencedCells_strip
        simp only [CheckForCircularDependencyImpl, hslot, hd]
        by_cases hb : binary_search cell.GetReferencedCells.1 pos = true
        · rw [if_pos hb]; exact hs1
        · rw [if_neg hb]
          exact anyOfRefs_keeps _ (fun s p ch => ih pos s p ch) _ s _ ch hs1

theorem Cell.create_raise (env : Env D) (fuel : Nat) (s : Sheet D) (pos : Position)
    (text : Str) (has_incoming_refs : Bool) (e : Exn) (s' : Sheet D)
    (h : Cell.create env fuel s pos text has_incoming_refs = .raise e s') :
    s.SameSlots s' := by
  unfold Cell.create at h
  split at h
  · cases h
  · cases hp : env.ParseFormula (text.drop 1) with
    | none =>
      rw [hp] at h
      cases h
      exact Sheet.SameSlots.slots_refl s
    | some node =>
      rw [hp] at h
      simp only at h
      by_cases hi : has_incoming_refs = true
      · subst hi
        simp only [Cell.CheckForCircularDependency, if_true] at h
        by_cases hb : binary_search
            (Cell.GetReferencedCells ⟨.Formula (Formula.create node), [], none⟩).1 pos = true
        · simp only [hb, if_true] at h
          cases h
          exact Sheet.SameSlots.slots_refl s
        · simp only [hb, Bool.false_eq_true, if_false] at h
          have hk := anyOfRefs_keeps (CheckForCircularDependencyImpl fuel pos)
            (fun s p ch => CheckForCircularDependencyImpl_keeps fuel pos s p ch)
            (Cell.GetReferencedCells ⟨.Formula (Formula.create node), [], none⟩).1 s s []
            (Sheet.SameSlots.slots_refl s)
          cases ha : anyOfRefs (CheckForCircularDependencyImpl fuel pos)
              (Cell.GetReferencedCells ⟨.Formula (Formula.create node), [], none⟩).1 s [] with
          | stuck => rw [ha] at h; cases h
          | raise e1 st =>
            rw [ha] at h hk
            cases h
            exact hk
          | ok result st =>
            rw [ha] at h hk
            cases result with
            | true => cases h; exact hk
            | false => cases h
      · simp only [Bool.not_eq_true] at hi
        subst hi
        simp only [Cell.CheckForCircularDependency, Bool.false_eq_true, if_false] at h
        cases hb : binary_search
            (Cell.GetReferencedCells ⟨.Formula (Formula.create node), [], none⟩).1 pos with
        | true =>
          rw [hb] at h
          cases h
          exact Sheet.SameSlots.slots_refl s
        | false =>
          rw [hb] at h
          cases h

theorem forEachRes_raise {σ β : Type} (body : σ → β → Res σ Unit) (P : Exn → Prop)
    (hb : ∀ s x e s', body s x = .raise e s' → P e) :
    ∀ (L : List β) (s : σ) (e : Exn) (s' : σ), forEachRes body L s = .raise e s' → P e := by
  intro L
  induction L with
  | nil => intro s e s' h; cases h
  | cons x L ih =>
    intro s e s' h
    simp only [forEachRes] at h
    cases hx : body s x with
    | stuck => rw [hx] at h; cases h
    | raise e1 s1 =>
      rw [hx] at h
      cases h
      exact hb s x _ _ hx
    | ok u s1 =>
      rw [hx] at h
      exact ih s1 e s' h

/-- The only exception `Cell::InvalidateCache` lets through is the `InvalidPosition` of
`Sheet::GetCell`. -/
theorem InvalidateCache_raise : ∀ (fuel : Nat) (s : Sheet D) (self : Position) (e : Exn)
    (s' : Sheet D), InvalidateCache fuel s self = .raise e s' → e = .InvalidPosition := by
  intro fuel
  induction fuel with
  | zero => intro s self e s' h; cases h
  | succ fuel ih =>
    intro s self e s' h
    cases hslot : s.slot self with
    | none => simp only [InvalidateCache, hslot] at h; cases h
    | some cell =>
      simp only [InvalidateCache, hslot] at h
      by_cases hv : cell.value_cache_.isNone = true
      · rw [if_pos hv] at h; cases h
      · rw [if_neg hv] at h
        refine forEachRes_raise _ (fun e => e = .InvalidPosition) ?_ _ _ e s' h
        intro s1 x e1 s2 hx
        cases hg : s1.GetCellImpl x with
        | none =>
          simp only [hg] at hx
          cases hx
          rfl
        | some o =>
          cases o with
          | none => simp only [hg] at hx; cases hx
          | some c =>
            simp only [hg] at hx
            exact ih s1 x e1 s2 hx

theorem ReplaceOldCell_raise (fuel : Nat) (s : Sheet D) (pos : Position) (new_cell : Cell D)
    (e : Exn) (s' : Sheet D) (h : ReplaceOldCell fuel s pos new_cell = .raise e s') :
    e = .InvalidPosition := by
  unfold ReplaceOldCell at h
  cases hi : InvalidateCache fuel s pos with
  | stuck => rw [hi] at h; cases h
  | raise e1 s1 =>
    rw [hi] at h
    cases h
    exact InvalidateCache_raise fuel s pos _ _ hi
  | ok u s1 =>
    rw [hi] at h
    simp only at h
    cases h1 : s1.slot pos with
    | none => rw [h1] at h; cases h
    | some cell =>
      rw [h1] at h
      simp only at h
      cases h2 : (s1.setCell pos cell.GetReferencedCells.2).DeleteReferencesForCell pos
          cell.GetReferencedCells.1 with
      | none => rw [h2] at h; cases h
      | some s2 =>
        rw [h2] at h
        simp only at h
        cases h3 : s2.slot pos with
        | none => rw [h3] at h; cases h
        | some c3 => rw [h3] at h; cases h

theorem finishSetCell_raise (fuel : Nat) (s : Sheet D) (pos : Position) (hasOld : Bool)
    (new_cell : Cell D) (e : Exn) (s' : Sheet D)
    (h : finishSetCell fuel s pos hasOld new_cell = .raise e s') : e = .InvalidPosition := by
  unfold finishSetCell at h
  cases hasOld with
  | false => simp only [Bool.false_eq_true, if_false] at h; cases h
  | true =>
    simp only [if_true] at h
    cases hr : ReplaceOldCell fuel s pos new_cell with
    | stuck => rw [hr] at h; cases h
    | raise e1 s1 =>
      rw [hr] at h
      cases h
      exact ReplaceOldCell_raise fuel s pos new_cell _ _ hr
    | ok c s1 => rw [hr] at h; cases h

/-- A `SetCell` on a valid position that throws anything but `InvalidPosition` has thrown from
the constructor of the new cell, before any cell of the sheet is replaced: every slot holds
what it held, up to memoized expressions and reference lists. -/
theorem Sheet.SetCell_raise_slots (env : Env D) (fuel : Nat) (s : Sheet D) (pos : Position)
    (hpos : pos.IsValid = true) (text : Str) (e : Exn) (s' : Sheet D)
    (h : s.SetCell env fuel pos text = .raise e s') (he : e ≠ .InvalidPosition) :
    s.SameSlots s' := by
  rw [Sheet.SetCell_unfold env fuel s pos text hpos] at h
  by_cases hsame : s.sameText pos text = true
  · rw [if_pos hsame] at h; cases h
  · rw [if_neg hsame] at h
    cases hc : Cell.create env fuel (s.preState pos) pos text (s.hasIncoming pos) with
    | stuck => rw [hc] at h; cases h
    | raise e1 s1 =>
      rw [hc] at h
      cases h
      exact (Sheet.SameSlots.preState s pos hpos).slots_trans
        (Cell.create_raise env fuel _ pos text _ _ _ hc)
    | ok c s1 =>
      rw [hc] at h
      exact absurd (finishSetCell_raise fuel s1 pos _ c e s' h) he

/-- C2, amended: for every sheet, valid position and text, when `SetCell` throws
`CircularDependency` or `FormulaException`, every slot of the stored table, at a valid
position or not, holds the cell it held before up to the memoized serialized expression and
the memoized reference list of a formula: the texts, the incoming references and the cached
values are the same, and no cell has appeared or disappeared. On a well-formed sheet the
call moreover returns or throws, throws nothing else, and leaves the sheet well-formed. -/
theorem SetCell_raise_keeps_cells (env : Env D) (s : Sheet D) (pos : Position)
    (hpos : pos.IsValid = true) (text : Str) :
    (∀ fuel e s', s.SetCell env fuel pos text = .raise e s' →
        (e = .CircularDependency ∨ e = .FormulaException) →
        ∀ r c : Nat,
          (slotOf s'.table_ r c).map Cell.strip = (slotOf s.table_ r c).map Cell.strip) ∧
      (s.WF → ∃ N, ∀ fuel, N ≤ fuel →
        s.SetCell env fuel pos text ≠ .stuck ∧
        ∀ e s', s.SetCell env fuel pos text = .raise e s' →
          (e = .CircularDependency ∨ e = .FormulaException) ∧
            s'.stripped = s.stripped ∧ s'.WF) := by
  constructor
  · intro fuel e s' h he
    refine Sheet.SetCell_raise_slots env fuel s pos hpos text e s' h ?_
    rcases he with he | he <;> rw [he] <;> decide
  intro hwf
  obtain ⟨N, hN⟩ := Sheet.SetCell_spec env s hwf.fresh hwf.inv pos hpos text
  refine ⟨N, fun fuel hf => ?_⟩
  have hout := hN fuel hf
  have hw := hout.setCell_wf hwf
  refine ⟨hw.1, fun e s' hr => ?_⟩
  refine ⟨?_, ?_, hw.2.2 e s' hr⟩
  · by_cases hs : s.HoldsText pos text
    · obtain ⟨s1, h1, _⟩ := hout.same hs
      rw [h1] at hr; cases hr
    · cases hc : env.content text with
      | none =>
        obtain ⟨s1, h1, _⟩ := hout.parse hs hc
        rw [h1] at hr; cases hr
        exact Or.inr rfl
      | some content =>
        by_cases hcyc : s.graph.Cyclic pos content.refs
        · obtain ⟨s1, h1, _⟩ := hout.cyclic hs content hc hcyc
          rw [h1] at hr; cases hr
          exact Or.inl rfl
        · obtain ⟨sI, s2, h1, _⟩ := hout.done hs content hc hcyc
          rw [h1] at hr; cases hr
  · by_cases hs : s.HoldsText pos text
    · obtain ⟨s1, h1, _⟩ := hout.same hs
      rw [h1] at hr; cases hr
    · cases hc : env.content text with
      | none =>
        obtain ⟨s1, h1, hsim⟩ := hout.parse hs hc
        rw [h1] at hr; cases hr
        exact hsim.1
      | some content =>
        by_cases hcyc : s.graph.Cyclic pos content.refs
        · obtain ⟨s1, h1, hsim⟩ := hout.cyclic hs content hc hcyc
          rw [h1] at hr; cases hr
          exact hsim.1
        · obtain ⟨sI, s2, h1, _⟩ := hout.done hs content hc hcyc
          rw [h1] at hr; cases hr

theorem SetCell_raise_keeps_cells_witness :
    (⟨0, 0⟩ : Position).IsValid = true ∧
      (∀ r c : Nat, (slotOf sheetA1Memo.table_ r c).map Cell.strip
        = (slotOf sheetA1.table_ r c).map Cell.strip) ∧
      ∃ N, ∀ fuel, N ≤ fuel →
        sheetA1.SetCell exampleEnv fuel ⟨0, 0⟩ "=A1".toList ≠ .stuck ∧
        ∀ e s', sheetA1.SetCell exampleEnv fuel ⟨0, 0⟩ "=A1".toList = .raise e s' →
          (e = .CircularDependency ∨ e = .FormulaException) ∧
            s'.stripped = sheetA1.stripped ∧ s'.WF :=
  ⟨by decide,
    (SetCell_raise_keeps_cells exampleEnv sheetA1 ⟨0, 0⟩ (by decide) "=A1".toList).1 4 _ _
      sheetA1_setCell_A1 (Or.inl rfl),
    (SetCell_raise_keeps_cells exampleEnv sheetA1 ⟨0, 0⟩ (by decide) "=A1".toList).2
      sheetA1_reachable.reachable_wf⟩

/-- C15: for every binary node whose children evaluate to the numbers `a` and `b`, `Evaluate`
returns `a + b` for an addition, `a - b` for a subtraction, `a * b` for a multiplication and
`a / b` for a division when that result is finite, and the `Div0` error otherwise. With a
`double` arithmetic in which no quotient by a zero (of either sign) is finite, dividing any
number by a zero yields `Div0`, and a cell set to `=1/0` has `GetValue` equal to the `Div0`
error: both calls return. -/
theorem Binary_finite_or_Div0 (ops : DoubleOps D)
    (getValue : Sheet D → Position → Res (Sheet D) (CValue D))
    (left right : Node D) (s0 s1 s2 : Sheet D) (a b : D)
    (hl : left.Evaluate ops getValue s0 = .ok (.number a) s1)
    (hr : right.Evaluate ops getValue s1 = .ok (.number b) s2)
    (isZero : D → Prop) (hdiv : ∀ x z, isZero z → ops.isfinite (ops.div x z) = false)
    (one zero : D) (n1 n0 : Nat)
    (h1 : ops.stod "1".toList = some (one, n1)) (hf1 : ops.isfinite one = true)
    (h0 : ops.stod "0".toList = some (zero, n0)) (hf0 : ops.isfinite zero = true)
    (hz : isZero zero)
    (s : Sheet D) (hs : ReachableWithValues ⟨ops, ParseFormula ops⟩ s)
    (pos : Position) (hpos : pos.IsValid = true) (hnew : ¬ s.HoldsText pos "=1/0".toList) :
    (Node.BinaryOp .Addition left right).Evaluate ops getValue s0
        = .ok (if ops.isfinite (ops.add a b) then .number (ops.add a b) else .error .Div0) s2 ∧
      (Node.BinaryOp .Subtraction left right).Evaluate ops getValue s0
        = .ok (if ops.isfinite (ops.sub a b) then .number (ops.sub a b) else .error .Div0) s2 ∧
      (Node.BinaryOp .Multiplication left right).Evaluate ops getValue s0
        = .ok (if ops.isfinite (ops.mul a b) then .number (ops.mul a b) else .error .Div0) s2 ∧
      (Node.BinaryOp .Division left right).Evaluate ops getValue s0
        = .ok (if ops.isfinite (ops.div a b) then .number (ops.div a b) else .error .Div0) s2 ∧
      (isZero b →
        (Node.BinaryOp .Division left right).Evaluate ops getValue s0
          = .ok (.error .Div0) s2) ∧
      ∃ N, ∀ fuel, N ≤ fuel → ∃ s' s'',
        s.SetCell ⟨ops, ParseFormula ops⟩ fuel pos "=1/0".toList = .ok () s' ∧
        s'.GetValue ops fuel pos = .ok (.error .Div0) s'' := by
  have hE : ∀ k' : BinaryKind, (Node.BinaryOp k' left right).Evaluate ops getValue s0
      = .ok (if ops.isfinite (k'.func ops a b) then .number (k'.func ops a b)
          else .error .Div0) s2 := by
    intro k'
    rw [Node.Evaluate, hl]
    simp only [hr]
    rfl
  refine ⟨hE .Addition, hE .Subtraction, hE .Multiplication, hE .Division, ?_, ?_⟩
  · intro hb
    rw [hE, if_neg (by simp [BinaryKind.func, hdiv a b hb])]
  · exact SetCell_constant_value ⟨ops, ParseFormula ops⟩ s hs pos hpos "=1/0".toList _
      (by decide) (ParseFormula_one_over_zero ops one zero n1 n0 h1 hf1 h0 hf0) rfl hnew
      (.error .Div0) (by
        intro stored value
        simp [Node.scratch, BinaryOpEvaluater, BinaryKind.func, hdiv one zero hz])

theorem Binary_finite_or_Div0_witness :
    (Node.BinaryOp .Addition (Node.Number (some 1) "1".toList)
        (Node.Number (some 0) "0".toList)).Evaluate exampleOps (GetValueAt exampleOps 0)
        Sheet.empty = .ok (.number (some 1)) Sheet.empty ∧
      (Node.BinaryOp .Division (Node.Number (some 1) "1".toList)
        (Node.Number (some 0) "0".toList)).Evaluate exampleOps (GetValueAt exampleOps 0)
        Sheet.empty = .ok (.error .Div0) Sheet.empty ∧
      ∃ N, ∀ fuel, N ≤ fuel → ∃ s' s'',
        Sheet.empty.SetCell ⟨exampleOps, ParseFormula exampleOps⟩ fuel ⟨0, 0⟩ "=1/0".toList
          = .ok () s' ∧
        s'.GetValue exampleOps fuel ⟨0, 0⟩ = .ok (.error .Div0) s'' :=
  have h := Binary_finite_or_Div0 exampleOps (GetValueAt exampleOps 0)
    (Node.Number (some 1) "1".toList) (Node.Number (some 0) "0".toList)
    Sheet.empty Sheet.empty Sheet.empty (some 1) (some 0) (by decide) (by decide)
    (fun z => z = some 0) (fun x z hz => by rw [hz]; exact exampleOps_div_zero x)
    (some 1) (some 0) 1 1 (by decide) (by decide) (by decide) (by decide) rfl
    Sheet.empty ReachableWithValues.empty ⟨0, 0⟩ (by decide)
    (by rintro ⟨old, h, _⟩; simp [Sheet.cells, Sheet.slot, Sheet.empty] at h)
  ⟨h.1, h.2.2.2.2.1 rfl, h.2.2.2.2.2⟩

end Black
